import Mathlib

/-!
Mindsweeper: the game-state mutator and the arrangement search.

A shallow embedding of `mindsweeper.h`, `mindsweeper.c` and `solver.c`.

* C `int` values are `Int`.  The values that can leave the range of a 32-bit `int` on a
  board the program accepts wrap around as two's-complement arithmetic does (`wrap_int`):
  the counters `arrangements`, `flag_placements` and `sum_flags` of the search, which grow
  like `2^n` with the `n` sites of a cluster, and the product in the placement test of
  `pre_game`.  The other values (coordinates, `flags`, `unmarked`, `flags_used`, the cells
  counted by `clear_square`) are bounded by the number of cells of the board.
* One-bit fields are `Bool`; the four-bit field `minesaround` is a `Nat`.
* `mf->field[col][row]` is a function of the two coordinates.  The sentinel border
  (columns `0` and `cols+1`, rows `0` and `rows+1`) is part of the board.
* Calls into the user interface (`update_square`, `ui_update_*`) only draw; they are left out,
  except `ui_update_square_probability`: the solver enters its calls, and the calls of
  `computer_move`, in a log.
* A `float` is the rational number it stands for, without rounding; a division by zero gives
  an infinity or a NaN as in IEEE 754.
* `for_each_neighbour(mf,i,j,f,op)` is expanded in the textual order of the macro, and the
  operands of `+` are evaluated left to right.
* `RAND_MAX` and the values that `rand()` returns after `srand(game_number)` belong to the
  C library; `pre_game` takes them as parameters.
-/

namespace Mindsweeper

/-! ## mindsweeper.h -/

/-- The bit-field record `struct mf_cell_t`. -/
structure mf_cell_t where
  minesaround : Nat
  is_mine : Bool
  is_flagged : Bool
  is_cleared : Bool
  is_pressed : Bool
  is_unavailable : Bool
deriving DecidableEq

/-- The initialiser `MF_CELL_INITIALIZER`. -/
def MF_CELL_INITIALIZER : mf_cell_t :=
  { minesaround := 0, is_mine := false, is_flagged := false, is_cleared := false,
    is_pressed := false, is_unavailable := false }

/-- The record `struct minefield_t` (the lock is not data and is left out). -/
structure minefield_t where
  number : Int
  rows : Int
  cols : Int
  mines : Int
  field : Int → Int → mf_cell_t
  flags : Int
  unmarked : Int
  needed : Int

/-- The enumeration `enum status_t` of `solver.h`. -/
inductive status_t where
  | stopped
  | searching
  | guess
  | noguess
  | gameover
deriving DecidableEq

/-- The record `struct state`. -/
structure state where
  won : Bool
  lost : Bool
  clock_started : Bool
  focus : Bool
  search_status : status_t
  time : Int
deriving DecidableEq

/-- The record `struct stats`. -/
structure stats where
  total_games : Int
  played : Int
  won : Int
  lost : Int
  guessed : Int
deriving DecidableEq

/-- The enumeration `enum action_t`. -/
inductive action_t where
  | release
  | press
deriving DecidableEq

/-- The accessor `minefield_cell(mf, col, row)`. -/
def minefield_cell (mf : minefield_t) (col row : Int) : mf_cell_t :=
  mf.field col row

/-- Assignment through the pointer returned by `minefield_cell`: the cell at `(col, row)`
is replaced, every other cell is kept. -/
def store_cell (mf : minefield_t) (col row : Int) (c : mf_cell_t) : minefield_t :=
  { mf with field := fun i j => if i = col ∧ j = row then c else mf.field i j }

/-- The macro `IS_MINE`. -/
def IS_MINE (mf : minefield_t) (col row : Int) : Bool :=
  (minefield_cell mf col row).is_mine

/-- The macro `IS_CLEARED`. -/
def IS_CLEARED (mf : minefield_t) (col row : Int) : Bool :=
  (minefield_cell mf col row).is_cleared

/-- The macro `IS_AVAILABLE`. -/
def IS_AVAILABLE (mf : minefield_t) (col row : Int) : Bool :=
  !((minefield_cell mf col row).is_cleared || (minefield_cell mf col row).is_unavailable)

/-- The macro `IS_UNMARKED`. -/
def IS_UNMARKED (mf : minefield_t) (col row : Int) : Bool :=
  !((minefield_cell mf col row).is_flagged || (minefield_cell mf col row).is_cleared)

/-- The macro `IS_FLAGGED`. -/
def IS_FLAGGED (mf : minefield_t) (col row : Int) : Bool :=
  (minefield_cell mf col row).is_flagged

/-- A C truth value used as an `int`. -/
def b2i (b : Bool) : Int := if b then 1 else 0

/-- The value a 32-bit `int` is left with by an addition or a multiplication whose exact
result is `x`: the number of `[-2^31, 2^31)` that differs from `x` by a multiple of `2^32`. -/
def wrap_int (x : Int) : Int :=
  (x + 2147483648) % 4294967296 - 2147483648

/-- The macro `for_each_neighbour(mf,i,j,f,+)` for a function `f` without side effects. -/
def for_each_neighbour_sum (f : Int → Int → Int) (i j : Int) : Int :=
  f (i-1) (j-1) + f (i-1) j + f (i-1) (j+1) + f i (j-1) + f i (j+1)
    + f (i+1) (j-1) + f (i+1) j + f (i+1) (j+1)

/-- The macro `for_each_neighbour(mf,i,j,f,||)`. -/
def for_each_neighbour_or (f : Int → Int → Bool) (i j : Int) : Bool :=
  f (i-1) (j-1) || f (i-1) j || f (i-1) (j+1) || f i (j-1) || f i (j+1)
    || f (i+1) (j-1) || f (i+1) j || f (i+1) (j+1)

/-- The macro `for_each_neighbour(mf,i,j,f,&&)`. -/
def for_each_neighbour_and (f : Int → Int → Bool) (i j : Int) : Bool :=
  f (i-1) (j-1) && f (i-1) j && f (i-1) (j+1) && f i (j-1) && f i (j+1)
    && f (i+1) (j-1) && f (i+1) j && f (i+1) (j+1)

/-- The macro `for_each_neighbour(mf,i,j,f,;)` for a procedure `f` that updates the board. -/
def for_each_neighbour_do (f : minefield_t → Int → Int → minefield_t)
    (mf : minefield_t) (i j : Int) : minefield_t :=
  f (f (f (f (f (f (f (f mf (i-1) (j-1)) (i-1) j) (i-1) (j+1)) i (j-1)) i (j+1))
    (i+1) (j-1)) (i+1) j) (i+1) (j+1)

/-- The macro `for_each_neighbour(mf,i,j,f,+)` for a function `f` that updates the board and
returns a count; `none` is passed on. -/
def for_each_neighbour_acc (f : minefield_t → Int → Int → Option (minefield_t × Int))
    (mf : minefield_t) (i j : Int) : Option (minefield_t × Int) :=
  (f mf (i-1) (j-1)).bind fun r1 =>
  (f r1.1 (i-1) j).bind fun r2 =>
  (f r2.1 (i-1) (j+1)).bind fun r3 =>
  (f r3.1 i (j-1)).bind fun r4 =>
  (f r4.1 i (j+1)).bind fun r5 =>
  (f r5.1 (i+1) (j-1)).bind fun r6 =>
  (f r6.1 (i+1) j).bind fun r7 =>
  (f r7.1 (i+1) (j+1)).bind fun r8 =>
  some (r8.1, r1.2 + r2.2 + r3.2 + r4.2 + r5.2 + r6.2 + r7.2 + r8.2)

/-- The function `FLAGSAROUND`.  The source reads the global `minefield` here whatever `mf` is;
every caller passes the address of that global, so the two are one board. -/
def FLAGSAROUND (mf : minefield_t) (i j : Int) : Int :=
  for_each_neighbour_sum (fun c r => b2i (IS_FLAGGED mf c r)) i j

/-! ## mindsweeper.c -/

/-- The function `press_square`. -/
def press_square (mf : minefield_t) (col row : Int) : minefield_t :=
  if IS_AVAILABLE mf col row then
    store_cell mf col row { minefield_cell mf col row with is_pressed := true }
  else mf

/-- The function `unpress_square`. -/
def unpress_square (mf : minefield_t) (col row : Int) : minefield_t :=
  if IS_AVAILABLE mf col row then
    store_cell mf col row { minefield_cell mf col row with is_pressed := false }
  else mf

/-- The function `clear_square`, with the depth of the recursion bounded by `fuel`;
`none` means the bound was reached. -/
def clear_square_fuel : Nat → minefield_t → Int → Int → Option (minefield_t × Int)
  | 0, _, _, _ => none
  | fuel + 1, mf, col, row =>
    if !IS_AVAILABLE mf col row || (minefield_cell mf col row).is_flagged then
      some (mf, 0)
    else
      let mf1 : minefield_t := { mf with unmarked := mf.unmarked - 1 }
      let mf2 := store_cell mf1 col row { minefield_cell mf1 col row with is_cleared := true }
      if (minefield_cell mf2 col row).is_mine then
        some (mf2, -mf2.rows * mf2.cols)
      else if (minefield_cell mf2 col row).minesaround = 0 then
        (for_each_neighbour_acc (clear_square_fuel fuel) mf2 col row).map
          fun r => (r.1, 1 + r.2)
      else
        some (mf2, 1)

/-- The number of cells of the allocated array, sentinels included. -/
def array_cells (mf : minefield_t) : Nat :=
  ((mf.rows + 2) * (mf.cols + 2)).toNat

/-- The function `clear_square`.  Each level of the recursion clears one more cell, so the
depth never exceeds the number of cells of the array. -/
def clear_square (mf : minefield_t) (col row : Int) : Option (minefield_t × Int) :=
  clear_square_fuel (array_cells mf + 1) mf col row

/-- The function `clear_around`. -/
def clear_around (mf : minefield_t) (col row : Int) : Option (minefield_t × Int) :=
  if FLAGSAROUND mf col row ≠ ((minefield_cell mf col row).minesaround : Int) then
    some (mf, 0)
  else
    for_each_neighbour_acc clear_square mf col row

/-- The function `toggle_flag`. -/
def toggle_flag (mf : minefield_t) (col row : Int) : minefield_t :=
  let flagged := !(minefield_cell mf col row).is_flagged
  let mf1 := store_cell mf col row { minefield_cell mf col row with is_flagged := flagged }
  if flagged then
    { mf1 with flags := mf1.flags + 1, unmarked := mf1.unmarked - 1 }
  else
    { mf1 with flags := mf1.flags - 1, unmarked := mf1.unmarked + 1 }

/-- The globals `minefield`, `state` and `stats` together with the static locals of
`make_move`. -/
structure game_t where
  minefield : minefield_t
  state : state
  stats : stats
  buttons_down : Int
  last_col : Int
  last_row : Int
  made_move : Int

/-- The tail of the `release` case of `make_move`, from `if(!made_move) break;` on. -/
def make_move_finish (g : game_t) : game_t :=
  if g.made_move = 0 then g
  else
    let g1 : game_t :=
      if g.minefield.unmarked = 0 ∧ g.minefield.flags = g.minefield.mines then
        { g with state := { g.state with won := true } }
      else g
    if g1.state.won || g1.state.lost then
      { g1 with
        state := { g1.state with clock_started := false }
        stats := { g1.stats with won := g1.stats.won + b2i g1.state.won,
                                 lost := g1.stats.lost + b2i g1.state.lost } }
    else g1

/-- The value `(buttons_down == 0) && made_move` returned by `make_move`. -/
def make_move_result (g : game_t) : Bool :=
  g.buttons_down == 0 && g.made_move != 0

/-- The case `press` of `make_move`, after the test of `state.lost || state.won`. -/
def make_move_press (g : game_t) (col row button : Int) : game_t :=
  let g1 : game_t := { g with buttons_down := g.buttons_down + 1 }
  if g1.buttons_down = 1 then
    let g2 : game_t := { g1 with last_col := col, last_row := row, made_move := 0 }
    if !(minefield_cell g2.minefield col row).is_cleared && button == 1 then
      { g2 with minefield := press_square g2.minefield col row }
    else g2
  else if g1.buttons_down = 2 then
    if col ≠ g1.last_col ∨ row ≠ g1.last_row then g1
    else { g1 with minefield := for_each_neighbour_do press_square g1.minefield col row }
  else g1

/-- The case `1` of `switch(buttons_down--)` in the case `release` of `make_move`;
`g` has `buttons_down` already decremented. -/
def make_move_release_one (g : game_t) (col row button : Int) : Option game_t :=
  let g2 : game_t := { g with minefield := unpress_square g.minefield g.last_col g.last_row }
  if (minefield_cell g2.minefield g2.last_col g2.last_row).is_cleared
      ∨ col ≠ g2.last_col ∨ row ≠ g2.last_row then
    some g2
  else
    let moved : Option game_t :=
      if button = 1 then
        (clear_square g2.minefield col row).map fun r =>
          if r.2 < 0 then
            { g2 with minefield := r.1, state := { g2.state with lost := true } }
          else { g2 with minefield := r.1 }
      else
        some { g2 with minefield := toggle_flag g2.minefield col row }
    moved.map fun g3 =>
      { g3 with made_move := 1, state := { g3.state with clock_started := true } }

/-- The case `2` of `switch(buttons_down--)` in the case `release` of `make_move`;
`g` has `buttons_down` already decremented. -/
def make_move_release_two (g : game_t) (col row : Int) : Option game_t :=
  let g2 : game_t :=
    { g with minefield :=
        for_each_neighbour_do unpress_square g.minefield g.last_col g.last_row }
  if col ≠ g2.last_col ∨ row ≠ g2.last_row then
    some g2
  else
    (clear_around g2.minefield col row).map fun r =>
      let g3 : game_t := { g2 with minefield := r.1, made_move := r.2 }
      if g3.made_move < 0 then { g3 with state := { g3.state with lost := true } }
      else g3

/-- The case `release` of `make_move`, after the test of `state.lost || state.won`. -/
def make_move_release (g : game_t) (col row button : Int) : Option game_t :=
  let g1 : game_t := { g with buttons_down := g.buttons_down - 1 }
  let switched : Option game_t :=
    if g.buttons_down = 1 then make_move_release_one g1 col row button
    else if g.buttons_down = 2 then make_move_release_two g1 col row
    else some { g1 with buttons_down := 0 }
  switched.map make_move_finish

/-- The function `make_move`. -/
def make_move (g : game_t) (col row button : Int) (action : action_t) :
    Option (game_t × Bool) :=
  if g.state.lost || g.state.won then
    some ({ g with buttons_down := 0 }, false)
  else
    match action with
    | action_t.press =>
      let g2 := make_move_press g col row button
      some (g2, make_move_result g2)
    | action_t.release =>
      (make_move_release g col row button).map fun g5 => (g5, make_move_result g5)

/-! ## solver.c -/

/-- The constant `INT_MAX` of a 32-bit `int`. -/
def INT_MAX : Int := 2147483647

/-- The record `struct possible_mine_t`. -/
structure possible_mine_t where
  col : Int
  row : Int
  flag_placements : Int
deriving DecidableEq

/-- The record `struct mine_list_t`.  The array `cell` with its `length` is a list; the
links `prev` and `next` are the position in the chain. -/
structure mine_list_t where
  arrangements : Int
  min_flags : Int
  max_flags : Int
  sum_flags : Int
  cell : List possible_mine_t
deriving DecidableEq

/-- The field `length` of `struct mine_list_t`. -/
def mine_list_t.length (list : mine_list_t) : Int := list.cell.length

/-- The record `struct mine_lists_t`; `first` is the chain `first, first->next, ...`. -/
structure mine_lists_t where
  min_flags : Int
  max_flags : Int
  length : Int
  first : List mine_list_t
deriving DecidableEq

/-- The initialiser `MINE_LISTS_INITIALIZER`. -/
def MINE_LISTS_INITIALIZER : mine_lists_t :=
  { min_flags := 0, max_flags := 0, length := 0, first := [] }

/-- The function `AVAILAROUND`. -/
def AVAILAROUND (mf : minefield_t) (col row : Int) : Int :=
  for_each_neighbour_sum (fun c r => b2i (IS_AVAILABLE mf c r)) col row

/-- The function `is_cleared_neighbour_of`. -/
def is_cleared_neighbour_of (mf : minefield_t) (c1 r1 c2 r2 : Int) : Bool :=
  (minefield_cell mf c1 r1).is_cleared && decide ((c1 - c2).natAbs < 2)
    && decide ((r1 - r2).natAbs < 2)

/-- The function `are_dependant`. -/
def are_dependant (mf : minefield_t) (c1 r1 c2 r2 : Int) : Bool :=
  decide ((c1 - c2).natAbs ≤ 2) && decide ((r1 - r2).natAbs ≤ 2) &&
    (is_cleared_neighbour_of mf (c1-1) (r1-1) c2 r2 ||
     is_cleared_neighbour_of mf c1 (r1-1) c2 r2 ||
     is_cleared_neighbour_of mf (c1+1) (r1-1) c2 r2 ||
     is_cleared_neighbour_of mf (c1+1) r1 c2 r2 ||
     is_cleared_neighbour_of mf (c1+1) (r1+1) c2 r2 ||
     is_cleared_neighbour_of mf c1 (r1+1) c2 r2 ||
     is_cleared_neighbour_of mf (c1-1) (r1+1) c2 r2 ||
     is_cleared_neighbour_of mf (c1-1) r1 c2 r2)

/-- The function `join_mine_lists`: the cells of `list_b` are appended to `list_a`, whose
other fields are kept.  Taking `list_b` out of the chain is done where the chain is walked. -/
def join_mine_lists (list_a list_b : mine_list_t) : mine_list_t :=
  { list_a with cell := list_a.cell ++ list_b.cell }

/-- The loop of `add_possible_mine` over the lists that were in the chain before: a list with
a cell dependent on `(col, row)` is joined to the new first list `first`, the others stay in
the chain in their order. -/
def add_possible_mine_scan (mf : minefield_t) (col row : Int) :
    mine_list_t → List mine_list_t → mine_list_t × List mine_list_t
  | first, [] => (first, [])
  | first, list :: next =>
    if list.cell.any (fun cell => are_dependant mf col row cell.col cell.row) then
      add_possible_mine_scan mf col row (join_mine_lists first list) next
    else
      let r := add_possible_mine_scan mf col row first next
      (r.1, list :: r.2)

/-- The function `add_possible_mine`. -/
def add_possible_mine (mf : minefield_t) (col row : Int) (mine_lists : mine_lists_t) :
    mine_lists_t :=
  let list : mine_list_t :=
    { arrangements := 0, min_flags := INT_MAX, max_flags := 0, sum_flags := 0,
      cell := [{ col := col, row := row, flag_placements := 0 }] }
  let r := add_possible_mine_scan mf col row list mine_lists.first
  { mine_lists with length := mine_lists.length + 1, first := r.1 :: r.2 }

/-- The integers `1, ..., n`, the values of a loop `for(k = 1; k <= n; k++)`. -/
def loop_range (n : Int) : List Int :=
  (List.range n.toNat).map fun (k : Nat) => (k : Int) + 1

/-- The cells visited by `for(col = 1; col <= cols; col++) for(row = 1; row <= rows; row++)`,
in the order of the visit. -/
def playable_cells (mf : minefield_t) : List (Int × Int) :=
  (loop_range mf.cols).flatMap fun col => (loop_range mf.rows).map fun row => (col, row)

/-- The test of `find_possible_mines`: the cell is unmarked and has a cleared neighbour. -/
def is_border_site (mf : minefield_t) (col row : Int) : Bool :=
  IS_UNMARKED mf col row && for_each_neighbour_or (IS_CLEARED mf) col row

/-- The function `find_possible_mines`; the truth value it returns is `first != NULL`. -/
def find_possible_mines (mf : minefield_t) (mine_lists : mine_lists_t) : mine_lists_t :=
  (playable_cells mf).foldl
    (fun ml p => if is_border_site mf p.1 p.2 then add_possible_mine mf p.1 p.2 ml else ml)
    mine_lists

/-- The function `unmarked_neighbours_must_be_cleared`. -/
def unmarked_neighbours_must_be_cleared (mf : minefield_t) (col row : Int) : Bool :=
  (minefield_cell mf col row).is_cleared &&
    decide (FLAGSAROUND mf col row = ((minefield_cell mf col row).minesaround : Int))

/-- The function `unmarked_neighbours_must_be_flagged`. -/
def unmarked_neighbours_must_be_flagged (mf : minefield_t) (col row : Int) : Bool :=
  (minefield_cell mf col row).is_cleared &&
    decide (AVAILAROUND mf col row = ((minefield_cell mf col row).minesaround : Int))

/-- The test in the loop of `optimize_list`. -/
def optimize_test (mf : minefield_t) (head : possible_mine_t) : Bool :=
  for_each_neighbour_or (unmarked_neighbours_must_be_cleared mf) head.col head.row ||
    for_each_neighbour_or (unmarked_neighbours_must_be_flagged mf) head.col head.row

/-- One turn of the loop of `optimize_list` with `head` at index `i` and `tail` at index
`st.2.1`: the cell under `head` is saved, the cells from `tail` up to `head` move one place
up (`memmove`) and the saved cell is written at `tail`. -/
def optimize_step (mf : minefield_t) (st : List possible_mine_t × Nat × Bool) (i : Nat) :
    List possible_mine_t × Nat × Bool :=
  match st.1.get? i with
  | none => st
  | some temp =>
    if optimize_test mf temp then
      (st.1.take st.2.1 ++ temp :: ((st.1.drop st.2.1).take (i - st.2.1) ++ st.1.drop (i + 1)),
        st.2.1 + 1, true)
    else st

/-- The function `optimize_list`: the reordered list and the value returned. -/
def optimize_list (mf : minefield_t) (list : mine_list_t) : mine_list_t × Bool :=
  let st := (List.range list.cell.length).foldl (optimize_step mf) (list.cell, 0, false)
  ({ list with cell := st.1 }, st.2.2)

/-- The function `not_enough_flagged`. -/
def not_enough_flagged (mf : minefield_t) (col row : Int) : Bool :=
  !(minefield_cell mf col row).is_cleared ||
    decide (FLAGSAROUND mf col row < ((minefield_cell mf col row).minesaround : Int))

/-- The function `not_enough_cleared`. -/
def not_enough_cleared (mf : minefield_t) (col row : Int) : Bool :=
  !(minefield_cell mf col row).is_cleared ||
    decide (AVAILAROUND mf col row > ((minefield_cell mf col row).minesaround : Int))

/-- What a call of `_analyze_list` leaves behind: the value returned, the board and the list
(statistics and the `flag_placements` of its cells). -/
structure search_t where
  result : Int
  mf : minefield_t
  list : mine_list_t

/-- The cell with `result` added to its `flag_placements`, an `int`. -/
def bump_placements (result : Int) (c : possible_mine_t) : possible_mine_t :=
  { c with flag_placements := wrap_int (c.flag_placements + result) }

/-- The statement `cell->flag_placements += result` for the cell at index `idx`. -/
def add_flag_placements (list : mine_list_t) (idx : Nat) (result : Int) : mine_list_t :=
  { list with cell := List.modify (bump_placements result) idx list.cell }

/-- The guard of the first branch of `_analyze_list`. -/
def can_flag (mf : minefield_t) (cell : possible_mine_t) (flags_used : Int) : Bool :=
  decide (mf.flags + flags_used + 1 ≤ mf.mines) &&
    for_each_neighbour_and (not_enough_flagged mf) cell.col cell.row

/-- The guard of the second branch of `_analyze_list`. -/
def can_clear (mf : minefield_t) (cell : possible_mine_t) : Bool :=
  for_each_neighbour_and (not_enough_cleared mf) cell.col cell.row

/-- The assignment `minefield_cell(mf, col, row)->is_flagged = v`. -/
def set_flagged (mf : minefield_t) (col row : Int) (v : Bool) : minefield_t :=
  store_cell mf col row { minefield_cell mf col row with is_flagged := v }

/-- The assignment `minefield_cell(mf, col, row)->is_unavailable = v`. -/
def set_unavailable (mf : minefield_t) (col row : Int) (v : Bool) : minefield_t :=
  store_cell mf col row { minefield_cell mf col row with is_unavailable := v }

/-- The function `_analyze_list`.  The pointer `cell` is the index `idx = cell - list->cell`
together with the cells from that index on (first argument), whose coordinates the search
never changes; `flag_placements` is updated in the array of `list`.  The additions to
`sum_flags`, `flag_placements` and `arrangements` are those of an `int` (`wrap_int`); the
first `arrangements += result` adds to 0. -/
def _analyze_list : List possible_mine_t → minefield_t → mine_list_t → Nat → Int → search_t
  | [], mf, list, _, flags_used =>
    if mf.needed ≠ 0 then
      { result := -1, mf := mf, list := list }
    else if mf.mines - mf.flags - flags_used > mf.unmarked - list.length then
      { result := 0, mf := mf, list := list }
    else
      let list1 : mine_list_t :=
        if flags_used < list.min_flags then { list with min_flags := flags_used } else list
      let list2 : mine_list_t :=
        if flags_used > list1.max_flags then { list1 with max_flags := flags_used } else list1
      { result := 1, mf := mf,
        list := { list2 with sum_flags := wrap_int (list2.sum_flags + flags_used) } }
  | cell :: next, mf, list, idx, flags_used =>
    let a : search_t :=
      if can_flag mf cell flags_used then
        let r := _analyze_list next (set_flagged mf cell.col cell.row true) list (idx + 1)
          (flags_used + 1)
        let mf1 := set_flagged r.mf cell.col cell.row false
        if r.result < 0 then
          { result := r.result, mf := mf1, list := r.list }
        else
          { result := r.result, mf := mf1, list := add_flag_placements r.list idx r.result }
      else
        { result := 0, mf := mf, list := list }
    if a.result < 0 then a
    else if can_clear a.mf cell then
      let r := _analyze_list next (set_unavailable a.mf cell.col cell.row true) a.list (idx + 1)
        flags_used
      let mf1 := set_unavailable r.mf cell.col cell.row false
      if r.result < 0 then
        { result := r.result, mf := mf1, list := r.list }
      else
        { result := wrap_int (a.result + r.result), mf := mf1, list := r.list }
    else a

/-- The function `analyze_list`. -/
def analyze_list (mf : minefield_t) (list : mine_list_t) : search_t :=
  _analyze_list list.cell mf list 0 0

/-- What the first loop of `analyze_possible_mines` leaves behind: `result` is negative when
the loop made the function return, and 0 when it ran to the end of the chain. -/
structure pass_t where
  result : Int
  mf : minefield_t
  chain : List mine_list_t
  min_flags : Int
  max_flags : Int

/-- The body of the first loop of `analyze_possible_mines` for one list: `optimize_list`,
`analyze_list` and the assignment to `list->arrangements`. -/
def search_list (mf : minefield_t) (list : mine_list_t) : search_t :=
  let r := analyze_list mf (optimize_list mf list).1
  { r with list := { r.list with arrangements := r.result } }

/-- The first loop of `analyze_possible_mines`, from a place in the chain on; `min_flags` and
`max_flags` are the fields of `mine_lists`. -/
def analyze_each : minefield_t → Int → Int → List mine_list_t → pass_t
  | mf, min_flags, max_flags, [] =>
    { result := 0, mf := mf, chain := [], min_flags := min_flags, max_flags := max_flags }
  | mf, min_flags, max_flags, list :: next =>
    let r := search_list mf list
    if r.list.arrangements < 0 then
      { result := r.list.arrangements, mf := r.mf, chain := r.list :: next,
        min_flags := min_flags, max_flags := max_flags }
    else
      let rest := analyze_each r.mf (min_flags + r.list.min_flags)
        (max_flags + r.list.max_flags) next
      { rest with chain := r.list :: rest.chain }

/-- The loop `for(retry_list = first; retry_list->min_flags == retry_list->max_flags; ...)`:
the lists passed over, the list found, the lists after it and the two sums; `none` when the
loop runs off the end of the chain, where the program dereferences a null pointer. -/
def find_retry_list : List mine_list_t → Int → Int →
    Option (List mine_list_t × mine_list_t × List mine_list_t × Int × Int)
  | [], _, _ => none
  | list :: next, min_flags, max_flags =>
    if list.min_flags = list.max_flags then
      (find_retry_list next (min_flags + list.min_flags) (max_flags + list.max_flags)).map
        fun r => (list :: r.1, r.2)
    else some ([], list, next, min_flags, max_flags)

/-- The loop over the lists after `retry_list`: a list with `min_flags != max_flags` is joined
to `retry_list`, the others stay in the chain and are added to the two sums. -/
def merge_retry_lists : mine_list_t → List mine_list_t → Int → Int →
    mine_list_t × List mine_list_t × Int × Int
  | retry_list, [], min_flags, max_flags => (retry_list, [], min_flags, max_flags)
  | retry_list, list :: next, min_flags, max_flags =>
    if list.min_flags ≠ list.max_flags then
      merge_retry_lists (join_mine_lists retry_list list) next min_flags max_flags
    else
      let r := merge_retry_lists retry_list next (min_flags + list.min_flags)
        (max_flags + list.max_flags)
      (r.1, list :: r.2.1, r.2.2)

/-- The reset of `retry_list` before the second search. -/
def reset_list (list : mine_list_t) : mine_list_t :=
  { list with min_flags := INT_MAX, max_flags := 0, sum_flags := 0,
              cell := list.cell.map fun c => { c with flag_placements := 0 } }

/-- What `analyze_possible_mines` leaves behind. -/
structure analysis_t where
  result : Int
  mf : minefield_t
  mine_lists : mine_lists_t

/-- The function `analyze_possible_mines`; `none` when no list has
`min_flags != max_flags` at the start of the merge (see `find_retry_list`). -/
def analyze_possible_mines (mf : minefield_t) (mine_lists : mine_lists_t) :
    Option analysis_t :=
  let p := analyze_each mf mine_lists.min_flags mine_lists.max_flags mine_lists.first
  if p.result < 0 then
    some { result := p.result, mf := p.mf,
           mine_lists := { mine_lists with first := p.chain, min_flags := p.min_flags,
                                           max_flags := p.max_flags } }
  else if p.mf.flags + p.max_flags ≤ p.mf.mines then
    some { result := 1, mf := p.mf,
           mine_lists := { mine_lists with first := p.chain, min_flags := p.min_flags,
                                           max_flags := p.max_flags } }
  else
    (find_retry_list p.chain 0 0).map fun f =>
      let m := merge_retry_lists f.2.1 f.2.2.1 f.2.2.2.1 f.2.2.2.2
      let retry_list := reset_list m.1
      let mf1 : minefield_t := { p.mf with flags := p.mf.flags + m.2.2.2 }
      let r := search_list mf1 retry_list
      let mf2 : minefield_t := { r.mf with flags := r.mf.flags - m.2.2.2 }
      { result := r.list.arrangements, mf := mf2,
        mine_lists := { mine_lists with first := f.1 ++ r.list :: m.2.1,
                                        min_flags := m.2.2.1 + r.list.min_flags,
                                        max_flags := m.2.2.2 + r.list.max_flags } }

/-- The enumeration `enum moves_t`. -/
inductive moves_t where
  | nothing
  | flag
  | clear
  | cleararound
deriving DecidableEq

/-- The cell `(col, row)` is a playable cell: `1 <= col <= cols` and `1 <= row <= rows`. -/
def in_range (mf : minefield_t) (col row : Int) : Prop :=
  (1 ≤ col ∧ col ≤ mf.cols) ∧ (1 ≤ row ∧ row ≤ mf.rows)

/-- The cell `(col, row)` lies in the allocated array, sentinels included. -/
def in_array (mf : minefield_t) (col row : Int) : Prop :=
  (0 ≤ col ∧ col ≤ mf.cols + 1) ∧ (0 ≤ row ∧ row ≤ mf.rows + 1)

/-- The integers `0, ..., n-1`, the values of a loop `for(k = 0; k < n; k++)`. -/
def index_range (n : Int) : List Int :=
  (List.range n.toNat).map fun (k : Nat) => (k : Int)

/-- Every position of the allocated array. -/
def array_positions (mf : minefield_t) : List (Int × Int) :=
  (index_range (mf.cols + 2)).flatMap fun col =>
    (index_range (mf.rows + 2)).map fun row => (col, row)

/-- The one-cell border of the array is in the unavailable state. -/
def sentinel_border (mf : minefield_t) : Prop :=
  ∀ p ∈ array_positions mf, p ∉ playable_cells mf →
    (minefield_cell mf p.1 p.2).is_unavailable = true

/-- The number of playable cells whose record satisfies `p`. -/
def count_cells (mf : minefield_t) (p : mf_cell_t → Bool) : Nat :=
  (playable_cells mf).countP fun q => p (minefield_cell mf q.1 q.2)

/-- The number of cleared cells. -/
def cleared_count (mf : minefield_t) : Nat :=
  count_cells mf fun c => c.is_cleared

/-- The number of flagged cells. -/
def flagged_count (mf : minefield_t) : Nat :=
  count_cells mf fun c => c.is_flagged

/-- The number of cells that are neither cleared nor unavailable. -/
def available_count (mf : minefield_t) : Nat :=
  count_cells mf fun c => !(c.is_cleared || c.is_unavailable)

/-- The number of cleared cells that hold a mine. -/
def cleared_mines (mf : minefield_t) : Nat :=
  count_cells mf fun c => c.is_cleared && c.is_mine

/-- The number of cleared cells that hold no mine. -/
def cleared_safe (mf : minefield_t) : Nat :=
  count_cells mf fun c => c.is_cleared && !c.is_mine

/-- The number of playable cells that are cleared on `mf'` and were not on `mf`. -/
def newly_cleared (mf mf' : minefield_t) : Nat :=
  (playable_cells mf).countP fun q =>
    (minefield_cell mf' q.1 q.2).is_cleared && !(minefield_cell mf q.1 q.2).is_cleared

/-- The counter invariant: `flags` is the number of flagged cells and
`unmarked = rows*cols - (cleared + flagged)`. -/
def counters_ok (mf : minefield_t) : Prop :=
  mf.flags = flagged_count mf ∧
    mf.unmarked = mf.rows * mf.cols - ((cleared_count mf : Int) + flagged_count mf)

/-- The number of mined neighbours of a cell, as `pre_game` computes it. -/
def mines_around (mf : minefield_t) (col row : Int) : Int :=
  for_each_neighbour_sum (fun c r => b2i (IS_MINE mf c r)) col row

/-- Every playable cell records the number of its mined neighbours in `minesaround`. -/
def minesaround_correct (mf : minefield_t) : Prop :=
  ∀ p ∈ playable_cells mf,
    ((minefield_cell mf p.1 p.2).minesaround : Int) = mines_around mf p.1 p.2

/-- What `clear_square` may do to the board: the scalar fields other than `unmarked` stay,
and a cell either keeps its record or was a playable, available, unflagged cell that is now
cleared. -/
def cleared_from (mf mf' : minefield_t) : Prop :=
  mf'.number = mf.number ∧ mf'.rows = mf.rows ∧ mf'.cols = mf.cols ∧ mf'.mines = mf.mines ∧
  mf'.flags = mf.flags ∧ mf'.needed = mf.needed ∧
  ∀ c r, mf'.field c r = mf.field c r ∨
    (in_range mf c r ∧ IS_AVAILABLE mf c r = true ∧ (mf.field c r).is_flagged = false ∧
      mf'.field c r = { mf.field c r with is_cleared := true })

/-- The account of a call of `clear_square` that returned `n`: one for each cell without a
mine that it cleared, `-rows*cols` for each mine, and `unmarked` reduced by the number of
cells cleared. -/
def clear_effect (mf mf' : minefield_t) (n : Int) : Prop :=
  cleared_from mf mf' ∧
  n = ((cleared_safe mf' : Int) - cleared_safe mf)
        - mf.rows * mf.cols * ((cleared_mines mf' : Int) - cleared_mines mf) ∧
  mf'.unmarked = mf.unmarked - (((cleared_safe mf' : Int) - cleared_safe mf)
        + ((cleared_mines mf' : Int) - cleared_mines mf))

/-- No mine was cleared between `mf` and `mf'`. -/
def no_mine_cleared (mf mf' : minefield_t) : Prop :=
  ∀ c r, (mf'.field c r).is_cleared = true → (mf'.field c r).is_mine = true →
    (mf.field c r).is_cleared = true

/-- A playable cell that records no mined neighbour has none. -/
def zero_means_safe (mf : minefield_t) : Prop :=
  ∀ c r, in_range mf c r → (mf.field c r).minesaround = 0 →
    ∀ i j, (i - c).natAbs ≤ 1 → (j - r).natAbs ≤ 1 → (i ≠ c ∨ j ≠ r) →
      (mf.field i j).is_mine = false

/-- The boards `a` and `b` differ at most in the `is_pressed` bits of their cells. -/
def pressed_from (a b : minefield_t) : Prop :=
  b.number = a.number ∧ b.rows = a.rows ∧ b.cols = a.cols ∧ b.mines = a.mines ∧
  b.flags = a.flags ∧ b.unmarked = a.unmarked ∧ b.needed = a.needed ∧
  ∀ c r, b.field c r = { a.field c r with is_pressed := (b.field c r).is_pressed }

/-! ## Boards used as examples -/

/-- A sentinel cell. -/
def sentinel_cell : mf_cell_t :=
  { MF_CELL_INITIALIZER with is_unavailable := true }

/-- A 3 x 3 board with its only mine in the corner `(3, 3)`, nothing cleared or flagged. -/
def corner_board : minefield_t :=
  { number := 0, rows := 3, cols := 3, mines := 1, flags := 0, unmarked := 9, needed := 0,
    field := fun c r =>
      if 1 ≤ c ∧ c ≤ 3 ∧ 1 ≤ r ∧ r ≤ 3 then
        { MF_CELL_INITIALIZER with
          is_mine := decide (c = 3 ∧ r = 3),
          minesaround := if 2 ≤ c ∧ 2 ≤ r ∧ ¬ (c = 3 ∧ r = 3) then 1 else 0 }
      else sentinel_cell }

/-- A game on `corner_board` in progress with no button down. -/
def corner_game : game_t :=
  { minefield := corner_board,
    state := { won := false, lost := false, clock_started := false, focus := false,
               search_status := status_t.stopped, time := 0 },
    stats := { total_games := 1, played := 1, won := 0, lost := 0, guessed := 0 },
    buttons_down := 0, last_col := 0, last_row := 0, made_move := 0 }

/-! ## Vocabulary of the specification: arrangements -/

/-- The eight neighbours of `(i, j)` in the order of `for_each_neighbour`. -/
def neighbours (i j : Int) : List (Int × Int) :=
  [(i-1, j-1), (i-1, j), (i-1, j+1), (i, j-1), (i, j+1), (i+1, j-1), (i+1, j), (i+1, j+1)]

/-- The positions of the sites of a cluster. -/
def site_positions (cells : List possible_mine_t) : List (Int × Int) :=
  cells.map fun c => (c.col, c.row)

/-- All `2^n` assignments of mined (`true`) or clear (`false`) to `n` sites, the mined
choice of a site before the clear one, as the search tries them. -/
def assignments : Nat → List (List Bool)
  | 0 => [[]]
  | n + 1 => (assignments n).map (fun a => true :: a) ++ (assignments n).map (fun a => false :: a)

/-- The number of mines an assignment places. -/
def assigned (a : List Bool) : Int := (a.count true : Nat)

/-- The board with its existing flags plus a flag on every site the assignment mines. -/
def place_flags (mf : minefield_t) : List possible_mine_t → List Bool → minefield_t
  | cell :: next, true :: a => place_flags (set_flagged mf cell.col cell.row true) next a
  | _ :: next, false :: a => place_flags mf next a
  | _, _ => mf

/-- A cleared cell has exactly `minesaround` flagged neighbours (no demand on other cells). -/
def clue_met (mf : minefield_t) (col row : Int) : Bool :=
  !(minefield_cell mf col row).is_cleared ||
    decide (FLAGSAROUND mf col row = ((minefield_cell mf col row).minesaround : Int))

/-- Every cleared neighbour of every site has its clue met. -/
def clues_met_around (mf : minefield_t) (cells : List possible_mine_t) : Bool :=
  cells.all fun s => (neighbours s.col s.row).all fun n => clue_met mf n.1 n.2

/-- Validity of an arrangement in the words of the specification: every cleared cell next to
a site ends with flagged neighbours equal to its `minesaround`, `flags + assigned <= mines`
and `mines - flags - assigned <= unmarked - n`. -/
def arrangement_valid (mf : minefield_t) (cells : List possible_mine_t) (a : List Bool) : Bool :=
  clues_met_around (place_flags mf cells a) cells &&
    decide (mf.flags + assigned a ≤ mf.mines) &&
    decide (mf.mines - mf.flags - assigned a ≤ mf.unmarked - cells.length)

/-- Validity as the search applies it: the bound `flags + assigned <= mines` is only asked
of an arrangement that places a mine. -/
def arrangement_counted (mf : minefield_t) (cells : List possible_mine_t) (a : List Bool) :
    Bool :=
  clues_met_around (place_flags mf cells a) cells &&
    decide (assigned a = 0 ∨ mf.flags + assigned a ≤ mf.mines) &&
    decide (mf.mines - mf.flags - assigned a ≤ mf.unmarked - cells.length)

/-- Brute force: the number of assignments to `n` sites that satisfy `valid`. -/
def brute_force (valid : List Bool → Bool) (n : Nat) : Nat :=
  (assignments n).countP valid

/-- Brute force: the number of assignments satisfying `valid` that mine the site `k`. -/
def brute_force_mined (valid : List Bool → Bool) (n k : Nat) : Nat :=
  (assignments n).countP fun a => valid a && a.getD k false

/-- The state of a board between searches: sentinels are unavailable and neither cleared
nor flagged, playable cells are not unavailable and none is both flagged and cleared. -/
def board_wf (mf : minefield_t) : Prop :=
  ∀ p ∈ array_positions mf,
    if p ∈ playable_cells mf then
      (minefield_cell mf p.1 p.2).is_unavailable = false ∧
      ((minefield_cell mf p.1 p.2).is_flagged && (minefield_cell mf p.1 p.2).is_cleared) = false
    else
      (minefield_cell mf p.1 p.2).is_unavailable = true ∧
      (minefield_cell mf p.1 p.2).is_cleared = false ∧
      (minefield_cell mf p.1 p.2).is_flagged = false

/-- Each cleared cell has `flags_around <= mines_around <= available_around`. -/
def clues_feasible (mf : minefield_t) : Prop :=
  ∀ p ∈ playable_cells mf, (minefield_cell mf p.1 p.2).is_cleared = true →
    FLAGSAROUND mf p.1 p.2 ≤ ((minefield_cell mf p.1 p.2).minesaround : Int) ∧
    ((minefield_cell mf p.1 p.2).minesaround : Int) ≤ AVAILAROUND mf p.1 p.2

/-- A cluster of distinct unmarked playable sites. -/
def cluster_sites (mf : minefield_t) (cells : List possible_mine_t) : Prop :=
  (site_positions cells).Nodup ∧
  ∀ s ∈ cells, (s.col, s.row) ∈ playable_cells mf ∧ IS_UNMARKED mf s.col s.row = true

/-- The cluster contains every unmarked playable neighbour of every cleared neighbour of its
sites. -/
def cluster_closed (mf : minefield_t) (cells : List possible_mine_t) : Prop :=
  ∀ s ∈ cells, ∀ n ∈ neighbours s.col s.row, IS_CLEARED mf n.1 n.2 = true →
    ∀ m ∈ neighbours n.1 n.2, m ∈ playable_cells mf → IS_UNMARKED mf m.1 m.2 = true →
      m ∈ site_positions cells

/-- The number `x` is a value of a 32-bit `int`. -/
def is_int (x : Int) : Prop :=
  -2147483648 ≤ x ∧ x ≤ 2147483647

/-- The `flag_placements` of the sites of the list are values of an `int`. -/
def placements_int (list : mine_list_t) : Prop :=
  ∀ c ∈ list.cell, is_int c.flag_placements

/-- The record of one arrangement with `flags_used` mines in the statistics
`(min_flags, max_flags, sum_flags)`, as at the end of a branch of `_analyze_list`. -/
def record_flags (st : Int × Int × Int) (flags_used : Int) : Int × Int × Int :=
  (if flags_used < st.1 then flags_used else st.1,
   if flags_used > st.2.1 then flags_used else st.2.1,
   wrap_int (st.2.2 + flags_used))

/-- The statistics `(min_flags, max_flags, sum_flags)` of a list. -/
def stats_of (list : mine_list_t) : Int × Int × Int :=
  (list.min_flags, list.max_flags, list.sum_flags)

/-- The search started at a site list with `flags_used` flags placed reaches the end of the
branch of the assignment `a` and counts it: every guard on the way holds.  `length` is the
length of the whole list. -/
def accepts (length : Int) : minefield_t → List possible_mine_t → Int → List Bool → Bool
  | mf, [], flags_used, [] =>
    decide (mf.needed = 0) &&
      !decide (mf.mines - mf.flags - flags_used > mf.unmarked - length)
  | mf, cell :: next, flags_used, true :: a =>
    can_flag mf cell flags_used &&
      accepts length (set_flagged mf cell.col cell.row true) next (flags_used + 1) a
  | mf, cell :: next, flags_used, false :: a =>
    can_clear mf cell &&
      accepts length (set_unavailable mf cell.col cell.row true) next flags_used a
  | _, _, _, _ => false

/-- The numbers of flags of the arrangements the search counts, in the order it finds
them. -/
def accepted_flags (length : Int) (mf : minefield_t) (cells : List possible_mine_t)
    (flags_used : Int) : List Int :=
  ((assignments cells.length).filter (accepts length mf cells flags_used)).map
    fun a => flags_used + assigned a

/-- The sites a search is about to decide are neither flagged nor unavailable and no two are
the same cell. -/
def sites_fresh (mf : minefield_t) (cells : List possible_mine_t) : Prop :=
  (site_positions cells).Nodup ∧
  ∀ s ∈ cells, (minefield_cell mf s.col s.row).is_flagged = false ∧
    (minefield_cell mf s.col s.row).is_unavailable = false

/-- The assignment `a` mines a site of `cells` at position `(col, row)`. -/
def mined_at : List possible_mine_t → List Bool → Int → Int → Bool
  | cell :: next, b :: a, col, row =>
    (b && decide (cell.col = col ∧ cell.row = row)) || mined_at next a col row
  | _, _, _, _ => false

/-- The sites still to be decided are distinct cells, none flagged, cleared or unavailable. -/
def sites_open (mf : minefield_t) (cells : List possible_mine_t) : Prop :=
  (site_positions cells).Nodup ∧
  ∀ s ∈ cells, (minefield_cell mf s.col s.row).is_flagged = false ∧
    (minefield_cell mf s.col s.row).is_cleared = false ∧
    (minefield_cell mf s.col s.row).is_unavailable = false

/-- What the guards of the search keep true of every cleared neighbour `n` of a site still to
be decided: `flags_around <= minesaround <= available_around`, and a neighbour of `n` that is
not such a site is flagged exactly when it is available. -/
def search_inv (mf : minefield_t) (cells : List possible_mine_t) : Prop :=
  ∀ s ∈ cells, ∀ n ∈ neighbours s.col s.row, (minefield_cell mf n.1 n.2).is_cleared = true →
    (FLAGSAROUND mf n.1 n.2 ≤ ((minefield_cell mf n.1 n.2).minesaround : Int) ∧
      ((minefield_cell mf n.1 n.2).minesaround : Int) ≤ AVAILAROUND mf n.1 n.2) ∧
    ∀ m ∈ neighbours n.1 n.2, m ∉ site_positions cells →
      ((minefield_cell mf m.1 m.2).is_flagged = true ↔ IS_AVAILABLE mf m.1 m.2 = true)

/-- A 4 x 1 board after three moves of a player: the only mine is at `(1, 1)`, the cell
`(2, 1)` is cleared and shows 1, and the cells `(3, 1)` and `(4, 1)` carry flags, so that
there are more flags than mines. -/
def flag_heavy_board : minefield_t :=
  { number := 0, rows := 1, cols := 4, mines := 1, flags := 2, unmarked := 1, needed := 0,
    field := fun c r =>
      if r = 1 ∧ c = 1 then { MF_CELL_INITIALIZER with is_mine := true }
      else if r = 1 ∧ c = 2 then { MF_CELL_INITIALIZER with is_cleared := true, minesaround := 1 }
      else if r = 1 ∧ c = 3 then { MF_CELL_INITIALIZER with is_flagged := true, minesaround := 0 }
      else if r = 1 ∧ c = 4 then { MF_CELL_INITIALIZER with is_flagged := true, minesaround := 0 }
      else sentinel_cell }

/-- The cluster of `flag_heavy_board`: its only site is `(1, 1)`. -/
def flag_heavy_list : mine_list_t :=
  { arrangements := 0, min_flags := INT_MAX, max_flags := 0, sum_flags := 0,
    cell := [{ col := 1, row := 1, flag_placements := 0 }] }

/-- The board `corner_board` after `(1, 1)` was cleared: the flood fill has cleared every
cell but the mine at `(3, 3)`. -/
def opened_board : minefield_t :=
  { number := 0, rows := 3, cols := 3, mines := 1, flags := 0, unmarked := 1, needed := 0,
    field := fun c r =>
      if 1 ≤ c ∧ c ≤ 3 ∧ 1 ≤ r ∧ r ≤ 3 then
        { MF_CELL_INITIALIZER with
          is_mine := decide (c = 3 ∧ r = 3),
          is_cleared := !decide (c = 3 ∧ r = 3),
          minesaround := if 2 ≤ c ∧ 2 ≤ r ∧ ¬ (c = 3 ∧ r = 3) then 1 else 0 }
      else sentinel_cell }

/-- The cluster of `opened_board`: its only site is `(3, 3)`. -/
def opened_list : mine_list_t :=
  { arrangements := 0, min_flags := INT_MAX, max_flags := 0, sum_flags := 0,
    cell := [{ col := 3, row := 3, flag_placements := 0 }] }

/-! ## Vocabulary of the specification: clusters -/

/-- The positions of all sites of a chain of lists. -/
def all_sites (chain : List mine_list_t) : List (Int × Int) :=
  chain.flatMap fun l => site_positions l.cell

/-- Some cleared cell lies within Chebyshev distance 1 of both `(c1, r1)` and `(c2, r2)`. -/
def share_cleared_cell (mf : minefield_t) (c1 r1 c2 r2 : Int) : Prop :=
  ∃ n : Int × Int, (minefield_cell mf n.1 n.2).is_cleared = true ∧
    (n.1 - c1).natAbs ≤ 1 ∧ (n.2 - r1).natAbs ≤ 1 ∧
    (n.1 - c2).natAbs ≤ 1 ∧ (n.2 - r2).natAbs ≤ 1

/-- No site of `l1` is dependent on a site of `l2`, in either order of the arguments of
`are_dependant`. -/
def independent_lists (mf : minefield_t) (l1 l2 : mine_list_t) : Prop :=
  ∀ x ∈ l1.cell, ∀ y ∈ l2.cell,
    are_dependant mf x.col x.row y.col y.row = false ∧
    are_dependant mf y.col y.row x.col x.row = false

/-- A list as `add_possible_mine` creates it, before any search. -/
def list_unsearched (list : mine_list_t) : Prop :=
  list.arrangements = 0 ∧ list.min_flags = INT_MAX ∧ list.max_flags = 0 ∧
  list.sum_flags = 0 ∧ ∀ c ∈ list.cell, c.flag_placements = 0

/-- A chain of clusters as `find_possible_mines` builds it: its sites are distinct unmarked
playable cells, sites of different lists are independent and no list has been searched. -/
def chain_ok (mf : minefield_t) (chain : List mine_list_t) : Prop :=
  (all_sites chain).Nodup ∧
  (∀ p ∈ all_sites chain, p ∈ playable_cells mf ∧ IS_UNMARKED mf p.1 p.2 = true) ∧
  chain.Pairwise (independent_lists mf) ∧
  ∀ l ∈ chain, list_unsearched l

/-- A 5 x 1 board with a mine at each end, `(1, 1)` and `(5, 1)`, and the three cells between
them cleared, showing 1, 0 and 1. -/
def two_ends_board : minefield_t :=
  { number := 0, rows := 1, cols := 5, mines := 2, flags := 0, unmarked := 2, needed := 0,
    field := fun c r =>
      if r = 1 ∧ (c = 1 ∨ c = 5) then { MF_CELL_INITIALIZER with is_mine := true }
      else if r = 1 ∧ (c = 2 ∨ c = 4) then
        { MF_CELL_INITIALIZER with is_cleared := true, minesaround := 1 }
      else if r = 1 ∧ c = 3 then { MF_CELL_INITIALIZER with is_cleared := true }
      else sentinel_cell }

/-! ## Vocabulary of the specification: mine layouts -/

/-- A full-board mine layout `L` is consistent with what the board shows: no mine on a
sentinel, no mine on a cleared cell, every cleared cell has exactly `minesaround` mined
neighbours, every flag is on a mine, and there are `mines` mines in all. -/
def layout_consistent (mf : minefield_t) (L : Int → Int → Bool) : Prop :=
  (∀ p ∈ array_positions mf, p ∉ playable_cells mf → L p.1 p.2 = false) ∧
  (∀ p ∈ playable_cells mf,
    ((minefield_cell mf p.1 p.2).is_cleared = true →
      L p.1 p.2 = false ∧
      (neighbours p.1 p.2).countP (fun q => L q.1 q.2)
        = (minefield_cell mf p.1 p.2).minesaround) ∧
    ((minefield_cell mf p.1 p.2).is_flagged = true → L p.1 p.2 = true)) ∧
  ((playable_cells mf).countP (fun q => L q.1 q.2) : Int) = mf.mines

/-- The number of cells that are neither flagged nor cleared. -/
def unmarked_count (mf : minefield_t) : Nat :=
  count_cells mf fun c => !(c.is_flagged || c.is_cleared)

/-- The counters `flags` and `unmarked` agree with the cells of the board. -/
def solver_counters (mf : minefield_t) : Prop :=
  mf.flags = flagged_count mf ∧ mf.unmarked = unmarked_count mf

/-- The restriction of a layout to the sites of a list, as an assignment. -/
def layout_on (L : Int → Int → Bool) (cells : List possible_mine_t) : List Bool :=
  cells.map fun s => L s.col s.row

/-- What the moves of `play_moves` rely on, for a layout `L`: a site with no flag placement
is clear in `L`, a site flagged in every arrangement is mined in `L`, and the list has at
least one arrangement. -/
def list_sound (L : Int → Int → Bool) (list : mine_list_t) : Prop :=
  0 < list.arrangements ∧
  ∀ c ∈ list.cell, (c.flag_placements = 0 → L c.col c.row = false) ∧
    (c.flag_placements = list.arrangements → L c.col c.row = true)

/-- What holds between a consistent layout `L` and the board at any point of the search, at
the neighbours `m` of each cleared neighbour `n` of a site still to be decided: `n` has
`minesaround` neighbours mined in `L`, a flagged `m` is mined in `L`, and an `m` mined in `L`
is available. -/
def layout_inv (mf : minefield_t) (L : Int → Int → Bool) (cells : List possible_mine_t) :
    Prop :=
  ∀ s ∈ cells, ∀ n ∈ neighbours s.col s.row, (minefield_cell mf n.1 n.2).is_cleared = true →
    ((neighbours n.1 n.2).countP (fun q => L q.1 q.2) : Int)
      = ((minefield_cell mf n.1 n.2).minesaround : Int) ∧
    ∀ m ∈ neighbours n.1 n.2,
      ((minefield_cell mf m.1 m.2).is_flagged = true → L m.1 m.2 = true) ∧
      (L m.1 m.2 = true → IS_AVAILABLE mf m.1 m.2 = true)

/-- Every list of a searched chain is sound for the layout `L`, and the number of mines of
`L` on its sites lies between its `min_flags` and `max_flags`. -/
def chain_sound (L : Int → Int → Bool) (chain : List mine_list_t) : Prop :=
  ∀ l ∈ chain, list_sound L l ∧ l.min_flags ≤ assigned (layout_on L l.cell) ∧
    assigned (layout_on L l.cell) ≤ l.max_flags

/-- The sum of the `max_flags` of the lists of a chain. -/
def sum_max_flags (chain : List mine_list_t) : Int :=
  (chain.map fun l => l.max_flags).sum

/-- The board shows its own mines truthfully: `minesaround` is right in every playable cell,
no cleared cell holds a mine, every flag is on a mine and no sentinel holds a mine. -/
def board_truthful (mf : minefield_t) : Prop :=
  minesaround_correct mf ∧
  (∀ p ∈ playable_cells mf, (minefield_cell mf p.1 p.2).is_cleared = true →
    IS_MINE mf p.1 p.2 = false) ∧
  (∀ p ∈ playable_cells mf, (minefield_cell mf p.1 p.2).is_flagged = true →
    IS_MINE mf p.1 p.2 = true) ∧
  (∀ p ∈ array_positions mf, p ∉ playable_cells mf → IS_MINE mf p.1 p.2 = false)

/-- The number of playable cells that hold a mine. -/
def mine_count (mf : minefield_t) : Nat :=
  count_cells mf fun c => c.is_mine

/-- A 3 x 1 board with its only mine at `(1, 1)` under a flag; the cell `(2, 1)` is cleared
and shows 1, the cell `(3, 1)` is untouched. -/
def flagged_end_board : minefield_t :=
  { number := 0, rows := 1, cols := 3, mines := 1, flags := 1, unmarked := 1, needed := 0,
    field := fun c r =>
      if r = 1 ∧ c = 1 then { MF_CELL_INITIALIZER with is_mine := true, is_flagged := true }
      else if r = 1 ∧ c = 2 then { MF_CELL_INITIALIZER with is_cleared := true, minesaround := 1 }
      else if r = 1 ∧ c = 3 then MF_CELL_INITIALIZER
      else sentinel_cell }

/-- What `make_move` may do to the board: the scalars `number`, `rows`, `cols`, `mines` and
`needed` stay, every cell keeps `is_mine`, `minesaround` and `is_unavailable`, and a cell that
is not playable keeps `is_flagged` and `is_cleared` too. -/
def moved_from (a b : minefield_t) : Prop :=
  b.number = a.number ∧ b.rows = a.rows ∧ b.cols = a.cols ∧ b.mines = a.mines ∧
  b.needed = a.needed ∧
  ∀ c r, (b.field c r).is_mine = (a.field c r).is_mine ∧
    (b.field c r).minesaround = (a.field c r).minesaround ∧
    (b.field c r).is_unavailable = (a.field c r).is_unavailable ∧
    (¬ in_range a c r → (b.field c r).is_flagged = (a.field c r).is_flagged ∧
      (b.field c r).is_cleared = (a.field c r).is_cleared)

/-- A game on `flagged_end_board` in progress with no button down. -/
def flagged_end_game : game_t :=
  { corner_game with minefield := flagged_end_board }

/-- What a search may leave of a cell `a` at a position that is (`site = true`) or is not a
site of the list searched: every field but `is_flagged` and `is_unavailable` is kept, and
each of these two is kept or, at a site, reset to 0. -/
def cell_restored (site : Prop) (a b : mf_cell_t) : Prop :=
  b.minesaround = a.minesaround ∧ b.is_mine = a.is_mine ∧ b.is_cleared = a.is_cleared ∧
  b.is_pressed = a.is_pressed ∧
  (b.is_flagged = a.is_flagged ∨ (b.is_flagged = false ∧ site)) ∧
  (b.is_unavailable = a.is_unavailable ∨ (b.is_unavailable = false ∧ site))

/-- What `_analyze_list` may leave of the board `a` after a search of the sites `cells`:
the scalars are kept and every cell is restored in the sense of `cell_restored`. -/
def restored_from (cells : List possible_mine_t) (a b : minefield_t) : Prop :=
  b.number = a.number ∧ b.rows = a.rows ∧ b.cols = a.cols ∧ b.mines = a.mines ∧
  b.flags = a.flags ∧ b.unmarked = a.unmarked ∧ b.needed = a.needed ∧
  ∀ c r, cell_restored ((c, r) ∈ site_positions cells) (a.field c r) (b.field c r)

/-- The sites are neither flagged nor in the unavailable state. -/
def sites_unflagged (mf : minefield_t) (cells : List possible_mine_t) : Prop :=
  ∀ s ∈ cells, (minefield_cell mf s.col s.row).is_flagged = false ∧
    (minefield_cell mf s.col s.row).is_unavailable = false

/-- Every guard on the branch of the assignment `a` holds, so that the search started at a
site list with `flags_used` flags placed reaches the end of that branch. -/
def reaches : minefield_t → List possible_mine_t → Int → List Bool → Bool
  | _, [], _, [] => true
  | mf, cell :: next, flags_used, true :: a =>
    can_flag mf cell flags_used &&
      reaches (set_flagged mf cell.col cell.row true) next (flags_used + 1) a
  | mf, cell :: next, flags_used, false :: a =>
    can_clear mf cell &&
      reaches (set_unavailable mf cell.col cell.row true) next flags_used a
  | _, _, _, _ => false

/-- A 5 x 1 board in play while the board is asked for (`needed = 1`): the only mine is at
`(1, 1)`, the cells `(2, 1)`, `(3, 1)` and `(4, 1)` are cleared and show 1, 0 and 0, and the
player has put a flag on `(5, 1)`, which holds no mine. -/
def wrong_flag_board : minefield_t :=
  { number := 0, rows := 1, cols := 5, mines := 1, flags := 1, unmarked := 1, needed := 1,
    field := fun c r =>
      if r = 1 ∧ c = 1 then { MF_CELL_INITIALIZER with is_mine := true }
      else if r = 1 ∧ c = 2 then { MF_CELL_INITIALIZER with is_cleared := true, minesaround := 1 }
      else if r = 1 ∧ (c = 3 ∨ c = 4) then { MF_CELL_INITIALIZER with is_cleared := true }
      else if r = 1 ∧ c = 5 then { MF_CELL_INITIALIZER with is_flagged := true }
      else sentinel_cell }

/-- The cluster of `wrong_flag_board`: its only site is `(1, 1)`. -/
def wrong_flag_list : mine_list_t :=
  { arrangements := 0, min_flags := INT_MAX, max_flags := 0, sum_flags := 0,
    cell := [{ col := 1, row := 1, flag_placements := 0 }] }

/-- The board `opened_board` while the board is asked for (`needed = 1`). -/
def interrupted_board : minefield_t :=
  { opened_board with needed := 1 }

/-! ## mindsweeper.c: `pre_game` -/

/-- The record `struct settings`; the field `open` is called `open_patch` here, `open` being
a reserved word. -/
structure settings where
  logmode : Bool
  open_patch : Bool
  analysis : Bool
  show_probability : Bool
  autoplay : Bool
  pause_when_unfocused : Bool
deriving DecidableEq

/-- The cells written by the loop `for(col = 0; col < cols+2; col++)` of `pre_game`, in the
order of the writes: in `a = b = 1` the cell `b` of row `rows+1` is written first. -/
def border_rows (mf : minefield_t) : List (Int × Int) :=
  (index_range (mf.cols + 2)).flatMap fun col => [(col, mf.rows + 1), (col, 0)]

/-- The cells written by the loop `for(row = 0; row < rows+2; row++)` of `pre_game`, in the
order of the writes. -/
def border_cols (mf : minefield_t) : List (Int × Int) :=
  (index_range (mf.rows + 2)).flatMap fun row => [(mf.cols + 1, row), (0, row)]

/-- The assignments `is_unavailable = 1` to the cells of a list, in order. -/
def mark_unavailable (mf : minefield_t) (cells : List (Int × Int)) : minefield_t :=
  cells.foldl (fun m p => set_unavailable m p.1 p.2 true) mf

/-- The start of `pre_game` for the board: `unmarked` and `number` are set, the array is
allocated with every cell `MF_CELL_INITIALIZER`, the border is put into the unavailable state
and `flags` is set to `mines`.  Positions outside the array read as `MF_CELL_INITIALIZER`. -/
def pre_game_reset (mf : minefield_t) (game_number : Int) : minefield_t :=
  let mf1 : minefield_t :=
    { mf with unmarked := mf.rows * mf.cols, number := game_number,
              field := fun _ _ => MF_CELL_INITIALIZER }
  let mf2 := mark_unavailable (mark_unavailable mf1 (border_rows mf1)) (border_cols mf1)
  { mf2 with flags := mf2.mines }

/-- The right-hand side `RAND_MAX / (rows*cols - (col-1)*rows - (row-1)) * flags` of the test
of the placement loop; the division of C truncates, and the product is that of an `int`: it
leaves the range when `flags` exceeds the number of cells still to visit. -/
def mine_threshold (RAND_MAX : Int) (mf : minefield_t) (col row : Int) : Int :=
  wrap_int (Int.tdiv RAND_MAX (mf.rows * mf.cols - (col - 1) * mf.rows - (row - 1)) * mf.flags)

/-- The body of the placement loop of `pre_game` at the cell `p`; the state is the board and
the number of values taken from `rand()` so far. -/
def place_mine (RAND_MAX : Int) (rand : Nat → Int) (st : minefield_t × Nat) (p : Int × Int) :
    minefield_t × Nat :=
  if rand st.2 < mine_threshold RAND_MAX st.1 p.1 p.2 then
    let mf1 := store_cell st.1 p.1 p.2 { minefield_cell st.1 p.1 p.2 with is_mine := true }
    ({ mf1 with flags := mf1.flags - 1 }, st.2 + 1)
  else (st.1, st.2 + 1)

/-- The placement loop of `pre_game`. -/
def place_mines (RAND_MAX : Int) (rand : Nat → Int) (st : minefield_t × Nat) :
    minefield_t × Nat :=
  (playable_cells st.1).foldl (place_mine RAND_MAX rand) st

/-- The body of the loop of `pre_game` that records `minesaround`: the sum is stored in a
field of four bits. -/
def record_minesaround (mf : minefield_t) (p : Int × Int) : minefield_t :=
  store_cell mf p.1 p.2 { minefield_cell mf p.1 p.2 with
    minesaround := (for_each_neighbour_sum (fun c r => b2i (IS_MINE mf c r)) p.1 p.2 % 16).toNat }

/-- The loop of `pre_game` that records `minesaround`. -/
def record_all_minesaround (mf : minefield_t) : minefield_t :=
  (playable_cells mf).foldl record_minesaround mf

/-- The loop `while(settings.open)` of `pre_game`, entered with `settings.open` set, with the
number of its turns bounded by `fuel`; `k` is the number of values taken from `rand()` so
far and `none` means the bound was reached (or `clear_square` reached its own). -/
def open_patch_loop (rand : Nat → Int) : Nat → minefield_t → Nat → Option minefield_t
  | 0, _, _ => none
  | fuel + 1, mf, k =>
    let col := Int.tmod (rand k) mf.cols + 1
    let row := Int.tmod (rand (k + 1)) mf.rows + 1
    if !(minefield_cell mf col row).is_mine && (minefield_cell mf col row).minesaround == 0 then
      (clear_square mf col row).map fun r => r.1
    else open_patch_loop rand fuel mf (k + 2)

/-- The board part of `pre_game` up to the call of `ui_minefield_reset`, with the number of
values taken from `rand()`. -/
def pre_game_board (RAND_MAX : Int) (rand : Nat → Int) (mf : minefield_t) (game_number : Int) :
    minefield_t × Nat :=
  let placed := place_mines RAND_MAX rand (pre_game_reset mf game_number, 0)
  (record_all_minesaround placed.1, placed.2)

/-- The function `pre_game`.  `RAND_MAX` and the values `rand 0, rand 1, ...` that `rand()`
returns after `srand(game_number)` are those of the C library; `fuel` bounds the loop that
looks for an open patch.  The calls into the user interface are left out, and so is
`start_search`, which only signals the solver thread. -/
def pre_game (RAND_MAX : Int) (rand : Nat → Int) (s : settings) (fuel : Nat) (g : game_t)
    (game_number : Int) : Option game_t :=
  let g1 : game_t :=
    { g with
      state := { g.state with clock_started := false, won := false, lost := false, time := 0 }
      stats := { g.stats with played := g.stats.played + 1 } }
  let b := pre_game_board RAND_MAX rand g1.minefield game_number
  if s.open_patch then
    (open_patch_loop rand fuel b.1 b.2).map fun mf => { g1 with minefield := mf }
  else
    some { g1 with minefield := b.1 }

/-- What `clear_square` may do to any board: the scalar fields other than `unmarked` stay,
and a cell either keeps its record or was an available, unflagged cell that is now cleared. -/
def opened_from (a b : minefield_t) : Prop :=
  b.number = a.number ∧ b.rows = a.rows ∧ b.cols = a.cols ∧ b.mines = a.mines ∧
  b.flags = a.flags ∧ b.needed = a.needed ∧
  ∀ c r, b.field c r = a.field c r ∨
    (IS_AVAILABLE a c r = true ∧ (a.field c r).is_flagged = false ∧
      b.field c r = { a.field c r with is_cleared := true })

/-- Every cell of `b` has the `is_mine`, `minesaround` and `is_unavailable` it has in `a`. -/
def mines_kept (a b : minefield_t) : Prop :=
  ∀ c r, (b.field c r).is_mine = (a.field c r).is_mine ∧
    (b.field c r).minesaround = (a.field c r).minesaround ∧
    (b.field c r).is_unavailable = (a.field c r).is_unavailable

/-- The state of the border and of the playable cells between the calls: every sentinel is
unavailable and neither mined, flagged nor cleared, and no playable cell is unavailable. -/
def border_inv (mf : minefield_t) : Prop :=
  (∀ p ∈ array_positions mf, p ∉ playable_cells mf →
    (minefield_cell mf p.1 p.2).is_unavailable = true ∧
    (minefield_cell mf p.1 p.2).is_mine = false ∧
    (minefield_cell mf p.1 p.2).is_flagged = false ∧
    (minefield_cell mf p.1 p.2).is_cleared = false) ∧
  ∀ p ∈ playable_cells mf, (minefield_cell mf p.1 p.2).is_unavailable = false

/-- The states of the game reachable from a call of `pre_game` (on any earlier state, for
any settings and any values of `rand()`) through calls of `make_move` on playable cells,
searches of the solver on the clusters of `find_possible_mines`, changes of `needed` by
`get_minefield`, and updates of `state` and `stats` by the user interface and the solver
thread. -/
inductive reachable (RAND_MAX : Int) : game_t → Prop
  | start (rand : Nat → Int) (s : settings) (fuel : Nat) (g0 : game_t) (game_number : Int)
      (g : game_t) :
      pre_game RAND_MAX rand s fuel g0 game_number = some g → reachable RAND_MAX g
  | move (g : game_t) (col row button : Int) (action : action_t) (g' : game_t) (ret : Bool) :
      reachable RAND_MAX g → in_range g.minefield col row →
      make_move g col row button action = some (g', ret) → reachable RAND_MAX g'
  | search (g : game_t) (out : analysis_t) :
      reachable RAND_MAX g →
      analyze_possible_mines g.minefield
        (find_possible_mines g.minefield MINE_LISTS_INITIALIZER) = some out →
      reachable RAND_MAX { g with minefield := out.mf }
  | lease (g : game_t) (needed : Int) :
      reachable RAND_MAX g →
      reachable RAND_MAX { g with minefield := { g.minefield with needed := needed } }
  | status (g : game_t) (st : state) (sts : stats) :
      reachable RAND_MAX g → reachable RAND_MAX { g with state := st, stats := sts }

/-- An empty 5 x 5 board announced with one mine, as it is before the first game. -/
def five_board : minefield_t :=
  { number := -1, rows := 5, cols := 5, mines := 1, field := fun _ _ => MF_CELL_INITIALIZER,
    flags := 0, unmarked := 0, needed := 0 }

/-- A game about to start on `five_board`. -/
def five_game : game_t :=
  { corner_game with minefield := five_board }

/-- The settings `SETTINGS_INITIALIZER`. -/
def SETTINGS_INITIALIZER : settings :=
  { logmode := false, open_patch := false, analysis := true, show_probability := false,
    autoplay := false, pause_when_unfocused := false }

/-! ## solver.c: the moves and the probabilities -/

/-- A value of type `float`.  A finite value is the rational number it stands for (rounding is
not modelled); `infinity` and `nan` are what a division by zero gives. -/
inductive float_t where
  | finite (q : ℚ)
  | infinity (negative : Bool)
  | nan
deriving DecidableEq

/-- The quotient `(float) a / b` of two values of type `int`. -/
def float_quotient (a b : Int) : float_t :=
  if b = 0 then
    if a = 0 then float_t.nan else float_t.infinity (decide (a < 0))
  else float_t.finite (Rat.divInt a b)

/-- The quotient `x / y` of a finite `float` by an `int`. -/
def float_div (x : ℚ) (y : Int) : float_t :=
  if y = 0 then
    if x = 0 then float_t.nan else float_t.infinity (decide (x < 0))
  else float_t.finite (x / (y : ℚ))

/-- The comparison `prob < 0.0`; it is false of a NaN. -/
def float_t.lt_zero : float_t → Bool
  | float_t.finite q => decide (q < 0)
  | float_t.infinity negative => negative
  | float_t.nan => false

/-- The comparison `prob > 1.0`; it is false of a NaN. -/
def float_t.gt_one : float_t → Bool
  | float_t.finite q => decide (1 < q)
  | float_t.infinity negative => !negative
  | float_t.nan => false

/-- What the solver does that the player sees: a call `computer_move(mf, col, row, cmd)` and
a call `ui_update_square_probability(row, col, prob)`. -/
inductive event_t where
  | move (col row : Int) (cmd : moves_t)
  | probability (col row : Int) (prob : float_t)
deriving DecidableEq

/-- The game together with the calls of `event_t` made so far, the oldest first. -/
structure solver_t where
  game : game_t
  log : List event_t

/-- The calls of `zero_probability_if_available` around `(col, row)` that publish. -/
def zero_probabilities (mf : minefield_t) (col row : Int) : List event_t :=
  ((neighbours col row).filter fun p =>
      IS_AVAILABLE mf p.1 p.2 && !(minefield_cell mf p.1 p.2).is_flagged).map
    fun p => event_t.probability p.1 p.2 (float_t.finite 0)

/-- The function `computer_move`; the call itself is entered in the log. -/
def computer_move (s : settings) (t : solver_t) (col row : Int) (cmd : moves_t) :
    Option solver_t :=
  let t0 : solver_t := { t with log := t.log ++ [event_t.move col row cmd] }
  match cmd with
  | moves_t.nothing => some t0
  | moves_t.flag =>
    let t1 : solver_t :=
      { t0 with log := t0.log ++ [event_t.probability col row (float_t.finite 1)] }
    if s.autoplay then
      (make_move t1.game col row 3 action_t.press).bind fun r1 =>
      (make_move r1.1 col row 3 action_t.release).map fun r2 => { t1 with game := r2.1 }
    else some t1
  | moves_t.clear =>
    let t1 : solver_t :=
      { t0 with log := t0.log ++ [event_t.probability col row (float_t.finite 0)] }
    if s.autoplay then
      (make_move t1.game col row 1 action_t.press).bind fun r1 =>
      (make_move r1.1 col row 1 action_t.release).map fun r2 => { t1 with game := r2.1 }
    else some t1
  | moves_t.cleararound =>
    let t1 : solver_t :=
      { t0 with log := t0.log ++ zero_probabilities t0.game.minefield col row }
    if s.autoplay then
      (make_move t1.game col row 1 action_t.press).bind fun r1 =>
      (make_move r1.1 col row 3 action_t.press).bind fun r2 =>
      (make_move r2.1 col row 3 action_t.release).bind fun r3 =>
      (make_move r3.1 col row 1 action_t.release).map fun r4 => { t1 with game := r4.1 }
    else some t1

/-- The function `is_possible_mine`. -/
def is_possible_mine (col row : Int) (mine_lists : mine_lists_t) : Bool :=
  mine_lists.first.any fun list =>
    list.cell.any fun cell => decide (cell.col = col ∧ cell.row = row)

/-- The loop of `check_nonborder_sites` over the cells still to visit; the state is the game
with the log and `made_moves`.  The moves leave `rows` and `cols` as they are, so the cells
visited are those of the board at the start. -/
def check_nonborder_scan (s : settings) (mine_lists : mine_lists_t) (action : moves_t) :
    List (Int × Int) → solver_t × Bool → Option (solver_t × Bool)
  | [], st => some st
  | p :: rest, st =>
    if IS_UNMARKED st.1.game.minefield p.1 p.2 && !is_possible_mine p.1 p.2 mine_lists then
      (computer_move s st.1 p.1 p.2 action).bind fun t =>
        check_nonborder_scan s mine_lists action rest (t, true)
    else check_nonborder_scan s mine_lists action rest st

/-- The function `check_nonborder_sites`. -/
def check_nonborder_sites (s : settings) (t : solver_t) (mine_lists : mine_lists_t) :
    Option (solver_t × Bool) :=
  let mf := t.game.minefield
  if mf.flags + mine_lists.min_flags = mf.mines then
    check_nonborder_scan s mine_lists moves_t.clear (playable_cells mf) (t, false)
  else if mf.mines - mf.flags - mine_lists.max_flags = mf.unmarked - mine_lists.length then
    check_nonborder_scan s mine_lists moves_t.flag (playable_cells mf) (t, false)
  else some (t, false)

/-- The inner loop of `play_moves` over the cells of a list with the given `arrangements`;
the state is the game with the log and `made_moves`. -/
def play_moves_cells (s : settings) (arrangements : Int) :
    List possible_mine_t → solver_t × Bool → Option (solver_t × Bool)
  | [], st => some st
  | cell :: next, st =>
    if cell.flag_placements = 0 then
      (computer_move s st.1 cell.col cell.row moves_t.clear).bind fun t =>
        play_moves_cells s arrangements next (t, true)
    else if cell.flag_placements = arrangements then
      (computer_move s st.1 cell.col cell.row moves_t.flag).bind fun t =>
        play_moves_cells s arrangements next (t, true)
    else
      play_moves_cells s arrangements next
        ({ st.1 with log := st.1.log ++ [event_t.probability cell.col cell.row
            (float_quotient cell.flag_placements arrangements)] }, st.2)

/-- The outer loop of `play_moves` over the lists of the chain. -/
def play_moves_lists (s : settings) :
    List mine_list_t → solver_t × Bool → Option (solver_t × Bool)
  | [], st => some st
  | list :: next, st =>
    (play_moves_cells s list.arrangements list.cell st).bind (play_moves_lists s next)

/-- The function `play_moves`. -/
def play_moves (s : settings) (t : solver_t) (mine_lists : mine_lists_t) :
    Option (solver_t × Bool) :=
  play_moves_lists s mine_lists.first (t, false)

/-- The body of the first loop of `do_nonborder_probabilities`; the state is `border_cells`
and `mean_flags`. -/
def mean_flags_step (st : Int × ℚ) (list : mine_list_t) : Int × ℚ :=
  (st.1 + list.length,
    if list.arrangements > 0 then st.2 - (list.sum_flags : ℚ) / (list.arrangements : ℚ)
    else st.2)

/-- The values of `border_cells` and `mean_flags` after the first loop of
`do_nonborder_probabilities`. -/
def mean_flags (mf : minefield_t) (mine_lists : mine_lists_t) : Int × ℚ :=
  mine_lists.first.foldl mean_flags_step (0, ((mf.mines - mf.flags : Int) : ℚ))

/-- The value of `prob` that `do_nonborder_probabilities` publishes. -/
def nonborder_probability (mf : minefield_t) (mine_lists : mine_lists_t) : float_t :=
  let st := mean_flags mf mine_lists
  let prob := float_div st.2 (mf.unmarked - st.1)
  let prob1 := if prob.lt_zero then float_t.finite 0 else prob
  if prob1.gt_one then float_t.finite 1 else prob1

/-- The function `do_nonborder_probabilities`. -/
def do_nonborder_probabilities (t : solver_t) (mine_lists : mine_lists_t) : solver_t :=
  let mf := t.game.minefield
  let cells := (playable_cells mf).filter fun p =>
    IS_UNMARKED mf p.1 p.2 && !is_possible_mine p.1 p.2 mine_lists
  let prob := nonborder_probability mf mine_lists
  { t with log := t.log ++ cells.map (fun p => event_t.probability p.1 p.2 prob) }

/-- The function `solve_minefield` up to the test of `do_full_analysis`: the game with the
log, the clusters and `result`.  `none` where `analyze_possible_mines` has none. -/
def solve_minefield_round (s : settings) (g : game_t) :
    Option (solver_t × mine_lists_t × status_t) :=
  let mine_lists := find_possible_mines g.minefield MINE_LISTS_INITIALIZER
  let t : solver_t := { game := g, log := [] }
  if mine_lists.first.isEmpty then
    (check_nonborder_sites s t mine_lists).map fun r =>
      (r.1, mine_lists, if r.2 then status_t.noguess else status_t.guess)
  else
    (analyze_possible_mines g.minefield mine_lists).bind fun out =>
      let t1 : solver_t := { t with game := { g with minefield := out.mf } }
      if out.result < 0 then some (t1, out.mine_lists, status_t.stopped)
      else
        (play_moves s t1 out.mine_lists).bind fun r =>
          if r.2 then some (r.1, out.mine_lists, status_t.noguess)
          else
            (check_nonborder_sites s r.1 out.mine_lists).map fun c =>
              (c.1, out.mine_lists, if c.2 then status_t.noguess else status_t.guess)

/-- The function `solve_minefield`: the game it leaves, the log of the round and the value
returned. -/
def solve_minefield (s : settings) (g : game_t) (do_full_analysis : Bool) :
    Option (solver_t × status_t) :=
  (solve_minefield_round s g).map fun r =>
    (if do_full_analysis then do_nonborder_probabilities r.1 r.2.1 else r.1, r.2.2)

/-! ## Boards used as examples of a solver round -/

/-- A 3 x 3 board with its only mine in the centre `(2, 2)`: each of the other eight cells
has the mine for a neighbour and records 1.  Nothing is cleared or flagged. -/
def centre_board : minefield_t :=
  { number := 0, rows := 3, cols := 3, mines := 1, flags := 0, unmarked := 9, needed := 0,
    field := fun c r =>
      if 1 ≤ c ∧ c ≤ 3 ∧ 1 ≤ r ∧ r ≤ 3 then
        { MF_CELL_INITIALIZER with
          is_mine := decide (c = 2 ∧ r = 2),
          minesaround := if c = 2 ∧ r = 2 then 0 else 1 }
      else sentinel_cell }

/-- The settings `SETTINGS_INITIALIZER` with automatic play switched on. -/
def autoplay_settings : settings :=
  { SETTINGS_INITIALIZER with autoplay := true }

/-- A game on `centre_board` in progress with no button down. -/
def centre_game : game_t :=
  { corner_game with minefield := centre_board }

/-- A 5 x 5 board with its only mine in the corner `(1, 1)`: the cells `(1, 2)`, `(2, 1)` and
`(2, 2)` record 1, every other cell 0.  Nothing is cleared or flagged. -/
def mine_corner_board : minefield_t :=
  { number := 0, rows := 5, cols := 5, mines := 1, flags := 0, unmarked := 25, needed := 0,
    field := fun c r =>
      if 1 ≤ c ∧ c ≤ 5 ∧ 1 ≤ r ∧ r ≤ 5 then
        { MF_CELL_INITIALIZER with
          is_mine := decide (c = 1 ∧ r = 1),
          minesaround := if c ≤ 2 ∧ r ≤ 2 ∧ ¬ (c = 1 ∧ r = 1) then 1 else 0 }
      else sentinel_cell }

/-- The board `mine_corner_board` after `(2, 2)` was cleared, showing 1, while the board is
asked for (`needed = 1`). -/
def asked_board : minefield_t :=
  { mine_corner_board with
    unmarked := 24, needed := 1,
    field := fun c r =>
      if c = 2 ∧ r = 2 then { mine_corner_board.field c r with is_cleared := true }
      else mine_corner_board.field c r }

/-- A game on `asked_board` in progress with no button down. -/
def asked_game : game_t :=
  { corner_game with minefield := asked_board }

/-- A 5 x 5 board without a mine, nothing cleared or flagged. -/
def mineless_board : minefield_t :=
  { number := 0, rows := 5, cols := 5, mines := 0, flags := 0, unmarked := 25, needed := 0,
    field := fun c r =>
      if 1 ≤ c ∧ c ≤ 5 ∧ 1 ≤ r ∧ r ≤ 5 then MF_CELL_INITIALIZER else sentinel_cell }

/-- A game on `mineless_board` in progress with no button down. -/
def mineless_game : game_t :=
  { corner_game with minefield := mineless_board }

/-- The board `mineless_board` with its counter `unmarked` set to 0, which is not the number
of its unmarked cells. -/
def miscounted_board : minefield_t :=
  { mineless_board with unmarked := 0 }

/-- A game on `miscounted_board` in progress with no button down. -/
def miscounted_game : game_t :=
  { corner_game with minefield := miscounted_board }

/-- A 9 x 1 board with three mines, at `(3, 1)`, `(6, 1)` and `(7, 1)`: the cells `(2, 1)`,
`(4, 1)` and `(8, 1)` are cleared and show 1, the mine at `(6, 1)` carries a flag, and the
cells `(1, 1)`, `(3, 1)`, `(5, 1)`, `(7, 1)` and `(9, 1)` are untouched. -/
def retry_board : minefield_t :=
  { number := 0, rows := 1, cols := 9, mines := 3, flags := 1, unmarked := 5, needed := 0,
    field := fun c r =>
      if r = 1 ∧ (c = 2 ∨ c = 4 ∨ c = 8) then
        { MF_CELL_INITIALIZER with is_cleared := true, minesaround := 1 }
      else if r = 1 ∧ (c = 3 ∨ c = 7) then { MF_CELL_INITIALIZER with is_mine := true }
      else if r = 1 ∧ c = 6 then
        { MF_CELL_INITIALIZER with is_mine := true, is_flagged := true, minesaround := 1 }
      else if r = 1 ∧ c = 5 then { MF_CELL_INITIALIZER with minesaround := 1 }
      else if r = 1 ∧ (c = 1 ∨ c = 9) then MF_CELL_INITIALIZER
      else sentinel_cell }

/-- A click of the player: a press and a release of one button over the cell `(col, row)`;
`none` is passed on. -/
def click (g : Option game_t) (col row button : Int) : Option game_t :=
  g.bind fun g0 =>
    (make_move g0 col row button action_t.press).bind fun r1 =>
      (make_move r1.1 col row button action_t.release).map fun r2 => r2.1

/-- A game on a 5 x 5 board with one mine: `pre_game` with `RAND_MAX = 2147483647` and
`rand()` returning 0 puts the mine at `(1, 1)`; then the player puts a flag on `(1, 1)` and a
flag on `(5, 5)`, which holds no mine, and clears `(2, 2)`, which shows 1. -/
def extra_flag_played : Option game_t :=
  click (click (click (pre_game 2147483647 (fun _ => 0) SETTINGS_INITIALIZER 0 five_game 7)
    1 1 3) 5 5 3) 2 2 1

/-- The game on `centre_board` after `clear_square` at `(1, 1)`. -/
def centre_opened : game_t :=
  { centre_game with minefield := ((clear_square centre_board 1 1).getD (centre_board, 0)).1 }

/-! ## Vocabulary of the specification: a solver round -/

/-- The `flag_placements` of every site of the list lies between 0 and `arrangements`. -/
def placements_bounded (list : mine_list_t) : Prop :=
  0 ≤ list.arrangements ∧
  ∀ c ∈ list.cell, 0 ≤ c.flag_placements ∧ c.flag_placements ≤ list.arrangements

/-- What a move on the cell `(col, row)` may do to the marks of the board: a cleared cell
stays cleared, and every cell but `(col, row)` keeps `is_flagged`. -/
def marks_kept (col row : Int) (a b : minefield_t) : Prop :=
  ∀ c r, ((a.field c r).is_cleared = true → (b.field c r).is_cleared = true) ∧
    (¬ (c = col ∧ r = row) → (b.field c r).is_flagged = (a.field c r).is_flagged)

/-- The entries of the log for a clear or a flag move on `(col, row)`: the call of
`computer_move` and the probability 0.0 or 1.0 that it publishes. -/
def move_events (col row : Int) (cmd : moves_t) : List event_t :=
  [event_t.move col row cmd,
   event_t.probability col row (float_t.finite (if cmd = moves_t.flag then 1 else 0))]

/-- The entries of the log for a site of a list with the given `arrangements`. -/
def site_events (arrangements : Int) (cell : possible_mine_t) : List event_t :=
  if cell.flag_placements = 0 then move_events cell.col cell.row moves_t.clear
  else if cell.flag_placements = arrangements then move_events cell.col cell.row moves_t.flag
  else [event_t.probability cell.col cell.row
    (float_quotient cell.flag_placements arrangements)]

/-- The sites of a chain, each with the `arrangements` of its list, in the order of the
loops of `play_moves`. -/
def chain_sites (chain : List mine_list_t) : List (Int × possible_mine_t) :=
  chain.flatMap fun l => l.cell.map fun c => (l.arrangements, c)

/-- What `analyze_possible_mines` leaves of the clusters of `centre_opened`. -/
def centre_analysis : analysis_t :=
  (analyze_possible_mines centre_opened.minefield
    (find_possible_mines centre_opened.minefield MINE_LISTS_INITIALIZER)).getD
    { result := 0, mf := centre_opened.minefield, mine_lists := MINE_LISTS_INITIALIZER }

/-- The start of a solver round on `mineless_game`: nothing is in the log. -/
def mineless_start : solver_t :=
  { game := mineless_game, log := [] }

/-- The numerator of the mean density of `do_nonborder_probabilities` as a rational number:
`mines - flags` less the quotient `sum_flags / arrangements` of every list with
`arrangements > 0`. -/
def mean_numerator (mf : minefield_t) (mine_lists : mine_lists_t) : ℚ :=
  ((mf.mines - mf.flags : Int) : ℚ) -
    ((mine_lists.first.filter fun l => decide (l.arrangements > 0)).map
      fun l => (l.sum_flags : ℚ) / (l.arrangements : ℚ)).sum

/-- The start of a solver round on `miscounted_game`: nothing is in the log. -/
def miscounted_start : solver_t :=
  { game := miscounted_game, log := [] }

/-- What `analyze_possible_mines` leaves of the clusters of `asked_board`. -/
def asked_analysis : analysis_t :=
  (analyze_possible_mines asked_board
    (find_possible_mines asked_board MINE_LISTS_INITIALIZER)).getD
    { result := 0, mf := asked_board, mine_lists := MINE_LISTS_INITIALIZER }

/-! ## Vocabulary of the specification: the flood fill and the chord -/

/-- The flood fill between `a` and `b` is closed under the cells that show 0: around every
cell without a mine and with `minesaround == 0` that is cleared on `b` and was not on `a`,
every cell that is neither unavailable (a sentinel) nor flagged is cleared on `b`. -/
def flood_closed (a b : minefield_t) : Prop :=
  ∀ c r, (a.field c r).is_cleared = false → (b.field c r).is_cleared = true →
    (a.field c r).is_mine = false → (a.field c r).minesaround = 0 →
    ∀ p ∈ neighbours c r, (a.field p.1 p.2).is_unavailable = false →
      (a.field p.1 p.2).is_flagged = false → (b.field p.1 p.2).is_cleared = true

/-- The cell `(col, row)` is cleared, flagged or unavailable: `clear_square` has nothing left
to do there. -/
def square_settled (mf : minefield_t) (col row : Int) : Prop :=
  (mf.field col row).is_cleared = true ∨ (mf.field col row).is_flagged = true ∨
    (mf.field col row).is_unavailable = true

/-- The board `corner_board` after the player has cleared `(2, 2)`, which shows 1, and put a
flag on `(1, 1)`, which holds no mine. -/
def chord_board : minefield_t :=
  { number := 0, rows := 3, cols := 3, mines := 1, flags := 1, unmarked := 7, needed := 0,
    field := fun c r =>
      if 1 ≤ c ∧ c ≤ 3 ∧ 1 ≤ r ∧ r ≤ 3 then
        { MF_CELL_INITIALIZER with
          is_mine := decide (c = 3 ∧ r = 3),
          is_flagged := decide (c = 1 ∧ r = 1),
          is_cleared := decide (c = 2 ∧ r = 2),
          minesaround := if 2 ≤ c ∧ 2 ≤ r ∧ ¬ (c = 3 ∧ r = 3) then 1 else 0 }
      else sentinel_cell }

/-- A game on `chord_board` with both buttons down on the cell `(2, 2)`. -/
def chord_game : game_t :=
  { corner_game with minefield := chord_board, buttons_down := 2, last_col := 2, last_row := 2 }

/-! ## Vocabulary of the specification: connected clusters -/

/-- The sites `a` and `b` are linked inside `cells`: a chain of sites of `cells` leads from
`a` to `b` in which `are_dependant` is true of each site and the next. -/
def linked (mf : minefield_t) (cells : List possible_mine_t) (a b : possible_mine_t) : Prop :=
  Relation.ReflTransGen
    (fun x y => x ∈ cells ∧ y ∈ cells ∧ are_dependant mf x.col x.row y.col y.row = true) a b

/-- Any two sites of the list are linked inside the list. -/
def cluster_connected (mf : minefield_t) (list : mine_list_t) : Prop :=
  ∀ a ∈ list.cell, ∀ b ∈ list.cell, linked mf list.cell a b

/-! ## Vocabulary of the specification: sites that cannot hold a mine -/

/-- Every cleared neighbour of `(col, row)` has fewer flagged neighbours than its
`minesaround`: the second condition of the mined branch of `_analyze_list`. -/
def flag_allowed (mf : minefield_t) (col row : Int) : Prop :=
  ∀ n ∈ neighbours col row, (minefield_cell mf n.1 n.2).is_cleared = true →
    FLAGSAROUND mf n.1 n.2 < ((minefield_cell mf n.1 n.2).minesaround : Int)

/-- The cell `(col, row)` has a cleared neighbour whose number of flagged neighbours equals
its `minesaround`. -/
def has_full_neighbour (mf : minefield_t) (col row : Int) : Prop :=
  ∃ n ∈ neighbours col row, unmarked_neighbours_must_be_cleared mf n.1 n.2 = true

/-- The sum of the `min_flags` of the lists of a chain. -/
def sum_min_flags (chain : List mine_list_t) : Int :=
  (chain.map fun l => l.min_flags).sum

/-- What `analyze_possible_mines` leaves of the clusters of `flagged_end_board`. -/
def flagged_end_analysis : analysis_t :=
  (analyze_possible_mines flagged_end_board
    (find_possible_mines flagged_end_board MINE_LISTS_INITIALIZER)).getD
    { result := 0, mf := flagged_end_board, mine_lists := MINE_LISTS_INITIALIZER }

/-- A 5 x 1 board with its only mine at `(1, 1)` under a flag; the cell `(2, 1)` is cleared
and shows 1, the cells `(3, 1)`, `(4, 1)` and `(5, 1)` are untouched. -/
def nonborder_board : minefield_t :=
  { number := 0, rows := 1, cols := 5, mines := 1, flags := 1, unmarked := 3, needed := 0,
    field := fun c r =>
      if r = 1 ∧ c = 1 then { MF_CELL_INITIALIZER with is_mine := true, is_flagged := true }
      else if r = 1 ∧ c = 2 then { MF_CELL_INITIALIZER with is_cleared := true, minesaround := 1 }
      else if r = 1 ∧ (c = 3 ∨ c = 4 ∨ c = 5) then MF_CELL_INITIALIZER
      else sentinel_cell }

/-- A game on `nonborder_board` in progress with no button down. -/
def nonborder_game : game_t :=
  { corner_game with minefield := nonborder_board }

/-! ## Vocabulary of the specification: a round while the board is asked for -/

/-- Some branch of the search of the list, with its sites in the order `optimize_list` leaves
them in, passes every guard up to the end of the list, where `needed` is tested. -/
def branch_reaches_end (mf : minefield_t) (list : mine_list_t) : Prop :=
  (assignments list.cell.length).any (reaches mf (optimize_list mf list).1.cell 0) = true

/-- A game on `wrong_flag_board` in progress with no button down. -/
def wrong_flag_game : game_t :=
  { corner_game with minefield := wrong_flag_board }

/-! ## A game that ends won and lost -/

/-- A game on a 5 x 5 board with one mine: `pre_game` with `RAND_MAX = 2147483647` and
`rand()` returning 0 puts the mine at `(1, 1)`; then the player puts a flag on `(5, 5)`, which
holds no mine, and clears `(3, 3)`, which shows 0: the flood fill clears every cell but
`(1, 1)` and `(5, 5)`. -/
def wrong_flag_played : Option game_t :=
  click (click (pre_game 2147483647 (fun _ => 0) SETTINGS_INITIALIZER 0 five_game 7)
    5 5 3) 3 3 1

/-- The game `wrong_flag_played` after the player has cleared `(1, 1)`, the mine. -/
def won_and_lost_played : Option game_t :=
  click wrong_flag_played 1 1 1

/-! # Proofs -/

/-! ## Ranges and counting -/

theorem mem_loop_range (n k : Int) : k ∈ loop_range n ↔ 1 ≤ k ∧ k ≤ n := by
  unfold loop_range
  simp only [List.mem_map, List.mem_range]
  constructor
  · rintro ⟨a, ha, rfl⟩
    omega
  · intro h
    exact ⟨(k - 1).toNat, by omega, by omega⟩

theorem nodup_loop_range (n : Int) : (loop_range n).Nodup := by
  unfold loop_range
  refine List.Nodup.map ?_ (List.nodup_range _)
  intro a b h
  simp only at h
  omega

theorem mem_index_range (n k : Int) : k ∈ index_range n ↔ 0 ≤ k ∧ k < n := by
  unfold index_range
  simp only [List.mem_map, List.mem_range]
  constructor
  · rintro ⟨a, ha, rfl⟩
    omega
  · intro h
    exact ⟨k.toNat, by omega, by omega⟩

theorem mem_playable_cells (mf : minefield_t) (c r : Int) :
    (c, r) ∈ playable_cells mf ↔ in_range mf c r := by
  unfold playable_cells in_range
  simp only [List.mem_flatMap, List.mem_map, Prod.mk.injEq, mem_loop_range]
  constructor
  · rintro ⟨a, ha, b, hb, rfl, rfl⟩
    exact ⟨ha, hb⟩
  · rintro ⟨h1, h2⟩
    exact ⟨c, h1, r, h2, rfl, rfl⟩

theorem mem_array_positions (mf : minefield_t) (c r : Int) :
    (c, r) ∈ array_positions mf ↔ in_array mf c r := by
  unfold array_positions in_array
  simp only [List.mem_flatMap, List.mem_map, Prod.mk.injEq, mem_index_range]
  constructor
  · rintro ⟨a, ha, b, hb, rfl, rfl⟩
    omega
  · rintro ⟨h1, h2⟩
    exact ⟨c, by omega, r, by omega, rfl, rfl⟩

theorem nodup_playable_cells (mf : minefield_t) : (playable_cells mf).Nodup := by
  unfold playable_cells
  rw [List.nodup_flatMap]
  constructor
  · intro c _
    refine List.Nodup.map ?_ (nodup_loop_range _)
    intro a b h
    simpa using h
  · refine List.Pairwise.imp_of_mem ?_ (nodup_loop_range mf.cols)
    intro a b _ _ hab
    simp only [Function.onFun, List.Disjoint, List.mem_map]
    rintro ⟨x, y⟩ ⟨r1, _, h1⟩ ⟨r2, _, h2⟩
    simp only [Prod.mk.injEq] at h1 h2
    exact hab (h1.1.trans h2.1.symm)

theorem countP_change_at {α : Type} (l : List α) (hl : l.Nodup) (q : α) (hq : q ∈ l)
    (f g : α → Bool) (hfg : ∀ x, x ≠ q → g x = f x) :
    (l.countP g : Int) + b2i (f q) = l.countP f + b2i (g q) := by
  induction l with
  | nil => simp at hq
  | cons a t ih =>
    rw [List.nodup_cons] at hl
    rw [List.countP_cons, List.countP_cons]
    by_cases haq : a = q
    · subst haq
      have : t.countP g = t.countP f := by
        apply List.countP_congr
        intro x hx
        rw [hfg x (fun h => hl.1 (h ▸ hx))]
      rw [this]
      unfold b2i
      cases f a <;> cases g a <;> simp
    · have hq' : q ∈ t := by
        rcases List.mem_cons.1 hq with h | h
        · exact absurd h.symm haq
        · exact h
      have := ih hl.2 hq'
      rw [hfg a haq]
      push_cast
      omega

theorem sentinel_of_border (mf : minefield_t) (hb : sentinel_border mf) (c r : Int)
    (ha : in_array mf c r) (hn : ¬ in_range mf c r) :
    (mf.field c r).is_unavailable = true :=
  hb (c, r) ((mem_array_positions mf c r).2 ha) (fun h => hn ((mem_playable_cells mf c r).1 h))

theorem in_range_of_available (mf : minefield_t) (hb : sentinel_border mf) (c r : Int)
    (ha : in_array mf c r) (hv : IS_AVAILABLE mf c r = true) : in_range mf c r := by
  by_contra hn
  have := sentinel_of_border mf hb c r ha hn
  simp [IS_AVAILABLE, minefield_cell, this] at hv

theorem in_array_of_near (mf : minefield_t) (c r i j : Int) (h : in_range mf c r)
    (hi : (i - c).natAbs ≤ 1) (hj : (j - r).natAbs ≤ 1) : in_array mf i j := by
  unfold in_range at h
  unfold in_array
  omega

theorem count_cells_store (mf : minefield_t) (col row : Int) (h : in_range mf col row)
    (c : mf_cell_t) (p : mf_cell_t → Bool) :
    (count_cells (store_cell mf col row c) p : Int) + b2i (p (mf.field col row))
      = count_cells mf p + b2i (p c) := by
  have key := countP_change_at (playable_cells mf) (nodup_playable_cells mf) (col, row)
    ((mem_playable_cells mf col row).2 h)
    (fun q => p (minefield_cell mf q.1 q.2))
    (fun q => p (minefield_cell (store_cell mf col row c) q.1 q.2))
    (by
      rintro ⟨x, y⟩ hxy
      have : ¬ (x = col ∧ y = row) := fun hh => hxy (by rw [hh.1, hh.2])
      simp [minefield_cell, store_cell, this])
  simpa [count_cells, minefield_cell, store_cell, playable_cells] using key

theorem count_cells_congr (mf mf' : minefield_t) (p p' : mf_cell_t → Bool)
    (hr : mf'.rows = mf.rows) (hc : mf'.cols = mf.cols)
    (h : ∀ c r, in_range mf c r → p' (mf'.field c r) = p (mf.field c r)) :
    count_cells mf' p' = count_cells mf p := by
  unfold count_cells
  have : playable_cells mf' = playable_cells mf := by unfold playable_cells; rw [hr, hc]
  rw [this]
  apply List.countP_congr
  rintro ⟨x, y⟩ hxy
  have := h x y ((mem_playable_cells mf x y).1 hxy)
  simp [minefield_cell, this]

theorem count_cells_le (mf mf' : minefield_t) (p p' : mf_cell_t → Bool)
    (hr : mf'.rows = mf.rows) (hc : mf'.cols = mf.cols)
    (h : ∀ c r, in_range mf c r → p' (mf'.field c r) = true → p (mf.field c r) = true) :
    count_cells mf' p' ≤ count_cells mf p := by
  unfold count_cells
  have : playable_cells mf' = playable_cells mf := by unfold playable_cells; rw [hr, hc]
  rw [this]
  apply List.countP_mono_left
  rintro ⟨x, y⟩ hxy
  exact h x y ((mem_playable_cells mf x y).1 hxy)

/-! ## The effect of `clear_square` -/

theorem cleared_from_refl (mf : minefield_t) : cleared_from mf mf :=
  ⟨rfl, rfl, rfl, rfl, rfl, rfl, fun _ _ => Or.inl rfl⟩

theorem cleared_from_trans {a b c : minefield_t} (h1 : cleared_from a b)
    (h2 : cleared_from b c) : cleared_from a c := by
  obtain ⟨n1, r1, c1, m1, f1, d1, k1⟩ := h1
  obtain ⟨n2, r2, c2, m2, f2, d2, k2⟩ := h2
  refine ⟨n2.trans n1, r2.trans r1, c2.trans c1, m2.trans m1, f2.trans f1, d2.trans d1,
    fun i j => ?_⟩
  rcases k2 i j with e2 | ⟨hr, hav, hfl, e2⟩
  · rcases k1 i j with e1 | ⟨hr1, hav1, hfl1, e1⟩
    · left; rw [e2, e1]
    · right; exact ⟨hr1, hav1, hfl1, by rw [e2, e1]⟩
  · rcases k1 i j with e1 | ⟨hr1, hav1, hfl1, e1⟩
    · right
      refine ⟨?_, ?_, ?_, ?_⟩
      · unfold in_range at hr ⊢; rw [r1, c1] at hr; exact hr
      · simpa [IS_AVAILABLE, minefield_cell, e1] using hav
      · rw [← e1]; exact hfl
      · rw [e2, e1]
    · exfalso
      simp [IS_AVAILABLE, minefield_cell, e1] at hav

theorem cleared_from_is_mine {a b : minefield_t} (h : cleared_from a b) (c r : Int) :
    (b.field c r).is_mine = (a.field c r).is_mine := by
  rcases h.2.2.2.2.2.2 c r with e | ⟨_, _, _, e⟩ <;> rw [e]

theorem cleared_from_is_flagged {a b : minefield_t} (h : cleared_from a b) (c r : Int) :
    (b.field c r).is_flagged = (a.field c r).is_flagged := by
  rcases h.2.2.2.2.2.2 c r with e | ⟨_, _, _, e⟩ <;> rw [e]

theorem cleared_from_minesaround {a b : minefield_t} (h : cleared_from a b) (c r : Int) :
    (b.field c r).minesaround = (a.field c r).minesaround := by
  rcases h.2.2.2.2.2.2 c r with e | ⟨_, _, _, e⟩ <;> rw [e]

theorem cleared_from_is_unavailable {a b : minefield_t} (h : cleared_from a b) (c r : Int) :
    (b.field c r).is_unavailable = (a.field c r).is_unavailable := by
  rcases h.2.2.2.2.2.2 c r with e | ⟨_, _, _, e⟩ <;> rw [e]

theorem cleared_from_is_pressed {a b : minefield_t} (h : cleared_from a b) (c r : Int) :
    (b.field c r).is_pressed = (a.field c r).is_pressed := by
  rcases h.2.2.2.2.2.2 c r with e | ⟨_, _, _, e⟩ <;> rw [e]

theorem cleared_from_is_cleared {a b : minefield_t} (h : cleared_from a b) (c r : Int)
    (hc : (a.field c r).is_cleared = true) : (b.field c r).is_cleared = true := by
  rcases h.2.2.2.2.2.2 c r with e | ⟨_, _, _, e⟩ <;> rw [e]
  exact hc

theorem cleared_from_outside {a b : minefield_t} (h : cleared_from a b) (c r : Int)
    (hn : ¬ in_range a c r) : b.field c r = a.field c r := by
  rcases h.2.2.2.2.2.2 c r with e | ⟨hr, _⟩
  · exact e
  · exact absurd hr hn

theorem cleared_from_playable {a b : minefield_t} (h : cleared_from a b) :
    playable_cells b = playable_cells a := by
  unfold playable_cells; rw [h.2.1, h.2.2.1]

theorem cleared_from_in_array {a b : minefield_t} (h : cleared_from a b) (c r : Int) :
    in_array b c r ↔ in_array a c r := by
  unfold in_array; rw [h.2.1, h.2.2.1]

theorem cleared_from_in_range {a b : minefield_t} (h : cleared_from a b) (c r : Int) :
    in_range b c r ↔ in_range a c r := by
  unfold in_range; rw [h.2.1, h.2.2.1]

theorem cleared_from_border {a b : minefield_t} (h : cleared_from a b)
    (hb : sentinel_border a) : sentinel_border b := by
  rintro ⟨c, r⟩ hp hn
  have ha : in_array a c r := (cleared_from_in_array h c r).1 ((mem_array_positions b c r).1 hp)
  have hr : ¬ in_range a c r := fun hh =>
    hn ((mem_playable_cells b c r).2 ((cleared_from_in_range h c r).2 hh))
  show (b.field c r).is_unavailable = true
  rw [cleared_from_is_unavailable h]
  exact sentinel_of_border a hb c r ha hr

theorem cleared_from_available_le {a b : minefield_t} (h : cleared_from a b) :
    available_count b ≤ available_count a := by
  apply count_cells_le a b _ _ h.2.1 h.2.2.1
  intro c r _
  rcases h.2.2.2.2.2.2 c r with e | ⟨_, _, _, e⟩ <;> rw [e]
  · exact id
  · simp

theorem cleared_from_zero_means_safe {a b : minefield_t} (h : cleared_from a b)
    (hz : zero_means_safe a) : zero_means_safe b := by
  intro c r hr h0 i j hi hj hne
  rw [cleared_from_is_mine h]
  rw [cleared_from_minesaround h] at h0
  exact hz c r ((cleared_from_in_range h c r).1 hr) h0 i j hi hj hne

theorem no_mine_cleared_trans {a b c : minefield_t} (hbc : cleared_from b c)
    (h1 : no_mine_cleared a b) (h2 : no_mine_cleared b c) : no_mine_cleared a c := by
  intro i j hc hm
  have := h2 i j hc hm
  exact h1 i j this (by rw [← cleared_from_is_mine hbc]; exact hm)

theorem clear_effect_refl (mf : minefield_t) : clear_effect mf mf 0 :=
  ⟨cleared_from_refl mf, by ring, by ring⟩

theorem clear_effect_trans {a b c : minefield_t} {n m : Int} (h1 : clear_effect a b n)
    (h2 : clear_effect b c m) : clear_effect a c (n + m) := by
  obtain ⟨f1, e1, u1⟩ := h1
  obtain ⟨f2, e2, u2⟩ := h2
  refine ⟨cleared_from_trans f1 f2, ?_, ?_⟩
  · rw [e1, e2, f1.2.1, f1.2.2.1]; ring
  · rw [u2, u1]; ring

theorem clear_effect_step (mf : minefield_t) (col row : Int) (hin : in_range mf col row)
    (hav : IS_AVAILABLE mf col row = true) (hfl : (mf.field col row).is_flagged = false) :
    clear_effect mf
      (store_cell { mf with unmarked := mf.unmarked - 1 } col row
        { mf.field col row with is_cleared := true })
      (if (mf.field col row).is_mine then -mf.rows * mf.cols else 1) := by
  have hcl : (mf.field col row).is_cleared = false := by
    simp [IS_AVAILABLE, minefield_cell] at hav; exact hav.1
  have hs := count_cells_store { mf with unmarked := mf.unmarked - 1 } col row hin
    { mf.field col row with is_cleared := true } (fun c => c.is_cleared && !c.is_mine)
  have hm := count_cells_store { mf with unmarked := mf.unmarked - 1 } col row hin
    { mf.field col row with is_cleared := true } (fun c => c.is_cleared && c.is_mine)
  have hs0 : count_cells { mf with unmarked := mf.unmarked - 1 }
      (fun c => c.is_cleared && !c.is_mine) = cleared_safe mf := rfl
  have hm0 : count_cells { mf with unmarked := mf.unmarked - 1 }
      (fun c => c.is_cleared && c.is_mine) = cleared_mines mf := rfl
  rw [hs0] at hs
  rw [hm0] at hm
  simp only [hcl, Bool.false_and, Bool.true_and] at hs hm
  have hs1 : b2i false = 0 := rfl
  rw [hs1, add_zero] at hs hm
  refine ⟨⟨rfl, rfl, rfl, rfl, rfl, rfl, fun c r => ?_⟩, ?_, ?_⟩
  · by_cases h : c = col ∧ r = row
    · right
      obtain ⟨rfl, rfl⟩ := h
      exact ⟨hin, hav, hfl, by simp [store_cell]⟩
    · left
      simp [store_cell, h]
  · show _ = ((count_cells _ (fun c => c.is_cleared && !c.is_mine) : Int) - cleared_safe mf)
      - mf.rows * mf.cols * ((count_cells _ (fun c => c.is_cleared && c.is_mine) : Int)
        - cleared_mines mf)
    rw [hs, hm]
    cases (mf.field col row).is_mine <;> simp [b2i]
  · show mf.unmarked - 1 = mf.unmarked -
      (((count_cells _ (fun c => c.is_cleared && !c.is_mine) : Int) - cleared_safe mf)
      + ((count_cells _ (fun c => c.is_cleared && c.is_mine) : Int) - cleared_mines mf))
    rw [hs, hm]
    cases (mf.field col row).is_mine <;> simp [b2i]

theorem for_each_neighbour_acc_spec (f : minefield_t → Int → Int → Option (minefield_t × Int))
    (I : minefield_t → Prop) (R : minefield_t → minefield_t → Int → Prop) (i j : Int)
    (hf : ∀ mf c r, I mf → (c - i).natAbs ≤ 1 → (r - j).natAbs ≤ 1 →
      ∃ mf' n, f mf c r = some (mf', n) ∧ I mf' ∧ R mf mf' n)
    (htrans : ∀ a b c n m, R a b n → R b c m → R a c (n + m))
    (mf : minefield_t) (hI : I mf) :
    ∃ mf' n, for_each_neighbour_acc f mf i j = some (mf', n) ∧ I mf' ∧ R mf mf' n := by
  obtain ⟨m1, n1, e1, i1, r1⟩ := hf mf (i-1) (j-1) hI (by omega) (by omega)
  obtain ⟨m2, n2, e2, i2, r2⟩ := hf m1 (i-1) j i1 (by omega) (by omega)
  obtain ⟨m3, n3, e3, i3, r3⟩ := hf m2 (i-1) (j+1) i2 (by omega) (by omega)
  obtain ⟨m4, n4, e4, i4, r4⟩ := hf m3 i (j-1) i3 (by omega) (by omega)
  obtain ⟨m5, n5, e5, i5, r5⟩ := hf m4 i (j+1) i4 (by omega) (by omega)
  obtain ⟨m6, n6, e6, i6, r6⟩ := hf m5 (i+1) (j-1) i5 (by omega) (by omega)
  obtain ⟨m7, n7, e7, i7, r7⟩ := hf m6 (i+1) j i6 (by omega) (by omega)
  obtain ⟨m8, n8, e8, i8, r8⟩ := hf m7 (i+1) (j+1) i7 (by omega) (by omega)
  refine ⟨m8, n1 + n2 + n3 + n4 + n5 + n6 + n7 + n8, ?_, i8, ?_⟩
  · simp [for_each_neighbour_acc, e1, e2, e3, e4, e5, e6, e7, e8]
  · exact htrans _ _ _ _ _ (htrans _ _ _ _ _ (htrans _ _ _ _ _ (htrans _ _ _ _ _
      (htrans _ _ _ _ _ (htrans _ _ _ _ _ (htrans _ _ _ _ _ r1 r2) r3) r4) r5) r6) r7) r8

theorem available_count_step (mf : minefield_t) (col row : Int) (hin : in_range mf col row)
    (hav : IS_AVAILABLE mf col row = true) :
    available_count (store_cell { mf with unmarked := mf.unmarked - 1 } col row
      { mf.field col row with is_cleared := true }) + 1 = available_count mf := by
  have := count_cells_store { mf with unmarked := mf.unmarked - 1 } col row hin
    { mf.field col row with is_cleared := true }
    (fun c => !(c.is_cleared || c.is_unavailable))
  have h0 : count_cells { mf with unmarked := mf.unmarked - 1 }
      (fun c => !(c.is_cleared || c.is_unavailable)) = available_count mf := rfl
  rw [h0] at this
  have hav' : (!((mf.field col row).is_cleared || (mf.field col row).is_unavailable))
      = true := hav
  simp only [hav', Bool.true_or, Bool.not_true, b2i, if_true, Bool.false_eq_true,
    if_false] at this
  have h2 : (available_count (store_cell { mf with unmarked := mf.unmarked - 1 } col row
      { mf.field col row with is_cleared := true }) : Int) + 1 = available_count mf + 0 := this
  omega

theorem no_mine_cleared_refl (mf : minefield_t) : no_mine_cleared mf mf :=
  fun _ _ h _ => h

theorem clear_square_fuel_effect (fuel : Nat) : ∀ (mf : minefield_t) (col row : Int),
    sentinel_border mf → in_array mf col row → available_count mf < fuel →
    ∃ mf' n, clear_square_fuel fuel mf col row = some (mf', n) ∧ clear_effect mf mf' n ∧
      (zero_means_safe mf → (mf.field col row).is_mine = false → no_mine_cleared mf mf') ∧
      (IS_AVAILABLE mf col row = true → (mf.field col row).is_flagged = false →
        (mf'.field col row).is_cleared = true) := by
  induction fuel with
  | zero => intro mf col row _ _ h; omega
  | succ fuel ih =>
    intro mf col row hb ha hfuel
    unfold clear_square_fuel
    by_cases hno : (!IS_AVAILABLE mf col row || (minefield_cell mf col row).is_flagged) = true
    · rw [if_pos hno]
      refine ⟨mf, 0, rfl, clear_effect_refl mf, fun _ _ => no_mine_cleared_refl mf, ?_⟩
      intro h1 h2
      simp [h1, h2, minefield_cell] at hno
    · rw [if_neg hno]
      have hav : IS_AVAILABLE mf col row = true := by
        cases h : IS_AVAILABLE mf col row <;> simp [h] at hno ⊢
      have hfl : (mf.field col row).is_flagged = false := by
        cases h : (mf.field col row).is_flagged <;> simp [h, minefield_cell] at hno ⊢
      have hin : in_range mf col row := in_range_of_available mf hb col row ha hav
      have hstep := clear_effect_step mf col row hin hav hfl
      have hmine2 : (minefield_cell (store_cell { mf with unmarked := mf.unmarked - 1 } col row
          { minefield_cell { mf with unmarked := mf.unmarked - 1 } col row with
            is_cleared := true }) col row).is_mine = (mf.field col row).is_mine := by
        simp [minefield_cell, store_cell]
      have hma2 : (minefield_cell (store_cell { mf with unmarked := mf.unmarked - 1 } col row
          { minefield_cell { mf with unmarked := mf.unmarked - 1 } col row with
            is_cleared := true }) col row).minesaround = (mf.field col row).minesaround := by
        simp [minefield_cell, store_cell]
      simp only [hmine2, hma2]
      have hnm2 : (mf.field col row).is_mine = false → no_mine_cleared mf
          (store_cell { mf with unmarked := mf.unmarked - 1 } col row
            { mf.field col row with is_cleared := true }) := by
        intro hm c r hc hmn
        by_cases h : c = col ∧ r = row
        · obtain ⟨rfl, rfl⟩ := h
          simp [store_cell, hm] at hmn
        · simpa [store_cell, h] using hc
      cases hmine : (mf.field col row).is_mine
      · rw [hmine] at hstep
        simp only [Bool.false_eq_true, if_false] at hstep ⊢
        by_cases hzero : (mf.field col row).minesaround = 0
        · rw [if_pos hzero]
          have havc : available_count (store_cell { mf with unmarked := mf.unmarked - 1 } col row
              { mf.field col row with is_cleared := true }) < fuel := by
            have h1 : available_count (store_cell { mf with unmarked := mf.unmarked - 1 } col row
              { mf.field col row with is_cleared := true }) + 1 = available_count mf :=
              available_count_step mf col row hin hav
            omega
          obtain ⟨m8, n8, e8, i8, r8⟩ := for_each_neighbour_acc_spec (clear_square_fuel fuel)
            (fun m => cleared_from (store_cell { mf with unmarked := mf.unmarked - 1 } col row
              { mf.field col row with is_cleared := true }) m)
            (fun a b n => clear_effect a b n ∧ (zero_means_safe mf → no_mine_cleared a b))
            col row
            (by
              intro m c r hI hc hr
              have hfrom := cleared_from_trans hstep.1 hI
              have hbm : sentinel_border m := cleared_from_border hfrom hb
              have ham : in_array m c r :=
                (cleared_from_in_array hfrom c r).2 (in_array_of_near mf col row c r hin hc hr)
              have hfm : available_count m < fuel :=
                lt_of_le_of_lt (cleared_from_available_le hI) havc
              obtain ⟨m', n, e, eff, nm, _⟩ := ih m c r hbm ham hfm
              refine ⟨m', n, e, cleared_from_trans hI eff.1, eff, fun hz => ?_⟩
              apply nm (cleared_from_zero_means_safe hfrom hz)
              rw [cleared_from_is_mine hfrom]
              by_cases hcen : c = col ∧ r = row
              · rw [hcen.1, hcen.2]; exact hmine
              · exact hz col row hin hzero c r hc hr (by omega))
            (by
              intro a b c n m h1 h2
              exact ⟨clear_effect_trans h1.1 h2.1,
                fun hz => no_mine_cleared_trans h2.1.1 (h1.2 hz) (h2.2 hz)⟩)
            _ (cleared_from_refl _)
          refine ⟨m8, 1 + n8, ?_, clear_effect_trans hstep r8.1, fun hz _ => ?_, fun _ _ => ?_⟩
          · show Option.map _ (for_each_neighbour_acc (clear_square_fuel fuel) _ col row) = _
            have e8' : for_each_neighbour_acc (clear_square_fuel fuel)
              (store_cell { mf with unmarked := mf.unmarked - 1 } col row
                { minefield_cell { mf with unmarked := mf.unmarked - 1 } col row with
                  is_cleared := true }) col row = some (m8, n8) := e8
            rw [e8']
            rfl
          · exact no_mine_cleared_trans r8.1.1 (hnm2 hmine) (r8.2 hz)
          · exact cleared_from_is_cleared i8 col row (by simp [store_cell])
        · rw [if_neg hzero]
          exact ⟨_, 1, rfl, hstep, fun _ _ => hnm2 hmine, fun _ _ => by simp [store_cell]⟩
      · rw [hmine] at hstep
        simp only [if_true] at hstep ⊢
        exact ⟨_, _, rfl, hstep, fun _ hm => by simp at hm, fun _ _ => by simp [store_cell]⟩

theorem length_loop_range (n : Int) : (loop_range n).length = n.toNat := by
  simp [loop_range]

theorem length_playable_cells (mf : minefield_t) :
    (playable_cells mf).length = mf.cols.toNat * mf.rows.toNat := by
  unfold playable_cells
  rw [List.length_flatMap]
  have : (List.length ∘ fun col : Int => List.map (fun row : Int => (col, row))
      (loop_range mf.rows)) = fun _ => mf.rows.toNat := by
    funext col
    simp [length_loop_range]
  rw [this]
  simp [length_loop_range]

theorem available_count_lt_fuel (mf : minefield_t) :
    available_count mf < array_cells mf + 1 := by
  have h1 : available_count mf ≤ (playable_cells mf).length := List.countP_le_length _
  rw [length_playable_cells] at h1
  have h2 : mf.cols.toNat * mf.rows.toNat ≤ array_cells mf := by
    unfold array_cells
    rcases le_or_lt mf.cols 0 with hc | hc
    · have : mf.cols.toNat = 0 := by omega
      rw [this]; omega
    · rcases le_or_lt mf.rows 0 with hr | hr
      · have : mf.rows.toNat = 0 := by omega
        rw [this]; omega
      · have e1 : ((mf.cols.toNat * mf.rows.toNat : Nat) : Int) = mf.cols * mf.rows := by
          push_cast
          rw [Int.toNat_of_nonneg hc.le, Int.toNat_of_nonneg hr.le]
        have e2 : mf.cols * mf.rows ≤ (mf.rows + 2) * (mf.cols + 2) := by nlinarith
        have e3 : 0 ≤ (mf.rows + 2) * (mf.cols + 2) := by nlinarith
        omega
  omega

theorem clear_square_effect (mf : minefield_t) (col row : Int) (hb : sentinel_border mf)
    (ha : in_array mf col row) :
    ∃ mf' n, clear_square mf col row = some (mf', n) ∧ clear_effect mf mf' n ∧
      (zero_means_safe mf → (mf.field col row).is_mine = false → no_mine_cleared mf mf') ∧
      (IS_AVAILABLE mf col row = true → (mf.field col row).is_flagged = false →
        (mf'.field col row).is_cleared = true) :=
  clear_square_fuel_effect _ mf col row hb ha (available_count_lt_fuel mf)

theorem in_array_of_in_range (mf : minefield_t) (c r : Int) (h : in_range mf c r) :
    in_array mf c r := by
  unfold in_range at h; unfold in_array; omega

theorem zero_means_safe_of_correct (mf : minefield_t) (h : minesaround_correct mf) :
    zero_means_safe mf := by
  intro c r hin h0 i j hi hj hne
  have hc := h (c, r) ((mem_playable_cells mf c r).2 hin)
  simp only [minefield_cell] at hc
  rw [h0] at hc
  unfold mines_around for_each_neighbour_sum at hc
  beta_reduce at hc
  have nn : ∀ a b, 0 ≤ b2i (IS_MINE mf a b) := by
    intro a b; unfold b2i; split <;> omega
  have z : ∀ a b, b2i (IS_MINE mf a b) = 0 → (mf.field a b).is_mine = false := by
    intro a b hab
    unfold b2i IS_MINE minefield_cell at hab
    cases hh : (mf.field a b).is_mine
    · rfl
    · rw [hh] at hab; simp at hab
  have n1 := nn (c-1) (r-1)
  have n2 := nn (c-1) r
  have n3 := nn (c-1) (r+1)
  have n4 := nn c (r-1)
  have n5 := nn c (r+1)
  have n6 := nn (c+1) (r-1)
  have n7 := nn (c+1) r
  have n8 := nn (c+1) (r+1)
  have hi' : i = c - 1 ∨ i = c ∨ i = c + 1 := by omega
  have hj' : j = r - 1 ∨ j = r ∨ j = r + 1 := by omega
  apply z
  rcases hi' with rfl | rfl | rfl <;> rcases hj' with rfl | rfl | rfl <;> omega

theorem countP_add_of_split {α : Type} (l : List α) (p q r : α → Bool)
    (h : ∀ x ∈ l, (r x = true ↔ (p x = true ∨ q x = true)) ∧ ¬ (p x = true ∧ q x = true)) :
    l.countP r = l.countP p + l.countP q := by
  induction l with
  | nil => rfl
  | cons a t ih =>
    have ha := h a (List.mem_cons_self a t)
    have := ih (fun x hx => h x (List.mem_cons_of_mem a hx))
    rw [List.countP_cons, List.countP_cons, List.countP_cons, this]
    cases hp : p a <;> cases hq : q a <;> cases hr : r a <;> simp [hp, hq, hr] at ha ⊢ <;> omega

theorem cleared_count_split (mf : minefield_t) :
    cleared_count mf = cleared_safe mf + cleared_mines mf := by
  unfold cleared_count cleared_safe cleared_mines count_cells
  apply countP_add_of_split
  intro x _
  cases h1 : (minefield_cell mf x.1 x.2).is_cleared <;>
    cases h2 : (minefield_cell mf x.1 x.2).is_mine <;> simp [h1, h2]

theorem newly_cleared_add (mf mf' : minefield_t) (h : cleared_from mf mf') :
    newly_cleared mf mf' + cleared_count mf = cleared_count mf' := by
  unfold newly_cleared cleared_count count_cells
  rw [cleared_from_playable h]
  symm
  apply countP_add_of_split
  rintro ⟨c, r⟩ _
  have := cleared_from_is_cleared h c r
  simp only [minefield_cell]
  cases h1 : (mf.field c r).is_cleared <;> cases h2 : (mf'.field c r).is_cleared <;>
    simp [h1, h2] at this ⊢

theorem cleared_mines_eq (mf mf' : minefield_t) (h : cleared_from mf mf')
    (hn : no_mine_cleared mf mf') : cleared_mines mf' = cleared_mines mf := by
  apply count_cells_congr mf mf' _ _ h.2.1 h.2.2.1
  intro c r _
  have h1 := cleared_from_is_cleared h c r
  have h2 := hn c r
  have h3 := cleared_from_is_mine h c r
  rw [h3] at h2 ⊢
  cases ha : (mf.field c r).is_cleared <;> cases hb : (mf'.field c r).is_cleared <;>
    cases hc : (mf.field c r).is_mine <;> simp [ha, hb, hc] at h1 h2 ⊢

theorem counters_ok_of_clear_effect (mf mf' : minefield_t) (n : Int)
    (h : clear_effect mf mf' n) (hc : counters_ok mf) : counters_ok mf' := by
  obtain ⟨hf, _, hu⟩ := h
  have hfl : flagged_count mf' = flagged_count mf :=
    count_cells_congr mf mf' _ _ hf.2.1 hf.2.2.1
      (fun c r _ => cleared_from_is_flagged hf c r)
  have s1 := cleared_count_split mf
  have s2 := cleared_count_split mf'
  unfold counters_ok at hc ⊢
  rw [hfl, hf.2.2.2.2.1, hu, hf.2.1, hf.2.2.1, s2, hc.2, s1]
  refine ⟨hc.1, ?_⟩
  push_cast
  ring

/-! ## Presses, flags and `make_move` -/

theorem pressed_from_refl (mf : minefield_t) : pressed_from mf mf :=
  ⟨rfl, rfl, rfl, rfl, rfl, rfl, rfl, fun _ _ => rfl⟩

theorem pressed_from_trans {a b c : minefield_t} (h1 : pressed_from a b)
    (h2 : pressed_from b c) : pressed_from a c := by
  obtain ⟨n1, r1, c1, m1, f1, u1, d1, k1⟩ := h1
  obtain ⟨n2, r2, c2, m2, f2, u2, d2, k2⟩ := h2
  refine ⟨n2.trans n1, r2.trans r1, c2.trans c1, m2.trans m1, f2.trans f1, u2.trans u1,
    d2.trans d1, fun i j => ?_⟩
  have e2 := k2 i j
  have e1 := k1 i j
  rw [e2]
  conv_lhs => rw [e1]

theorem press_square_pressed_from (mf : minefield_t) (col row : Int) :
    pressed_from mf (press_square mf col row) := by
  unfold press_square
  split
  · refine ⟨rfl, rfl, rfl, rfl, rfl, rfl, rfl, fun c r => ?_⟩
    by_cases h : c = col ∧ r = row
    · obtain ⟨rfl, rfl⟩ := h
      simp [store_cell, minefield_cell]
    · simp [store_cell, h]
  · exact pressed_from_refl mf

theorem unpress_square_pressed_from (mf : minefield_t) (col row : Int) :
    pressed_from mf (unpress_square mf col row) := by
  unfold unpress_square
  split
  · refine ⟨rfl, rfl, rfl, rfl, rfl, rfl, rfl, fun c r => ?_⟩
    by_cases h : c = col ∧ r = row
    · obtain ⟨rfl, rfl⟩ := h
      simp [store_cell, minefield_cell]
    · simp [store_cell, h]
  · exact pressed_from_refl mf

theorem for_each_neighbour_do_pressed_from (f : minefield_t → Int → Int → minefield_t)
    (hf : ∀ mf c r, pressed_from mf (f mf c r)) (mf : minefield_t) (i j : Int) :
    pressed_from mf (for_each_neighbour_do f mf i j) := by
  unfold for_each_neighbour_do
  exact pressed_from_trans (pressed_from_trans (pressed_from_trans (pressed_from_trans
    (pressed_from_trans (pressed_from_trans (pressed_from_trans (hf _ _ _) (hf _ _ _))
    (hf _ _ _)) (hf _ _ _)) (hf _ _ _)) (hf _ _ _)) (hf _ _ _)) (hf _ _ _)

theorem pressed_from_field {a b : minefield_t} (h : pressed_from a b) (c r : Int) :
    (b.field c r).minesaround = (a.field c r).minesaround ∧
    (b.field c r).is_mine = (a.field c r).is_mine ∧
    (b.field c r).is_flagged = (a.field c r).is_flagged ∧
    (b.field c r).is_cleared = (a.field c r).is_cleared ∧
    (b.field c r).is_unavailable = (a.field c r).is_unavailable := by
  have e := h.2.2.2.2.2.2.2 c r
  refine ⟨?_, ?_, ?_, ?_, ?_⟩ <;> rw [e]

theorem pressed_from_in_range {a b : minefield_t} (h : pressed_from a b) (c r : Int) :
    in_range b c r ↔ in_range a c r := by
  unfold in_range; rw [h.2.1, h.2.2.1]

theorem pressed_from_in_array {a b : minefield_t} (h : pressed_from a b) (c r : Int) :
    in_array b c r ↔ in_array a c r := by
  unfold in_array; rw [h.2.1, h.2.2.1]

theorem pressed_from_border {a b : minefield_t} (h : pressed_from a b)
    (hb : sentinel_border a) : sentinel_border b := by
  rintro ⟨c, r⟩ hp hn
  have ha : in_array a c r := (pressed_from_in_array h c r).1 ((mem_array_positions b c r).1 hp)
  have hr : ¬ in_range a c r := fun hh =>
    hn ((mem_playable_cells b c r).2 ((pressed_from_in_range h c r).2 hh))
  show (b.field c r).is_unavailable = true
  rw [(pressed_from_field h c r).2.2.2.2]
  exact sentinel_of_border a hb c r ha hr

theorem pressed_from_counters {a b : minefield_t} (h : pressed_from a b)
    (hc : counters_ok a) : counters_ok b := by
  have hfl : flagged_count b = flagged_count a :=
    count_cells_congr a b _ _ h.2.1 h.2.2.1 (fun c r _ => (pressed_from_field h c r).2.2.1)
  have hcl : cleared_count b = cleared_count a :=
    count_cells_congr a b _ _ h.2.1 h.2.2.1 (fun c r _ => (pressed_from_field h c r).2.2.2.1)
  unfold counters_ok at hc ⊢
  rw [hfl, hcl, h.2.2.2.2.1, h.2.2.2.2.2.1, h.2.1, h.2.2.1]
  exact hc

theorem clear_around_effect (mf : minefield_t) (col row : Int) (hb : sentinel_border mf)
    (hin : in_range mf col row) :
    ∃ mf' n, clear_around mf col row = some (mf', n) ∧ clear_effect mf mf' n := by
  unfold clear_around
  split
  · exact ⟨mf, 0, rfl, clear_effect_refl mf⟩
  · obtain ⟨m8, n8, e8, _, r8⟩ := for_each_neighbour_acc_spec clear_square
      (fun m => cleared_from mf m) (fun a b n => clear_effect a b n) col row
      (by
        intro m c r hI hc hr
        obtain ⟨m', n, e, eff, _⟩ := clear_square_effect m c r (cleared_from_border hI hb)
          ((cleared_from_in_array hI c r).2 (in_array_of_near mf col row c r hin hc hr))
        exact ⟨m', n, e, cleared_from_trans hI eff.1, eff⟩)
      (fun a b c n m h1 h2 => clear_effect_trans h1 h2)
      mf (cleared_from_refl mf)
    exact ⟨m8, n8, e8, r8⟩

theorem count_cells_toggle (mf : minefield_t) (col row : Int) (hin : in_range mf col row)
    (p : mf_cell_t → Bool) :
    (count_cells (toggle_flag mf col row) p : Int) + b2i (p (mf.field col row))
      = count_cells mf p
        + b2i (p { mf.field col row with is_flagged := !(mf.field col row).is_flagged }) := by
  have key := count_cells_store mf col row hin
    { mf.field col row with is_flagged := !(mf.field col row).is_flagged } p
  have e : count_cells (toggle_flag mf col row) p = count_cells (store_cell mf col row
      { mf.field col row with is_flagged := !(mf.field col row).is_flagged }) p := by
    unfold toggle_flag minefield_cell
    generalize (mf.field col row).is_flagged = b
    cases b <;> rfl
  rw [e]
  exact key

theorem toggle_flag_scalars (mf : minefield_t) (col row : Int) :
    (toggle_flag mf col row).rows = mf.rows ∧ (toggle_flag mf col row).cols = mf.cols ∧
    (toggle_flag mf col row).flags
      = mf.flags + (if (mf.field col row).is_flagged then -1 else 1) ∧
    (toggle_flag mf col row).unmarked
      = mf.unmarked - (if (mf.field col row).is_flagged then -1 else 1) := by
  unfold toggle_flag
  cases h : (mf.field col row).is_flagged <;> simp [minefield_cell, h, store_cell, sub_eq_add_neg]

theorem toggle_flag_counters (mf : minefield_t) (col row : Int) (hin : in_range mf col row)
    (hc : counters_ok mf) : counters_ok (toggle_flag mf col row) := by
  have hf := count_cells_toggle mf col row hin (fun c => c.is_flagged)
  have hcl := count_cells_toggle mf col row hin (fun c => c.is_cleared)
  obtain ⟨hr, hco, hflags, hun⟩ := toggle_flag_scalars mf col row
  unfold counters_ok at hc ⊢
  unfold flagged_count cleared_count at hc ⊢
  rw [hr, hco, hflags, hun]
  simp only at hf hcl
  cases h : (mf.field col row).is_flagged <;>
    simp only [h, b2i, Bool.not_false, Bool.not_true, if_true, Bool.false_eq_true, if_false]
      at hf hcl ⊢ <;>
    constructor <;> omega

theorem make_move_finish_minefield (g : game_t) :
    (make_move_finish g).minefield = g.minefield := by
  unfold make_move_finish
  simp only
  split_ifs <;> rfl

theorem make_move_press_pressed_from (g : game_t) (col row button : Int) :
    pressed_from g.minefield (make_move_press g col row button).minefield := by
  unfold make_move_press
  simp only
  split
  · split
    · exact press_square_pressed_from _ _ _
    · exact pressed_from_refl _
  · split
    · split
      · exact pressed_from_refl _
      · exact for_each_neighbour_do_pressed_from press_square press_square_pressed_from _ _ _
    · exact pressed_from_refl _

theorem make_move_release_one_counters (g : game_t) (col row button : Int)
    (hb : sentinel_border g.minefield) (hin : in_range g.minefield col row)
    (hc : counters_ok g.minefield) :
    ∃ g', make_move_release_one g col row button = some g' ∧ counters_ok g'.minefield := by
  have hp := unpress_square_pressed_from g.minefield g.last_col g.last_row
  have hb' := pressed_from_border hp hb
  have hc' := pressed_from_counters hp hc
  have hin' := (pressed_from_in_range hp col row).2 hin
  unfold make_move_release_one
  simp only
  split
  · exact ⟨_, rfl, hc'⟩
  · split
    · obtain ⟨mf', n, e, eff, _⟩ := clear_square_effect _ col row hb'
        (in_array_of_in_range _ col row hin')
      rw [e]
      refine ⟨_, rfl, ?_⟩
      have := counters_ok_of_clear_effect _ mf' n eff hc'
      simp only
      split <;> exact this
    · exact ⟨_, rfl, toggle_flag_counters _ col row hin' hc'⟩

theorem make_move_release_two_counters (g : game_t) (col row : Int)
    (hb : sentinel_border g.minefield) (hin : in_range g.minefield col row)
    (hc : counters_ok g.minefield) :
    ∃ g', make_move_release_two g col row = some g' ∧ counters_ok g'.minefield := by
  have hp := for_each_neighbour_do_pressed_from unpress_square unpress_square_pressed_from
    g.minefield g.last_col g.last_row
  have hb' := pressed_from_border hp hb
  have hc' := pressed_from_counters hp hc
  have hin' := (pressed_from_in_range hp col row).2 hin
  unfold make_move_release_two
  simp only
  split
  · exact ⟨_, rfl, hc'⟩
  · obtain ⟨mf', n, e, eff⟩ := clear_around_effect _ col row hb' hin'
    rw [e]
    refine ⟨_, rfl, ?_⟩
    have := counters_ok_of_clear_effect _ mf' n eff hc'
    simp only
    split <;> exact this

theorem make_move_release_counters (g : game_t) (col row button : Int)
    (hb : sentinel_border g.minefield) (hin : in_range g.minefield col row)
    (hc : counters_ok g.minefield) :
    ∃ g', make_move_release g col row button = some g' ∧ counters_ok g'.minefield := by
  unfold make_move_release
  simp only
  split
  · obtain ⟨g', e, h⟩ := make_move_release_one_counters
      { g with buttons_down := g.buttons_down - 1 } col row button hb hin hc
    rw [e]
    exact ⟨_, rfl, by rw [make_move_finish_minefield]; exact h⟩
  · split
    · obtain ⟨g', e, h⟩ := make_move_release_two_counters
        { g with buttons_down := g.buttons_down - 1 } col row hb hin hc
      rw [e]
      exact ⟨_, rfl, by rw [make_move_finish_minefield]; exact h⟩
    · exact ⟨_, rfl, by rw [make_move_finish_minefield]; exact hc⟩

/-- C6: `make_move` keeps the counter invariant.  On a board with its sentinel border, if
`flags` is the number of flagged cells and `unmarked = rows*cols - (cleared + flagged)`,
then for every playable cell, button and action the call returns and the same holds of the
board it leaves, so that `unmarked + flags + cleared_count = rows*cols`. -/
theorem make_move_preserves_counters (g : game_t) (col row button : Int) (action : action_t)
    (hb : sentinel_border g.minefield) (hin : in_range g.minefield col row)
    (hc : counters_ok g.minefield) :
    ∃ g' moved, make_move g col row button action = some (g', moved) ∧
      counters_ok g'.minefield ∧
      g'.minefield.unmarked + g'.minefield.flags + (cleared_count g'.minefield : Int)
        = g'.minefield.rows * g'.minefield.cols := by
  have fin : ∀ mf : minefield_t, counters_ok mf →
      mf.unmarked + mf.flags + (cleared_count mf : Int) = mf.rows * mf.cols := by
    intro mf h
    unfold counters_ok at h
    omega
  unfold make_move
  split
  · exact ⟨_, _, rfl, hc, fin _ hc⟩
  · cases action with
    | press =>
      have := pressed_from_counters (make_move_press_pressed_from g col row button) hc
      exact ⟨_, _, rfl, this, fin _ this⟩
    | release =>
      obtain ⟨g', e, h⟩ := make_move_release_counters g col row button hb hin hc
      simp only [e]
      exact ⟨_, _, rfl, h, fin _ h⟩

theorem clear_square_mine (mf : minefield_t) (col row : Int)
    (hav : IS_AVAILABLE mf col row = true)
    (hfl : (minefield_cell mf col row).is_flagged = false)
    (hm : (minefield_cell mf col row).is_mine = true) :
    clear_square mf col row = some
      (store_cell { mf with unmarked := mf.unmarked - 1 } col row
        { minefield_cell mf col row with is_cleared := true }, -(mf.rows * mf.cols)) := by
  unfold clear_square clear_square_fuel
  have hm' : (minefield_cell (store_cell { mf with unmarked := mf.unmarked - 1 } col row
      { minefield_cell { mf with unmarked := mf.unmarked - 1 } col row with
        is_cleared := true }) col row).is_mine = true := by
    simpa [minefield_cell, store_cell] using hm
  have hc : ¬ ((!IS_AVAILABLE mf col row || (minefield_cell mf col row).is_flagged) = true) := by
    simp [hav, hfl]
  rw [if_neg hc]
  simp only []
  rw [if_pos hm', neg_mul]
  rfl

theorem make_move_finish_lost (g : game_t) :
    (make_move_finish g).state.lost = g.state.lost := by
  unfold make_move_finish
  simp only
  split_ifs <;> rfl

theorem press_then_release_on_mine (g : game_t) (col row : Int)
    (hin : in_range g.minefield col row)
    (hav : IS_AVAILABLE g.minefield col row = true)
    (hfl : (minefield_cell g.minefield col row).is_flagged = false)
    (hm : (minefield_cell g.minefield col row).is_mine = true)
    (h0 : g.buttons_down = 0) (hw : g.state.won = false) (hl : g.state.lost = false) :
    ∃ g1 m1 g2 m2, make_move g col row 1 action_t.press = some (g1, m1) ∧
      make_move g1 col row 1 action_t.release = some (g2, m2) ∧ g2.state.lost = true := by
  have hcl : (minefield_cell g.minefield col row).is_cleared = false := by
    simp [IS_AVAILABLE] at hav; exact hav.1
  have hp := make_move_press_pressed_from g col row 1
  have hb : (make_move_press g col row 1).buttons_down = 1 ∧
      (make_move_press g col row 1).last_col = col ∧
      (make_move_press g col row 1).last_row = row ∧
      (make_move_press g col row 1).state = g.state := by
    unfold make_move_press
    simp [h0, hcl]
  obtain ⟨hb1, hb2, hb3, hb4⟩ := hb
  have hu := unpress_square_pressed_from (make_move_press g col row 1).minefield col row
  have hpu := pressed_from_trans hp hu
  have f := pressed_from_field hpu col row
  have hav2 : IS_AVAILABLE (unpress_square (make_move_press g col row 1).minefield col row)
      col row = true := by
    unfold IS_AVAILABLE minefield_cell at hav ⊢
    rw [f.2.2.2.1, f.2.2.2.2]; exact hav
  have hcl2 : (minefield_cell (unpress_square (make_move_press g col row 1).minefield col row)
      col row).is_cleared = false := by
    unfold minefield_cell at hcl ⊢; rw [f.2.2.2.1]; exact hcl
  have hfl2 : (minefield_cell (unpress_square (make_move_press g col row 1).minefield col row)
      col row).is_flagged = false := by
    unfold minefield_cell at hfl ⊢; rw [f.2.2.1]; exact hfl
  have hm2 : (minefield_cell (unpress_square (make_move_press g col row 1).minefield col row)
      col row).is_mine = true := by
    unfold minefield_cell at hm ⊢; rw [f.2.1]; exact hm
  have hneg : -((unpress_square (make_move_press g col row 1).minefield col row).rows *
      (unpress_square (make_move_press g col row 1).minefield col row).cols) < 0 := by
    rw [hpu.2.1, hpu.2.2.1]
    unfold in_range at hin
    have : 0 < g.minefield.rows * g.minefield.cols := by nlinarith
    omega
  have e1 : make_move g col row 1 action_t.press
      = some (make_move_press g col row 1, make_move_result (make_move_press g col row 1)) := by
    unfold make_move
    simp [hw, hl]
  have e2 : ∃ g3, make_move_release_one { make_move_press g col row 1 with
      buttons_down := (make_move_press g col row 1).buttons_down - 1 } col row 1
      = some g3 ∧ g3.state.lost = true := by
    unfold make_move_release_one
    simp only [hb2, hb3, hcl2, Bool.false_eq_true, false_or, ne_eq, not_true_eq_false, or_self,
      if_false, if_true, clear_square_mine _ col row hav2 hfl2 hm2, Option.map_some', hneg]
    exact ⟨_, rfl, rfl⟩
  obtain ⟨g3, e3, hl3⟩ := e2
  have eB : ∃ g2 m2, make_move (make_move_press g col row 1) col row 1 action_t.release
      = some (g2, m2) ∧ g2.state.lost = true := by
    unfold make_move make_move_release
    simp only [hb4, hw, hl, Bool.or_self, Bool.false_eq_true, if_false, hb1, if_true] at e3 ⊢
    rw [e3]
    exact ⟨_, _, rfl, by rw [make_move_finish_lost]; exact hl3⟩
  obtain ⟨g2, m2, e2, hl2⟩ := eB
  exact ⟨_, _, g2, m2, e1, e2, hl2⟩

theorem corner_board_border : sentinel_border corner_board := by
  unfold sentinel_border
  decide

theorem corner_board_correct : minesaround_correct corner_board := by
  unfold minesaround_correct
  decide

theorem corner_board_counters : counters_ok corner_board := by
  unfold counters_ok
  decide

/-! ## The claims about the game-state mutator -/

/-- C7: `clear_square` on a cell that is unavailable, already cleared or flagged returns 0
and hands back the very same board (every cell, `flags` and `unmarked` included). -/
theorem clear_square_noop (mf : minefield_t) (col row : Int)
    (h : (minefield_cell mf col row).is_unavailable = true ∨
      (minefield_cell mf col row).is_cleared = true ∨
      (minefield_cell mf col row).is_flagged = true) :
    clear_square mf col row = some (mf, 0) := by
  unfold clear_square clear_square_fuel
  rw [if_pos]
  unfold IS_AVAILABLE
  rcases h with h | h | h <;> simp [h]

/-- C9: on a board with a sentinel border whose `minesaround` values are the true counts,
`clear_square` on an available, unflagged cell without a mine returns a positive number, which
is the number of cells newly cleared and the amount by which `unmarked` went down; `flags`
and the `is_flagged` and `is_mine` bits of every cell are unchanged, cleared cells stay
cleared and cells outside the playable range keep their record. -/
theorem clear_square_counts_cleared (mf : minefield_t) (col row : Int)
    (hb : sentinel_border mf) (hma : minesaround_correct mf) (ha : in_array mf col row)
    (hav : IS_AVAILABLE mf col row = true)
    (hfl : (minefield_cell mf col row).is_flagged = false)
    (hnm : (minefield_cell mf col row).is_mine = false) :
    ∃ mf' n, clear_square mf col row = some (mf', n) ∧ 0 < n ∧
      n = (newly_cleared mf mf' : Int) ∧
      mf'.unmarked = mf.unmarked - n ∧ mf'.flags = mf.flags ∧
      (∀ c r, (minefield_cell mf' c r).is_flagged = (minefield_cell mf c r).is_flagged ∧
        (minefield_cell mf' c r).is_mine = (minefield_cell mf c r).is_mine) ∧
      (∀ c r, (minefield_cell mf c r).is_cleared = true →
        (minefield_cell mf' c r).is_cleared = true) ∧
      (∀ c r, ¬ in_range mf c r → minefield_cell mf' c r = minefield_cell mf c r) := by
  obtain ⟨mf', n, e, eff, nm, hcl⟩ := clear_square_effect mf col row hb ha
  have hnone := nm (zero_means_safe_of_correct mf hma) hnm
  have hcl' := hcl hav hfl
  have hm := cleared_mines_eq mf mf' eff.1 hnone
  have hnew := newly_cleared_add mf mf' eff.1
  have s1 := cleared_count_split mf
  have s2 := cleared_count_split mf'
  have hin : in_range mf col row := in_range_of_available mf hb col row ha hav
  have hpos : 0 < newly_cleared mf mf' := by
    unfold newly_cleared
    rw [List.countP_pos_iff]
    refine ⟨(col, row), (mem_playable_cells mf col row).2 hin, ?_⟩
    have : (mf.field col row).is_cleared = false := by
      simp [IS_AVAILABLE, minefield_cell] at hav; exact hav.1
    simp [minefield_cell, hcl', this]
  have hn : n = (newly_cleared mf mf' : Int) := by
    rw [eff.2.1, hm]; omega
  refine ⟨mf', n, e, by omega, hn, ?_, eff.1.2.2.2.2.1, ?_, ?_, ?_⟩
  · rw [eff.2.2, hm]; omega
  · intro c r
    exact ⟨cleared_from_is_flagged eff.1 c r, cleared_from_is_mine eff.1 c r⟩
  · intro c r h
    exact cleared_from_is_cleared eff.1 c r h
  · intro c r h
    exact cleared_from_outside eff.1 c r h

/-- C10: when the number of flagged neighbours differs from `minesaround`, `clear_around`
returns 0 and hands back the very same board; when they are equal it is `clear_square`
applied to the eight neighbours one after the other, the counts added up. -/
theorem clear_around_spec (mf : minefield_t) (col row : Int) :
    (FLAGSAROUND mf col row ≠ ((minefield_cell mf col row).minesaround : Int) →
      clear_around mf col row = some (mf, 0)) ∧
    (FLAGSAROUND mf col row = ((minefield_cell mf col row).minesaround : Int) →
      clear_around mf col row =
        (clear_square mf (col-1) (row-1)).bind fun r1 =>
        (clear_square r1.1 (col-1) row).bind fun r2 =>
        (clear_square r2.1 (col-1) (row+1)).bind fun r3 =>
        (clear_square r3.1 col (row-1)).bind fun r4 =>
        (clear_square r4.1 col (row+1)).bind fun r5 =>
        (clear_square r5.1 (col+1) (row-1)).bind fun r6 =>
        (clear_square r6.1 (col+1) row).bind fun r7 =>
        (clear_square r7.1 (col+1) (row+1)).bind fun r8 =>
        some (r8.1, r1.2 + r2.2 + r3.2 + r4.2 + r5.2 + r6.2 + r7.2 + r8.2)) ∧
    (sentinel_border mf → in_range mf col row →
      ∃ mf' n, clear_around mf col row = some (mf', n) ∧ clear_effect mf mf' n) := by
  refine ⟨?_, ?_, ?_⟩
  · intro h
    unfold clear_around
    rw [if_pos h]
  · intro h
    unfold clear_around
    rw [if_neg (not_not.2 h)]
    rfl
  · intro hb hin
    exact clear_around_effect mf col row hb hin

/-- C10, at a concrete input: the cell `(2, 2)` of `corner_board` shows 1 and has no flagged
neighbour. -/
theorem clear_around_spec_witness :
    FLAGSAROUND corner_board 2 2 ≠ ((minefield_cell corner_board 2 2).minesaround : Int) ∧
      clear_around corner_board 2 2 = some (corner_board, 0) :=
  ⟨by decide, (clear_around_spec corner_board 2 2).1 (by decide)⟩

/-- C8: `clear_square` on a playable, available, unflagged cell that holds a mine returns the
negative value `-(rows*cols)`, marks that cell cleared and no other cell, and takes exactly one
off `unmarked`; pressing and releasing button 1 over the cell, from a game in progress with no
button down, sets `state.lost`. -/
theorem clear_square_mine_is_loss (g : game_t) (col row : Int)
    (hin : in_range g.minefield col row)
    (hav : IS_AVAILABLE g.minefield col row = true)
    (hfl : (minefield_cell g.minefield col row).is_flagged = false)
    (hm : (minefield_cell g.minefield col row).is_mine = true) :
    (∃ mf', clear_square g.minefield col row
        = some (mf', -(g.minefield.rows * g.minefield.cols)) ∧
      -(g.minefield.rows * g.minefield.cols) < 0 ∧
      mf'.unmarked = g.minefield.unmarked - 1 ∧ mf'.flags = g.minefield.flags ∧
      minefield_cell mf' col row
        = { minefield_cell g.minefield col row with is_cleared := true } ∧
      ∀ c r, ¬ (c = col ∧ r = row) → minefield_cell mf' c r = minefield_cell g.minefield c r) ∧
    (g.buttons_down = 0 → g.state.won = false → g.state.lost = false →
      ∃ g1 m1 g2 m2, make_move g col row 1 action_t.press = some (g1, m1) ∧
        make_move g1 col row 1 action_t.release = some (g2, m2) ∧ g2.state.lost = true) := by
  refine ⟨⟨_, clear_square_mine g.minefield col row hav hfl hm, ?_, rfl, rfl, ?_, ?_⟩, ?_⟩
  · unfold in_range at hin
    have : 0 < g.minefield.rows * g.minefield.cols := by nlinarith
    omega
  · simp [minefield_cell, store_cell]
  · intro c r h
    simp [minefield_cell, store_cell, h]
  · intro h0 hw hl
    exact press_then_release_on_mine g col row hin hav hfl hm h0 hw hl

/-- C8, at a concrete input: the mine `(3, 3)` of `corner_board`. -/
theorem clear_square_mine_is_loss_witness :
    (∃ mf', clear_square corner_game.minefield 3 3
        = some (mf', -(corner_game.minefield.rows * corner_game.minefield.cols)) ∧
      -(corner_game.minefield.rows * corner_game.minefield.cols) < 0 ∧
      mf'.unmarked = corner_game.minefield.unmarked - 1 ∧
      mf'.flags = corner_game.minefield.flags ∧
      minefield_cell mf' 3 3
        = { minefield_cell corner_game.minefield 3 3 with is_cleared := true } ∧
      ∀ c r, ¬ (c = 3 ∧ r = 3) →
        minefield_cell mf' c r = minefield_cell corner_game.minefield c r) ∧
    (corner_game.buttons_down = 0 → corner_game.state.won = false →
      corner_game.state.lost = false →
      ∃ g1 m1 g2 m2, make_move corner_game 3 3 1 action_t.press = some (g1, m1) ∧
        make_move g1 3 3 1 action_t.release = some (g2, m2) ∧ g2.state.lost = true) :=
  clear_square_mine_is_loss corner_game 3 3 (by unfold in_range; decide) (by decide)
    (by decide) (by decide)

/-- C9, at a concrete input: the corner `(1, 1)` of `corner_board`, far from the mine. -/
theorem clear_square_counts_cleared_witness :
    ∃ mf' n, clear_square corner_board 1 1 = some (mf', n) ∧ 0 < n ∧
      n = (newly_cleared corner_board mf' : Int) ∧
      mf'.unmarked = corner_board.unmarked - n ∧ mf'.flags = corner_board.flags ∧
      (∀ c r, (minefield_cell mf' c r).is_flagged = (minefield_cell corner_board c r).is_flagged ∧
        (minefield_cell mf' c r).is_mine = (minefield_cell corner_board c r).is_mine) ∧
      (∀ c r, (minefield_cell corner_board c r).is_cleared = true →
        (minefield_cell mf' c r).is_cleared = true) ∧
      (∀ c r, ¬ in_range corner_board c r →
        minefield_cell mf' c r = minefield_cell corner_board c r) :=
  clear_square_counts_cleared corner_board 1 1 corner_board_border corner_board_correct
    (by unfold in_array; decide) (by decide) (by decide) (by decide)
/-- C7, at a concrete input: the sentinel `(0, 0)` of `corner_board`. -/
theorem clear_square_noop_witness : clear_square corner_board 0 0 = some (corner_board, 0) :=
  clear_square_noop corner_board 0 0 (Or.inl (by decide))

/-- C6, at a concrete input: releasing button 1 over `(1, 1)` of `corner_board`. -/
theorem make_move_preserves_counters_witness :
    ∃ g' moved, make_move { corner_game with buttons_down := 1, last_col := 1, last_row := 1 }
        1 1 1 action_t.release = some (g', moved) ∧
      counters_ok g'.minefield ∧
      g'.minefield.unmarked + g'.minefield.flags + (cleared_count g'.minefield : Int)
        = g'.minefield.rows * g'.minefield.cols :=
  make_move_preserves_counters { corner_game with buttons_down := 1, last_col := 1, last_row := 1 }
    1 1 1 action_t.release corner_board_border (by unfold in_range; decide) corner_board_counters

/-! ## The search counts the arrangements it accepts -/

theorem countP_and_const {α : Type} (l : List α) (b : Bool) (f : α → Bool) :
    l.countP (fun a => b && f a) = if b then l.countP f else 0 := by
  cases b
  · simp
  · simp

theorem filter_and_const {α : Type} (l : List α) (b : Bool) (f : α → Bool) :
    l.filter (fun a => b && f a) = if b then l.filter f else [] := by
  cases b
  · simp
  · simp

theorem brute_force_accepts_cons (length : Int) (mf : minefield_t) (cell : possible_mine_t)
    (next : List possible_mine_t) (fu : Int) :
    brute_force (accepts length mf (cell :: next) fu) (next.length + 1)
      = (if can_flag mf cell fu then
          brute_force (accepts length (set_flagged mf cell.col cell.row true) next (fu + 1))
            next.length else 0)
        + (if can_clear mf cell then
          brute_force (accepts length (set_unavailable mf cell.col cell.row true) next fu)
            next.length else 0) := by
  unfold brute_force
  rw [assignments, List.countP_append, List.countP_map, List.countP_map]
  have h1 : (accepts length mf (cell :: next) fu ∘ fun a => true :: a)
      = fun a => can_flag mf cell fu &&
        accepts length (set_flagged mf cell.col cell.row true) next (fu + 1) a := by
    funext a; simp [accepts]
  have h2 : (accepts length mf (cell :: next) fu ∘ fun a => false :: a)
      = fun a => can_clear mf cell &&
        accepts length (set_unavailable mf cell.col cell.row true) next fu a := by
    funext a; simp [accepts]
  rw [h1, h2, countP_and_const, countP_and_const]

theorem brute_force_mined_accepts_zero (length : Int) (mf : minefield_t)
    (cell : possible_mine_t) (next : List possible_mine_t) (fu : Int) :
    brute_force_mined (accepts length mf (cell :: next) fu) (next.length + 1) 0
      = (if can_flag mf cell fu then
          brute_force (accepts length (set_flagged mf cell.col cell.row true) next (fu + 1))
            next.length else 0) := by
  unfold brute_force_mined brute_force
  rw [assignments, List.countP_append, List.countP_map, List.countP_map]
  have h1 : ((fun a => accepts length mf (cell :: next) fu a && a.getD 0 false)
      ∘ fun a => true :: a)
      = fun a => can_flag mf cell fu &&
        accepts length (set_flagged mf cell.col cell.row true) next (fu + 1) a := by
    funext a; simp [accepts]
  have h2 : ((fun a => accepts length mf (cell :: next) fu a && a.getD 0 false)
      ∘ fun a => false :: a) = fun _ => false := by
    funext a; simp [accepts]
  rw [h1, h2, countP_and_const]
  simp

theorem brute_force_mined_accepts_succ (length : Int) (mf : minefield_t)
    (cell : possible_mine_t) (next : List possible_mine_t) (fu : Int) (k : Nat) :
    brute_force_mined (accepts length mf (cell :: next) fu) (next.length + 1) (k + 1)
      = (if can_flag mf cell fu then
          brute_force_mined
            (accepts length (set_flagged mf cell.col cell.row true) next (fu + 1))
            next.length k else 0)
        + (if can_clear mf cell then
          brute_force_mined
            (accepts length (set_unavailable mf cell.col cell.row true) next fu)
            next.length k else 0) := by
  unfold brute_force_mined
  rw [assignments, List.countP_append, List.countP_map, List.countP_map]
  have h1 : ((fun a => accepts length mf (cell :: next) fu a && a.getD (k + 1) false)
      ∘ fun a => true :: a)
      = fun a => can_flag mf cell fu &&
        (accepts length (set_flagged mf cell.col cell.row true) next (fu + 1) a
          && a.getD k false) := by
    funext a; simp [accepts, Bool.and_assoc]
  have h2 : ((fun a => accepts length mf (cell :: next) fu a && a.getD (k + 1) false)
      ∘ fun a => false :: a)
      = fun a => can_clear mf cell &&
        (accepts length (set_unavailable mf cell.col cell.row true) next fu a
          && a.getD k false) := by
    funext a; simp [accepts, Bool.and_assoc]
  rw [h1, h2, countP_and_const, countP_and_const]

theorem assigned_cons_true (a : List Bool) : assigned (true :: a) = assigned a + 1 := by
  simp [assigned]

theorem assigned_cons_false (a : List Bool) : assigned (false :: a) = assigned a := by
  simp [assigned]

theorem accepted_flags_cons (length : Int) (mf : minefield_t) (cell : possible_mine_t)
    (next : List possible_mine_t) (fu : Int) :
    accepted_flags length mf (cell :: next) fu
      = (if can_flag mf cell fu then
          accepted_flags length (set_flagged mf cell.col cell.row true) next (fu + 1)
          else [])
        ++ (if can_clear mf cell then
          accepted_flags length (set_unavailable mf cell.col cell.row true) next fu
          else []) := by
  unfold accepted_flags
  rw [List.length_cons, assignments, List.filter_append, List.map_append, List.filter_map,
    List.filter_map, List.map_map, List.map_map]
  have h1 : (accepts length mf (cell :: next) fu ∘ fun a => true :: a)
      = fun a => can_flag mf cell fu &&
        accepts length (set_flagged mf cell.col cell.row true) next (fu + 1) a := by
    funext a; simp [accepts]
  have h2 : (accepts length mf (cell :: next) fu ∘ fun a => false :: a)
      = fun a => can_clear mf cell &&
        accepts length (set_unavailable mf cell.col cell.row true) next fu a := by
    funext a; simp [accepts]
  have h3 : ((fun a => fu + assigned a) ∘ fun a => true :: a)
      = fun a => fu + 1 + assigned a := by
    funext a; simp [assigned_cons_true]; ring
  have h4 : ((fun a => fu + assigned a) ∘ fun a => false :: a)
      = fun a => fu + assigned a := by
    funext a; simp [assigned_cons_false]
  rw [h1, h2, h3, h4, filter_and_const, filter_and_const]
  cases can_flag mf cell fu <;> cases can_clear mf cell <;> simp

theorem set_flagged_undo (mf : minefield_t) (col row : Int)
    (h : (minefield_cell mf col row).is_flagged = false) :
    set_flagged (set_flagged mf col row true) col row false = mf := by
  cases mf with
  | mk number rows cols mines field flags unmarked needed =>
    simp only [set_flagged, store_cell, minefield_cell, minefield_t.mk.injEq, true_and, and_true]
    funext i j
    by_cases hij : i = col ∧ j = row
    · obtain ⟨rfl, rfl⟩ := hij
      simp only [minefield_cell] at h
      simp [← h]
    · simp [hij]

theorem set_unavailable_undo (mf : minefield_t) (col row : Int)
    (h : (minefield_cell mf col row).is_unavailable = false) :
    set_unavailable (set_unavailable mf col row true) col row false = mf := by
  cases mf with
  | mk number rows cols mines field flags unmarked needed =>
    simp only [set_unavailable, store_cell, minefield_cell, minefield_t.mk.injEq, true_and,
      and_true]
    funext i j
    by_cases hij : i = col ∧ j = row
    · obtain ⟨rfl, rfl⟩ := hij
      simp only [minefield_cell] at h
      simp [← h]
    · simp [hij]

theorem store_cell_other (mf : minefield_t) (col row : Int) (c : mf_cell_t) (i j : Int)
    (h : ¬ (i = col ∧ j = row)) : minefield_cell (store_cell mf col row c) i j
      = minefield_cell mf i j := by
  simp [minefield_cell, store_cell, h]

theorem store_cell_same (mf : minefield_t) (col row : Int) (c : mf_cell_t) :
    minefield_cell (store_cell mf col row c) col row = c := by
  simp [minefield_cell, store_cell]

theorem sites_fresh_next_flagged (mf : minefield_t) (cell : possible_mine_t)
    (next : List possible_mine_t) (h : sites_fresh mf (cell :: next)) :
    sites_fresh (set_flagged mf cell.col cell.row true) next := by
  obtain ⟨hn, hs⟩ := h
  simp only [site_positions, List.map_cons, List.nodup_cons] at hn
  refine ⟨hn.2, fun s hs' => ?_⟩
  have hne : ¬ (s.col = cell.col ∧ s.row = cell.row) := by
    intro hh
    apply hn.1
    rw [List.mem_map]
    exact ⟨s, hs', by rw [hh.1, hh.2]⟩
  unfold set_flagged
  rw [store_cell_other _ _ _ _ _ _ hne]
  exact hs s (List.mem_cons_of_mem _ hs')

theorem sites_fresh_next_unavailable (mf : minefield_t) (cell : possible_mine_t)
    (next : List possible_mine_t) (h : sites_fresh mf (cell :: next)) :
    sites_fresh (set_unavailable mf cell.col cell.row true) next := by
  obtain ⟨hn, hs⟩ := h
  simp only [site_positions, List.map_cons, List.nodup_cons] at hn
  refine ⟨hn.2, fun s hs' => ?_⟩
  have hne : ¬ (s.col = cell.col ∧ s.row = cell.row) := by
    intro hh
    apply hn.1
    rw [List.mem_map]
    exact ⟨s, hs', by rw [hh.1, hh.2]⟩
  unfold set_unavailable
  rw [store_cell_other _ _ _ _ _ _ hne]
  exact hs s (List.mem_cons_of_mem _ hs')

theorem wrap_int_of_is_int (x : Int) (h : is_int x) : wrap_int x = x := by
  unfold is_int at h
  unfold wrap_int
  omega

theorem is_int_wrap_int (x : Int) : is_int (wrap_int x) := by
  unfold is_int wrap_int
  omega

theorem wrap_int_add_wrap (a b : Int) : wrap_int (wrap_int a + b) = wrap_int (a + b) := by
  unfold wrap_int
  omega

theorem wrap_int_neg (x : Int) (h1 : 2147483647 < x) (h2 : x < 4294967296) :
    wrap_int x < 0 := by
  unfold wrap_int
  omega

theorem wrap_int_zero : wrap_int 0 = 0 := by
  decide

theorem bump_placements_zero (c : possible_mine_t) (h : is_int c.flag_placements) :
    bump_placements 0 c = c := by
  simp [bump_placements, wrap_int_of_is_int _ h]

theorem bump_placements_add (a b : Int) (c : possible_mine_t) :
    bump_placements b (bump_placements a c) = bump_placements (a + b) c := by
  simp [bump_placements, wrap_int_add_wrap, add_assoc]

theorem bump_placements_int (d : Int) (c : possible_mine_t) :
    is_int (bump_placements d c).flag_placements :=
  is_int_wrap_int _

/-- A site that is read at an index of the list is a site of the list. -/
theorem placements_int_getElem (list : mine_list_t) (h : placements_int list) (j : Nat)
    (c : possible_mine_t) (hj : list.cell[j]? = some c) : is_int c.flag_placements :=
  h c (List.getElem?_mem hj)

theorem map_bump_zero (list : mine_list_t) (h : placements_int list) (j : Nat) :
    (list.cell[j]?).map (bump_placements 0) = list.cell[j]? := by
  cases hj : list.cell[j]? with
  | none => rfl
  | some c => rw [Option.map_some', bump_placements_zero c (placements_int_getElem list h j c hj)]

theorem placements_int_add (list : mine_list_t) (idx : Nat) (r : Int)
    (h : placements_int list) : placements_int (add_flag_placements list idx r) := by
  intro c hc
  obtain ⟨j, hj⟩ := List.mem_iff_getElem?.1 hc
  simp only [add_flag_placements, List.getElem?_modify] at hj
  cases hl : list.cell[j]? with
  | none => rw [hl] at hj; simp at hj
  | some c0 =>
    rw [hl] at hj
    simp only [Option.map_eq_map, Option.map_some', Option.some.injEq] at hj
    subst hj
    split_ifs
    · exact bump_placements_int r c0
    · exact placements_int_getElem list h j c0 hl

/-- The value `_analyze_list` returns is that of an `int`, and so are the `flag_placements`
it leaves. -/
theorem analyze_list_aux_int : ∀ (todo : List possible_mine_t) (mf : minefield_t)
    (list : mine_list_t) (idx : Nat) (fu : Int), placements_int list →
    is_int (_analyze_list todo mf list idx fu).result ∧
    placements_int (_analyze_list todo mf list idx fu).list := by
  intro todo
  induction todo with
  | nil =>
    intro mf list idx fu h
    unfold _analyze_list
    simp only
    split_ifs <;> exact ⟨by unfold is_int; simp, h⟩
  | cons cell next ih =>
    intro mf list idx fu h
    rw [_analyze_list]
    simp only
    have hA : is_int (if can_flag mf cell fu = true then
          (if (_analyze_list next (set_flagged mf cell.col cell.row true) list (idx + 1)
              (fu + 1)).result < 0 then
            ({ result := (_analyze_list next (set_flagged mf cell.col cell.row true) list
                (idx + 1) (fu + 1)).result,
               mf := set_flagged (_analyze_list next (set_flagged mf cell.col cell.row true)
                list (idx + 1) (fu + 1)).mf cell.col cell.row false,
               list := (_analyze_list next (set_flagged mf cell.col cell.row true) list
                (idx + 1) (fu + 1)).list } : search_t)
          else
            { result := (_analyze_list next (set_flagged mf cell.col cell.row true) list
                (idx + 1) (fu + 1)).result,
              mf := set_flagged (_analyze_list next (set_flagged mf cell.col cell.row true)
                list (idx + 1) (fu + 1)).mf cell.col cell.row false,
              list := add_flag_placements (_analyze_list next
                (set_flagged mf cell.col cell.row true) list (idx + 1) (fu + 1)).list idx
                (_analyze_list next (set_flagged mf cell.col cell.row true) list (idx + 1)
                  (fu + 1)).result })
        else { result := 0, mf := mf, list := list }).result ∧
        placements_int (if can_flag mf cell fu = true then
          (if (_analyze_list next (set_flagged mf cell.col cell.row true) list (idx + 1)
              (fu + 1)).result < 0 then
            ({ result := (_analyze_list next (set_flagged mf cell.col cell.row true) list
                (idx + 1) (fu + 1)).result,
               mf := set_flagged (_analyze_list next (set_flagged mf cell.col cell.row true)
                list (idx + 1) (fu + 1)).mf cell.col cell.row false,
               list := (_analyze_list next (set_flagged mf cell.col cell.row true) list
                (idx + 1) (fu + 1)).list } : search_t)
          else
            { result := (_analyze_list next (set_flagged mf cell.col cell.row true) list
                (idx + 1) (fu + 1)).result,
              mf := set_flagged (_analyze_list next (set_flagged mf cell.col cell.row true)
                list (idx + 1) (fu + 1)).mf cell.col cell.row false,
              list := add_flag_placements (_analyze_list next
                (set_flagged mf cell.col cell.row true) list (idx + 1) (fu + 1)).list idx
                (_analyze_list next (set_flagged mf cell.col cell.row true) list (idx + 1)
                  (fu + 1)).result })
        else { result := 0, mf := mf, list := list }).list := by
      have ih1 := ih (set_flagged mf cell.col cell.row true) list (idx + 1) (fu + 1) h
      split_ifs
      · exact ih1
      · exact ⟨ih1.1, placements_int_add _ _ _ ih1.2⟩
      · exact ⟨by unfold is_int; simp, h⟩
    generalize (if can_flag mf cell fu = true then _ else _ : search_t) = a at hA ⊢
    have ih2 := ih (set_unavailable a.mf cell.col cell.row true) a.list (idx + 1) fu hA.2
    split_ifs
    · exact hA
    · exact ih2
    · exact ⟨is_int_wrap_int _, ih2.2⟩
    · exact hA

theorem brute_force_nil (length : Int) (mf : minefield_t) (fu : Int) :
    brute_force (accepts length mf [] fu) 0
      = if accepts length mf [] fu [] then 1 else 0 := by
  unfold brute_force
  rw [assignments, List.countP_cons, List.countP_nil]
  simp

theorem brute_force_mined_nil (valid : List Bool → Bool) (k : Nat) :
    brute_force_mined valid 0 k = 0 := by
  simp [brute_force_mined, assignments]

theorem accepted_flags_nil (length : Int) (mf : minefield_t) (fu : Int) :
    accepted_flags length mf [] fu
      = if accepts length mf [] fu [] then [fu] else [] := by
  unfold accepted_flags
  simp only [List.length_nil, assignments]
  cases h : accepts length mf [] fu [] <;> simp [h, assigned]

theorem mined_split (length : Int) (mf : minefield_t) (cell : possible_mine_t)
    (next : List possible_mine_t) (fu : Int) (idx j : Nat) :
    (if idx ≤ j then
      (brute_force_mined (accepts length mf (cell :: next) fu) (next.length + 1) (j - idx) : Int)
      else 0)
    = (if idx + 1 ≤ j then
        (if can_flag mf cell fu then
          (brute_force_mined
            (accepts length (set_flagged mf cell.col cell.row true) next (fu + 1))
            next.length (j - (idx + 1)) : Int) else 0) else 0)
      + (if idx = j then
        (if can_flag mf cell fu then
          (brute_force (accepts length (set_flagged mf cell.col cell.row true) next (fu + 1))
            next.length : Int) else 0) else 0)
      + (if idx + 1 ≤ j then
        (if can_clear mf cell then
          (brute_force_mined
            (accepts length (set_unavailable mf cell.col cell.row true) next fu)
            next.length (j - (idx + 1)) : Int) else 0) else 0) := by
  rcases Nat.lt_trichotomy idx j with h | h | h
  · have h1 : idx ≤ j := by omega
    have h2 : idx + 1 ≤ j := by omega
    have h3 : ¬ idx = j := by omega
    have h4 : j - idx = (j - (idx + 1)) + 1 := by omega
    rw [if_pos h1, if_pos h2, if_neg h3, if_pos h2, h4, brute_force_mined_accepts_succ]
    split <;> split <;> simp
  · subst h
    have h2 : ¬ idx + 1 ≤ idx := by omega
    rw [if_pos (le_refl _), if_neg h2, if_pos rfl, if_neg h2, Nat.sub_self,
      brute_force_mined_accepts_zero]
    split <;> simp
  · have h1 : ¬ idx ≤ j := by omega
    have h2 : ¬ idx + 1 ≤ j := by omega
    have h3 : ¬ idx = j := by omega
    rw [if_neg h1, if_neg h2, if_neg h3, if_neg h2]
    simp

theorem bump_chain (x y z : Int) (idx j : Nat) (o : Option possible_mine_t) :
    Option.map (bump_placements z ∘ (fun a => if idx = j then bump_placements y a else a)
      ∘ bump_placements x) o
      = Option.map (bump_placements (x + (if idx = j then y else 0) + z)) o := by
  congr 1
  funext c
  by_cases h : idx = j <;> simp [h, bump_placements, wrap_int_add_wrap, add_assoc]

theorem bump_pair (x y : Int) (idx j : Nat) (o : Option possible_mine_t) :
    Option.map ((fun a => if idx = j then bump_placements y a else a) ∘ bump_placements x) o
      = Option.map (bump_placements (x + (if idx = j then y else 0))) o := by
  congr 1
  funext c
  by_cases h : idx = j <;> simp [h, bump_placements, wrap_int_add_wrap, add_assoc]

theorem stats_of_add_flag_placements (list : mine_list_t) (idx : Nat) (r : Int) :
    stats_of (add_flag_placements list idx r) = stats_of list := rfl

/-- The search with `needed` clear on distinct fresh sites gives the board back, and it counts
the arrangements it accepts as an `int` does: when their number is at most `INT_MAX` the value
returned is that number, the statistics record each of them and the `flag_placements` of a
site has grown by the number of them that mine it; when their number exceeds `INT_MAX` the
value returned is negative. -/
theorem analyze_list_aux_spec : ∀ (todo : List possible_mine_t) (mf : minefield_t)
    (list : mine_list_t) (idx : Nat) (fu : Int),
    mf.needed = 0 → sites_fresh mf todo →
    (_analyze_list todo mf list idx fu).mf = mf ∧
    (_analyze_list todo mf list idx fu).list.arrangements = list.arrangements ∧
    (_analyze_list todo mf list idx fu).list.cell.length = list.cell.length ∧
    ((brute_force (accepts list.length mf todo fu) todo.length : Int) ≤ 2147483647 →
      (_analyze_list todo mf list idx fu).result
        = (brute_force (accepts list.length mf todo fu) todo.length : Int) ∧
      stats_of (_analyze_list todo mf list idx fu).list
        = (accepted_flags list.length mf todo fu).foldl record_flags (stats_of list) ∧
      (placements_int list →
        ∀ j, (_analyze_list todo mf list idx fu).list.cell[j]?
          = (list.cell[j]?).map (bump_placements (if idx ≤ j then
              (brute_force_mined (accepts list.length mf todo fu) todo.length (j - idx) : Int)
              else 0)))) ∧
    (2147483647 < (brute_force (accepts list.length mf todo fu) todo.length : Int) →
      (_analyze_list todo mf list idx fu).result < 0) := by
  intro todo
  induction todo with
  | nil =>
    intro mf list idx fu hn _
    unfold _analyze_list
    rw [if_neg (by simp [hn])]
    by_cases hover : mf.mines - mf.flags - fu > mf.unmarked - list.length
    · rw [if_pos hover]
      have hacc : accepts list.length mf [] fu [] = false := by simp [accepts, hn, hover]
      refine ⟨rfl, rfl, rfl, fun _ => ⟨?_, ?_, fun hint j => ?_⟩, ?_⟩
      · simp [brute_force_nil, hacc]
      · simp [accepted_flags_nil, hacc]
      · simp only [List.length_nil, brute_force_mined_nil, Nat.cast_zero, ite_self]
        exact (map_bump_zero list hint j).symm
      · simp [brute_force_nil, hacc]
    · rw [if_neg hover]
      simp only
      have hacc : accepts list.length mf [] fu [] = true := by simp [accepts, hn, hover]
      refine ⟨trivial, ?_, ?_, fun _ => ⟨?_, ?_, fun hint j => ?_⟩, ?_⟩
      · split_ifs <;> rfl
      · split_ifs <;> rfl
      · simp [brute_force_nil, hacc]
      · simp only [accepted_flags_nil, hacc, if_true, List.foldl_cons, List.foldl_nil]
        unfold stats_of record_flags
        by_cases h1 : fu < list.min_flags <;> by_cases h2 : fu > list.max_flags <;>
          simp [h1, h2]
      · simp only [List.length_nil, brute_force_mined_nil, Nat.cast_zero, ite_self]
        rw [map_bump_zero list hint j]
        split_ifs <;> rfl
      · simp [brute_force_nil, hacc]
  | cons cell next ih =>
    intro mf list idx fu hn hfresh
    have hcf : (minefield_cell mf cell.col cell.row).is_flagged = false ∧
        (minefield_cell mf cell.col cell.row).is_unavailable = false :=
      hfresh.2 cell (List.mem_cons_self _ _)
    have ih1 := ih (set_flagged mf cell.col cell.row true) list (idx + 1) (fu + 1) hn
      (sites_fresh_next_flagged mf cell next hfresh)
    have hi1 := analyze_list_aux_int next (set_flagged mf cell.col cell.row true) list
      (idx + 1) (fu + 1)
    have ih2 := fun l => ih (set_unavailable mf cell.col cell.row true) l (idx + 1) fu hn
      (sites_fresh_next_unavailable mf cell next hfresh)
    rw [_analyze_list]
    simp only [List.length_cons]
    rw [brute_force_accepts_cons, accepted_flags_cons]
    simp only [mined_split list.length mf cell next fu idx]
    by_cases hF : can_flag mf cell fu = true
    · obtain ⟨e2, e3, e4, ex, en⟩ := ih1
      generalize _analyze_list next (set_flagged mf cell.col cell.row true) list (idx + 1)
        (fu + 1) = r1 at e2 e3 e4 ex en hi1 ⊢
      generalize hC1 : brute_force
        (accepts list.length (set_flagged mf cell.col cell.row true) next (fu + 1))
        next.length = C1 at ex en ⊢
      by_cases hr1 : r1.result < 0
      · have hbig : (2147483647 : Int) < C1 := by
          by_contra hle
          have := (ex (by omega)).1
          omega
        simp only [hF, if_true, hr1, e2, set_flagged_undo mf cell.col cell.row hcf.1]
        refine ⟨trivial, e3, e4, fun hle => ?_, fun _ => trivial⟩
        exfalso
        push_cast at hle
        split at hle <;> omega
      · have hsmall : (C1 : Int) ≤ 2147483647 := by
          by_contra hgt
          exact hr1 (en (by omega))
        obtain ⟨e1, e5, e6⟩ := ex hsmall
        simp only [hF, if_true, hr1, if_false, e2, set_flagged_undo mf cell.col cell.row hcf.1]
        have hlen : (add_flag_placements r1.list idx r1.result).length = list.length := by
          simp [add_flag_placements, mine_list_t.length, e4]
        by_cases hC : can_clear mf cell = true
        · obtain ⟨f2, f3, f4, fx, fn⟩ := ih2 (add_flag_placements r1.list idx r1.result)
          rw [hlen] at fx fn
          generalize _analyze_list next (set_unavailable mf cell.col cell.row true)
            (add_flag_placements r1.list idx r1.result) (idx + 1) fu = r2
            at f2 f3 f4 fx fn ⊢
          generalize hC2 : brute_force
            (accepts list.length (set_unavailable mf cell.col cell.row true) next fu)
            next.length = C2 at fx fn ⊢
          by_cases hr2 : r2.result < 0
          · have hbig : (2147483647 : Int) < C2 := by
              by_contra hle
              have := (fx (by omega)).1
              omega
            simp only [hC, if_true, hr2, f2, set_unavailable_undo mf cell.col cell.row hcf.2]
            refine ⟨trivial, ?_, ?_, fun hle => ?_, fun _ => trivial⟩
            · rw [f3]; exact e3
            · rw [f4]; simp [add_flag_placements, e4]
            · exfalso
              push_cast at hle
              omega
          · have hsmall2 : (C2 : Int) ≤ 2147483647 := by
              by_contra hgt
              exact hr2 (fn (by omega))
            obtain ⟨f1, f5, f6⟩ := fx hsmall2
            simp only [hC, if_true, hr2, if_false, f2,
              set_unavailable_undo mf cell.col cell.row hcf.2]
            refine ⟨trivial, ?_, ?_, fun hle => ⟨?_, ?_, fun hint j => ?_⟩, fun hgt => ?_⟩
            · rw [f3]; exact e3
            · rw [f4]; simp [add_flag_placements, e4]
            · rw [e1, f1]
              push_cast at hle ⊢
              exact wrap_int_of_is_int _ (by unfold is_int; omega)
            · rw [f5, List.foldl_append, stats_of_add_flag_placements, e5]
            · rw [f6 (placements_int_add r1.list idx r1.result (hi1 hint).2)]
              simp only [add_flag_placements, List.getElem?_modify, e6 hint, Option.map_eq_map,
                Option.map_map]
              rw [bump_chain, e1]
            · rw [e1, f1]
              push_cast at hgt
              exact wrap_int_neg _ (by omega) (by omega)
        · simp only [hC, Bool.false_eq_true, if_false]
          refine ⟨trivial, e3, ?_, fun hle => ⟨?_, ?_, fun hint j => ?_⟩, fun hgt => ?_⟩
          · simp [add_flag_placements, e4]
          · rw [e1]; simp
          · rw [List.append_nil, stats_of_add_flag_placements]
            exact e5
          · simp only [add_flag_placements, List.getElem?_modify, e6 hint, Option.map_eq_map,
              Option.map_map]
            rw [bump_pair, e1]
            simp
          · exfalso
            push_cast at hgt
            omega
    · simp only [hF, Bool.false_eq_true, if_false, lt_self_iff_false]
      by_cases hC : can_clear mf cell = true
      · obtain ⟨f2, f3, f4, fx, fn⟩ := ih2 list
        generalize _analyze_list next (set_unavailable mf cell.col cell.row true)
          list (idx + 1) fu = r2 at f2 f3 f4 fx fn ⊢
        generalize hC2 : brute_force
          (accepts list.length (set_unavailable mf cell.col cell.row true) next fu)
          next.length = C2 at fx fn ⊢
        by_cases hr2 : r2.result < 0
        · have hbig : (2147483647 : Int) < C2 := by
            by_contra hle
            have := (fx (by omega)).1
            omega
          simp only [hC, if_true, hr2, f2, set_unavailable_undo mf cell.col cell.row hcf.2]
          refine ⟨trivial, f3, f4, fun hle => ?_, fun _ => trivial⟩
          exfalso
          push_cast at hle
          omega
        · have hsmall2 : (C2 : Int) ≤ 2147483647 := by
            by_contra hgt
            exact hr2 (fn (by omega))
          obtain ⟨f1, f5, f6⟩ := fx hsmall2
          simp only [hC, if_true, hr2, if_false, f2,
            set_unavailable_undo mf cell.col cell.row hcf.2]
          refine ⟨trivial, f3, f4, fun hle => ⟨?_, ?_, fun hint j => ?_⟩, fun hgt => ?_⟩
          · rw [f1, zero_add]
            push_cast at hle ⊢
            simp only [zero_add] at hle ⊢
            exact wrap_int_of_is_int _ (by unfold is_int; omega)
          · rw [f5, List.nil_append]
          · rw [f6 hint]
            simp
          · exfalso
            push_cast at hgt
            omega
      · simp only [hC, Bool.false_eq_true, if_false]
        refine ⟨trivial, trivial, trivial, fun _ => ⟨by simp, by simp, fun hint j => ?_⟩,
          fun hgt => ?_⟩
        · simp only [ite_self, add_zero, Nat.cast_zero]
          exact (map_bump_zero list hint j).symm
        · simp at hgt

/-! ## Neighbours -/

theorem mem_neighbours (i j : Int) (q : Int × Int) :
    q ∈ neighbours i j ↔
      (q.1 - i).natAbs ≤ 1 ∧ (q.2 - j).natAbs ≤ 1 ∧ ¬ (q.1 = i ∧ q.2 = j) := by
  obtain ⟨a, b⟩ := q
  simp only [neighbours, List.mem_cons, Prod.mk.injEq, List.mem_singleton, List.not_mem_nil,
    or_false]
  constructor
  · intro h
    rcases h with h | h | h | h | h | h | h | h <;> obtain ⟨rfl, rfl⟩ := h <;>
      refine ⟨by omega, by omega, by omega⟩
  · rintro ⟨h1, h2, h3⟩
    have ha : a = i - 1 ∨ a = i ∨ a = i + 1 := by omega
    have hb : b = j - 1 ∨ b = j ∨ b = j + 1 := by omega
    rcases ha with rfl | rfl | rfl <;> rcases hb with rfl | rfl | rfl <;> simp at h3 ⊢

theorem neighbours_symm (i j c r : Int) : (i, j) ∈ neighbours c r ↔ (c, r) ∈ neighbours i j := by
  rw [mem_neighbours, mem_neighbours]
  simp only
  constructor <;> rintro ⟨h1, h2, h3⟩ <;> refine ⟨by omega, by omega, by omega⟩

theorem nodup_neighbours (i j : Int) : (neighbours i j).Nodup := by
  simp only [neighbours, List.nodup_cons, List.mem_cons, Prod.mk.injEq, List.mem_singleton,
    List.not_mem_nil, List.nodup_nil, and_true, not_or, not_false_eq_true]
  refine ⟨?_, ?_, ?_, ?_, ?_, ?_, ?_⟩ <;> (try refine ⟨?_, ?_⟩) <;> omega

theorem for_each_neighbour_and_eq (f : Int → Int → Bool) (i j : Int) :
    for_each_neighbour_and f i j = (neighbours i j).all fun q => f q.1 q.2 := by
  simp [for_each_neighbour_and, neighbours, Bool.and_assoc]

theorem for_each_neighbour_or_eq (f : Int → Int → Bool) (i j : Int) :
    for_each_neighbour_or f i j = (neighbours i j).any fun q => f q.1 q.2 := by
  simp [for_each_neighbour_or, neighbours, Bool.or_assoc]

theorem for_each_neighbour_sum_eq (p : Int → Int → Bool) (i j : Int) :
    for_each_neighbour_sum (fun c r => b2i (p c r)) i j
      = ((neighbours i j).countP fun q => p q.1 q.2 : Nat) := by
  simp only [for_each_neighbour_sum, neighbours, List.countP_cons, List.countP_nil, b2i]
  push_cast
  ring

theorem FLAGSAROUND_eq_countP (mf : minefield_t) (i j : Int) :
    FLAGSAROUND mf i j
      = ((neighbours i j).countP fun q => (minefield_cell mf q.1 q.2).is_flagged : Nat) := by
  unfold FLAGSAROUND IS_FLAGGED
  exact for_each_neighbour_sum_eq (fun c r => (minefield_cell mf c r).is_flagged) i j

theorem AVAILAROUND_eq_countP (mf : minefield_t) (i j : Int) :
    AVAILAROUND mf i j = ((neighbours i j).countP fun q => IS_AVAILABLE mf q.1 q.2 : Nat) := by
  unfold AVAILAROUND
  exact for_each_neighbour_sum_eq (fun c r => IS_AVAILABLE mf c r) i j

theorem countP_succ_le_of_imp {α : Type} (l : List α) (p q : α → Bool)
    (h : ∀ x ∈ l, p x = true → q x = true) (s : α) (hs : s ∈ l) (hps : p s = false)
    (hqs : q s = true) : l.countP p + 1 ≤ l.countP q := by
  induction l with
  | nil => simp at hs
  | cons a t ih =>
    rw [List.countP_cons, List.countP_cons]
    have hmono : t.countP p ≤ t.countP q :=
      List.countP_mono_left (fun x hx => h x (List.mem_cons_of_mem a hx))
    rcases List.mem_cons.1 hs with rfl | hs'
    · simp only [hps, hqs, Bool.false_eq_true, if_false, if_true]
      omega
    · have := ih (fun x hx => h x (List.mem_cons_of_mem a hx)) hs'
      have ha := h a (List.mem_cons_self a t)
      cases hp : p a <;> cases hq : q a <;> simp [hp, hq] at ha ⊢ <;> omega

theorem set_flagged_cell (mf : minefield_t) (col row : Int) (v : Bool) (c r : Int) :
    minefield_cell (set_flagged mf col row v) c r
      = if c = col ∧ r = row then { minefield_cell mf col row with is_flagged := v }
        else minefield_cell mf c r := by
  simp [set_flagged, store_cell, minefield_cell]

theorem set_unavailable_cell (mf : minefield_t) (col row : Int) (v : Bool) (c r : Int) :
    minefield_cell (set_unavailable mf col row v) c r
      = if c = col ∧ r = row then { minefield_cell mf col row with is_unavailable := v }
        else minefield_cell mf c r := by
  simp [set_unavailable, store_cell, minefield_cell]

theorem set_flagged_is_cleared (mf : minefield_t) (col row : Int) (v : Bool) (c r : Int) :
    (minefield_cell (set_flagged mf col row v) c r).is_cleared
      = (minefield_cell mf c r).is_cleared := by
  rw [set_flagged_cell]; split
  · next h => rw [h.1, h.2]
  · rfl

theorem set_flagged_minesaround (mf : minefield_t) (col row : Int) (v : Bool) (c r : Int) :
    (minefield_cell (set_flagged mf col row v) c r).minesaround
      = (minefield_cell mf c r).minesaround := by
  rw [set_flagged_cell]; split
  · next h => rw [h.1, h.2]
  · rfl

theorem set_flagged_is_unavailable (mf : minefield_t) (col row : Int) (v : Bool) (c r : Int) :
    (minefield_cell (set_flagged mf col row v) c r).is_unavailable
      = (minefield_cell mf c r).is_unavailable := by
  rw [set_flagged_cell]; split
  · next h => rw [h.1, h.2]
  · rfl

theorem set_flagged_available (mf : minefield_t) (col row : Int) (v : Bool) (c r : Int) :
    IS_AVAILABLE (set_flagged mf col row v) c r = IS_AVAILABLE mf c r := by
  unfold IS_AVAILABLE
  rw [set_flagged_is_cleared, set_flagged_is_unavailable]

theorem set_unavailable_is_cleared (mf : minefield_t) (col row : Int) (v : Bool) (c r : Int) :
    (minefield_cell (set_unavailable mf col row v) c r).is_cleared
      = (minefield_cell mf c r).is_cleared := by
  rw [set_unavailable_cell]; split
  · next h => rw [h.1, h.2]
  · rfl

theorem set_unavailable_minesaround (mf : minefield_t) (col row : Int) (v : Bool) (c r : Int) :
    (minefield_cell (set_unavailable mf col row v) c r).minesaround
      = (minefield_cell mf c r).minesaround := by
  rw [set_unavailable_cell]; split
  · next h => rw [h.1, h.2]
  · rfl

theorem set_unavailable_is_flagged (mf : minefield_t) (col row : Int) (v : Bool) (c r : Int) :
    (minefield_cell (set_unavailable mf col row v) c r).is_flagged
      = (minefield_cell mf c r).is_flagged := by
  rw [set_unavailable_cell]; split
  · next h => rw [h.1, h.2]
  · rfl

theorem set_unavailable_flagsaround (mf : minefield_t) (col row : Int) (v : Bool) (c r : Int) :
    FLAGSAROUND (set_unavailable mf col row v) c r = FLAGSAROUND mf c r := by
  rw [FLAGSAROUND_eq_countP, FLAGSAROUND_eq_countP]
  congr 1
  apply List.countP_congr
  intro q _
  rw [set_unavailable_is_flagged]

theorem set_flagged_availaround (mf : minefield_t) (col row : Int) (v : Bool) (c r : Int) :
    AVAILAROUND (set_flagged mf col row v) c r = AVAILAROUND mf c r := by
  rw [AVAILAROUND_eq_countP, AVAILAROUND_eq_countP]
  congr 1
  apply List.countP_congr
  intro q _
  rw [set_flagged_available]

theorem set_flagged_flagsaround (mf : minefield_t) (col row : Int) (c r : Int)
    (h : (minefield_cell mf col row).is_flagged = false) :
    FLAGSAROUND (set_flagged mf col row true) c r
      = FLAGSAROUND mf c r + (if (col, row) ∈ neighbours c r then 1 else 0) := by
  rw [FLAGSAROUND_eq_countP, FLAGSAROUND_eq_countP]
  by_cases hm : (col, row) ∈ neighbours c r
  · rw [if_pos hm]
    have := countP_change_at (neighbours c r) (nodup_neighbours c r) (col, row) hm
      (fun q => (minefield_cell mf q.1 q.2).is_flagged)
      (fun q => (minefield_cell (set_flagged mf col row true) q.1 q.2).is_flagged)
      (by
        rintro ⟨x, y⟩ hxy
        have : ¬ (x = col ∧ y = row) := fun hh => hxy (by rw [hh.1, hh.2])
        simp [set_flagged_cell, this])
    have e2 : (minefield_cell (set_flagged mf col row true) col row).is_flagged = true := by
      simp [set_flagged_cell]
    simp only [h, e2, b2i, Bool.false_eq_true, if_false, if_true] at this
    omega
  · rw [if_neg hm, add_zero]
    congr 1
    apply List.countP_congr
    rintro ⟨x, y⟩ hxy
    have : ¬ (x = col ∧ y = row) := fun hh => hm (by rw [← hh.1, ← hh.2]; exact hxy)
    simp [set_flagged_cell, this]

theorem set_unavailable_availaround (mf : minefield_t) (col row : Int) (c r : Int)
    (h : IS_AVAILABLE mf col row = true) :
    AVAILAROUND (set_unavailable mf col row true) c r
      = AVAILAROUND mf c r - (if (col, row) ∈ neighbours c r then 1 else 0) := by
  rw [AVAILAROUND_eq_countP, AVAILAROUND_eq_countP]
  by_cases hm : (col, row) ∈ neighbours c r
  · rw [if_pos hm]
    have := countP_change_at (neighbours c r) (nodup_neighbours c r) (col, row) hm
      (fun q => IS_AVAILABLE mf q.1 q.2)
      (fun q => IS_AVAILABLE (set_unavailable mf col row true) q.1 q.2)
      (by
        rintro ⟨x, y⟩ hxy
        have : ¬ (x = col ∧ y = row) := fun hh => hxy (by rw [hh.1, hh.2])
        simp [IS_AVAILABLE, set_unavailable_cell, this])
    have h2 : IS_AVAILABLE (set_unavailable mf col row true) col row = false := by
      simp [IS_AVAILABLE, set_unavailable_cell]
    simp only [h, h2, b2i, Bool.false_eq_true, if_false, if_true] at this
    omega
  · rw [if_neg hm, sub_zero]
    congr 1
    apply List.countP_congr
    rintro ⟨x, y⟩ hxy
    have : ¬ (x = col ∧ y = row) := fun hh => hm (by rw [← hh.1, ← hh.2]; exact hxy)
    simp [IS_AVAILABLE, set_unavailable_cell, this]

theorem can_flag_iff (mf : minefield_t) (s : possible_mine_t) (fu : Int) :
    can_flag mf s fu = true ↔ mf.flags + fu + 1 ≤ mf.mines ∧
      ∀ n ∈ neighbours s.col s.row, (minefield_cell mf n.1 n.2).is_cleared = true →
        FLAGSAROUND mf n.1 n.2 < ((minefield_cell mf n.1 n.2).minesaround : Int) := by
  unfold can_flag
  rw [for_each_neighbour_and_eq]
  simp only [Bool.and_eq_true, decide_eq_true_eq, List.all_eq_true, not_enough_flagged,
    Bool.or_eq_true, Bool.not_eq_true']
  constructor
  · rintro ⟨h1, h2⟩
    refine ⟨h1, fun n hn hc => ?_⟩
    rcases h2 n hn with h | h
    · rw [h] at hc; cases hc
    · exact h
  · rintro ⟨h1, h2⟩
    refine ⟨h1, fun n hn => ?_⟩
    cases hc : (minefield_cell mf n.1 n.2).is_cleared
    · left; rfl
    · right; exact h2 n hn hc

theorem can_clear_iff (mf : minefield_t) (s : possible_mine_t) :
    can_clear mf s = true ↔
      ∀ n ∈ neighbours s.col s.row, (minefield_cell mf n.1 n.2).is_cleared = true →
        AVAILAROUND mf n.1 n.2 > ((minefield_cell mf n.1 n.2).minesaround : Int) := by
  unfold can_clear
  rw [for_each_neighbour_and_eq]
  simp only [List.all_eq_true, not_enough_cleared, Bool.or_eq_true, Bool.not_eq_true',
    decide_eq_true_eq]
  constructor
  · intro h2 n hn hc
    rcases h2 n hn with h | h
    · rw [h] at hc; cases hc
    · exact h
  · intro h2 n hn
    cases hc : (minefield_cell mf n.1 n.2).is_cleared
    · left; rfl
    · right; exact h2 n hn hc

theorem site_ne_of_nodup (s : possible_mine_t) (ss : List possible_mine_t)
    (h : (site_positions (s :: ss)).Nodup) (s' : possible_mine_t) (hs' : s' ∈ ss) :
    ¬ (s'.col = s.col ∧ s'.row = s.row) := by
  simp only [site_positions, List.map_cons, List.nodup_cons] at h
  intro hh
  apply h.1
  rw [List.mem_map]
  exact ⟨s', hs', by rw [hh.1, hh.2]⟩

theorem not_mem_cons_positions (s : possible_mine_t) (ss : List possible_mine_t)
    (m : Int × Int) (h1 : m ∉ site_positions ss) (h2 : ¬ (m.1 = s.col ∧ m.2 = s.row)) :
    m ∉ site_positions (s :: ss) := by
  simp only [site_positions, List.map_cons, List.mem_cons, not_or]
  refine ⟨fun h => h2 ?_, h1⟩
  rw [h]
  exact ⟨rfl, rfl⟩

theorem step_flag (mf : minefield_t) (s : possible_mine_t) (ss : List possible_mine_t)
    (hopen : sites_open mf (s :: ss)) (hinv : search_inv mf (s :: ss))
    (hg : ∀ n ∈ neighbours s.col s.row, (minefield_cell mf n.1 n.2).is_cleared = true →
      FLAGSAROUND mf n.1 n.2 < ((minefield_cell mf n.1 n.2).minesaround : Int)) :
    sites_open (set_flagged mf s.col s.row true) ss ∧
    search_inv (set_flagged mf s.col s.row true) ss ∧
    ∀ n ∈ neighbours s.col s.row, (minefield_cell mf n.1 n.2).is_cleared = true →
      (∀ m ∈ neighbours n.1 n.2, m ∉ site_positions ss) →
      FLAGSAROUND (set_flagged mf s.col s.row true) n.1 n.2
        = ((minefield_cell mf n.1 n.2).minesaround : Int) := by
  obtain ⟨hnd, hop⟩ := hopen
  have hs := hop s (List.mem_cons_self _ _)
  have hsav : IS_AVAILABLE mf s.col s.row = true := by
    simp [IS_AVAILABLE, hs.2.1, hs.2.2]
  have hnd' : (site_positions ss).Nodup := by
    simp only [site_positions, List.map_cons, List.nodup_cons] at hnd
    exact hnd.2
  have hiff : ∀ (n : Int × Int), (∀ m ∈ neighbours n.1 n.2, m ∉ site_positions (s :: ss) →
      ((minefield_cell mf m.1 m.2).is_flagged = true ↔ IS_AVAILABLE mf m.1 m.2 = true)) →
      ∀ m ∈ neighbours n.1 n.2, m ∉ site_positions ss →
      ((minefield_cell (set_flagged mf s.col s.row true) m.1 m.2).is_flagged = true ↔
        IS_AVAILABLE (set_flagged mf s.col s.row true) m.1 m.2 = true) := by
    intro n hm m hmn hms
    rw [set_flagged_available, set_flagged_cell]
    by_cases hsm : m.1 = s.col ∧ m.2 = s.row
    · rw [if_pos hsm, hsm.1, hsm.2, hsav]
    · rw [if_neg hsm]
      exact hm m hmn (not_mem_cons_positions s ss m hms hsm)
  refine ⟨⟨hnd', fun s' hs' => ?_⟩, ?_, ?_⟩
  · have hne := site_ne_of_nodup s ss hnd s' hs'
    rw [set_flagged_cell, if_neg hne]
    exact hop s' (List.mem_cons_of_mem _ hs')
  · intro s' hs' n hn hcl
    rw [set_flagged_is_cleared] at hcl
    obtain ⟨⟨hb1, hb2⟩, hm⟩ := hinv s' (List.mem_cons_of_mem _ hs') n hn hcl
    rw [set_flagged_flagsaround _ _ _ _ _ hs.1, set_flagged_minesaround, set_flagged_availaround]
    refine ⟨⟨?_, hb2⟩, hiff n hm⟩
    by_cases hmem : (s.col, s.row) ∈ neighbours n.1 n.2
    · rw [if_pos hmem]
      have := hg n ((neighbours_symm _ _ _ _).1 hmem) hcl
      omega
    · rw [if_neg hmem]; omega
  · intro n hn hcl hall
    obtain ⟨⟨hb1, hb2⟩, hm⟩ := hinv s (List.mem_cons_self _ _) n hn hcl
    have hmem : (s.col, s.row) ∈ neighbours n.1 n.2 := (neighbours_symm _ _ _ _).1 hn
    have h1 := set_flagged_flagsaround mf s.col s.row n.1 n.2 hs.1
    rw [if_pos hmem] at h1
    have h2 : FLAGSAROUND (set_flagged mf s.col s.row true) n.1 n.2
        = AVAILAROUND (set_flagged mf s.col s.row true) n.1 n.2 := by
      rw [FLAGSAROUND_eq_countP, AVAILAROUND_eq_countP]
      congr 1
      apply List.countP_congr
      intro m hmn
      exact hiff n hm m hmn (hall m hmn)
    rw [set_flagged_availaround] at h2
    have := hg n hn hcl
    omega

theorem step_clear (mf : minefield_t) (s : possible_mine_t) (ss : List possible_mine_t)
    (hopen : sites_open mf (s :: ss)) (hinv : search_inv mf (s :: ss))
    (hg : ∀ n ∈ neighbours s.col s.row, (minefield_cell mf n.1 n.2).is_cleared = true →
      AVAILAROUND mf n.1 n.2 > ((minefield_cell mf n.1 n.2).minesaround : Int)) :
    sites_open (set_unavailable mf s.col s.row true) ss ∧
    search_inv (set_unavailable mf s.col s.row true) ss ∧
    ∀ n ∈ neighbours s.col s.row, (minefield_cell mf n.1 n.2).is_cleared = true →
      (∀ m ∈ neighbours n.1 n.2, m ∉ site_positions ss) →
      FLAGSAROUND (set_unavailable mf s.col s.row true) n.1 n.2
        = ((minefield_cell mf n.1 n.2).minesaround : Int) := by
  obtain ⟨hnd, hop⟩ := hopen
  have hs := hop s (List.mem_cons_self _ _)
  have hsav : IS_AVAILABLE mf s.col s.row = true := by
    simp [IS_AVAILABLE, hs.2.1, hs.2.2]
  have hnd' : (site_positions ss).Nodup := by
    simp only [site_positions, List.map_cons, List.nodup_cons] at hnd
    exact hnd.2
  have hiff : ∀ (n : Int × Int), (∀ m ∈ neighbours n.1 n.2, m ∉ site_positions (s :: ss) →
      ((minefield_cell mf m.1 m.2).is_flagged = true ↔ IS_AVAILABLE mf m.1 m.2 = true)) →
      ∀ m ∈ neighbours n.1 n.2, m ∉ site_positions ss →
      ((minefield_cell (set_unavailable mf s.col s.row true) m.1 m.2).is_flagged = true ↔
        IS_AVAILABLE (set_unavailable mf s.col s.row true) m.1 m.2 = true) := by
    intro n hm m hmn hms
    rw [set_unavailable_is_flagged]
    by_cases hsm : m.1 = s.col ∧ m.2 = s.row
    · rw [hsm.1, hsm.2, hs.1]
      simp [IS_AVAILABLE, set_unavailable_cell]
    · have : IS_AVAILABLE (set_unavailable mf s.col s.row true) m.1 m.2
          = IS_AVAILABLE mf m.1 m.2 := by
        simp [IS_AVAILABLE, set_unavailable_cell, hsm]
      rw [this]
      exact hm m hmn (not_mem_cons_positions s ss m hms hsm)
  refine ⟨⟨hnd', fun s' hs' => ?_⟩, ?_, ?_⟩
  · have hne := site_ne_of_nodup s ss hnd s' hs'
    rw [set_unavailable_cell, if_neg hne]
    exact hop s' (List.mem_cons_of_mem _ hs')
  · intro s' hs' n hn hcl
    rw [set_unavailable_is_cleared] at hcl
    obtain ⟨⟨hb1, hb2⟩, hm⟩ := hinv s' (List.mem_cons_of_mem _ hs') n hn hcl
    rw [set_unavailable_flagsaround, set_unavailable_minesaround,
      set_unavailable_availaround _ _ _ _ _ hsav]
    refine ⟨⟨hb1, ?_⟩, hiff n hm⟩
    by_cases hmem : (s.col, s.row) ∈ neighbours n.1 n.2
    · rw [if_pos hmem]
      have := hg n ((neighbours_symm _ _ _ _).1 hmem) hcl
      omega
    · rw [if_neg hmem]; omega
  · intro n hn hcl hall
    obtain ⟨⟨hb1, hb2⟩, hm⟩ := hinv s (List.mem_cons_self _ _) n hn hcl
    have hmem : (s.col, s.row) ∈ neighbours n.1 n.2 := (neighbours_symm _ _ _ _).1 hn
    have h1 := set_unavailable_availaround mf s.col s.row n.1 n.2 hsav
    rw [if_pos hmem] at h1
    have h2 : FLAGSAROUND (set_unavailable mf s.col s.row true) n.1 n.2
        = AVAILAROUND (set_unavailable mf s.col s.row true) n.1 n.2 := by
      rw [FLAGSAROUND_eq_countP, AVAILAROUND_eq_countP]
      congr 1
      apply List.countP_congr
      intro m hmn
      exact hiff n hm m hmn (hall m hmn)
    have h3 := set_unavailable_flagsaround mf s.col s.row true n.1 n.2
    have := hg n hn hcl
    omega

theorem mined_at_mem : ∀ (cells : List possible_mine_t) (a : List Bool) (c r : Int),
    mined_at cells a c r = true → (c, r) ∈ site_positions cells := by
  intro cells
  induction cells with
  | nil => intro a c r h; simp [mined_at] at h
  | cons s ss ih =>
    intro a c r h
    cases a with
    | nil => simp [mined_at] at h
    | cons b bs =>
      simp only [mined_at, Bool.or_eq_true, Bool.and_eq_true, decide_eq_true_eq] at h
      simp only [site_positions, List.map_cons, List.mem_cons, Prod.mk.injEq]
      rcases h with ⟨_, h1, h2⟩ | h
      · left; exact ⟨h1.symm, h2.symm⟩
      · right; exact ih bs c r h

theorem place_flags_cell : ∀ (cells : List possible_mine_t) (a : List Bool) (mf : minefield_t)
    (c r : Int), minefield_cell (place_flags mf cells a) c r
      = { minefield_cell mf c r with
          is_flagged := (minefield_cell mf c r).is_flagged || mined_at cells a c r } := by
  intro cells
  induction cells with
  | nil => intro a mf c r; simp [place_flags, mined_at]
  | cons s ss ih =>
    intro a mf c r
    cases a with
    | nil => simp [place_flags, mined_at]
    | cons b bs =>
      cases b
      · simp only [place_flags, mined_at, Bool.false_and, Bool.false_or]
        exact ih bs mf c r
      · simp only [place_flags, mined_at, Bool.true_and]
        rw [ih bs _ c r, set_flagged_cell]
        by_cases h : c = s.col ∧ r = s.row
        · obtain ⟨rfl, rfl⟩ := h
          simp
        · have h' : ¬ (s.col = c ∧ s.row = r) := fun hh => h ⟨hh.1.symm, hh.2.symm⟩
          rw [if_neg h]
          simp [h']

theorem place_flags_is_cleared (cells : List possible_mine_t) (a : List Bool)
    (mf : minefield_t) (c r : Int) :
    (minefield_cell (place_flags mf cells a) c r).is_cleared
      = (minefield_cell mf c r).is_cleared := by
  rw [place_flags_cell]

theorem place_flags_minesaround (cells : List possible_mine_t) (a : List Bool)
    (mf : minefield_t) (c r : Int) :
    (minefield_cell (place_flags mf cells a) c r).minesaround
      = (minefield_cell mf c r).minesaround := by
  rw [place_flags_cell]

theorem place_flags_is_flagged (cells : List possible_mine_t) (a : List Bool)
    (mf : minefield_t) (c r : Int) :
    (minefield_cell (place_flags mf cells a) c r).is_flagged
      = ((minefield_cell mf c r).is_flagged || mined_at cells a c r) := by
  rw [place_flags_cell]

theorem clue_met_iff (mf : minefield_t) (c r : Int) :
    clue_met mf c r = true ↔ ((minefield_cell mf c r).is_cleared = true →
      FLAGSAROUND mf c r = ((minefield_cell mf c r).minesaround : Int)) := by
  unfold clue_met
  cases (minefield_cell mf c r).is_cleared <;> simp

theorem flagsaround_congr (a b : minefield_t) (c r : Int)
    (h : ∀ m ∈ neighbours c r, (minefield_cell a m.1 m.2).is_flagged
      = (minefield_cell b m.1 m.2).is_flagged) : FLAGSAROUND a c r = FLAGSAROUND b c r := by
  rw [FLAGSAROUND_eq_countP, FLAGSAROUND_eq_countP]
  congr 1
  apply List.countP_congr
  intro m hm
  rw [h m hm]

theorem assigned_nonneg (a : List Bool) : 0 ≤ assigned a := by
  unfold assigned; omega

theorem mem_site_positions (cells : List possible_mine_t) (m : Int × Int) :
    m ∈ site_positions cells ↔ ∃ s ∈ cells, s.col = m.1 ∧ s.row = m.2 := by
  unfold site_positions
  rw [List.mem_map]
  constructor
  · rintro ⟨s, hs, rfl⟩; exact ⟨s, hs, rfl, rfl⟩
  · rintro ⟨s, hs, h1, h2⟩; exact ⟨s, hs, by rw [h1, h2]⟩

theorem accepts_iff (length : Int) : ∀ (todo : List possible_mine_t) (mf : minefield_t)
    (fu : Int) (a : List Bool), mf.needed = 0 → sites_open mf todo → search_inv mf todo →
    (accepts length mf todo fu a = true ↔
      a.length = todo.length ∧
      (∀ s ∈ todo, ∀ n ∈ neighbours s.col s.row,
        clue_met (place_flags mf todo a) n.1 n.2 = true) ∧
      (assigned a = 0 ∨ mf.flags + fu + assigned a ≤ mf.mines) ∧
      mf.mines - mf.flags - (fu + assigned a) ≤ mf.unmarked - length) := by
  intro todo
  induction todo with
  | nil =>
    intro mf fu a hn _ _
    cases a with
    | nil =>
      simp only [accepts, hn, decide_True, Bool.true_and, Bool.not_eq_true', decide_eq_false_iff_not,
        not_lt, List.length_nil, List.not_mem_nil, false_implies, implies_true, true_and]
      have : assigned [] = 0 := rfl
      rw [this]
      constructor
      · intro h; exact ⟨Or.inl rfl, by omega⟩
      · rintro ⟨_, h⟩; omega
    | cons b bs => simp [accepts]
  | cons s ss ih =>
    intro mf fu a hn hopen hinv
    have hs := hopen.2 s (List.mem_cons_self _ _)
    have hsav : IS_AVAILABLE mf s.col s.row = true := by
      simp [IS_AVAILABLE, hs.2.1, hs.2.2]
    have hsnot : (s.col, s.row) ∉ site_positions ss := by
      have := hopen.1
      simp only [site_positions, List.map_cons, List.nodup_cons] at this
      exact this.1
    cases a with
    | nil => simp [accepts]
    | cons b bs =>
      cases b
      · -- the site is decided clear
        simp only [accepts, Bool.and_eq_true, List.length_cons, add_left_inj,
          assigned_cons_false]
        have hfinal : ∀ c r, clue_met (place_flags (set_unavailable mf s.col s.row true) ss bs) c r
            = clue_met (place_flags mf ss bs) c r := by
          intro c r
          unfold clue_met
          rw [place_flags_is_cleared, place_flags_is_cleared, place_flags_minesaround,
            place_flags_minesaround, set_unavailable_is_cleared, set_unavailable_minesaround]
          congr 3
          apply flagsaround_congr
          intro m _
          rw [place_flags_is_flagged, place_flags_is_flagged, set_unavailable_is_flagged]
        have hpf : place_flags mf (s :: ss) (false :: bs) = place_flags mf ss bs := rfl
        rw [hpf]
        constructor
        · rintro ⟨hcl, hacc⟩
          have hg := (can_clear_iff mf s).1 hcl
          obtain ⟨hopen', hinv', hthird⟩ := step_clear mf s ss hopen hinv hg
          obtain ⟨hl, hclue, hbud, hleaf⟩ := (ih (set_unavailable mf s.col s.row true) fu bs hn hopen' hinv').1 hacc
          refine ⟨hl, ?_, hbud, hleaf⟩
          intro s'' hs'' n hn'
          rcases List.mem_cons.1 hs'' with rfl | hs''
          · by_cases hex : ∃ s' ∈ ss, (s'.col, s'.row) ∈ neighbours n.1 n.2
            · obtain ⟨s', hs', hmem⟩ := hex
              have := hclue s' hs' n ((neighbours_symm _ _ _ _).1 hmem)
              rw [hfinal] at this
              exact this
            · rw [clue_met_iff, place_flags_is_cleared, place_flags_minesaround]
              intro hc
              have hall : ∀ m ∈ neighbours n.1 n.2, m ∉ site_positions ss := by
                intro m hm hms
                obtain ⟨s', hs', h1, h2⟩ := (mem_site_positions ss m).1 hms
                exact hex ⟨s', hs', by rw [h1, h2]; exact hm⟩
              rw [← hthird n hn' hc hall, set_unavailable_flagsaround]
              apply flagsaround_congr
              intro m hm
              rw [place_flags_is_flagged]
              have : mined_at ss bs m.1 m.2 = false := by
                cases hma : mined_at ss bs m.1 m.2
                · rfl
                · exact absurd (mined_at_mem ss bs m.1 m.2 hma) (hall m hm)
              rw [this, Bool.or_false]
          · have := hclue s'' hs'' n hn'
            rw [hfinal] at this
            exact this
        · rintro ⟨hl, hclue, hbud, hleaf⟩
          have hg : ∀ n ∈ neighbours s.col s.row,
              (minefield_cell mf n.1 n.2).is_cleared = true →
              AVAILAROUND mf n.1 n.2 > ((minefield_cell mf n.1 n.2).minesaround : Int) := by
            intro n hn' hc
            have h1 := (clue_met_iff _ _ _).1 (hclue s (List.mem_cons_self _ _) n hn')
            rw [place_flags_is_cleared, place_flags_minesaround] at h1
            rw [← h1 hc, FLAGSAROUND_eq_countP, AVAILAROUND_eq_countP]
            have hm := (hinv s (List.mem_cons_self _ _) n hn' hc).2
            have := countP_succ_le_of_imp (neighbours n.1 n.2)
              (fun q => (minefield_cell (place_flags mf ss bs) q.1 q.2).is_flagged)
              (fun q => IS_AVAILABLE mf q.1 q.2)
              (by
                intro m hmn hfl
                simp only [place_flags_is_flagged, Bool.or_eq_true] at hfl
                by_cases hms : m ∈ site_positions (s :: ss)
                · obtain ⟨s', hs', h1, h2⟩ := (mem_site_positions _ m).1 hms
                  have := hopen.2 s' hs'
                  rw [h1, h2] at this
                  simp [IS_AVAILABLE, this.2.1, this.2.2]
                · rcases hfl with hfl | hfl
                  · exact (hm m hmn hms).1 hfl
                  · exact absurd (List.mem_cons_of_mem _ (mined_at_mem ss bs m.1 m.2 hfl)) hms)
              (s.col, s.row) ((neighbours_symm _ _ _ _).1 hn')
              (by
                simp only [place_flags_is_flagged, hs.1, Bool.false_or]
                cases hma : mined_at ss bs s.col s.row
                · rfl
                · exact absurd (mined_at_mem ss bs _ _ hma) hsnot)
              hsav
            omega
          obtain ⟨hopen', hinv', _⟩ := step_clear mf s ss hopen hinv hg
          refine ⟨(can_clear_iff mf s).2 hg, (ih (set_unavailable mf s.col s.row true) fu bs hn hopen' hinv').2
            ⟨hl, ?_, hbud, hleaf⟩⟩
          intro s' hs' n hn'
          rw [hfinal]
          exact hclue s' (List.mem_cons_of_mem _ hs') n hn'
      · -- the site is decided mined
        simp only [accepts, Bool.and_eq_true, List.length_cons, add_left_inj,
          assigned_cons_true]
        have hpf : place_flags mf (s :: ss) (true :: bs)
            = place_flags (set_flagged mf s.col s.row true) ss bs := rfl
        rw [hpf]
        have hnn := assigned_nonneg bs
        constructor
        · rintro ⟨hfl, hacc⟩
          obtain ⟨hb, hg⟩ := (can_flag_iff mf s fu).1 hfl
          obtain ⟨hopen', hinv', hthird⟩ := step_flag mf s ss hopen hinv hg
          obtain ⟨hl, hclue, hbud, hleaf⟩ := (ih (set_flagged mf s.col s.row true) (fu + 1) bs hn hopen' hinv').1 hacc
          refine ⟨hl, ?_, ?_, ?_⟩
          · intro s'' hs'' n hn'
            rcases List.mem_cons.1 hs'' with rfl | hs''
            · by_cases hex : ∃ s' ∈ ss, (s'.col, s'.row) ∈ neighbours n.1 n.2
              · obtain ⟨s', hs', hmem⟩ := hex
                exact hclue s' hs' n ((neighbours_symm _ _ _ _).1 hmem)
              · rw [clue_met_iff, place_flags_is_cleared, place_flags_minesaround,
                  set_flagged_is_cleared, set_flagged_minesaround]
                intro hc
                have hall : ∀ m ∈ neighbours n.1 n.2, m ∉ site_positions ss := by
                  intro m hm hms
                  obtain ⟨s', hs', h1, h2⟩ := (mem_site_positions ss m).1 hms
                  exact hex ⟨s', hs', by rw [h1, h2]; exact hm⟩
                rw [← hthird n hn' hc hall]
                apply flagsaround_congr
                intro m hm
                rw [place_flags_is_flagged]
                have : mined_at ss bs m.1 m.2 = false := by
                  cases hma : mined_at ss bs m.1 m.2
                  · rfl
                  · exact absurd (mined_at_mem ss bs m.1 m.2 hma) (hall m hm)
                rw [this, Bool.or_false]
            · exact hclue s'' hs'' n hn'
          · right
            have : (set_flagged mf s.col s.row true).flags = mf.flags := rfl
            have : (set_flagged mf s.col s.row true).mines = mf.mines := rfl
            rcases hbud with h | h
            · omega
            · simp only [set_flagged, store_cell] at h; omega
          · simp only [set_flagged, store_cell] at hleaf; omega
        · rintro ⟨hl, hclue, hbud, hleaf⟩
          have hb : mf.flags + fu + 1 ≤ mf.mines := by
            rcases hbud with h | h <;> omega
          have hg : ∀ n ∈ neighbours s.col s.row,
              (minefield_cell mf n.1 n.2).is_cleared = true →
              FLAGSAROUND mf n.1 n.2 < ((minefield_cell mf n.1 n.2).minesaround : Int) := by
            intro n hn' hc
            have h1 := (clue_met_iff _ _ _).1 (hclue s (List.mem_cons_self _ _) n hn')
            rw [place_flags_is_cleared, place_flags_minesaround, set_flagged_is_cleared,
              set_flagged_minesaround] at h1
            rw [← h1 hc, FLAGSAROUND_eq_countP, FLAGSAROUND_eq_countP]
            have := countP_succ_le_of_imp (neighbours n.1 n.2)
              (fun q => (minefield_cell mf q.1 q.2).is_flagged)
              (fun q => (minefield_cell
                (place_flags (set_flagged mf s.col s.row true) ss bs) q.1 q.2).is_flagged)
              (by
                intro m _ hfl
                simp only [place_flags_is_flagged, Bool.or_eq_true, set_flagged_cell]
                left
                split
                · rfl
                · exact hfl)
              (s.col, s.row) ((neighbours_symm _ _ _ _).1 hn') hs.1
              (by simp [place_flags_is_flagged, set_flagged_cell])
            omega
          obtain ⟨hopen', hinv', _⟩ := step_flag mf s ss hopen hinv hg
          refine ⟨(can_flag_iff mf s fu).2 ⟨hb, hg⟩, (ih (set_flagged mf s.col s.row true) (fu + 1) bs hn hopen' hinv').2
            ⟨hl, fun s' hs' n hn' => hclue s' (List.mem_cons_of_mem _ hs') n hn', ?_, ?_⟩⟩
          · right
            simp only [set_flagged, store_cell]
            rcases hbud with h | h <;> omega
          · simp only [set_flagged, store_cell]; omega

/-! ## From the hypotheses on the board to the invariant of the search -/

theorem length_of_mem_assignments : ∀ (n : Nat) (a : List Bool), a ∈ assignments n →
    a.length = n := by
  intro n
  induction n with
  | zero => intro a h; simp [assignments] at h; simp [h]
  | succ n ih =>
    intro a h
    simp only [assignments, List.mem_append, List.mem_map] at h
    rcases h with ⟨b, hb, rfl⟩ | ⟨b, hb, rfl⟩ <;> simp [ih b hb]

theorem board_wf_playable (mf : minefield_t) (h : board_wf mf) (c r : Int)
    (hp : (c, r) ∈ playable_cells mf) :
    (minefield_cell mf c r).is_unavailable = false ∧
    ((minefield_cell mf c r).is_flagged && (minefield_cell mf c r).is_cleared) = false := by
  have hin := (mem_playable_cells mf c r).1 hp
  have := h (c, r) ((mem_array_positions mf c r).2 (in_array_of_in_range mf c r hin))
  rw [if_pos hp] at this
  exact this

theorem board_wf_sentinel (mf : minefield_t) (h : board_wf mf) (c r : Int)
    (ha : in_array mf c r) (hp : (c, r) ∉ playable_cells mf) :
    (minefield_cell mf c r).is_unavailable = true ∧
    (minefield_cell mf c r).is_cleared = false ∧
    (minefield_cell mf c r).is_flagged = false := by
  have := h (c, r) ((mem_array_positions mf c r).2 ha)
  rw [if_neg hp] at this
  exact this

theorem in_array_of_neighbour (mf : minefield_t) (c r : Int) (n : Int × Int)
    (h : (c, r) ∈ playable_cells mf) (hn : n ∈ neighbours c r) : in_array mf n.1 n.2 := by
  have hin := (mem_playable_cells mf c r).1 h
  rw [mem_neighbours] at hn
  exact in_array_of_near mf c r n.1 n.2 hin hn.1 hn.2.1

theorem sites_open_of_cluster (mf : minefield_t) (cells : List possible_mine_t)
    (hwf : board_wf mf) (hs : cluster_sites mf cells) : sites_open mf cells := by
  refine ⟨hs.1, fun s hmem => ?_⟩
  obtain ⟨hp, hu⟩ := hs.2 s hmem
  have := board_wf_playable mf hwf s.col s.row hp
  simp only [IS_UNMARKED, Bool.not_eq_true', Bool.or_eq_false_iff] at hu
  exact ⟨hu.1, hu.2, this.1⟩

theorem search_inv_of_cluster (mf : minefield_t) (cells : List possible_mine_t)
    (hwf : board_wf mf) (hfe : clues_feasible mf) (hs : cluster_sites mf cells)
    (hc : cluster_closed mf cells) : search_inv mf cells := by
  intro s hmem n hn hcl
  obtain ⟨hp, _⟩ := hs.2 s hmem
  have hna := in_array_of_neighbour mf s.col s.row n hp hn
  have hnp : (n.1, n.2) ∈ playable_cells mf := by
    by_contra hnot
    have := board_wf_sentinel mf hwf n.1 n.2 hna hnot
    rw [this.2.1] at hcl
    cases hcl
  refine ⟨hfe (n.1, n.2) hnp hcl, fun m hm hms => ?_⟩
  have hma := in_array_of_neighbour mf n.1 n.2 m hnp hm
  by_cases hmp : (m.1, m.2) ∈ playable_cells mf
  · have hw := board_wf_playable mf hwf m.1 m.2 hmp
    constructor
    · intro hfl
      rw [hfl, Bool.true_and] at hw
      simp [IS_AVAILABLE, hw.1, hw.2]
    · intro hav
      by_contra hfl
      apply hms
      refine hc s hmem n hn hcl m hm hmp ?_
      simp only [IS_AVAILABLE, Bool.not_eq_true', Bool.or_eq_false_iff] at hav
      simp only [Bool.not_eq_true] at hfl
      simp [IS_UNMARKED, hfl, hav.1]
  · have hw := board_wf_sentinel mf hwf m.1 m.2 hma hmp
    simp [IS_AVAILABLE, hw.1, hw.2.2]

theorem arrangement_counted_iff (mf : minefield_t) (cells : List possible_mine_t)
    (a : List Bool) : arrangement_counted mf cells a = true ↔
      (∀ s ∈ cells, ∀ n ∈ neighbours s.col s.row,
        clue_met (place_flags mf cells a) n.1 n.2 = true) ∧
      (assigned a = 0 ∨ mf.flags + assigned a ≤ mf.mines) ∧
      mf.mines - mf.flags - assigned a ≤ mf.unmarked - cells.length := by
  simp [arrangement_counted, clues_met_around, List.all_eq_true, and_assoc]

theorem arrangement_valid_iff (mf : minefield_t) (cells : List possible_mine_t)
    (a : List Bool) : arrangement_valid mf cells a = true ↔
      (∀ s ∈ cells, ∀ n ∈ neighbours s.col s.row,
        clue_met (place_flags mf cells a) n.1 n.2 = true) ∧
      mf.flags + assigned a ≤ mf.mines ∧
      mf.mines - mf.flags - assigned a ≤ mf.unmarked - cells.length := by
  simp [arrangement_valid, clues_met_around, List.all_eq_true, and_assoc]

theorem accepts_eq_counted (mf : minefield_t) (cells : List possible_mine_t)
    (hwf : board_wf mf) (hfe : clues_feasible mf) (hs : cluster_sites mf cells)
    (hc : cluster_closed mf cells) (hn : mf.needed = 0) (a : List Bool)
    (ha : a ∈ assignments cells.length) :
    accepts (cells.length : Int) mf cells 0 a = arrangement_counted mf cells a := by
  have h1 := accepts_iff (cells.length : Int) cells mf 0 a hn
    (sites_open_of_cluster mf cells hwf hs) (search_inv_of_cluster mf cells hwf hfe hs hc)
  have h2 := arrangement_counted_iff mf cells a
  have hl := length_of_mem_assignments _ a ha
  rw [Bool.eq_iff_iff, h1, h2]
  simp only [hl, true_and, add_zero, zero_add]

theorem assigned_pos_of_getD (a : List Bool) (k : Nat) (h : a.getD k false = true) :
    0 < assigned a := by
  unfold assigned
  have : true ∈ a := by
    rw [List.getD_eq_getElem?_getD] at h
    cases hk : a[k]? with
    | none => rw [hk] at h; simp at h
    | some b =>
      rw [hk] at h
      simp at h
      subst h
      exact List.getElem?_mem hk
  have := List.count_pos_iff.2 this
  omega

theorem mined_counted_eq_valid (mf : minefield_t) (cells : List possible_mine_t)
    (a : List Bool) (k : Nat) :
    (arrangement_counted mf cells a && a.getD k false)
      = (arrangement_valid mf cells a && a.getD k false) := by
  cases hk : a.getD k false
  · simp
  · have hp := assigned_pos_of_getD a k hk
    rw [Bool.and_true, Bool.and_true, Bool.eq_iff_iff, arrangement_counted_iff,
      arrangement_valid_iff]
    constructor
    · rintro ⟨h1, h2, h3⟩
      exact ⟨h1, by omega, h3⟩
    · rintro ⟨h1, h2, h3⟩
      exact ⟨h1, Or.inr h2, h3⟩

theorem counted_eq_valid_of_flags_le (mf : minefield_t) (cells : List possible_mine_t)
    (a : List Bool) (h : mf.flags ≤ mf.mines) :
    arrangement_counted mf cells a = arrangement_valid mf cells a := by
  rw [Bool.eq_iff_iff, arrangement_counted_iff, arrangement_valid_iff]
  have := assigned_nonneg a
  constructor
  · rintro ⟨h1, h2, h3⟩
    exact ⟨h1, by omega, h3⟩
  · rintro ⟨h1, h2, h3⟩
    exact ⟨h1, Or.inr h2, h3⟩

theorem brute_force_congr (p q : List Bool → Bool) (n : Nat)
    (h : ∀ a ∈ assignments n, p a = q a) : brute_force p n = brute_force q n := by
  unfold brute_force
  apply List.countP_congr
  intro a ha
  rw [h a ha]

theorem brute_force_mined_congr (p q : List Bool → Bool) (n k : Nat)
    (h : ∀ a ∈ assignments n, p a = q a) : brute_force_mined p n k = brute_force_mined q n k := by
  unfold brute_force_mined
  apply List.countP_congr
  intro a ha
  rw [h a ha]

theorem brute_force_mined_le (p : List Bool → Bool) (n k : Nat) :
    brute_force_mined p n k ≤ brute_force p n := by
  unfold brute_force_mined brute_force
  apply List.countP_mono_left
  intro a _ h
  simp only [Bool.and_eq_true] at h
  exact h.1

theorem opened_board_wf : board_wf opened_board := by
  unfold board_wf
  decide

theorem opened_board_feasible : clues_feasible opened_board := by
  unfold clues_feasible
  decide

theorem opened_list_sites : cluster_sites opened_board opened_list.cell := by
  unfold cluster_sites
  decide

theorem opened_list_closed : cluster_closed opened_board opened_list.cell := by
  unfold cluster_closed
  decide

/-! ## The claims about the arrangement search -/

/-- C1 as stated fails: on `flag_heavy_board`, which meets every hypothesis of the claim, the
search counts one arrangement of the cluster `(1, 1)` while no assignment satisfies the three
conditions of the claim, the board having more flags than mines. -/
theorem analyze_list_brute_force_refuted :
    ¬ ∀ (mf : minefield_t) (list : mine_list_t), board_wf mf → clues_feasible mf →
      cluster_sites mf list.cell → cluster_closed mf list.cell → mf.needed = 0 →
      (analyze_list mf list).result
        = (brute_force (arrangement_valid mf list.cell) list.cell.length : Int) := by
  intro h
  have := h flag_heavy_board flag_heavy_list (by unfold board_wf; decide)
    (by unfold clues_feasible; decide) (by unfold cluster_sites; decide)
    (by unfold cluster_closed; decide) rfl
  revert this
  decide

/-- C1, amended: on a well-formed board in which each cleared cell has
`flags_around <= minesaround <= available_around`, for a cluster of distinct unmarked playable
sites that contains every unmarked playable neighbour of every cleared neighbour of its sites,
with `needed = 0`: let `N` be the number of the `2^n` assignments in which every cleared cell
next to a site ends with exactly `minesaround` flagged neighbours,
`mines - flags - assigned <= unmarked - n`, and `flags + assigned <= mines` if the assignment
places a mine.  If `N <= INT_MAX`, `analyze_list` returns `N`, and when `flags <= mines` this
is the brute-force count of the claim; if `N > INT_MAX` the count does not fit the `int` that
holds it and `analyze_list` returns a negative value. -/
theorem analyze_list_counts_arrangements (mf : minefield_t) (list : mine_list_t)
    (hwf : board_wf mf) (hfe : clues_feasible mf) (hs : cluster_sites mf list.cell)
    (hc : cluster_closed mf list.cell) (hn : mf.needed = 0) :
    ((brute_force (arrangement_counted mf list.cell) list.cell.length : Int) ≤ INT_MAX →
      (analyze_list mf list).result
        = (brute_force (arrangement_counted mf list.cell) list.cell.length : Int) ∧
      (mf.flags ≤ mf.mines → (analyze_list mf list).result
        = (brute_force (arrangement_valid mf list.cell) list.cell.length : Int))) ∧
    (INT_MAX < (brute_force (arrangement_counted mf list.cell) list.cell.length : Int) →
      (analyze_list mf list).result < 0) := by
  have hfresh : sites_fresh mf list.cell := by
    have := sites_open_of_cluster mf list.cell hwf hs
    exact ⟨this.1, fun s hm => ⟨(this.2 s hm).1, (this.2 s hm).2.2⟩⟩
  obtain ⟨_, _, _, hx, hneg⟩ := analyze_list_aux_spec list.cell mf list 0 0 hn hfresh
  have h2 := brute_force_congr _ _ list.cell.length
    (accepts_eq_counted mf list.cell hwf hfe hs hc hn)
  unfold mine_list_t.length at hx hneg
  rw [h2] at hx hneg
  unfold INT_MAX
  refine ⟨fun hle => ?_, fun hgt => hneg hgt⟩
  have e : (analyze_list mf list).result
      = (brute_force (arrangement_counted mf list.cell) list.cell.length : Int) := (hx hle).1
  refine ⟨e, fun hfl => ?_⟩
  rw [e, brute_force_congr _ _ list.cell.length
    (fun a _ => counted_eq_valid_of_flags_le mf list.cell a hfl)]

/-- C1, amended, at a concrete input: the cluster `(3, 3)` of `opened_board`, which has one
arrangement. -/
theorem analyze_list_counts_arrangements_witness :
    (analyze_list opened_board opened_list).result
      = (brute_force (arrangement_counted opened_board opened_list.cell)
          opened_list.cell.length : Int) ∧
    (opened_board.flags ≤ opened_board.mines → (analyze_list opened_board opened_list).result
      = (brute_force (arrangement_valid opened_board opened_list.cell)
          opened_list.cell.length : Int)) :=
  (analyze_list_counts_arrangements opened_board opened_list opened_board_wf
    opened_board_feasible opened_list_sites opened_list_closed rfl).1 (by decide)

/-- C2 as stated fails: on `flag_heavy_board`, which carries more flags than mines, the search
of the cluster `(1, 1)` completes with one arrangement, the one that leaves the site clear, and
the site keeps `flag_placements == 0`, so that `flag_placements / arrangements` is `0 / 1`;
no assignment is valid in the words of the specification, so that the brute-force fraction
is `0 / 0`. -/
theorem analyze_list_fraction_refuted :
    ¬ ∀ (mf : minefield_t) (list : mine_list_t) (j : Nat) (c : possible_mine_t),
      board_wf mf → clues_feasible mf → cluster_sites mf list.cell →
      cluster_closed mf list.cell → mf.needed = 0 →
      (∀ s ∈ list.cell, s.flag_placements = 0) → 0 ≤ (analyze_list mf list).result →
      (analyze_list mf list).list.cell[j]? = some c →
      float_quotient c.flag_placements (analyze_list mf list).result
        = float_quotient
            (brute_force_mined (arrangement_valid mf list.cell) list.cell.length j)
            (brute_force (arrangement_valid mf list.cell) list.cell.length) := by
  intro h
  have h1 := h flag_heavy_board flag_heavy_list 0 { col := 1, row := 1, flag_placements := 0 }
    (by unfold board_wf; decide) (by unfold clues_feasible; decide)
    (by unfold cluster_sites; decide) (by unfold cluster_closed; decide) rfl (by decide)
    (by decide) (by decide)
  have e1 : (analyze_list flag_heavy_board flag_heavy_list).result = 1 := by decide
  have e2 : brute_force (arrangement_valid flag_heavy_board flag_heavy_list.cell)
      flag_heavy_list.cell.length = 0 := by decide
  have e3 : brute_force_mined (arrangement_valid flag_heavy_board flag_heavy_list.cell)
      flag_heavy_list.cell.length 0 = 0 := by decide
  rw [e1, e2, e3] at h1
  simp [float_quotient] at h1

/-- C2, amended: on a board and a cluster as in C1, after an `analyze_list` that has
completed (`needed` is 0 and the value returned is not negative) on a cluster whose
`flag_placements` all start at 0, the site at each index `j` keeps its coordinates and its
`flag_placements` is the number of arrangements the search counts that mine it, which is
also the brute-force number of assignments valid in the words of the specification that mine
it; it lies between 0 and the value returned, which is the number of arrangements the search
counts and is at most `INT_MAX`; when `flags <= mines` that is the brute-force number of valid
assignments, so that `flag_placements / arrangements` is then the brute-force fraction. -/
theorem analyze_list_flag_placements (mf : minefield_t) (list : mine_list_t)
    (hwf : board_wf mf) (hfe : clues_feasible mf) (hs : cluster_sites mf list.cell)
    (hc : cluster_closed mf list.cell) (hn : mf.needed = 0)
    (hfp : ∀ c ∈ list.cell, c.flag_placements = 0)
    (hr : 0 ≤ (analyze_list mf list).result) (j : Nat) (c : possible_mine_t)
    (hj : list.cell[j]? = some c) :
    (analyze_list mf list).list.cell[j]? = some { c with flag_placements :=
      (brute_force_mined (arrangement_counted mf list.cell) list.cell.length j : Int) } ∧
    brute_force_mined (arrangement_counted mf list.cell) list.cell.length j
      = brute_force_mined (arrangement_valid mf list.cell) list.cell.length j ∧
    brute_force_mined (arrangement_counted mf list.cell) list.cell.length j
      ≤ brute_force (arrangement_counted mf list.cell) list.cell.length ∧
    (analyze_list mf list).result
      = (brute_force (arrangement_counted mf list.cell) list.cell.length : Int) ∧
    (analyze_list mf list).result ≤ INT_MAX ∧
    (mf.flags ≤ mf.mines →
      brute_force (arrangement_counted mf list.cell) list.cell.length
        = brute_force (arrangement_valid mf list.cell) list.cell.length) := by
  have hfresh : sites_fresh mf list.cell := by
    have := sites_open_of_cluster mf list.cell hwf hs
    exact ⟨this.1, fun s hm => ⟨(this.2 s hm).1, (this.2 s hm).2.2⟩⟩
  have hint : placements_int list := by
    intro s hs'
    rw [hfp s hs']
    unfold is_int
    omega
  obtain ⟨_, _, _, hx, hneg⟩ := analyze_list_aux_spec list.cell mf list 0 0 hn hfresh
  have hle : (brute_force (accepts list.length mf list.cell 0) list.cell.length : Int)
      ≤ 2147483647 := by
    by_contra hgt
    have := hneg (by omega)
    unfold analyze_list at hr
    omega
  obtain ⟨h1, _, h6⟩ := hx hle
  have h2 := brute_force_congr _ _ list.cell.length
    (accepts_eq_counted mf list.cell hwf hfe hs hc hn)
  have h3 := brute_force_mined_congr _ _ list.cell.length j
    (accepts_eq_counted mf list.cell hwf hfe hs hc hn)
  have hc0 : c.flag_placements = 0 := hfp c (List.getElem?_mem hj)
  have hm := brute_force_mined_le (arrangement_counted mf list.cell) list.cell.length j
  unfold mine_list_t.length at hle h1 h6
  rw [h2] at hle h1
  have e : (analyze_list mf list).result
      = (brute_force (arrangement_counted mf list.cell) list.cell.length : Int) := h1
  refine ⟨?_, ?_, hm, e, ?_, fun hfl => ?_⟩
  · unfold analyze_list
    rw [h6 hint j, hj]
    simp only [Nat.zero_le, if_true, Nat.sub_zero, Option.map_some', h3, bump_placements, hc0,
      zero_add]
    rw [wrap_int_of_is_int _ (by unfold is_int; omega)]
  · unfold brute_force_mined
    apply List.countP_congr
    intro a _
    rw [mined_counted_eq_valid]
  · rw [e]
    unfold INT_MAX
    exact hle
  · exact brute_force_congr _ _ list.cell.length
      (fun a _ => counted_eq_valid_of_flags_le mf list.cell a hfl)

/-- C2, amended, at a concrete input: the cluster `(3, 3)` of `opened_board`, whose only
arrangement mines the site. -/
theorem analyze_list_flag_placements_witness :
    (analyze_list opened_board opened_list).list.cell[0]?
      = some { ({ col := 3, row := 3, flag_placements := 0 } : possible_mine_t) with
          flag_placements := (brute_force_mined
            (arrangement_counted opened_board opened_list.cell)
            opened_list.cell.length 0 : Int) } ∧
    brute_force_mined (arrangement_counted opened_board opened_list.cell)
        opened_list.cell.length 0
      = brute_force_mined (arrangement_valid opened_board opened_list.cell)
        opened_list.cell.length 0 ∧
    brute_force_mined (arrangement_counted opened_board opened_list.cell)
        opened_list.cell.length 0
      ≤ brute_force (arrangement_counted opened_board opened_list.cell)
        opened_list.cell.length ∧
    (analyze_list opened_board opened_list).result
      = (brute_force (arrangement_counted opened_board opened_list.cell)
          opened_list.cell.length : Int) ∧
    (analyze_list opened_board opened_list).result ≤ INT_MAX ∧
    (opened_board.flags ≤ opened_board.mines →
      brute_force (arrangement_counted opened_board opened_list.cell)
          opened_list.cell.length
        = brute_force (arrangement_valid opened_board opened_list.cell)
          opened_list.cell.length) :=
  analyze_list_flag_placements opened_board opened_list opened_board_wf
    opened_board_feasible opened_list_sites opened_list_closed rfl (by decide) (by decide) 0
    { col := 3, row := 3, flag_placements := 0 } rfl

/-! ## Clusters -/

theorem is_cleared_neighbour_of_iff (mf : minefield_t) (c1 r1 c2 r2 : Int) :
    is_cleared_neighbour_of mf c1 r1 c2 r2 = true ↔
      (minefield_cell mf c1 r1).is_cleared = true ∧ (c1 - c2).natAbs ≤ 1 ∧
        (r1 - r2).natAbs ≤ 1 := by
  simp only [is_cleared_neighbour_of, Bool.and_eq_true, decide_eq_true_eq, and_assoc]
  constructor <;> rintro ⟨h1, h2, h3⟩ <;> exact ⟨h1, by omega, by omega⟩

theorem are_dependant_iff (mf : minefield_t) (c1 r1 c2 r2 : Int)
    (h : (minefield_cell mf c1 r1).is_cleared = false) :
    are_dependant mf c1 r1 c2 r2 = true ↔ share_cleared_cell mf c1 r1 c2 r2 := by
  unfold are_dependant share_cleared_cell
  simp only [Bool.and_eq_true, Bool.or_eq_true, decide_eq_true_eq, is_cleared_neighbour_of_iff]
  constructor
  · rintro ⟨_, hh⟩
    rcases hh with (((((((hh | hh) | hh) | hh) | hh) | hh) | hh) | hh) <;>
      exact ⟨(_, _), hh.1, by simp only; omega, by simp only; omega, hh.2.1, hh.2.2⟩
  · rintro ⟨⟨a, b⟩, hc, h1, h2, h3, h4⟩
    simp only at hc h1 h2 h3 h4
    refine ⟨⟨by omega, by omega⟩, ?_⟩
    have hne : ¬ (a = c1 ∧ b = r1) := by
      rintro ⟨rfl, rfl⟩
      rw [h] at hc
      cases hc
    have ha : a = c1 - 1 ∨ a = c1 ∨ a = c1 + 1 := by omega
    have hb : b = r1 - 1 ∨ b = r1 ∨ b = r1 + 1 := by omega
    rcases ha with rfl | rfl | rfl <;> rcases hb with rfl | rfl | rfl <;>
      simp only [hc, h3, h4, and_self, true_or, or_true, true_and] <;>
      exact absurd ⟨rfl, rfl⟩ hne

theorem share_cleared_cell_symm (mf : minefield_t) (c1 r1 c2 r2 : Int) :
    share_cleared_cell mf c1 r1 c2 r2 ↔ share_cleared_cell mf c2 r2 c1 r1 := by
  unfold share_cleared_cell
  constructor <;> rintro ⟨n, h0, h1, h2, h3, h4⟩ <;> exact ⟨n, h0, h3, h4, h1, h2⟩

theorem are_dependant_symm (mf : minefield_t) (c1 r1 c2 r2 : Int)
    (h1 : (minefield_cell mf c1 r1).is_cleared = false)
    (h2 : (minefield_cell mf c2 r2).is_cleared = false) :
    are_dependant mf c1 r1 c2 r2 = are_dependant mf c2 r2 c1 r1 := by
  rw [Bool.eq_iff_iff, are_dependant_iff mf c1 r1 c2 r2 h1, are_dependant_iff mf c2 r2 c1 r1 h2]
  exact share_cleared_cell_symm mf c1 r1 c2 r2

theorem add_possible_mine_scan_spec (mf : minefield_t) (col row : Int) :
    ∀ (next : List mine_list_t) (first : mine_list_t),
    (add_possible_mine_scan mf col row first next).2
      = next.filter (fun l => !l.cell.any fun cell => are_dependant mf col row cell.col cell.row) ∧
    (add_possible_mine_scan mf col row first next).1
      = { first with cell := first.cell ++
          (next.filter (fun l => l.cell.any fun cell =>
            are_dependant mf col row cell.col cell.row)).flatMap fun l => l.cell } := by
  intro next
  induction next with
  | nil => intro first; simp [add_possible_mine_scan]
  | cons l ls ih =>
    intro first
    unfold add_possible_mine_scan
    by_cases h : (l.cell.any fun cell => are_dependant mf col row cell.col cell.row) = true
    · rw [if_pos h]
      obtain ⟨h1, h2⟩ := ih (join_mine_lists first l)
      rw [h1, h2]
      simp [h, join_mine_lists, List.filter_cons]
    · rw [if_neg h]
      obtain ⟨h1, h2⟩ := ih first
      simp only [h1, h2]
      simp [h, List.filter_cons]

theorem all_sites_cons (l : mine_list_t) (chain : List mine_list_t) :
    all_sites (l :: chain) = site_positions l.cell ++ all_sites chain := by
  simp [all_sites]

theorem all_sites_perm_filter (p : mine_list_t → Bool) (chain : List mine_list_t) :
    (all_sites (chain.filter p) ++ all_sites (chain.filter fun l => !p l)).Perm
      (all_sites chain) := by
  induction chain with
  | nil => simp [all_sites]
  | cons l ls ih =>
    cases hp : p l
    · simp only [List.filter_cons, hp, Bool.false_eq_true, if_false, Bool.not_false, if_true,
        all_sites_cons]
      refine List.Perm.trans ?_ (List.Perm.append_left _ ih)
      rw [← List.append_assoc, ← List.append_assoc]
      exact List.Perm.append_right _ List.perm_append_comm
    · simp only [List.filter_cons, hp, if_true, Bool.not_true, Bool.false_eq_true, if_false,
        all_sites_cons, List.append_assoc]
      exact List.Perm.append_left _ ih

theorem site_positions_append (a b : List possible_mine_t) :
    site_positions (a ++ b) = site_positions a ++ site_positions b := by
  simp [site_positions]

theorem site_positions_flatMap (chain : List mine_list_t) :
    site_positions (chain.flatMap fun l => l.cell) = all_sites chain := by
  induction chain with
  | nil => rfl
  | cons l ls ih =>
    simp only [List.flatMap_cons, site_positions_append, ih, all_sites_cons]

theorem mem_all_sites (chain : List mine_list_t) (p : Int × Int) :
    p ∈ all_sites chain ↔ ∃ l ∈ chain, ∃ x ∈ l.cell, x.col = p.1 ∧ x.row = p.2 := by
  unfold all_sites
  simp only [List.mem_flatMap, mem_site_positions]

theorem independent_lists_symm (mf : minefield_t) : Symmetric (independent_lists mf) := by
  intro a b h x hx y hy
  exact ⟨(h y hy x hx).2, (h y hy x hx).1⟩

theorem add_possible_mine_first (mf : minefield_t) (col row : Int) (ml : mine_lists_t) :
    (add_possible_mine mf col row ml).first
      = { arrangements := 0, min_flags := INT_MAX, max_flags := 0, sum_flags := 0,
          cell := { col := col, row := row, flag_placements := 0 } ::
            (ml.first.filter (fun l => l.cell.any fun cell =>
              are_dependant mf col row cell.col cell.row)).flatMap fun l => l.cell }
        :: ml.first.filter (fun l => !l.cell.any fun cell =>
              are_dependant mf col row cell.col cell.row) := by
  unfold add_possible_mine
  simp only
  obtain ⟨h1, h2⟩ := add_possible_mine_scan_spec mf col row ml.first
    { arrangements := 0, min_flags := INT_MAX, max_flags := 0, sum_flags := 0,
      cell := [{ col := col, row := row, flag_placements := 0 }] }
  rw [h1, h2]
  rfl

theorem all_sites_add_possible_mine (mf : minefield_t) (col row : Int) (ml : mine_lists_t) :
    (all_sites (add_possible_mine mf col row ml).first).Perm ((col, row) :: all_sites ml.first) := by
  rw [add_possible_mine_first, all_sites_cons]
  simp only [site_positions, List.map_cons, List.cons_append]
  refine List.Perm.cons _ ?_
  have := all_sites_perm_filter
    (fun l => l.cell.any fun cell => are_dependant mf col row cell.col cell.row) ml.first
  rw [← site_positions_flatMap] at this
  exact this

theorem add_possible_mine_chain_ok (mf : minefield_t) (col row : Int) (ml : mine_lists_t)
    (hok : chain_ok mf ml.first) (hp : (col, row) ∈ playable_cells mf)
    (hu : IS_UNMARKED mf col row = true) (hnew : (col, row) ∉ all_sites ml.first) :
    chain_ok mf (add_possible_mine mf col row ml).first := by
  obtain ⟨hnd, hmem, hpw, hun⟩ := hok
  have hperm := all_sites_add_possible_mine mf col row ml
  have hcl : ∀ l ∈ ml.first, ∀ y ∈ l.cell, (minefield_cell mf y.col y.row).is_cleared = false := by
    intro l hl y hy
    have := (hmem (y.col, y.row) ((mem_all_sites _ _).2 ⟨l, hl, y, hy, rfl, rfl⟩)).2
    simp only [IS_UNMARKED, Bool.not_eq_true', Bool.or_eq_false_iff] at this
    exact this.2
  have hxcl : (minefield_cell mf col row).is_cleared = false := by
    simp only [IS_UNMARKED, Bool.not_eq_true', Bool.or_eq_false_iff] at hu
    exact hu.2
  refine ⟨?_, ?_, ?_, ?_⟩
  · rw [hperm.nodup_iff, List.nodup_cons]
    exact ⟨hnew, hnd⟩
  · intro p hpm
    rcases List.mem_cons.1 (hperm.mem_iff.1 hpm) with rfl | h
    · exact ⟨hp, hu⟩
    · exact hmem p h
  · rw [add_possible_mine_first, List.pairwise_cons]
    refine ⟨?_, hpw.filter _⟩
    intro l hl x hx y hy
    rw [List.mem_filter] at hl
    obtain ⟨hl1, hl2⟩ := hl
    simp only [Bool.not_eq_true', List.any_eq_false] at hl2
    simp only [List.mem_cons, List.mem_flatMap, List.mem_filter] at hx
    rcases hx with rfl | ⟨A, ⟨hA1, hA2⟩, hxA⟩
    · have h1 : are_dependant mf col row y.col y.row = false := by
        have := hl2 y hy
        simpa using this
      refine ⟨h1, ?_⟩
      rw [are_dependant_symm mf y.col y.row col row (hcl l hl1 y hy) hxcl]
      exact h1
    · have hne : A ≠ l := by
        rintro rfl
        rw [List.any_eq_true] at hA2
        obtain ⟨z, hz, hdz⟩ := hA2
        have := hl2 z hz
        rw [hdz] at this
        simp at this
      exact hpw.forall (independent_lists_symm mf) hA1 hl1 hne x hxA y hy
  · intro l hl
    rw [add_possible_mine_first] at hl
    rcases List.mem_cons.1 hl with rfl | hl
    · refine ⟨rfl, rfl, rfl, rfl, ?_⟩
      intro c hc
      simp only [List.mem_cons, List.mem_flatMap, List.mem_filter] at hc
      rcases hc with rfl | ⟨A, ⟨hA1, _⟩, hcA⟩
      · rfl
      · exact (hun A hA1).2.2.2.2 c hcA
    · exact hun l (List.mem_of_mem_filter hl)

theorem find_possible_mines_fold_ok (mf : minefield_t) :
    ∀ (ps : List (Int × Int)) (ml : mine_lists_t), ps.Nodup →
    (∀ p ∈ ps, p ∈ playable_cells mf) → chain_ok mf ml.first →
    (∀ p ∈ ps, p ∉ all_sites ml.first) →
    chain_ok mf (ps.foldl
      (fun ml p => if is_border_site mf p.1 p.2 then add_possible_mine mf p.1 p.2 ml else ml)
      ml).first := by
  intro ps
  induction ps with
  | nil => intro ml _ _ h _; exact h
  | cons p ps ih =>
    intro ml hnd hpl hok hdis
    rw [List.foldl_cons]
    rw [List.nodup_cons] at hnd
    apply ih _ hnd.2 (fun q hq => hpl q (List.mem_cons_of_mem _ hq))
    · split
      · next hb =>
        simp only [is_border_site, Bool.and_eq_true] at hb
        exact add_possible_mine_chain_ok mf p.1 p.2 ml hok (hpl p (List.mem_cons_self _ _))
          hb.1 (hdis p (List.mem_cons_self _ _))
      · exact hok
    · intro q hq
      split
      · intro hmem
        rcases List.mem_cons.1 ((all_sites_add_possible_mine mf p.1 p.2 ml).mem_iff.1 hmem)
          with h | h
        · have hqp : q = p := h
          rw [hqp] at hq
          exact hnd.1 hq
        · exact hdis q (List.mem_cons_of_mem _ hq) h
      · exact hdis q (List.mem_cons_of_mem _ hq)

theorem find_possible_mines_chain_ok (mf : minefield_t) :
    chain_ok mf (find_possible_mines mf MINE_LISTS_INITIALIZER).first := by
  unfold find_possible_mines
  apply find_possible_mines_fold_ok mf _ _ (nodup_playable_cells mf) (fun p hp => hp)
  · refine ⟨?_, ?_, ?_, ?_⟩ <;> simp [MINE_LISTS_INITIALIZER, all_sites]
  · intro p _
    simp [MINE_LISTS_INITIALIZER, all_sites]


/-- C5: after `find_possible_mines`, two sites placed in different clusters (lists at
different places `i` and `j` of the chain) are independent: `are_dependant` is false for the
pair and no cleared cell lies within Chebyshev distance 1 of both. -/
theorem find_possible_mines_clusters_independent (mf : minefield_t) (i j : Nat)
    (l1 l2 : mine_list_t) (x y : possible_mine_t) (hij : i ≠ j)
    (h1 : (find_possible_mines mf MINE_LISTS_INITIALIZER).first[i]? = some l1)
    (h2 : (find_possible_mines mf MINE_LISTS_INITIALIZER).first[j]? = some l2)
    (hx : x ∈ l1.cell) (hy : y ∈ l2.cell) :
    are_dependant mf x.col x.row y.col y.row = false ∧
      ¬ share_cleared_cell mf x.col x.row y.col y.row := by
  obtain ⟨_, hmem, hpw, _⟩ := find_possible_mines_chain_ok mf
  rw [List.getElem?_eq_some] at h1 h2
  obtain ⟨hi, rfl⟩ := h1
  obtain ⟨hj, rfl⟩ := h2
  have hind : independent_lists mf
      (find_possible_mines mf MINE_LISTS_INITIALIZER).first[i]
      (find_possible_mines mf MINE_LISTS_INITIALIZER).first[j] := by
    rcases Nat.lt_or_gt_of_ne hij with h | h
    · exact List.pairwise_iff_getElem.1 hpw i j hi hj h
    · exact independent_lists_symm mf (List.pairwise_iff_getElem.1 hpw j i hj hi h)
  have hd := (hind x hx y hy).1
  refine ⟨hd, fun hs => ?_⟩
  have hxu := (hmem (x.col, x.row)
    ((mem_all_sites _ _).2 ⟨_, List.getElem_mem hi, x, hx, rfl, rfl⟩)).2
  simp only [IS_UNMARKED, Bool.not_eq_true', Bool.or_eq_false_iff] at hxu
  rw [(are_dependant_iff mf x.col x.row y.col y.row hxu.2).2 hs] at hd
  cases hd

/-- C5, at a concrete input: the two clusters of `two_ends_board`. -/
theorem find_possible_mines_clusters_independent_witness :
    are_dependant two_ends_board 5 1 1 1 = false ∧
      ¬ share_cleared_cell two_ends_board 5 1 1 1 :=
  find_possible_mines_clusters_independent two_ends_board 0 1
    { arrangements := 0, min_flags := INT_MAX, max_flags := 0, sum_flags := 0,
      cell := [{ col := 5, row := 1, flag_placements := 0 }] }
    { arrangements := 0, min_flags := INT_MAX, max_flags := 0, sum_flags := 0,
      cell := [{ col := 1, row := 1, flag_placements := 0 }] }
    { col := 5, row := 1, flag_placements := 0 } { col := 1, row := 1, flag_placements := 0 }
    (by decide) (by decide) (by decide) (by decide) (by decide)

/-! ## `optimize_list` only reorders -/

theorem optimize_step_perm (mf : minefield_t) (st : List possible_mine_t × Nat × Bool)
    (i : Nat) (h : st.2.1 ≤ i) :
    (optimize_step mf st i).1.Perm st.1 ∧ (optimize_step mf st i).2.1 ≤ i + 1 := by
  unfold optimize_step
  cases hg : st.1.get? i with
  | none => exact ⟨List.Perm.refl _, by simp only; omega⟩
  | some temp =>
    simp only
    split
    · refine ⟨?_, by simp only; omega⟩
      simp only
      have hi : i < st.1.length := by
        rw [List.get?_eq_some] at hg
        exact hg.1
      have e1 : st.1 = st.1.take st.2.1 ++ st.1.drop st.2.1 := (List.take_append_drop _ _).symm
      have e2 : st.1.drop st.2.1
          = (st.1.drop st.2.1).take (i - st.2.1) ++ (st.1.drop st.2.1).drop (i - st.2.1) :=
        (List.take_append_drop _ _).symm
      have e3 : (st.1.drop st.2.1).drop (i - st.2.1) = st.1.drop i := by
        rw [List.drop_drop]
        congr 1
        omega
      have e4 : st.1.drop i = temp :: st.1.drop (i + 1) := by
        rw [List.get?_eq_getElem?] at hg
        rw [List.getElem?_eq_some] at hg
        obtain ⟨_, hg⟩ := hg
        rw [← hg]
        exact List.drop_eq_getElem_cons hi
      conv_rhs => rw [e1, e2, e3, e4]
      refine List.Perm.append_left _ ?_
      exact List.perm_middle.symm
    · exact ⟨List.Perm.refl _, by omega⟩

theorem optimize_fold_perm (mf : minefield_t) (cells : List possible_mine_t) :
    ∀ n : Nat, ((List.range n).foldl (optimize_step mf) (cells, 0, false)).1.Perm cells ∧
      ((List.range n).foldl (optimize_step mf) (cells, 0, false)).2.1 ≤ n := by
  intro n
  induction n with
  | zero => exact ⟨List.Perm.refl _, le_refl _⟩
  | succ n ih =>
    rw [List.range_succ, List.foldl_append, List.foldl_cons, List.foldl_nil]
    obtain ⟨h1, h2⟩ := optimize_step_perm mf _ n ih.2
    exact ⟨h1.trans ih.1, h2⟩

theorem optimize_list_perm (mf : minefield_t) (list : mine_list_t) :
    (optimize_list mf list).1.cell.Perm list.cell ∧
    (optimize_list mf list).1.arrangements = list.arrangements ∧
    (optimize_list mf list).1.min_flags = list.min_flags ∧
    (optimize_list mf list).1.max_flags = list.max_flags ∧
    (optimize_list mf list).1.sum_flags = list.sum_flags :=
  ⟨(optimize_fold_perm mf list.cell list.cell.length).1, rfl, rfl, rfl, rfl⟩

/-! ## A consistent layout is an arrangement the search counts -/

theorem layout_on_cons (L : Int → Int → Bool) (s : possible_mine_t)
    (ss : List possible_mine_t) : layout_on L (s :: ss) = L s.col s.row :: layout_on L ss := rfl

theorem layout_accepts (length : Int) (L : Int → Int → Bool) :
    ∀ (todo : List possible_mine_t) (mf : minefield_t) (fu : Int),
    mf.needed = 0 → sites_open mf todo → layout_inv mf L todo →
    mf.flags + fu + assigned (layout_on L todo) ≤ mf.mines →
    mf.mines - mf.flags - (fu + assigned (layout_on L todo)) ≤ mf.unmarked - length →
    accepts length mf todo fu (layout_on L todo) = true := by
  intro todo
  induction todo with
  | nil =>
    intro mf fu hn _ _ _ hleaf
    have : assigned (layout_on L []) = 0 := rfl
    rw [this] at hleaf
    simp only [layout_on, List.map_nil, accepts, hn, decide_True, Bool.true_and,
      Bool.not_eq_true', decide_eq_false_iff_not, not_lt]
    omega
  | cons s ss ih =>
    intro mf fu hn hopen hinv hbud hleaf
    have hs := hopen.2 s (List.mem_cons_self _ _)
    have hsav : IS_AVAILABLE mf s.col s.row = true := by
      simp [IS_AVAILABLE, hs.2.1, hs.2.2]
    have hnd' : (site_positions ss).Nodup := by
      have := hopen.1
      simp only [site_positions, List.map_cons, List.nodup_cons] at this
      exact this.2
    have hnn := assigned_nonneg (layout_on L ss)
    rw [layout_on_cons] at hbud hleaf ⊢
    cases hL : L s.col s.row
    · -- clear in the layout
      rw [hL, assigned_cons_false] at hbud hleaf
      simp only [accepts, Bool.and_eq_true]
      have hg : ∀ n ∈ neighbours s.col s.row,
          (minefield_cell mf n.1 n.2).is_cleared = true →
          AVAILAROUND mf n.1 n.2 > ((minefield_cell mf n.1 n.2).minesaround : Int) := by
        intro n hn' hc
        obtain ⟨h1, h2⟩ := hinv s (List.mem_cons_self _ _) n hn' hc
        rw [← h1, AVAILAROUND_eq_countP]
        have := countP_succ_le_of_imp (neighbours n.1 n.2) (fun q => L q.1 q.2)
          (fun q => IS_AVAILABLE mf q.1 q.2) (fun m hm hl => (h2 m hm).2 hl)
          (s.col, s.row) ((neighbours_symm _ _ _ _).1 hn') hL hsav
        omega
      refine ⟨(can_clear_iff mf s).2 hg, ih (set_unavailable mf s.col s.row true) fu hn ?_ ?_
        hbud hleaf⟩
      · refine ⟨hnd', fun s' hs' => ?_⟩
        have hne := site_ne_of_nodup s ss hopen.1 s' hs'
        rw [set_unavailable_cell, if_neg hne]
        exact hopen.2 s' (List.mem_cons_of_mem _ hs')
      · intro s' hs' n hn' hc
        rw [set_unavailable_is_cleared] at hc
        obtain ⟨h1, h2⟩ := hinv s' (List.mem_cons_of_mem _ hs') n hn' hc
        rw [set_unavailable_minesaround]
        refine ⟨h1, fun m hm => ?_⟩
        rw [set_unavailable_is_flagged]
        refine ⟨(h2 m hm).1, fun hl => ?_⟩
        have hne : ¬ (m.1 = s.col ∧ m.2 = s.row) := by
          rintro ⟨e1, e2⟩
          rw [e1, e2, hL] at hl
          cases hl
        have : IS_AVAILABLE (set_unavailable mf s.col s.row true) m.1 m.2
            = IS_AVAILABLE mf m.1 m.2 := by
          simp [IS_AVAILABLE, set_unavailable_cell, hne]
        rw [this]
        exact (h2 m hm).2 hl
    · -- mined in the layout
      rw [hL, assigned_cons_true] at hbud hleaf
      simp only [accepts, Bool.and_eq_true]
      have hg : ∀ n ∈ neighbours s.col s.row,
          (minefield_cell mf n.1 n.2).is_cleared = true →
          FLAGSAROUND mf n.1 n.2 < ((minefield_cell mf n.1 n.2).minesaround : Int) := by
        intro n hn' hc
        obtain ⟨h1, h2⟩ := hinv s (List.mem_cons_self _ _) n hn' hc
        rw [← h1, FLAGSAROUND_eq_countP]
        have := countP_succ_le_of_imp (neighbours n.1 n.2)
          (fun q => (minefield_cell mf q.1 q.2).is_flagged) (fun q => L q.1 q.2)
          (fun m hm hl => (h2 m hm).1 hl)
          (s.col, s.row) ((neighbours_symm _ _ _ _).1 hn') hs.1 hL
        omega
      refine ⟨(can_flag_iff mf s fu).2 ⟨by omega, hg⟩,
        ih (set_flagged mf s.col s.row true) (fu + 1) hn ?_ ?_ ?_ ?_⟩
      · refine ⟨hnd', fun s' hs' => ?_⟩
        have hne := site_ne_of_nodup s ss hopen.1 s' hs'
        rw [set_flagged_cell, if_neg hne]
        exact hopen.2 s' (List.mem_cons_of_mem _ hs')
      · intro s' hs' n hn' hc
        rw [set_flagged_is_cleared] at hc
        obtain ⟨h1, h2⟩ := hinv s' (List.mem_cons_of_mem _ hs') n hn' hc
        rw [set_flagged_minesaround]
        refine ⟨h1, fun m hm => ?_⟩
        rw [set_flagged_available]
        refine ⟨fun hf => ?_, (h2 m hm).2⟩
        rw [set_flagged_cell] at hf
        by_cases hsm : m.1 = s.col ∧ m.2 = s.row
        · rw [hsm.1, hsm.2]; exact hL
        · rw [if_neg hsm] at hf
          exact (h2 m hm).1 hf
      · show mf.flags + (fu + 1) + assigned (layout_on L ss) ≤ mf.mines
        omega
      · show mf.mines - mf.flags - (fu + 1 + assigned (layout_on L ss)) ≤ mf.unmarked - length
        omega

theorem layout_inv_of_consistent (mf : minefield_t) (L : Int → Int → Bool)
    (cells : List possible_mine_t) (hwf : board_wf mf) (hL : layout_consistent mf L)
    (hs : ∀ s ∈ cells, (s.col, s.row) ∈ playable_cells mf) : layout_inv mf L cells := by
  intro s hmem n hn hcl
  have hp := hs s hmem
  have hna := in_array_of_neighbour mf s.col s.row n hp hn
  have hnp : (n.1, n.2) ∈ playable_cells mf := by
    by_contra hnot
    have := board_wf_sentinel mf hwf n.1 n.2 hna hnot
    rw [this.2.1] at hcl
    cases hcl
  obtain ⟨hL1, hL2, _⟩ := hL
  refine ⟨by rw [((hL2 (n.1, n.2) hnp).1 hcl).2], fun m hm => ?_⟩
  have hma := in_array_of_neighbour mf n.1 n.2 m hnp hm
  by_cases hmp : (m.1, m.2) ∈ playable_cells mf
  · have hw := board_wf_playable mf hwf m.1 m.2 hmp
    refine ⟨(hL2 (m.1, m.2) hmp).2, fun hl => ?_⟩
    have hncl : (minefield_cell mf m.1 m.2).is_cleared = false := by
      cases hc : (minefield_cell mf m.1 m.2).is_cleared
      · rfl
      · have := ((hL2 (m.1, m.2) hmp).1 hc).1
        simp only at this
        rw [this] at hl
        cases hl
    simp [IS_AVAILABLE, hncl, hw.1]
  · have hw := board_wf_sentinel mf hwf m.1 m.2 hma hmp
    have hl0 := hL1 (m.1, m.2) ((mem_array_positions mf m.1 m.2).2 hma) hmp
    simp only at hl0
    refine ⟨fun hf => ?_, fun hl => ?_⟩
    · rw [hw.2.2] at hf; cases hf
    · rw [hl0] at hl; cases hl

theorem assigned_layout_on (L : Int → Int → Bool) (cells : List possible_mine_t) :
    assigned (layout_on L cells)
      = ((site_positions cells).countP (fun q => L q.1 q.2) : Nat) := by
  unfold assigned layout_on site_positions
  rw [List.countP_map, List.count, List.countP_map]
  congr 2
  funext s
  simp

theorem countP_mem_eq {α : Type} (l ps : List α) (hl : l.Nodup)
    (hps : ps.Nodup) (hsub : ∀ p ∈ ps, p ∈ l) (m : α → Bool)
    (hm : ∀ p, m p = true ↔ p ∈ ps) (f : α → Bool) :
    l.countP (fun p => m p && f p) = ps.countP f := by
  have hperm : (l.filter m).Perm ps := by
    rw [List.perm_ext_iff_of_nodup (hl.filter _) hps]
    intro a
    simp only [List.mem_filter, hm]
    exact ⟨fun h => h.2, fun h => ⟨hsub a h, h⟩⟩
  rw [← hperm.countP_eq, List.countP_filter]
  apply List.countP_congr
  intro x _
  simp only [Bool.and_comm]

theorem countP_add_le_of_pointwise {α : Type} (l : List α) (a1 a2 b1 : α → Bool)
    (h : ∀ x ∈ l, b2i (a1 x) + b2i (a2 x) ≤ b2i (b1 x)) :
    l.countP a1 + l.countP a2 ≤ l.countP b1 := by
  induction l with
  | nil => simp
  | cons x t ih =>
    have hx := h x (List.mem_cons_self x t)
    have := ih (fun y hy => h y (List.mem_cons_of_mem x hy))
    simp only [List.countP_cons]
    unfold b2i at hx
    cases h1 : a1 x <;> cases h2 : a2 x <;> cases h3 : b1 x <;>
      simp only [h1, h2, h3, Bool.false_eq_true, if_false, if_true] at hx ⊢ <;> omega

theorem countP_add_le_of_pointwise3 {α : Type} (l : List α) (a1 a2 b1 b2 b3 : α → Bool)
    (h : ∀ x ∈ l, b2i (a1 x) + b2i (a2 x) ≤ b2i (b1 x) + b2i (b2 x) + b2i (b3 x)) :
    l.countP a1 + l.countP a2 ≤ l.countP b1 + l.countP b2 + l.countP b3 := by
  induction l with
  | nil => simp
  | cons x t ih =>
    have hx := h x (List.mem_cons_self x t)
    have := ih (fun y hy => h y (List.mem_cons_of_mem x hy))
    simp only [List.countP_cons]
    unfold b2i at hx
    cases h1 : a1 x <;> cases h2 : a2 x <;> cases h3 : b1 x <;> cases h4 : b2 x <;>
      cases h5 : b3 x <;>
      simp only [h1, h2, h3, h4, h5, Bool.false_eq_true, if_false, if_true] at hx ⊢ <;> omega

theorem site_not_marked (mf : minefield_t) (ps : List (Int × Int))
    (hps : ∀ p ∈ ps, p ∈ playable_cells mf ∧ IS_UNMARKED mf p.1 p.2 = true) (x : Int × Int)
    (h : decide (x ∈ ps) = true) :
    (minefield_cell mf x.1 x.2).is_flagged = false ∧
    (minefield_cell mf x.1 x.2).is_cleared = false := by
  have h2 := (hps x (of_decide_eq_true h)).2
  simp only [IS_UNMARKED, Bool.not_eq_true', Bool.or_eq_false_iff] at h2
  exact h2

/-- The mines of a consistent layout on a set of distinct unmarked sites, together with the
flags, do not exceed `mines`. -/
theorem layout_budget (mf : minefield_t) (L : Int → Int → Bool) (ps : List (Int × Int))
    (hL : layout_consistent mf L) (hc : solver_counters mf) (hnd : ps.Nodup)
    (hps : ∀ p ∈ ps, p ∈ playable_cells mf ∧ IS_UNMARKED mf p.1 p.2 = true) :
    mf.flags + (ps.countP (fun q => L q.1 q.2) : Nat) ≤ mf.mines := by
  obtain ⟨_, hL2, hL3⟩ := hL
  have e1 := countP_mem_eq (playable_cells mf) ps (nodup_playable_cells mf) hnd
    (fun p hp => (hps p hp).1) (fun p => decide (p ∈ ps)) (fun p => decide_eq_true_iff)
    (fun q => L q.1 q.2)
  have key : flagged_count mf + ps.countP (fun q => L q.1 q.2)
      ≤ (playable_cells mf).countP (fun q => L q.1 q.2) := by
    rw [← e1]
    apply countP_add_le_of_pointwise
    intro x hx
    have f1 := (hL2 x hx).2
    have f2 := site_not_marked mf ps hps x
    show b2i (minefield_cell mf x.1 x.2).is_flagged + b2i (decide (x ∈ ps) && L x.1 x.2)
      ≤ b2i (L x.1 x.2)
    generalize (minefield_cell mf x.1 x.2).is_flagged = F at f1 f2 ⊢
    generalize (minefield_cell mf x.1 x.2).is_cleared = C at f2
    generalize L x.1 x.2 = Lx at f1 ⊢
    generalize decide (x ∈ ps) = M at f2 ⊢
    cases F <;> cases M <;> cases Lx <;> simp [b2i] at f1 f2 ⊢
  rw [hc.1, ← hL3]
  exact_mod_cast key

/-- The mines a consistent layout leaves outside a set of distinct unmarked sites fit in the
unmarked cells outside it. -/
theorem layout_room (mf : minefield_t) (L : Int → Int → Bool) (ps : List (Int × Int))
    (hL : layout_consistent mf L) (hc : solver_counters mf) (hnd : ps.Nodup)
    (hps : ∀ p ∈ ps, p ∈ playable_cells mf ∧ IS_UNMARKED mf p.1 p.2 = true) :
    mf.mines - mf.flags - (ps.countP (fun q => L q.1 q.2) : Nat)
      ≤ mf.unmarked - (ps.length : Nat) := by
  obtain ⟨_, hL2, hL3⟩ := hL
  have e1 := countP_mem_eq (playable_cells mf) ps (nodup_playable_cells mf) hnd
    (fun p hp => (hps p hp).1) (fun p => decide (p ∈ ps)) (fun p => decide_eq_true_iff)
    (fun q => L q.1 q.2)
  have e2 := countP_mem_eq (playable_cells mf) ps (nodup_playable_cells mf) hnd
    (fun p hp => (hps p hp).1) (fun p => decide (p ∈ ps)) (fun p => decide_eq_true_iff)
    (fun _ => true)
  simp only [Bool.and_true, List.countP_true] at e2
  have key : (playable_cells mf).countP (fun q => L q.1 q.2) + ps.length
      ≤ unmarked_count mf + flagged_count mf + ps.countP (fun q => L q.1 q.2) := by
    rw [← e1, ← e2]
    apply countP_add_le_of_pointwise3
    intro x hx
    have f1 := (hL2 x hx).1
    have f2 := site_not_marked mf ps hps x
    show b2i (L x.1 x.2) + b2i (decide (x ∈ ps))
      ≤ b2i (!((minefield_cell mf x.1 x.2).is_flagged || (minefield_cell mf x.1 x.2).is_cleared))
        + b2i (minefield_cell mf x.1 x.2).is_flagged + b2i (decide (x ∈ ps) && L x.1 x.2)
    have f1' : (minefield_cell mf x.1 x.2).is_cleared = true → L x.1 x.2 = false :=
      fun h => (f1 h).1
    generalize (minefield_cell mf x.1 x.2).is_flagged = F at f2 ⊢
    generalize (minefield_cell mf x.1 x.2).is_cleared = C at f1' f2 ⊢
    generalize L x.1 x.2 = Lx at f1' ⊢
    generalize decide (x ∈ ps) = M at f2 ⊢
    cases F <;> cases C <;> cases M <;> cases Lx <;> simp [b2i] at f1' f2 ⊢
  have hk : ((playable_cells mf).countP (fun q => L q.1 q.2) : Int) + (ps.length : Nat)
      ≤ (unmarked_count mf : Nat) + (flagged_count mf : Nat)
        + (ps.countP (fun q => L q.1 q.2) : Nat) := by exact_mod_cast key
  rw [hc.1, hc.2, ← hL3]
  omega

theorem mem_assignments : ∀ a : List Bool, a ∈ assignments a.length := by
  intro a
  induction a with
  | nil => simp [assignments]
  | cons b t ih =>
    simp only [List.length_cons, assignments, List.mem_append, List.mem_map]
    cases b
    · exact Or.inr ⟨t, ih, rfl⟩
    · exact Or.inl ⟨t, ih, rfl⟩

theorem record_flags_bracket : ∀ (ks : List Int) (st : Int × Int × Int),
    ((ks.foldl record_flags st).1 ≤ st.1 ∧ st.2.1 ≤ (ks.foldl record_flags st).2.1) ∧
    ∀ k ∈ ks, (ks.foldl record_flags st).1 ≤ k ∧ k ≤ (ks.foldl record_flags st).2.1 := by
  intro ks
  induction ks with
  | nil => intro st; simp
  | cons x t ih =>
    intro st
    obtain ⟨⟨h1, h2⟩, h3⟩ := ih (record_flags st x)
    simp only [List.foldl_cons]
    have a1 : (record_flags st x).1 ≤ st.1 ∧ (record_flags st x).1 ≤ x := by
      unfold record_flags
      simp only
      split_ifs <;> omega
    have a2 : st.2.1 ≤ (record_flags st x).2.1 ∧ x ≤ (record_flags st x).2.1 := by
      unfold record_flags
      simp only
      split_ifs <;> omega
    refine ⟨⟨by omega, by omega⟩, fun k hk => ?_⟩
    rcases List.mem_cons.1 hk with rfl | hk
    · exact ⟨by omega, by omega⟩
    · exact h3 k hk

theorem countP_and_eq_imp {α : Type} (l : List α) (p q : α → Bool)
    (h : l.countP (fun x => p x && q x) = l.countP p) :
    ∀ x ∈ l, p x = true → q x = true := by
  induction l with
  | nil => intro x hx; cases hx
  | cons y t ih =>
    have hle : t.countP (fun x => p x && q x) ≤ t.countP p := by
      apply List.countP_mono_left
      intro a _ ha
      simp only [Bool.and_eq_true] at ha
      exact ha.1
    simp only [List.countP_cons] at h
    intro x hx hp
    cases hpy : p y <;> cases hqy : q y <;>
      simp only [hpy, hqy, Bool.and_self, Bool.and_false, Bool.false_and, Bool.false_eq_true,
        if_false, if_true, add_zero, Nat.add_right_cancel_iff] at h
    · rcases List.mem_cons.1 hx with rfl | hx
      · rw [hpy] at hp; cases hp
      · exact ih h x hx hp
    · rcases List.mem_cons.1 hx with rfl | hx
      · exact hqy
      · exact ih h x hx hp
    · omega
    · rcases List.mem_cons.1 hx with rfl | hx
      · exact hqy
      · exact ih h x hx hp

theorem countP_and_zero_imp {α : Type} (l : List α) (p q : α → Bool)
    (h : l.countP (fun x => p x && q x) = 0) :
    ∀ x ∈ l, p x = true → q x = false := by
  intro x hx hp
  rw [List.countP_eq_zero] at h
  have := h x hx
  simp only [hp, Bool.true_and, Bool.not_eq_true] at this
  exact this

theorem layout_on_getD (L : Int → Int → Bool) : ∀ (cells : List possible_mine_t) (j : Nat)
    (c : possible_mine_t), cells[j]? = some c →
    (layout_on L cells).getD j false = L c.col c.row := by
  intro cells j c h
  unfold layout_on
  simp [List.getD, List.getElem?_map, h]

theorem length_layout_on (L : Int → Int → Bool) (cells : List possible_mine_t) :
    (layout_on L cells).length = cells.length := by
  simp [layout_on]

theorem sites_open_perm (mf : minefield_t) (a b : List possible_mine_t) (h : a.Perm b)
    (ho : sites_open mf b) : sites_open mf a := by
  refine ⟨?_, fun s hs => ho.2 s (h.mem_iff.1 hs)⟩
  have : (site_positions a).Perm (site_positions b) := h.map _
  exact this.nodup_iff.2 ho.1

theorem layout_inv_perm (mf : minefield_t) (L : Int → Int → Bool)
    (a b : List possible_mine_t) (h : a.Perm b) (hi : layout_inv mf L b) :
    layout_inv mf L a :=
  fun s hs => hi s (h.mem_iff.1 hs)

theorem assigned_layout_on_perm (L : Int → Int → Bool) (a b : List possible_mine_t)
    (h : a.Perm b) : assigned (layout_on L a) = assigned (layout_on L b) := by
  rw [assigned_layout_on, assigned_layout_on]
  have : (site_positions a).Perm (site_positions b) := h.map _
  rw [this.countP_eq]

theorem site_positions_of_getElem (X Y : List possible_mine_t) (f : Nat → Int)
    (h : ∀ j, X[j]? = (Y[j]?).map (bump_placements (f j))) :
    site_positions X = site_positions Y := by
  apply List.ext_getElem?
  intro j
  unfold site_positions
  rw [List.getElem?_map, List.getElem?_map, h j]
  cases Y[j]? <;> simp [bump_placements]

/-- One list of the chain, searched on a board on which the layout `L` is consistent around
its sites and fits the mine budget: the board is restored and, if the search has completed
(the value it returned is not negative), the sites are kept, the list has an arrangement, a
site never mined is clear in `L`, a site always mined is mined in `L`, and the number of mines
of `L` on the list lies between `min_flags` and `max_flags`. -/
theorem search_list_sound (mf : minefield_t) (L : Int → Int → Bool) (list : mine_list_t)
    (hn : mf.needed = 0) (ho : sites_open mf list.cell) (hi : layout_inv mf L list.cell)
    (hfp : ∀ c ∈ list.cell, c.flag_placements = 0)
    (hb : mf.flags + assigned (layout_on L list.cell) ≤ mf.mines)
    (hr : mf.mines - mf.flags - assigned (layout_on L list.cell)
      ≤ mf.unmarked - (list.cell.length : Nat)) :
    (search_list mf list).mf = mf ∧
    (0 ≤ (search_list mf list).list.arrangements →
      site_positions (search_list mf list).list.cell
        = site_positions (optimize_list mf list).1.cell ∧
      list_sound L (search_list mf list).list ∧
      (search_list mf list).list.min_flags ≤ assigned (layout_on L list.cell) ∧
      assigned (layout_on L list.cell) ≤ (search_list mf list).list.max_flags) := by
  obtain ⟨hperm, _, _, _, _⟩ := optimize_list_perm mf list
  generalize hol : (optimize_list mf list).1 = ol at hperm
  have ho' : sites_open mf ol.cell := sites_open_perm mf _ _ hperm ho
  have hi' : layout_inv mf L ol.cell := layout_inv_perm mf L _ _ hperm hi
  have hfresh : sites_fresh mf ol.cell :=
    ⟨ho'.1, fun s hm => ⟨(ho'.2 s hm).1, (ho'.2 s hm).2.2⟩⟩
  have hK := assigned_layout_on_perm L _ _ hperm
  have hlen : ol.cell.length = list.cell.length := hperm.length_eq
  obtain ⟨h2, _, _, hx, hneg⟩ := analyze_list_aux_spec ol.cell mf ol 0 0 hn hfresh
  have hint : placements_int ol := by
    intro c hc
    rw [hfp c (hperm.mem_iff.1 hc)]
    unfold is_int
    omega
  have hacc : accepts ol.length mf ol.cell 0 (layout_on L ol.cell) = true := by
    apply layout_accepts ol.length L ol.cell mf 0 hn ho' hi'
    · rw [hK]; omega
    · rw [hK]
      unfold mine_list_t.length
      rw [hlen]
      omega
  have ha : layout_on L ol.cell ∈ assignments ol.cell.length := by
    have := mem_assignments (layout_on L ol.cell)
    rwa [length_layout_on] at this
  have hsl : search_list mf list
      = { analyze_list mf ol with
          list := { (analyze_list mf ol).list with arrangements := (analyze_list mf ol).result } }
      := by
    unfold search_list
    rw [hol]
  rw [hsl]
  simp only
  unfold analyze_list
  refine ⟨h2, fun hpos => ?_⟩
  have hle : (brute_force (accepts ol.length mf ol.cell 0) ol.cell.length : Int)
      ≤ 2147483647 := by
    by_contra hgt
    have := hneg (by omega)
    omega
  obtain ⟨h1, h5, h6'⟩ := hx hle
  have h6 := h6' hint
  refine ⟨?_, ⟨?_, ?_⟩, ?_, ?_⟩
  · exact site_positions_of_getElem _ _ _ (fun j => by rw [h6 j])
  · show 0 < (_analyze_list ol.cell mf ol 0 0).result
    rw [h1]
    have : 0 < brute_force (accepts ol.length mf ol.cell 0) ol.cell.length := by
      unfold brute_force
      rw [List.countP_pos_iff]
      exact ⟨_, ha, hacc⟩
    exact_mod_cast this
  · intro c hc
    obtain ⟨j, hj⟩ := List.mem_iff_getElem?.1 hc
    simp only at hj
    rw [h6 j] at hj
    simp only [Nat.zero_le, if_true, Nat.sub_zero, Option.map_eq_some'] at hj
    obtain ⟨c0, hc0, rfl⟩ := hj
    have hz : c0.flag_placements = 0 := hfp c0 (hperm.mem_iff.1 (List.getElem?_mem hc0))
    have hget := layout_on_getD L ol.cell j c0 hc0
    show ((bump_placements _ c0).flag_placements = 0 → L c0.col c0.row = false) ∧
      ((bump_placements _ c0).flag_placements = (_analyze_list ol.cell mf ol 0 0).result
        → L c0.col c0.row = true)
    have hmle := brute_force_mined_le (accepts ol.length mf ol.cell 0) ol.cell.length j
    simp only [bump_placements, hz, zero_add, h1]
    rw [wrap_int_of_is_int _ (by unfold is_int; omega)]
    refine ⟨fun h0 => ?_, fun he => ?_⟩
    · have h0' : brute_force_mined (accepts ol.length mf ol.cell 0) ol.cell.length j = 0 := by
        exact_mod_cast h0
      rw [← hget]
      exact countP_and_zero_imp _ _ _ h0' _ ha hacc
    · have he' : brute_force_mined (accepts ol.length mf ol.cell 0) ol.cell.length j
          = brute_force (accepts ol.length mf ol.cell 0) ol.cell.length := by
        exact_mod_cast he
      rw [← hget]
      exact countP_and_eq_imp _ _ _ he' _ ha hacc
  · have hmem : (0 : Int) + assigned (layout_on L ol.cell)
        ∈ accepted_flags ol.length mf ol.cell 0 := by
      unfold accepted_flags
      exact List.mem_map.2 ⟨_, List.mem_filter.2 ⟨ha, hacc⟩, rfl⟩
    have := ((record_flags_bracket _ (stats_of ol)).2 _ hmem).1
    rw [← h5] at this
    rw [← hK]
    simp only [stats_of] at this
    show (_analyze_list ol.cell mf ol 0 0).list.min_flags ≤ _
    omega
  · have hmem : (0 : Int) + assigned (layout_on L ol.cell)
        ∈ accepted_flags ol.length mf ol.cell 0 := by
      unfold accepted_flags
      exact List.mem_map.2 ⟨_, List.mem_filter.2 ⟨ha, hacc⟩, rfl⟩
    have := ((record_flags_bracket _ (stats_of ol)).2 _ hmem).2
    rw [← h5] at this
    rw [← hK]
    simp only [stats_of] at this
    show _ ≤ (_analyze_list ol.cell mf ol 0 0).list.max_flags
    omega

theorem cluster_ready (mf : minefield_t) (L : Int → Int → Bool)
    (cells : List possible_mine_t) (hwf : board_wf mf) (hL : layout_consistent mf L)
    (hnd : (site_positions cells).Nodup)
    (hs : ∀ p ∈ site_positions cells, p ∈ playable_cells mf ∧ IS_UNMARKED mf p.1 p.2 = true) :
    sites_open mf cells ∧ layout_inv mf L cells := by
  have hs' : ∀ s ∈ cells, (s.col, s.row) ∈ playable_cells mf ∧
      IS_UNMARKED mf s.col s.row = true :=
    fun s hm => hs (s.col, s.row) ((mem_site_positions cells (s.col, s.row)).2 ⟨s, hm, rfl, rfl⟩)
  exact ⟨sites_open_of_cluster mf cells hwf ⟨hnd, hs'⟩,
    layout_inv_of_consistent mf L cells hwf hL (fun s hm => (hs' s hm).1)⟩

theorem length_site_positions (cells : List possible_mine_t) :
    (site_positions cells).length = cells.length := by
  simp [site_positions]

theorem assigned_of_positions (L : Int → Int → Bool) (a b : List possible_mine_t)
    (h : site_positions a = site_positions b) :
    assigned (layout_on L a) = assigned (layout_on L b) := by
  rw [assigned_layout_on, assigned_layout_on, h]

theorem sum_max_flags_cons (l : mine_list_t) (chain : List mine_list_t) :
    sum_max_flags (l :: chain) = l.max_flags + sum_max_flags chain := by
  simp [sum_max_flags]

/-- The first loop of `analyze_possible_mines` on a chain of unsearched clusters of a board
with a consistent layout `L`: it restores the board and, if no search has returned a negative
value, it runs to the end, keeps the sites and leaves every list sound for `L`. -/
theorem analyze_each_sound (mf : minefield_t) (L : Int → Int → Bool) (hwf : board_wf mf)
    (hc : solver_counters mf) (hn : mf.needed = 0) (hL : layout_consistent mf L) :
    ∀ (chain : List mine_list_t) (m0 M0 : Int), (all_sites chain).Nodup →
    (∀ p ∈ all_sites chain, p ∈ playable_cells mf ∧ IS_UNMARKED mf p.1 p.2 = true) →
    (∀ l ∈ chain, ∀ c ∈ l.cell, c.flag_placements = 0) →
    (analyze_each mf m0 M0 chain).mf = mf ∧
    (0 ≤ (analyze_each mf m0 M0 chain).result →
      (analyze_each mf m0 M0 chain).result = 0 ∧
      (all_sites (analyze_each mf m0 M0 chain).chain).Perm (all_sites chain) ∧
      chain_sound L (analyze_each mf m0 M0 chain).chain ∧
      (analyze_each mf m0 M0 chain).max_flags
        = M0 + sum_max_flags (analyze_each mf m0 M0 chain).chain) := by
  intro chain
  induction chain with
  | nil =>
    intro m0 M0 _ _ _
    simp [analyze_each, chain_sound, sum_max_flags]
  | cons list next ih =>
    intro m0 M0 hnd hs hfp
    rw [all_sites_cons] at hnd hs
    have hnd1 := (List.nodup_append.1 hnd).1
    have hnd2 := (List.nodup_append.1 hnd).2.1
    have hs1 : ∀ p ∈ site_positions list.cell,
        p ∈ playable_cells mf ∧ IS_UNMARKED mf p.1 p.2 = true :=
      fun p hp => hs p (List.mem_append_left _ hp)
    have hs2 : ∀ p ∈ all_sites next,
        p ∈ playable_cells mf ∧ IS_UNMARKED mf p.1 p.2 = true :=
      fun p hp => hs p (List.mem_append_right _ hp)
    obtain ⟨ho, hi⟩ := cluster_ready mf L list.cell hwf hL hnd1 hs1
    have hb := layout_budget mf L (site_positions list.cell) hL hc hnd1 hs1
    have hr := layout_room mf L (site_positions list.cell) hL hc hnd1 hs1
    rw [← assigned_layout_on] at hb hr
    rw [length_site_positions] at hr
    obtain ⟨g1, gx⟩ := search_list_sound mf L list hn ho hi
      (hfp list (List.mem_cons_self _ _)) hb hr
    unfold analyze_each
    simp only
    by_cases hpos : (search_list mf list).list.arrangements < 0
    · rw [if_pos hpos]
      exact ⟨g1, fun h => absurd h (by simp only; omega)⟩
    obtain ⟨g2, g3, g4, g5⟩ := gx (by omega)
    obtain ⟨i2, ix⟩ := ih (m0 + (search_list mf list).list.min_flags)
      (M0 + (search_list mf list).list.max_flags) hnd2 hs2
      (fun l hl => hfp l (List.mem_cons_of_mem _ hl))
    have hperm : (site_positions (search_list mf list).list.cell).Perm
        (site_positions list.cell) := by
      rw [g2]
      exact (optimize_list_perm mf list).1.map _
    have hK : assigned (layout_on L (search_list mf list).list.cell)
        = assigned (layout_on L list.cell) := by
      rw [assigned_layout_on, assigned_layout_on, hperm.countP_eq]
    simp only [hpos, if_false, g1]
    refine ⟨i2, fun hres => ?_⟩
    obtain ⟨i1, i3, i4, i5⟩ := ix hres
    refine ⟨i1, ?_, ?_, ?_⟩
    · rw [all_sites_cons, all_sites_cons]
      exact hperm.append i3
    · intro l hl
      rcases List.mem_cons.1 hl with rfl | hl
      · exact ⟨g3, by rw [hK]; exact g4, by rw [hK]; exact g5⟩
      · exact i4 l hl
    · rw [i5, sum_max_flags_cons]
      ring

theorem find_retry_list_none : ∀ (chain : List mine_list_t) (mn mx : Int),
    find_retry_list chain mn mx = none → ∀ l ∈ chain, l.min_flags = l.max_flags := by
  intro chain
  induction chain with
  | nil => intro _ _ _ l hl; cases hl
  | cons list next ih =>
    intro mn mx h l hl
    unfold find_retry_list at h
    by_cases hf : list.min_flags = list.max_flags
    · rw [if_pos hf] at h
      simp only [Option.map_eq_none'] at h
      rcases List.mem_cons.1 hl with rfl | hl
      · exact hf
      · exact ih _ _ h l hl
    · rw [if_neg hf] at h
      cases h

theorem find_retry_list_some : ∀ (chain : List mine_list_t) (mn mx : Int)
    (f : List mine_list_t × mine_list_t × List mine_list_t × Int × Int),
    find_retry_list chain mn mx = some f →
    chain = f.1 ++ f.2.1 :: f.2.2.1 ∧ (∀ l ∈ f.1, l.min_flags = l.max_flags) ∧
    f.2.2.2.2 = mx + sum_max_flags f.1 := by
  intro chain
  induction chain with
  | nil => intro _ _ f h; cases h
  | cons list next ih =>
    intro mn mx f h
    unfold find_retry_list at h
    by_cases hf : list.min_flags = list.max_flags
    · rw [if_pos hf] at h
      simp only [Option.map_eq_some'] at h
      obtain ⟨g, hg, rfl⟩ := h
      obtain ⟨e1, e2, e3⟩ := ih _ _ g hg
      refine ⟨?_, ?_, ?_⟩
      · simp only [List.cons_append]
        rw [← e1]
      · intro l hl
        rcases List.mem_cons.1 hl with rfl | hl
        · exact hf
        · exact e2 l hl
      · simp only [sum_max_flags_cons]
        rw [e3]
        ring
    · rw [if_neg hf] at h
      simp only [Option.some.injEq] at h
      subst h
      simp [sum_max_flags]

theorem merge_retry_lists_spec : ∀ (after : List mine_list_t) (retry : mine_list_t)
    (mn mx : Int),
    (∀ l ∈ (merge_retry_lists retry after mn mx).2.1,
      l ∈ after ∧ l.min_flags = l.max_flags) ∧
    (site_positions (merge_retry_lists retry after mn mx).1.cell
      ++ all_sites (merge_retry_lists retry after mn mx).2.1).Perm
      (site_positions retry.cell ++ all_sites after) ∧
    (merge_retry_lists retry after mn mx).2.2.2
      = mx + sum_max_flags (merge_retry_lists retry after mn mx).2.1 := by
  intro after
  induction after with
  | nil =>
    intro retry mn mx
    simp [merge_retry_lists, sum_max_flags, all_sites]
  | cons list next ih =>
    intro retry mn mx
    unfold merge_retry_lists
    by_cases hf : list.min_flags = list.max_flags
    · rw [if_neg (by simpa using hf)]
      obtain ⟨e1, e2, e3⟩ := ih retry (mn + list.min_flags) (mx + list.max_flags)
      refine ⟨?_, ?_, ?_⟩
      · intro l hl
        rcases List.mem_cons.1 hl with rfl | hl
        · exact ⟨List.mem_cons_self _ _, hf⟩
        · exact ⟨List.mem_cons_of_mem _ (e1 l hl).1, (e1 l hl).2⟩
      · simp only [all_sites_cons]
        refine (List.perm_append_comm_assoc _ _ _).trans ?_
        refine List.Perm.trans ?_ (List.perm_append_comm_assoc _ _ _)
        exact e2.append_left _
      · simp only [sum_max_flags_cons]
        rw [e3]
        ring
    · rw [if_pos hf]
      obtain ⟨e1, e2, e3⟩ := ih (join_mine_lists retry list) mn mx
      refine ⟨fun l hl => ⟨List.mem_cons_of_mem _ (e1 l hl).1, (e1 l hl).2⟩, ?_, e3⟩
      refine e2.trans ?_
      simp only [join_mine_lists, site_positions_append, all_sites_cons, List.append_assoc]
      exact List.Perm.refl _

theorem countP_all_sites_cons (L : Int → Int → Bool) (l : mine_list_t)
    (chain : List mine_list_t) :
    ((all_sites (l :: chain)).countP (fun q => L q.1 q.2) : Int)
      = assigned (layout_on L l.cell) + ((all_sites chain).countP (fun q => L q.1 q.2) : Nat) := by
  rw [all_sites_cons, List.countP_append, assigned_layout_on]
  push_cast
  ring

/-- In a sound chain whose lists all have `min_flags = max_flags`, the sum of `max_flags` is
the number of mines of the layout on the sites of the chain. -/
theorem sum_max_flags_fixed (L : Int → Int → Bool) : ∀ (chain : List mine_list_t),
    (∀ l ∈ chain, l.min_flags ≤ assigned (layout_on L l.cell) ∧
      assigned (layout_on L l.cell) ≤ l.max_flags) →
    (∀ l ∈ chain, l.min_flags = l.max_flags) →
    sum_max_flags chain = ((all_sites chain).countP (fun q => L q.1 q.2) : Nat) := by
  intro chain
  induction chain with
  | nil => intro _ _; simp [sum_max_flags, all_sites]
  | cons l t ih =>
    intro hs hf
    rw [sum_max_flags_cons, countP_all_sites_cons,
      ih (fun x hx => hs x (List.mem_cons_of_mem _ hx))
        (fun x hx => hf x (List.mem_cons_of_mem _ hx))]
    have := hs l (List.mem_cons_self _ _)
    have := hf l (List.mem_cons_self _ _)
    omega

theorem site_positions_reset_list (list : mine_list_t) :
    site_positions (reset_list list).cell = site_positions list.cell := by
  simp [reset_list, site_positions, List.map_map, Function.comp_def]

theorem reset_list_placements (list : mine_list_t) :
    ∀ c ∈ (reset_list list).cell, c.flag_placements = 0 := by
  intro c hc
  simp only [reset_list, List.mem_map] at hc
  obtain ⟨d, _, rfl⟩ := hc
  rfl

theorem find_possible_mines_fold_max_flags (mf : minefield_t) :
    ∀ (cells : List (Int × Int)) (ml : mine_lists_t),
    (cells.foldl (fun ml p =>
      if is_border_site mf p.1 p.2 then add_possible_mine mf p.1 p.2 ml else ml) ml).max_flags
      = ml.max_flags := by
  intro cells
  induction cells with
  | nil => intro ml; rfl
  | cons p t ih =>
    intro ml
    rw [List.foldl_cons, ih]
    split_ifs <;> rfl

theorem find_possible_mines_max_flags (mf : minefield_t) :
    (find_possible_mines mf MINE_LISTS_INITIALIZER).max_flags = 0 :=
  find_possible_mines_fold_max_flags mf _ _

/-- On a truthful board that holds exactly `mines` mines, the mines of the board are a
consistent layout. -/
theorem layout_consistent_of_truthful (mf : minefield_t) (ht : board_truthful mf)
    (hm : (mine_count mf : Int) = mf.mines) : layout_consistent mf (IS_MINE mf) := by
  obtain ⟨h1, h2, h3, h4⟩ := ht
  refine ⟨h4, fun p hp => ⟨fun hcl => ⟨h2 p hp hcl, ?_⟩, h3 p hp⟩, hm⟩
  have := h1 p hp
  unfold mines_around at this
  rw [for_each_neighbour_sum_eq] at this
  exact_mod_cast this.symm

theorem flagged_end_board_wf : board_wf flagged_end_board := by
  unfold board_wf
  decide

theorem toggle_flag_twice (mf : minefield_t) (col row : Int) :
    toggle_flag (toggle_flag mf col row) col row = mf := by
  cases mf with
  | mk number rows cols mines field flags unmarked needed =>
    unfold toggle_flag
    cases h : (field col row).is_flagged <;>
      simp [minefield_cell, store_cell, h] <;>
      funext i j <;>
      by_cases hij : i = col ∧ j = row
    · obtain ⟨rfl, rfl⟩ := hij
      simp [← h]
    · simp [hij]
    · obtain ⟨rfl, rfl⟩ := hij
      simp [← h]
    · simp [hij]

/-- C11: `toggle_flag` flips `is_flagged` of the cell `(col, row)` and keeps every other field
of that cell and every other cell; `flags` goes up by 1 and `unmarked` down by 1 when the cell
becomes flagged, and the other way round when it becomes unflagged; the other scalars are
kept; and two toggles of the same cell in a row give back the board exactly. -/
theorem toggle_flag_flips (mf : minefield_t) (col row : Int) :
    minefield_cell (toggle_flag mf col row) col row
      = { minefield_cell mf col row with
          is_flagged := !(minefield_cell mf col row).is_flagged } ∧
    (∀ c r, ¬ (c = col ∧ r = row) →
      minefield_cell (toggle_flag mf col row) c r = minefield_cell mf c r) ∧
    (toggle_flag mf col row).flags
      = (if (minefield_cell mf col row).is_flagged then mf.flags - 1 else mf.flags + 1) ∧
    (toggle_flag mf col row).unmarked
      = (if (minefield_cell mf col row).is_flagged then mf.unmarked + 1
          else mf.unmarked - 1) ∧
    ((toggle_flag mf col row).number = mf.number ∧ (toggle_flag mf col row).rows = mf.rows ∧
      (toggle_flag mf col row).cols = mf.cols ∧ (toggle_flag mf col row).mines = mf.mines ∧
      (toggle_flag mf col row).needed = mf.needed) ∧
    toggle_flag (toggle_flag mf col row) col row = mf := by
  refine ⟨?_, ?_, ?_, ?_, ?_, toggle_flag_twice mf col row⟩
  · unfold toggle_flag
    cases h : (minefield_cell mf col row).is_flagged <;> simp [minefield_cell, store_cell]
  · intro c r hne
    unfold toggle_flag
    cases h : (minefield_cell mf col row).is_flagged <;> simp [minefield_cell, store_cell, hne]
  · unfold toggle_flag
    cases h : (minefield_cell mf col row).is_flagged <;> simp [store_cell]
  · unfold toggle_flag
    cases h : (minefield_cell mf col row).is_flagged <;> simp [store_cell]
  · unfold toggle_flag
    cases h : (minefield_cell mf col row).is_flagged <;> simp [store_cell]

/-- C11, at a concrete input: the cell `(2, 2)` of `corner_board`. -/
theorem toggle_flag_flips_witness :
    minefield_cell (toggle_flag corner_board 2 2) 2 2
      = { minefield_cell corner_board 2 2 with
          is_flagged := !(minefield_cell corner_board 2 2).is_flagged } ∧
    (∀ c r, ¬ (c = 2 ∧ r = 2) →
      minefield_cell (toggle_flag corner_board 2 2) c r = minefield_cell corner_board c r) ∧
    (toggle_flag corner_board 2 2).flags
      = (if (minefield_cell corner_board 2 2).is_flagged then corner_board.flags - 1
          else corner_board.flags + 1) ∧
    (toggle_flag corner_board 2 2).unmarked
      = (if (minefield_cell corner_board 2 2).is_flagged then corner_board.unmarked + 1
          else corner_board.unmarked - 1) ∧
    ((toggle_flag corner_board 2 2).number = corner_board.number ∧
      (toggle_flag corner_board 2 2).rows = corner_board.rows ∧
      (toggle_flag corner_board 2 2).cols = corner_board.cols ∧
      (toggle_flag corner_board 2 2).mines = corner_board.mines ∧
      (toggle_flag corner_board 2 2).needed = corner_board.needed) ∧
    toggle_flag (toggle_flag corner_board 2 2) 2 2 = corner_board :=
  toggle_flag_flips corner_board 2 2

/-- C14: once `state.won` or `state.lost` is set, `make_move` returns FALSE for every cell,
button and action, and keeps the board (every cell, `flags`, `unmarked`) and the state
(`won`, `lost`); it only resets `buttons_down`. -/
theorem make_move_frozen (g : game_t) (col row button : Int) (action : action_t)
    (h : g.state.won = true ∨ g.state.lost = true) :
    make_move g col row button action = some ({ g with buttons_down := 0 }, false) ∧
    ∃ g', make_move g col row button action = some (g', false) ∧
      g'.minefield = g.minefield ∧ g'.state = g.state ∧ g'.stats = g.stats := by
  have e : make_move g col row button action = some ({ g with buttons_down := 0 }, false) := by
    unfold make_move
    rw [if_pos]
    rcases h with h | h <;> simp [h]
  exact ⟨e, _, e, rfl, rfl, rfl⟩

/-- C14, at a concrete input: a release of button 1 on `(1, 1)` in a lost game on
`corner_board`. -/
theorem make_move_frozen_witness :
    make_move { corner_game with state := { corner_game.state with lost := true } } 1 1 1
        action_t.release
      = some ({ { corner_game with state := { corner_game.state with lost := true } } with
          buttons_down := 0 }, false) ∧
    ∃ g', make_move { corner_game with state := { corner_game.state with lost := true } } 1 1 1
        action_t.release = some (g', false) ∧
      g'.minefield = corner_game.minefield ∧
      g'.state = { corner_game.state with lost := true } ∧ g'.stats = corner_game.stats :=
  make_move_frozen { corner_game with state := { corner_game.state with lost := true } } 1 1 1
    action_t.release (Or.inr rfl)

theorem moved_from_refl (a : minefield_t) : moved_from a a :=
  ⟨rfl, rfl, rfl, rfl, rfl, fun _ _ => ⟨rfl, rfl, rfl, fun _ => ⟨rfl, rfl⟩⟩⟩

theorem moved_from_trans {a b c : minefield_t} (h1 : moved_from a b) (h2 : moved_from b c) :
    moved_from a c := by
  obtain ⟨a1, a2, a3, a4, a5, a6⟩ := h1
  obtain ⟨b1, b2, b3, b4, b5, b6⟩ := h2
  refine ⟨by rw [b1, a1], by rw [b2, a2], by rw [b3, a3], by rw [b4, a4], by rw [b5, a5],
    fun i j => ?_⟩
  obtain ⟨x1, x2, x3, x4⟩ := a6 i j
  obtain ⟨y1, y2, y3, y4⟩ := b6 i j
  refine ⟨by rw [y1, x1], by rw [y2, x2], by rw [y3, x3], fun hn => ?_⟩
  have hn' : ¬ in_range b i j := by
    unfold in_range at hn ⊢
    rw [a2, a3]
    exact hn
  exact ⟨by rw [(y4 hn').1, (x4 hn).1], by rw [(y4 hn').2, (x4 hn).2]⟩

theorem moved_from_of_pressed {a b : minefield_t} (h : pressed_from a b) : moved_from a b := by
  refine ⟨h.1, h.2.1, h.2.2.1, h.2.2.2.1, h.2.2.2.2.2.2.1, fun c r => ?_⟩
  obtain ⟨e1, e2, e3, e4, e5⟩ := pressed_from_field h c r
  exact ⟨e2, e1, e5, fun _ => ⟨e3, e4⟩⟩

theorem moved_from_of_cleared {a b : minefield_t} (h : cleared_from a b) : moved_from a b := by
  refine ⟨h.1, h.2.1, h.2.2.1, h.2.2.2.1, h.2.2.2.2.2.1, fun c r => ?_⟩
  refine ⟨cleared_from_is_mine h c r, cleared_from_minesaround h c r,
    cleared_from_is_unavailable h c r, fun hn => ?_⟩
  rw [cleared_from_outside h c r hn]
  exact ⟨rfl, rfl⟩

theorem moved_from_toggle (a : minefield_t) (col row : Int) (hin : in_range a col row) :
    moved_from a (toggle_flag a col row) := by
  have key : ∀ c r, (toggle_flag a col row).field c r
      = if c = col ∧ r = row then
          { a.field col row with is_flagged := !(a.field col row).is_flagged }
        else a.field c r := by
    intro c r
    unfold toggle_flag
    cases h : (minefield_cell a col row).is_flagged <;>
      simp [minefield_cell, store_cell] at h ⊢ <;> simp [h]
  refine ⟨?_, ?_, ?_, ?_, ?_, fun c r => ?_⟩
  · unfold toggle_flag; simp only; split <;> rfl
  · unfold toggle_flag; simp only; split <;> rfl
  · unfold toggle_flag; simp only; split <;> rfl
  · unfold toggle_flag; simp only; split <;> rfl
  · unfold toggle_flag; simp only; split <;> rfl
  · rw [key]
    by_cases hc : c = col ∧ r = row
    · obtain ⟨rfl, rfl⟩ := hc
      simp only [and_self, if_true, true_and]
      exact fun hn => absurd hin hn
    · simp [hc]

theorem moved_from_border {a b : minefield_t} (h : moved_from a b) (hb : sentinel_border a) :
    sentinel_border b := by
  rintro ⟨c, r⟩ hp hn
  have hp' : (c, r) ∈ array_positions a := by
    rw [mem_array_positions] at hp ⊢
    unfold in_array at hp ⊢
    rw [h.2.1, h.2.2.1] at hp
    exact hp
  have hn' : (c, r) ∉ playable_cells a := by
    rw [mem_playable_cells] at hn ⊢
    unfold in_range at hn ⊢
    rw [h.2.1, h.2.2.1] at hn
    exact hn
  show (b.field c r).is_unavailable = true
  rw [(h.2.2.2.2.2 c r).2.2.1]
  exact hb (c, r) hp' hn'

theorem moved_from_in_range {a b : minefield_t} (h : moved_from a b) (c r : Int) :
    in_range b c r ↔ in_range a c r := by
  unfold in_range; rw [h.2.1, h.2.2.1]

theorem make_move_release_one_moved (g : game_t) (col row button : Int)
    (hb : sentinel_border g.minefield) (hin : in_range g.minefield col row) :
    ∃ g', make_move_release_one g col row button = some g' ∧
      moved_from g.minefield g'.minefield := by
  have hp := unpress_square_pressed_from g.minefield g.last_col g.last_row
  have hb' := pressed_from_border hp hb
  have hm := moved_from_of_pressed hp
  have hin' := (pressed_from_in_range hp col row).2 hin
  unfold make_move_release_one
  simp only
  split
  · exact ⟨_, rfl, hm⟩
  · split
    · obtain ⟨mf', n, e, eff, _⟩ := clear_square_effect _ col row hb'
        (in_array_of_in_range _ col row hin')
      rw [e]
      refine ⟨_, rfl, ?_⟩
      have := moved_from_trans hm (moved_from_of_cleared eff.1)
      simp only
      split <;> exact this
    · exact ⟨_, rfl, moved_from_trans hm (moved_from_toggle _ col row hin')⟩

theorem make_move_release_two_moved (g : game_t) (col row : Int)
    (hb : sentinel_border g.minefield) (hin : in_range g.minefield col row) :
    ∃ g', make_move_release_two g col row = some g' ∧
      moved_from g.minefield g'.minefield := by
  have hp := for_each_neighbour_do_pressed_from unpress_square unpress_square_pressed_from
    g.minefield g.last_col g.last_row
  have hb' := pressed_from_border hp hb
  have hm := moved_from_of_pressed hp
  have hin' := (pressed_from_in_range hp col row).2 hin
  unfold make_move_release_two
  simp only
  split
  · exact ⟨_, rfl, hm⟩
  · obtain ⟨mf', n, e, eff⟩ := clear_around_effect _ col row hb' hin'
    rw [e]
    refine ⟨_, rfl, ?_⟩
    have := moved_from_trans hm (moved_from_of_cleared eff.1)
    simp only
    split <;> exact this

theorem make_move_release_moved (g : game_t) (col row button : Int)
    (hb : sentinel_border g.minefield) (hin : in_range g.minefield col row) :
    ∃ g', make_move_release g col row button = some g' ∧
      moved_from g.minefield g'.minefield := by
  unfold make_move_release
  simp only
  split
  · obtain ⟨g', e, h⟩ := make_move_release_one_moved
      { g with buttons_down := g.buttons_down - 1 } col row button hb hin
    rw [e]
    exact ⟨_, rfl, by rw [make_move_finish_minefield]; exact h⟩
  · split
    · obtain ⟨g', e, h⟩ := make_move_release_two_moved
        { g with buttons_down := g.buttons_down - 1 } col row hb hin
      rw [e]
      exact ⟨_, rfl, by rw [make_move_finish_minefield]; exact h⟩
    · exact ⟨_, rfl, by rw [make_move_finish_minefield]; exact moved_from_refl _⟩

/-- On a board with its sentinel border `make_move` on a playable cell returns, and what it
does to the board is within `moved_from`. -/
theorem make_move_moved (g : game_t) (col row button : Int) (action : action_t)
    (hb : sentinel_border g.minefield) (hin : in_range g.minefield col row) :
    ∃ g' ret, make_move g col row button action = some (g', ret) ∧
      moved_from g.minefield g'.minefield := by
  unfold make_move
  split
  · exact ⟨_, _, rfl, moved_from_refl _⟩
  · cases action with
    | press =>
      exact ⟨_, _, rfl, moved_from_of_pressed (make_move_press_pressed_from g col row button)⟩
    | release =>
      obtain ⟨g', e, h⟩ := make_move_release_moved g col row button hb hin
      simp only [e]
      exact ⟨_, _, rfl, h⟩

theorem make_move_finish_won (g : game_t) (hw : g.state.won = false) :
    ((make_move_finish g).state.won = true ↔
      g.made_move ≠ 0 ∧ g.minefield.unmarked = 0 ∧ g.minefield.flags = g.minefield.mines) ∧
    (make_move_finish g).made_move = g.made_move := by
  unfold make_move_finish
  by_cases hm : g.made_move = 0
  · simp [hm, hw]
  · by_cases hwin : g.minefield.unmarked = 0 ∧ g.minefield.flags = g.minefield.mines
    · simp [hm, hwin]
    · simp only [hm, hwin, if_false]
      split_ifs <;> simp [hw, hwin]

theorem make_move_release_one_won (g g' : game_t) (col row button : Int)
    (h : make_move_release_one g col row button = some g') : g'.state.won = g.state.won := by
  unfold make_move_release_one at h
  simp only at h
  split_ifs at h with h1 h2
  · cases h; rfl
  · simp only [Option.map_map, Option.map_eq_some'] at h
    obtain ⟨r, _, rfl⟩ := h
    simp only [Function.comp]
    split_ifs <;> rfl
  · cases h; rfl

theorem make_move_release_two_won (g g' : game_t) (col row : Int)
    (h : make_move_release_two g col row = some g') : g'.state.won = g.state.won := by
  unfold make_move_release_two at h
  simp only at h
  split_ifs at h with h1
  · cases h; rfl
  · simp only [Option.map_eq_some'] at h
    obtain ⟨r, _, rfl⟩ := h
    split_ifs <;> rfl

theorem make_move_press_state (g : game_t) (col row button : Int) :
    (make_move_press g col row button).state = g.state := by
  unfold make_move_press
  simp only
  split_ifs <;> rfl

/-- C13: for a call of `make_move` entered with the game in progress, `state.won` is set
when the call returns exactly if the call is a release, `made_move` is nonzero at its end,
and then `unmarked == 0` and `flags == mines`; on a board with its sentinel border the call
on a playable cell does return. -/
theorem make_move_sets_won (g : game_t) (col row button : Int) (action : action_t)
    (hw : g.state.won = false) (hl : g.state.lost = false) :
    (∀ g' ret, make_move g col row button action = some (g', ret) →
      (g'.state.won = true ↔
        action = action_t.release ∧ g'.made_move ≠ 0 ∧ g'.minefield.unmarked = 0 ∧
          g'.minefield.flags = g'.minefield.mines)) ∧
    (sentinel_border g.minefield → in_range g.minefield col row →
      ∃ g' ret, make_move g col row button action = some (g', ret)) := by
  refine ⟨fun g' ret h => ?_, fun hb hin => ?_⟩
  · unfold make_move at h
    rw [if_neg (by simp [hw, hl])] at h
    cases action with
    | press =>
      simp only [Option.some.injEq, Prod.mk.injEq] at h
      obtain ⟨rfl, _⟩ := h
      rw [make_move_press_state, hw]
      simp
    | release =>
      simp only [Option.map_eq_some'] at h
      obtain ⟨g5, h5, e⟩ := h
      simp only [Prod.mk.injEq] at e
      obtain ⟨rfl, _⟩ := e
      unfold make_move_release at h5
      simp only [Option.map_eq_some'] at h5
      obtain ⟨g4, h4, rfl⟩ := h5
      have hw4 : g4.state.won = false := by
        split_ifs at h4 with h1 h2
        · rw [make_move_release_one_won _ _ _ _ _ h4]; exact hw
        · rw [make_move_release_two_won _ _ _ _ h4]; exact hw
        · cases h4; exact hw
      obtain ⟨e1, e2⟩ := make_move_finish_won g4 hw4
      rw [e1, e2, make_move_finish_minefield]
      simp
  · obtain ⟨g', ret, e, _⟩ := make_move_moved g col row button action hb hin
    exact ⟨g', ret, e⟩

/-- C13, at a concrete input: the release of button 3 on the last unmarked cell `(3, 3)` of
`opened_board`, which flags the mine and wins the game. -/
theorem make_move_sets_won_witness :
    (∀ g' ret, make_move { corner_game with minefield := opened_board, buttons_down := 1,
                                            last_col := 3, last_row := 3 }
        3 3 3 action_t.release = some (g', ret) →
      (g'.state.won = true ↔
        action_t.release = action_t.release ∧ g'.made_move ≠ 0 ∧ g'.minefield.unmarked = 0 ∧
          g'.minefield.flags = g'.minefield.mines)) ∧
    (sentinel_border opened_board → in_range opened_board 3 3 →
      ∃ g' ret, make_move { corner_game with minefield := opened_board, buttons_down := 1,
                                             last_col := 3, last_row := 3 }
        3 3 3 action_t.release = some (g', ret)) :=
  make_move_sets_won { corner_game with minefield := opened_board, buttons_down := 1,
                                        last_col := 3, last_row := 3 }
    3 3 3 action_t.release rfl rfl

theorem clear_square_flagged (mf : minefield_t) (col row : Int)
    (h : (minefield_cell mf col row).is_flagged = true) :
    clear_square mf col row = some (mf, 0) := by
  unfold clear_square clear_square_fuel
  simp [h]

theorem make_move_finish_statics (g : game_t) :
    (make_move_finish g).buttons_down = g.buttons_down ∧
    (make_move_finish g).made_move = g.made_move := by
  unfold make_move_finish
  simp only
  split_ifs <;> exact ⟨rfl, rfl⟩

theorem make_move_press_first (g : game_t) (col row button : Int) (h0 : g.buttons_down = 0)
    (hw : g.state.won = false) (hl : g.state.lost = false) :
    make_move g col row button action_t.press
      = some (make_move_press g col row button, false) ∧
    (make_move_press g col row button).buttons_down = 1 ∧
    (make_move_press g col row button).last_col = col ∧
    (make_move_press g col row button).last_row = row ∧
    (make_move_press g col row button).made_move = 0 ∧
    (make_move_press g col row button).state = g.state := by
  have hs : (make_move_press g col row button).buttons_down = 1 ∧
      (make_move_press g col row button).last_col = col ∧
      (make_move_press g col row button).last_row = row ∧
      (make_move_press g col row button).made_move = 0 ∧
      (make_move_press g col row button).state = g.state := by
    unfold make_move_press
    simp only [h0, zero_add, if_true]
    split_ifs <;> exact ⟨rfl, rfl, rfl, rfl, rfl⟩
  refine ⟨?_, hs⟩
  unfold make_move
  simp only [hw, hl, Bool.or_self, Bool.false_eq_true, if_false, make_move_result, hs.1,
    Option.some.injEq, Prod.mk.injEq, true_and]
  simp

/-- The release that follows a single press: what `make_move` does when it is entered with
one button down, `made_move` reset and the game in progress. -/
theorem make_move_release_single (g : game_t) (col row button : Int)
    (h1 : g.buttons_down = 1) (hm : g.made_move = 0)
    (hw : g.state.won = false) (hl : g.state.lost = false)
    (hb : sentinel_border g.minefield) (hin : in_range g.minefield g.last_col g.last_row)
    (hu : (minefield_cell g.minefield g.last_col g.last_row).is_unavailable = false) :
    ∃ g2 ret, make_move g col row button action_t.release = some (g2, ret) ∧
      (ret = true ↔ (col = g.last_col ∧ row = g.last_row) ∧
        (minefield_cell g.minefield g.last_col g.last_row).is_cleared = false) ∧
      (¬ ((col = g.last_col ∧ row = g.last_row) ∧
          (minefield_cell g.minefield g.last_col g.last_row).is_cleared = false) →
        pressed_from g.minefield g2.minefield) ∧
      ((col = g.last_col ∧ row = g.last_row) ∧
          (minefield_cell g.minefield g.last_col g.last_row).is_cleared = false →
        (button = 1 → (minefield_cell g.minefield col row).is_flagged = false →
          (minefield_cell g2.minefield col row).is_cleared = true) ∧
        (button = 1 → (minefield_cell g.minefield col row).is_flagged = true →
          pressed_from g.minefield g2.minefield) ∧
        (button ≠ 1 → ∃ m, pressed_from g.minefield m ∧
          g2.minefield = toggle_flag m col row)) := by
  have hp := unpress_square_pressed_from g.minefield g.last_col g.last_row
  have hb' := pressed_from_border hp hb
  have f := pressed_from_field hp g.last_col g.last_row
  have hstep : ∃ g3, make_move_release_one { g with buttons_down := g.buttons_down - 1 }
      col row button = some g3 ∧ g3.buttons_down = 0 ∧
      (g3.made_move ≠ 0 ↔ (col = g.last_col ∧ row = g.last_row) ∧
        (minefield_cell g.minefield g.last_col g.last_row).is_cleared = false) ∧
      (¬ ((col = g.last_col ∧ row = g.last_row) ∧
          (minefield_cell g.minefield g.last_col g.last_row).is_cleared = false) →
        pressed_from g.minefield g3.minefield) ∧
      ((col = g.last_col ∧ row = g.last_row) ∧
          (minefield_cell g.minefield g.last_col g.last_row).is_cleared = false →
        (button = 1 → (minefield_cell g.minefield col row).is_flagged = false →
          (minefield_cell g3.minefield col row).is_cleared = true) ∧
        (button = 1 → (minefield_cell g.minefield col row).is_flagged = true →
          pressed_from g.minefield g3.minefield) ∧
        (button ≠ 1 → ∃ m, pressed_from g.minefield m ∧
          g3.minefield = toggle_flag m col row)) := by
    unfold make_move_release_one
    simp only
    by_cases hc : (col = g.last_col ∧ row = g.last_row) ∧
        (minefield_cell g.minefield g.last_col g.last_row).is_cleared = false
    · obtain ⟨⟨rfl, rfl⟩, hcl⟩ := hc
      have hcl' : (minefield_cell (unpress_square g.minefield g.last_col g.last_row)
          g.last_col g.last_row).is_cleared = false := by
        unfold minefield_cell at hcl ⊢
        rw [f.2.2.2.1]; exact hcl
      rw [if_neg (by simp [hcl'])]
      by_cases hbt : button = 1
      · rw [if_pos hbt]
        obtain ⟨mf', n, e, eff, _, hclr⟩ := clear_square_effect
          (unpress_square g.minefield g.last_col g.last_row) g.last_col g.last_row hb'
          (in_array_of_in_range _ _ _ ((pressed_from_in_range hp _ _).2 hin))
        rw [e]
        simp only [Option.map_some']
        refine ⟨_, rfl, by rw [h1]; split_ifs <;> rfl, ?_, ?_, ?_⟩
        · simp only [hcl, and_self, iff_true]
          exact one_ne_zero
        · intro hneg
          exact absurd (by simp [hcl]) hneg
        · intro _
          refine ⟨fun _ hfl => ?_, fun _ hfl => ?_, fun hne => absurd hbt hne⟩
          · have hav : IS_AVAILABLE (unpress_square g.minefield g.last_col g.last_row)
                g.last_col g.last_row = true := by
              unfold minefield_cell at hu hcl
              unfold IS_AVAILABLE minefield_cell
              rw [f.2.2.2.1, f.2.2.2.2, hcl, hu]
              rfl
            have hfl' : ((unpress_square g.minefield g.last_col g.last_row).field
                g.last_col g.last_row).is_flagged = false := by
              unfold minefield_cell at hfl
              rw [f.2.2.1]; exact hfl
            have := hclr hav hfl'
            unfold minefield_cell
            split_ifs <;> exact this
          · have hfl' : (minefield_cell (unpress_square g.minefield g.last_col g.last_row)
                g.last_col g.last_row).is_flagged = true := by
              unfold minefield_cell at hfl ⊢
              rw [f.2.2.1]; exact hfl
            rw [clear_square_flagged _ _ _ hfl'] at e
            simp only [Option.some.injEq, Prod.mk.injEq] at e
            obtain ⟨rfl, rfl⟩ := e
            simp only [lt_self_iff_false, if_false]
            exact hp
      · rw [if_neg hbt]
        simp only [Option.map_some']
        refine ⟨_, rfl, by rw [h1]; rfl, ?_, ?_, ?_⟩
        · simp only [hcl, and_self, iff_true]
          exact one_ne_zero
        · intro hneg
          exact absurd (by simp [hcl]) hneg
        · intro _
          exact ⟨fun h => absurd h hbt, fun h => absurd h hbt, fun _ => ⟨_, hp, rfl⟩⟩
    · have hcond : (minefield_cell (unpress_square g.minefield g.last_col g.last_row)
          g.last_col g.last_row).is_cleared = true ∨ col ≠ g.last_col ∨ row ≠ g.last_row := by
        by_contra hno
        push_neg at hno
        apply hc
        refine ⟨⟨hno.2.1, hno.2.2⟩, ?_⟩
        have := hno.1
        unfold minefield_cell at this ⊢
        rw [f.2.2.2.1] at this
        simpa using this
      rw [if_pos hcond]
      refine ⟨_, rfl, by rw [h1]; rfl, ?_, fun _ => hp, fun h => absurd h hc⟩
      simp only [hm, ne_eq, not_true_eq_false, false_iff]
      exact hc
  obtain ⟨g3, e3, hbd, hmv, hno, hyes⟩ := hstep
  have efin : make_move g col row button action_t.release
      = some (make_move_finish g3, make_move_result (make_move_finish g3)) := by
    rw [h1] at e3
    unfold make_move make_move_release
    simp only [hw, hl, Bool.or_self, Bool.false_eq_true, if_false, h1, if_true, e3,
      Option.map_some']
  obtain ⟨s1, s2⟩ := make_move_finish_statics g3
  refine ⟨_, _, efin, ?_, ?_, ?_⟩
  · rw [← hmv]
    unfold make_move_result
    rw [s1, s2, hbd]
    simp
  · rw [make_move_finish_minefield]; exact hno
  · rw [make_move_finish_minefield]; exact hyes

theorem flagged_end_game_pressed :
    (make_move flagged_end_game 1 1 1 action_t.press).isSome = true := by
  decide

theorem flagged_end_game_released :
    (make_move ((make_move flagged_end_game 1 1 1 action_t.press).get
      flagged_end_game_pressed).1 1 1 1 action_t.release).isSome = true := by
  decide

/-- C12 as stated fails: in a game on `flagged_end_board` with no button down, a press and a
release of button 1 on the flagged, uncleared cell `(1, 1)` return TRUE from `make_move`, and
the cell is not cleared. -/
theorem press_release_clears_refuted :
    ¬ ∀ (g : game_t) (col row button : Int) (g1 g2 : game_t) (r1 r2 : Bool),
      g.buttons_down = 0 → g.state.won = false → g.state.lost = false →
      board_wf g.minefield → in_range g.minefield col row →
      make_move g col row button action_t.press = some (g1, r1) →
      make_move g1 col row button action_t.release = some (g2, r2) →
      (minefield_cell g.minefield col row).is_cleared = false →
      r2 = true ∧
        (button = 1 → (minefield_cell g2.minefield col row).is_cleared = true) ∧
        (button ≠ 1 → (minefield_cell g2.minefield col row).is_flagged
          = !(minefield_cell g.minefield col row).is_flagged) := by
  intro h
  have key := h flagged_end_game 1 1 1
    ((make_move flagged_end_game 1 1 1 action_t.press).get flagged_end_game_pressed).1
    ((make_move ((make_move flagged_end_game 1 1 1 action_t.press).get
      flagged_end_game_pressed).1 1 1 1 action_t.release).get flagged_end_game_released).1
    ((make_move flagged_end_game 1 1 1 action_t.press).get flagged_end_game_pressed).2
    ((make_move ((make_move flagged_end_game 1 1 1 action_t.press).get
      flagged_end_game_pressed).1 1 1 1 action_t.release).get flagged_end_game_released).2
    rfl rfl rfl flagged_end_board_wf (by unfold in_range; decide)
    (Option.some_get flagged_end_game_pressed).symm
    (Option.some_get flagged_end_game_released).symm rfl
  revert key
  decide

/-- C12, amended: with no button down and the game in progress, on a board with its sentinel
border, a press on a playable cell A (not in the unavailable state) returns FALSE and the
release that follows on a cell B returns TRUE exactly if B = A and A is not already cleared.
In that case button 1 clears A if A carries no flag and leaves the board as it is if A carries
a flag, and any other button toggles the flag of A.  Otherwise (B differs from A, or A is
already cleared) the board differs from the one before at most in `is_pressed` bits: no cell
is cleared or flagged, `flags` and `unmarked` are unchanged. -/
theorem press_release_makes_move (g : game_t) (ca ra cb rb b1 b2 : Int)
    (h0 : g.buttons_down = 0) (hw : g.state.won = false) (hl : g.state.lost = false)
    (hb : sentinel_border g.minefield) (hin : in_range g.minefield ca ra)
    (hu : (minefield_cell g.minefield ca ra).is_unavailable = false) :
    ∃ g1 g2 ret, make_move g ca ra b1 action_t.press = some (g1, false) ∧
      make_move g1 cb rb b2 action_t.release = some (g2, ret) ∧
      (ret = true ↔ (cb = ca ∧ rb = ra) ∧
        (minefield_cell g.minefield ca ra).is_cleared = false) ∧
      (¬ ((cb = ca ∧ rb = ra) ∧ (minefield_cell g.minefield ca ra).is_cleared = false) →
        pressed_from g.minefield g2.minefield) ∧
      ((cb = ca ∧ rb = ra) ∧ (minefield_cell g.minefield ca ra).is_cleared = false →
        (b2 = 1 → (minefield_cell g.minefield ca ra).is_flagged = false →
          (minefield_cell g2.minefield ca ra).is_cleared = true) ∧
        (b2 = 1 → (minefield_cell g.minefield ca ra).is_flagged = true →
          pressed_from g.minefield g2.minefield) ∧
        (b2 ≠ 1 → ∃ m, pressed_from g.minefield m ∧
          g2.minefield = toggle_flag m ca ra)) := by
  obtain ⟨e1, p1, p2, p3, p4, p5⟩ := make_move_press_first g ca ra b1 h0 hw hl
  have hp := make_move_press_pressed_from g ca ra b1
  have f := pressed_from_field hp ca ra
  generalize make_move_press g ca ra b1 = g1 at e1 p1 p2 p3 p4 p5 hp f
  have hcl : (minefield_cell g1.minefield ca ra).is_cleared
      = (minefield_cell g.minefield ca ra).is_cleared := f.2.2.2.1
  have hfl : (minefield_cell g1.minefield ca ra).is_flagged
      = (minefield_cell g.minefield ca ra).is_flagged := f.2.2.1
  obtain ⟨g2, ret, e2, c1, c2, c3⟩ := make_move_release_single g1 cb rb b2 p1 p4
    (by rw [p5]; exact hw) (by rw [p5]; exact hl) (pressed_from_border hp hb)
    (by rw [p2, p3]; exact (pressed_from_in_range hp ca ra).2 hin)
    (by rw [p2, p3]; unfold minefield_cell at hu ⊢; rw [f.2.2.2.2]; exact hu)
  rw [p2, p3, hcl] at c1 c2 c3
  refine ⟨g1, g2, ret, e1, e2, c1, fun hno => pressed_from_trans hp (c2 hno), fun hyes => ?_⟩
  obtain ⟨⟨rfl, rfl⟩, hc⟩ := hyes
  obtain ⟨d1, d2, d3⟩ := c3 ⟨⟨rfl, rfl⟩, hc⟩
  rw [hfl] at d1 d2
  refine ⟨d1, fun hb1 hf => pressed_from_trans hp (d2 hb1 hf), fun hne => ?_⟩
  obtain ⟨m, hm, em⟩ := d3 hne
  exact ⟨m, pressed_from_trans hp hm, em⟩

/-- C12, amended, at a concrete input: a press and a release of button 1 on the cell `(1, 1)`
of `corner_board`. -/
theorem press_release_makes_move_witness :
    ∃ g1 g2 ret, make_move corner_game 1 1 1 action_t.press = some (g1, false) ∧
      make_move g1 1 1 1 action_t.release = some (g2, ret) ∧
      (ret = true ↔ ((1 : Int) = 1 ∧ (1 : Int) = 1) ∧
        (minefield_cell corner_game.minefield 1 1).is_cleared = false) ∧
      (¬ (((1 : Int) = 1 ∧ (1 : Int) = 1) ∧
          (minefield_cell corner_game.minefield 1 1).is_cleared = false) →
        pressed_from corner_game.minefield g2.minefield) ∧
      (((1 : Int) = 1 ∧ (1 : Int) = 1) ∧
          (minefield_cell corner_game.minefield 1 1).is_cleared = false →
        ((1 : Int) = 1 → (minefield_cell corner_game.minefield 1 1).is_flagged = false →
          (minefield_cell g2.minefield 1 1).is_cleared = true) ∧
        ((1 : Int) = 1 → (minefield_cell corner_game.minefield 1 1).is_flagged = true →
          pressed_from corner_game.minefield g2.minefield) ∧
        ((1 : Int) ≠ 1 → ∃ m, pressed_from corner_game.minefield m ∧
          g2.minefield = toggle_flag m 1 1)) :=
  press_release_makes_move corner_game 1 1 1 1 1 1 rfl rfl rfl corner_board_border
    (by unfold in_range; decide) rfl

theorem cell_restored_refl (site : Prop) (a : mf_cell_t) : cell_restored site a a :=
  ⟨rfl, rfl, rfl, rfl, Or.inl rfl, Or.inl rfl⟩

theorem cell_restored_trans {site : Prop} {a b c : mf_cell_t} (h1 : cell_restored site a b)
    (h2 : cell_restored site b c) : cell_restored site a c := by
  obtain ⟨a1, a2, a3, a4, a5, a6⟩ := h1
  obtain ⟨b1, b2, b3, b4, b5, b6⟩ := h2
  refine ⟨by rw [b1, a1], by rw [b2, a2], by rw [b3, a3], by rw [b4, a4], ?_, ?_⟩
  · rcases b5 with e | e
    · rw [e]; exact a5
    · exact Or.inr e
  · rcases b6 with e | e
    · rw [e]; exact a6
    · exact Or.inr e

theorem cell_restored_mono {s t : Prop} (hst : s → t) {a b : mf_cell_t}
    (h : cell_restored s a b) : cell_restored t a b := by
  obtain ⟨a1, a2, a3, a4, a5, a6⟩ := h
  exact ⟨a1, a2, a3, a4, a5.imp id (fun e => ⟨e.1, hst e.2⟩),
    a6.imp id (fun e => ⟨e.1, hst e.2⟩)⟩

theorem restored_from_refl (cells : List possible_mine_t) (a : minefield_t) :
    restored_from cells a a :=
  ⟨rfl, rfl, rfl, rfl, rfl, rfl, rfl, fun _ _ => cell_restored_refl _ _⟩

theorem restored_from_trans {cells : List possible_mine_t} {a b c : minefield_t}
    (h1 : restored_from cells a b) (h2 : restored_from cells b c) : restored_from cells a c := by
  obtain ⟨a1, a2, a3, a4, a5, a6, a7, a8⟩ := h1
  obtain ⟨b1, b2, b3, b4, b5, b6, b7, b8⟩ := h2
  exact ⟨by rw [b1, a1], by rw [b2, a2], by rw [b3, a3], by rw [b4, a4], by rw [b5, a5],
    by rw [b6, a6], by rw [b7, a7], fun i j => cell_restored_trans (a8 i j) (b8 i j)⟩

theorem mem_site_positions_cons (cell : possible_mine_t) (next : List possible_mine_t)
    (p : Int × Int) (h : p ∈ site_positions next) : p ∈ site_positions (cell :: next) := by
  unfold site_positions at h ⊢
  exact List.mem_cons_of_mem _ h

theorem restored_from_flag_wrap (mf r : minefield_t) (cell : possible_mine_t)
    (next : List possible_mine_t)
    (h : restored_from next (set_flagged mf cell.col cell.row true) r) :
    restored_from (cell :: next) mf (set_flagged r cell.col cell.row false) := by
  obtain ⟨a1, a2, a3, a4, a5, a6, a7, a8⟩ := h
  refine ⟨a1, a2, a3, a4, a5, a6, a7, fun i j => ?_⟩
  have := a8 i j
  by_cases hij : i = cell.col ∧ j = cell.row
  · obtain ⟨rfl, rfl⟩ := hij
    simp only [set_flagged, store_cell, minefield_cell, and_self, if_true] at this ⊢
    obtain ⟨b1, b2, b3, b4, _, b6⟩ := this
    refine ⟨b1, b2, b3, b4, Or.inr ⟨rfl, ?_⟩, b6.imp id (fun e => ⟨e.1, ?_⟩)⟩
    · unfold site_positions
      exact List.mem_cons_self _ _
    · exact mem_site_positions_cons cell next _ e.2
  · simp only [set_flagged, store_cell, minefield_cell, hij, if_false] at this ⊢
    exact cell_restored_mono (mem_site_positions_cons cell next _) this

theorem restored_from_unavailable_wrap (mf r : minefield_t) (cell : possible_mine_t)
    (next : List possible_mine_t)
    (h : restored_from next (set_unavailable mf cell.col cell.row true) r) :
    restored_from (cell :: next) mf (set_unavailable r cell.col cell.row false) := by
  obtain ⟨a1, a2, a3, a4, a5, a6, a7, a8⟩ := h
  refine ⟨a1, a2, a3, a4, a5, a6, a7, fun i j => ?_⟩
  have := a8 i j
  by_cases hij : i = cell.col ∧ j = cell.row
  · obtain ⟨rfl, rfl⟩ := hij
    simp only [set_unavailable, store_cell, minefield_cell, and_self, if_true] at this ⊢
    obtain ⟨b1, b2, b3, b4, b5, _⟩ := this
    refine ⟨b1, b2, b3, b4, b5.imp id (fun e => ⟨e.1, ?_⟩), Or.inr ⟨rfl, ?_⟩⟩
    · exact mem_site_positions_cons cell next _ e.2
    · unfold site_positions
      exact List.mem_cons_self _ _
  · simp only [set_unavailable, store_cell, minefield_cell, hij, if_false] at this ⊢
    exact cell_restored_mono (mem_site_positions_cons cell next _) this

/-- Whatever the board, the list and `needed` are, `_analyze_list` leaves the board restored
in the sense of `restored_from`. -/
theorem analyze_list_aux_restored : ∀ (todo : List possible_mine_t) (mf : minefield_t)
    (list : mine_list_t) (idx : Nat) (fu : Int),
    restored_from todo mf (_analyze_list todo mf list idx fu).mf := by
  intro todo
  induction todo with
  | nil =>
    intro mf list idx fu
    unfold _analyze_list
    split_ifs <;> exact restored_from_refl _ _
  | cons cell next ih =>
    intro mf list idx fu
    rw [_analyze_list]
    simp only
    have hA : restored_from (cell :: next) mf
        (if can_flag mf cell fu = true then
          (if (_analyze_list next (set_flagged mf cell.col cell.row true) list (idx + 1)
              (fu + 1)).result < 0 then
            ({ result := (_analyze_list next (set_flagged mf cell.col cell.row true) list
                (idx + 1) (fu + 1)).result,
               mf := set_flagged (_analyze_list next (set_flagged mf cell.col cell.row true)
                 list (idx + 1) (fu + 1)).mf cell.col cell.row false,
               list := (_analyze_list next (set_flagged mf cell.col cell.row true) list
                (idx + 1) (fu + 1)).list } : search_t)
          else
            { result := (_analyze_list next (set_flagged mf cell.col cell.row true) list
                (idx + 1) (fu + 1)).result,
              mf := set_flagged (_analyze_list next (set_flagged mf cell.col cell.row true)
                 list (idx + 1) (fu + 1)).mf cell.col cell.row false,
              list := add_flag_placements (_analyze_list next
                (set_flagged mf cell.col cell.row true) list (idx + 1) (fu + 1)).list idx
                (_analyze_list next (set_flagged mf cell.col cell.row true) list (idx + 1)
                  (fu + 1)).result })
        else { result := 0, mf := mf, list := list }).mf := by
      split_ifs
      · exact restored_from_flag_wrap _ _ _ _ (ih _ _ _ _)
      · exact restored_from_flag_wrap _ _ _ _ (ih _ _ _ _)
      · exact restored_from_refl _ _
    generalize (if can_flag mf cell fu = true then _ else _ : search_t) = a at hA ⊢
    split_ifs
    · exact hA
    · exact restored_from_trans hA (restored_from_unavailable_wrap _ _ _ _ (ih _ _ _ _))
    · exact restored_from_trans hA (restored_from_unavailable_wrap _ _ _ _ (ih _ _ _ _))
    · exact hA

theorem mf_cell_eq (a b : mf_cell_t) (h1 : b.minesaround = a.minesaround)
    (h2 : b.is_mine = a.is_mine) (h3 : b.is_cleared = a.is_cleared)
    (h4 : b.is_pressed = a.is_pressed) (h5 : b.is_flagged = a.is_flagged)
    (h6 : b.is_unavailable = a.is_unavailable) : b = a := by
  cases a; cases b
  simp only at h1 h2 h3 h4 h5 h6
  simp [h1, h2, h3, h4, h5, h6]

/-- A board restored after a search of sites that were neither flagged nor unavailable is the
board before the search. -/
theorem restored_from_eq (cells : List possible_mine_t) (a b : minefield_t)
    (h : restored_from cells a b) (hs : sites_unflagged a cells) : b = a := by
  obtain ⟨a1, a2, a3, a4, a5, a6, a7, a8⟩ := h
  cases a with
  | mk number rows cols mines field flags unmarked needed =>
    cases b with
    | mk number' rows' cols' mines' field' flags' unmarked' needed' =>
      simp only at a1 a2 a3 a4 a5 a6 a7 a8
      subst a1 a2 a3 a4 a5 a6 a7
      simp only [minefield_t.mk.injEq, true_and, and_true]
      funext i j
      obtain ⟨b1, b2, b3, b4, b5, b6⟩ := a8 i j
      have hsite : (i, j) ∈ site_positions cells →
          (field i j).is_flagged = false ∧ (field i j).is_unavailable = false := by
        intro hm
        obtain ⟨s, hs', e1, e2⟩ := (mem_site_positions cells (i, j)).1 hm
        have := hs s hs'
        simp only [minefield_cell] at this
        simp only at e1 e2
        rw [e1, e2] at this
        exact this
      apply mf_cell_eq _ _ b1 b2 b3 b4
      · rcases b5 with e | ⟨e, hm⟩
        · exact e
        · rw [e, (hsite hm).1]
      · rcases b6 with e | ⟨e, hm⟩
        · exact e
        · rw [e, (hsite hm).2]

/-- With `needed` nonzero `_analyze_list` returns -1 or 0, never a count. -/
theorem analyze_list_aux_needed : ∀ (todo : List possible_mine_t) (mf : minefield_t)
    (list : mine_list_t) (idx : Nat) (fu : Int), mf.needed ≠ 0 →
    (_analyze_list todo mf list idx fu).result = -1 ∨
      (_analyze_list todo mf list idx fu).result = 0 := by
  intro todo
  induction todo with
  | nil =>
    intro mf list idx fu hn
    unfold _analyze_list
    rw [if_pos hn]
    exact Or.inl rfl
  | cons cell next ih =>
    intro mf list idx fu hn
    have hrest := analyze_list_aux_restored next (set_flagged mf cell.col cell.row true) list
      (idx + 1) (fu + 1)
    have ih1 := ih (set_flagged mf cell.col cell.row true) list (idx + 1) (fu + 1) hn
    rw [_analyze_list]
    simp only
    generalize ha : (if can_flag mf cell fu = true then _ else _ : search_t) = a
    have hA : (a.result = -1 ∨ a.result = 0) ∧ a.mf.needed ≠ 0 := by
      rw [← ha]
      split_ifs
      · exact ⟨ih1, fun h => hn (hrest.2.2.2.2.2.2.1.symm.trans h)⟩
      · exact ⟨ih1, fun h => hn (hrest.2.2.2.2.2.2.1.symm.trans h)⟩
      · exact ⟨Or.inr rfl, hn⟩
    obtain ⟨hres, hneed⟩ := hA
    have ih2 := ih (set_unavailable a.mf cell.col cell.row true) a.list (idx + 1) fu hneed
    split_ifs with h1 h2 h3
    · exact hres
    · exact ih2
    · show wrap_int (a.result + _) = -1 ∨ wrap_int (a.result + _) = 0
      rcases hres with e | e
      · omega
      · rcases ih2 with e2 | e2
        · omega
        · right
          rw [e, e2]
          decide
    · exact hres

theorem reaches_any_cons (mf : minefield_t) (cell : possible_mine_t)
    (next : List possible_mine_t) (fu : Int) :
    (assignments (next.length + 1)).any (reaches mf (cell :: next) fu)
      = ((can_flag mf cell fu &&
          (assignments next.length).any
            (reaches (set_flagged mf cell.col cell.row true) next (fu + 1))) ||
        (can_clear mf cell &&
          (assignments next.length).any
            (reaches (set_unavailable mf cell.col cell.row true) next fu))) := by
  rw [assignments, List.any_append, List.any_map, List.any_map]
  congr 1
  · cases hF : can_flag mf cell fu
    · simp [Function.comp_def, reaches, hF]
    · simp [Function.comp_def, reaches, hF]
  · cases hC : can_clear mf cell
    · simp [Function.comp_def, reaches, hC]
    · simp [Function.comp_def, reaches, hC]

theorem sites_unflagged_of_fresh (mf : minefield_t) (cells : List possible_mine_t)
    (h : sites_fresh mf cells) : sites_unflagged mf cells := h.2

/-- The search restores the board when its sites were neither flagged nor unavailable. -/
theorem analyze_list_aux_mf (todo : List possible_mine_t) (mf : minefield_t)
    (list : mine_list_t) (idx : Nat) (fu : Int) (hs : sites_unflagged mf todo) :
    (_analyze_list todo mf list idx fu).mf = mf :=
  restored_from_eq todo mf _ (analyze_list_aux_restored todo mf list idx fu) hs

/-- With `needed` nonzero and distinct fresh sites, `_analyze_list` returns -1 exactly if some
branch of the search reaches the end of the list. -/
theorem analyze_list_aux_aborts : ∀ (todo : List possible_mine_t) (mf : minefield_t)
    (list : mine_list_t) (idx : Nat) (fu : Int), mf.needed ≠ 0 → sites_fresh mf todo →
    ((_analyze_list todo mf list idx fu).result = -1 ↔
      (assignments todo.length).any (reaches mf todo fu) = true) := by
  intro todo
  induction todo with
  | nil =>
    intro mf list idx fu hn _
    unfold _analyze_list
    rw [if_pos hn]
    simp [assignments, reaches]
  | cons cell next ih =>
    intro mf list idx fu hn hfresh
    have hcf := hfresh.2 cell (List.mem_cons_self _ _)
    have hf1 := sites_fresh_next_flagged mf cell next hfresh
    have hf2 := sites_fresh_next_unavailable mf cell next hfresh
    have hn1 : (set_flagged mf cell.col cell.row true).needed ≠ 0 := hn
    have hn2 : (set_unavailable mf cell.col cell.row true).needed ≠ 0 := hn
    have ih1 := ih (set_flagged mf cell.col cell.row true) list (idx + 1) (fu + 1) hn1 hf1
    have r1 := analyze_list_aux_needed next (set_flagged mf cell.col cell.row true) list
      (idx + 1) (fu + 1) hn1
    have m1 := analyze_list_aux_mf next (set_flagged mf cell.col cell.row true) list
      (idx + 1) (fu + 1) hf1.2
    have ih2 := fun l => ih (set_unavailable mf cell.col cell.row true) l (idx + 1) fu hn2 hf2
    have r2 := fun l => analyze_list_aux_needed next (set_unavailable mf cell.col cell.row true)
      l (idx + 1) fu hn2
    rw [_analyze_list]
    simp only [List.length_cons]
    rw [reaches_any_cons]
    generalize ha : (if can_flag mf cell fu = true then _ else _ : search_t) = a
    have hA : a.mf = mf ∧ (a.result = -1 ∨ a.result = 0) ∧
        (a.result = -1 ↔ (can_flag mf cell fu &&
          (assignments next.length).any
            (reaches (set_flagged mf cell.col cell.row true) next (fu + 1))) = true) := by
      rw [← ha]
      by_cases hF : can_flag mf cell fu = true
      · simp only [hF, if_true, Bool.true_and]
        split_ifs
        · exact ⟨by rw [m1]; exact set_flagged_undo mf _ _ hcf.1, r1, ih1⟩
        · exact ⟨by rw [m1]; exact set_flagged_undo mf _ _ hcf.1, r1, ih1⟩
      · simp [hF]
    obtain ⟨hmf, hres, hiff⟩ := hA
    rw [hmf]
    have ih2a := ih2 a.list
    have r2a := r2 a.list
    simp only [Bool.or_eq_true]
    rw [← hiff]
    by_cases hC : can_clear mf cell = true
    · simp only [hC, if_true, Bool.true_and]
      rw [← ih2a]
      split_ifs with h1 h2
      · have : a.result = -1 := by omega
        simp [this]
      · have h0 : a.result = 0 := by omega
        have : (_analyze_list next (set_unavailable mf cell.col cell.row true) a.list
            (idx + 1) fu).result = -1 := by omega
        simp [this]
      · have h0 : a.result = 0 := by omega
        have hr0 : (_analyze_list next (set_unavailable mf cell.col cell.row true) a.list
            (idx + 1) fu).result = 0 := by omega
        show wrap_int (a.result + _) = -1 ↔ _
        rw [h0, hr0]
        simp [wrap_int]
    · simp only [hC, Bool.false_eq_true, if_false, Bool.false_and, or_false]
      split_ifs <;> rfl

theorem wrong_flag_board_wf : board_wf wrong_flag_board := by
  unfold board_wf
  decide

theorem wrong_flag_list_sites : cluster_sites wrong_flag_board wrong_flag_list.cell := by
  unfold cluster_sites
  decide

theorem wrong_flag_list_closed : cluster_closed wrong_flag_board wrong_flag_list.cell := by
  unfold cluster_closed
  decide

/-! ## The claims about an interrupted search -/

/-- C19 as stated fails: on `wrong_flag_board`, where `needed` is 1, the search of the cluster
`(1, 1)` returns 0: the site can be neither flagged (the board already carries `mines` flags)
nor cleared (the cell `(2, 1)` shows 1 and has no other free neighbour), so that no branch
reaches the end of the list, where `needed` is tested. -/
theorem analyze_list_abort_refuted :
    ¬ ∀ (mf : minefield_t) (list : mine_list_t), board_wf mf →
      cluster_sites mf list.cell → cluster_closed mf list.cell → mf.needed ≠ 0 →
      (analyze_list mf list).result < 0 := by
  intro h
  have := h wrong_flag_board wrong_flag_list wrong_flag_board_wf wrong_flag_list_sites
    wrong_flag_list_closed (by decide)
  revert this
  decide

/-- C19, amended: for every board and every list, if `needed` is nonzero `analyze_list`
returns -1 or 0, never a positive count; and for a list of distinct sites that are neither
flagged nor unavailable it returns -1 exactly if some branch of the search passes every
constraint up to the end of the list, and 0 if every branch is cut before. -/
theorem analyze_list_needed (mf : minefield_t) (list : mine_list_t) (hn : mf.needed ≠ 0) :
    ((analyze_list mf list).result = -1 ∨ (analyze_list mf list).result = 0) ∧
    (sites_fresh mf list.cell →
      ((analyze_list mf list).result = -1 ↔
        (assignments list.cell.length).any (reaches mf list.cell 0) = true)) :=
  ⟨analyze_list_aux_needed list.cell mf list 0 0 hn,
    fun hf => analyze_list_aux_aborts list.cell mf list 0 0 hn hf⟩

/-- C19, amended, at a concrete input: the cluster `(3, 3)` of `opened_board` searched while
`needed` is 1. -/
theorem analyze_list_needed_witness :
    ((analyze_list { opened_board with needed := 1 } opened_list).result = -1 ∨
      (analyze_list { opened_board with needed := 1 } opened_list).result = 0) ∧
    (sites_fresh { opened_board with needed := 1 } opened_list.cell →
      ((analyze_list { opened_board with needed := 1 } opened_list).result = -1 ↔
        (assignments opened_list.cell.length).any
          (reaches { opened_board with needed := 1 } opened_list.cell 0) = true)) :=
  analyze_list_needed { opened_board with needed := 1 } opened_list (by decide)

theorem add_flag_placements_positions (list : mine_list_t) (idx : Nat) (r : Int) :
    site_positions (add_flag_placements list idx r).cell = site_positions list.cell := by
  apply List.ext_getElem?
  intro j
  unfold site_positions
  simp only [add_flag_placements, List.getElem?_map, List.getElem?_modify]
  cases list.cell[j]? with
  | none => rfl
  | some c => by_cases h : idx = j <;> simp [h, bump_placements]

theorem analyze_list_aux_positions : ∀ (todo : List possible_mine_t) (mf : minefield_t)
    (list : mine_list_t) (idx : Nat) (fu : Int),
    site_positions (_analyze_list todo mf list idx fu).list.cell = site_positions list.cell := by
  intro todo
  induction todo with
  | nil =>
    intro mf list idx fu
    unfold _analyze_list
    simp only
    split_ifs <;> rfl
  | cons cell next ih =>
    intro mf list idx fu
    rw [_analyze_list]
    simp only
    generalize ha : (if can_flag mf cell fu = true then _ else _ : search_t) = a
    have hA : site_positions a.list.cell = site_positions list.cell := by
      rw [← ha]
      split_ifs
      · exact ih _ _ _ _
      · show site_positions (add_flag_placements _ _ _).cell = _
        rw [add_flag_placements_positions]
        exact ih _ _ _ _
      · rfl
    split_ifs
    · exact hA
    · exact (ih _ _ _ _).trans hA
    · exact (ih _ _ _ _).trans hA
    · exact hA

theorem sites_unflagged_of_positions (mf : minefield_t) (x y : List possible_mine_t)
    (h : ∀ q ∈ site_positions x, q ∈ site_positions y) (hy : sites_unflagged mf y) :
    sites_unflagged mf x := by
  intro s hs
  have := h (s.col, s.row) ((mem_site_positions x (s.col, s.row)).2 ⟨s, hs, rfl, rfl⟩)
  obtain ⟨t, ht, e1, e2⟩ := (mem_site_positions y (s.col, s.row)).1 this
  simp only at e1 e2
  rw [← e1, ← e2]
  exact hy t ht

/-- The body of the first loop of `analyze_possible_mines` restores the board and keeps the
sites of the list, whether the search completes or not. -/
theorem search_list_restores (mf : minefield_t) (list : mine_list_t)
    (hs : sites_unflagged mf list.cell) :
    (search_list mf list).mf = mf ∧ sites_unflagged mf (search_list mf list).list.cell := by
  have hperm := (optimize_list_perm mf list).1
  have hs' : sites_unflagged mf (optimize_list mf list).1.cell :=
    fun s h => hs s (hperm.mem_iff.1 h)
  unfold search_list analyze_list
  simp only
  refine ⟨analyze_list_aux_mf _ mf _ 0 0 hs', ?_⟩
  apply sites_unflagged_of_positions mf _ _ _ hs'
  intro q hq
  rw [analyze_list_aux_positions] at hq
  exact hq

theorem analyze_each_restores : ∀ (chain : List mine_list_t) (mf : minefield_t) (m0 M0 : Int),
    (∀ l ∈ chain, sites_unflagged mf l.cell) →
    (analyze_each mf m0 M0 chain).mf = mf ∧
    ∀ l ∈ (analyze_each mf m0 M0 chain).chain, sites_unflagged mf l.cell := by
  intro chain
  induction chain with
  | nil =>
    intro mf m0 M0 _
    exact ⟨rfl, fun l hl => by cases hl⟩
  | cons list next ih =>
    intro mf m0 M0 hs
    obtain ⟨e1, e2⟩ := search_list_restores mf list (hs list (List.mem_cons_self _ _))
    have hnext : ∀ l ∈ next, sites_unflagged mf l.cell :=
      fun l hl => hs l (List.mem_cons_of_mem _ hl)
    unfold analyze_each
    simp only
    split_ifs
    · refine ⟨e1, fun l hl => ?_⟩
      rcases List.mem_cons.1 hl with rfl | hl
      · exact e2
      · exact hnext l hl
    · rw [e1]
      obtain ⟨i1, i2⟩ := ih mf (m0 + (search_list mf list).list.min_flags)
        (M0 + (search_list mf list).list.max_flags) hnext
      refine ⟨i1, fun l hl => ?_⟩
      rcases List.mem_cons.1 hl with rfl | hl
      · exact e2
      · exact i2 l hl

theorem flags_inflation_undone (mf : minefield_t) (k : Int) :
    ({ ({ mf with flags := mf.flags + k } : minefield_t) with
        flags := ({ mf with flags := mf.flags + k } : minefield_t).flags - k } : minefield_t)
      = mf := by
  cases mf
  simp

/-- The function `analyze_possible_mines` gives back the board it was given, whenever it
returns, if no site of its lists was flagged or unavailable. -/
theorem analyze_possible_mines_mf (mf : minefield_t) (ml : mine_lists_t)
    (hs : ∀ l ∈ ml.first, sites_unflagged mf l.cell) (out : analysis_t)
    (h : analyze_possible_mines mf ml = some out) : out.mf = mf := by
  obtain ⟨i1, i2⟩ := analyze_each_restores ml.first mf ml.min_flags ml.max_flags hs
  unfold analyze_possible_mines at h
  simp only at h
  generalize analyze_each mf ml.min_flags ml.max_flags ml.first = p at h i1 i2
  split_ifs at h with h1 h2
  · cases h; exact i1
  · cases h; exact i1
  · simp only [Option.map_eq_some'] at h
    obtain ⟨f, hfind, rfl⟩ := h
    obtain ⟨e1, _, _⟩ := find_retry_list_some _ _ _ f hfind
    obtain ⟨_, m2, _⟩ := merge_retry_lists_spec f.2.2.1 f.2.1 f.2.2.2.1 f.2.2.2.2
    generalize merge_retry_lists f.2.1 f.2.2.1 f.2.2.2.1 f.2.2.2.2 = m at m2 ⊢
    have hsites : sites_unflagged mf (reset_list m.1).cell := by
      intro s hsm
      have hq : (s.col, s.row) ∈ site_positions m.1.cell := by
        rw [← site_positions_reset_list]
        exact (mem_site_positions _ (s.col, s.row)).2 ⟨s, hsm, rfl, rfl⟩
      have hq2 := m2.mem_iff.1 (List.mem_append_left _ hq)
      have hq3 : (s.col, s.row) ∈ all_sites p.chain := by
        rw [e1]
        have : all_sites (f.1 ++ f.2.1 :: f.2.2.1)
            = all_sites f.1 ++ (site_positions f.2.1.cell ++ all_sites f.2.2.1) := by
          simp [all_sites]
        rw [this]
        exact List.mem_append_right _ hq2
      obtain ⟨l, hl, x, hx, ex1, ex2⟩ := (mem_all_sites _ _).1 hq3
      simp only at ex1 ex2
      rw [← ex1, ← ex2]
      exact i2 l hl x hx
    have hres := (search_list_restores { p.mf with flags := p.mf.flags + m.2.2.2 }
      (reset_list m.1) (by rw [i1]; exact hsites)).1
    simp only [hres]
    rw [← i1]
    exact flags_inflation_undone p.mf m.2.2.2

theorem interrupted_board_analysed : (analyze_possible_mines interrupted_board
    (find_possible_mines interrupted_board MINE_LISTS_INITIALIZER)).isSome = true := by
  decide

/-- C20: if no site of the lists is flagged or in the unavailable state, then whenever
`analyze_possible_mines` returns, completed or aborted, the board is the board before the
call: every cell has its `is_flagged`, `is_unavailable`, `is_cleared` and `is_mine`, and
`flags`, `unmarked` and `mines` have their values. -/
theorem analyze_possible_mines_restores (mf : minefield_t) (ml : mine_lists_t)
    (hs : ∀ list ∈ ml.first, ∀ s ∈ list.cell,
      (minefield_cell mf s.col s.row).is_flagged = false ∧
      (minefield_cell mf s.col s.row).is_unavailable = false)
    (out : analysis_t) (h : analyze_possible_mines mf ml = some out) :
    out.mf = mf ∧
    (∀ c r, (minefield_cell out.mf c r).is_flagged = (minefield_cell mf c r).is_flagged ∧
      (minefield_cell out.mf c r).is_unavailable = (minefield_cell mf c r).is_unavailable ∧
      (minefield_cell out.mf c r).is_cleared = (minefield_cell mf c r).is_cleared ∧
      (minefield_cell out.mf c r).is_mine = (minefield_cell mf c r).is_mine) ∧
    out.mf.flags = mf.flags ∧ out.mf.unmarked = mf.unmarked ∧ out.mf.mines = mf.mines := by
  have e := analyze_possible_mines_mf mf ml hs out h
  rw [e]
  exact ⟨rfl, fun _ _ => ⟨rfl, rfl, rfl, rfl⟩, rfl, rfl, rfl⟩

/-- C20, at a concrete input: the analysis of the clusters of `interrupted_board`, which is
aborted. -/
theorem analyze_possible_mines_restores_witness :
    ((analyze_possible_mines interrupted_board
        (find_possible_mines interrupted_board MINE_LISTS_INITIALIZER)).get
        interrupted_board_analysed).result < 0 ∧
    ((analyze_possible_mines interrupted_board
        (find_possible_mines interrupted_board MINE_LISTS_INITIALIZER)).get
        interrupted_board_analysed).mf = interrupted_board ∧
    (∀ c r, (minefield_cell ((analyze_possible_mines interrupted_board
        (find_possible_mines interrupted_board MINE_LISTS_INITIALIZER)).get
        interrupted_board_analysed).mf c r).is_flagged
        = (minefield_cell interrupted_board c r).is_flagged ∧
      (minefield_cell ((analyze_possible_mines interrupted_board
        (find_possible_mines interrupted_board MINE_LISTS_INITIALIZER)).get
        interrupted_board_analysed).mf c r).is_unavailable
        = (minefield_cell interrupted_board c r).is_unavailable ∧
      (minefield_cell ((analyze_possible_mines interrupted_board
        (find_possible_mines interrupted_board MINE_LISTS_INITIALIZER)).get
        interrupted_board_analysed).mf c r).is_cleared
        = (minefield_cell interrupted_board c r).is_cleared ∧
      (minefield_cell ((analyze_possible_mines interrupted_board
        (find_possible_mines interrupted_board MINE_LISTS_INITIALIZER)).get
        interrupted_board_analysed).mf c r).is_mine
        = (minefield_cell interrupted_board c r).is_mine) ∧
    ((analyze_possible_mines interrupted_board
        (find_possible_mines interrupted_board MINE_LISTS_INITIALIZER)).get
        interrupted_board_analysed).mf.flags = interrupted_board.flags ∧
    ((analyze_possible_mines interrupted_board
        (find_possible_mines interrupted_board MINE_LISTS_INITIALIZER)).get
        interrupted_board_analysed).mf.unmarked = interrupted_board.unmarked ∧
    ((analyze_possible_mines interrupted_board
        (find_possible_mines interrupted_board MINE_LISTS_INITIALIZER)).get
        interrupted_board_analysed).mf.mines = interrupted_board.mines :=
  ⟨by decide,
    analyze_possible_mines_restores interrupted_board
      (find_possible_mines interrupted_board MINE_LISTS_INITIALIZER) (by decide) _
      (Option.some_get interrupted_board_analysed).symm⟩

/-! ## `pre_game` -/

theorem mark_unavailable_eq : ∀ (cells : List (Int × Int)) (mf : minefield_t),
    mark_unavailable mf cells
      = { mf with field := fun c r =>
            if (c, r) ∈ cells then { mf.field c r with is_unavailable := true }
            else mf.field c r } := by
  intro cells
  induction cells with
  | nil => intro mf; simp [mark_unavailable]
  | cons p t ih =>
    intro mf
    unfold mark_unavailable at ih ⊢
    rw [List.foldl_cons, ih]
    simp only [set_unavailable, store_cell, minefield_cell, List.mem_cons]
    congr 1
    funext c r
    by_cases hp : c = p.1 ∧ r = p.2
    · obtain ⟨rfl, rfl⟩ := hp
      by_cases ht : (p.1, p.2) ∈ t <;> simp [ht]
    · have hne : ¬ ((c, r) = p) := by
        intro h; apply hp; rw [← h]; exact ⟨rfl, rfl⟩
      by_cases ht : (c, r) ∈ t <;> simp [ht, hp, hne]

theorem mem_border_rows (mf : minefield_t) (c r : Int) :
    (c, r) ∈ border_rows mf ↔ (0 ≤ c ∧ c ≤ mf.cols + 1) ∧ (r = mf.rows + 1 ∨ r = 0) := by
  unfold border_rows
  simp only [List.mem_flatMap, mem_index_range, List.mem_cons, Prod.mk.injEq,
    List.mem_singleton, List.not_mem_nil, or_false]
  constructor
  · rintro ⟨a, ha, ⟨rfl, rfl⟩ | ⟨rfl, rfl⟩⟩
    · exact ⟨by omega, Or.inl rfl⟩
    · exact ⟨by omega, Or.inr rfl⟩
  · rintro ⟨h1, h2 | h2⟩
    · exact ⟨c, by omega, Or.inl ⟨rfl, h2⟩⟩
    · exact ⟨c, by omega, Or.inr ⟨rfl, h2⟩⟩

theorem mem_border_cols (mf : minefield_t) (c r : Int) :
    (c, r) ∈ border_cols mf ↔ (0 ≤ r ∧ r ≤ mf.rows + 1) ∧ (c = mf.cols + 1 ∨ c = 0) := by
  unfold border_cols
  simp only [List.mem_flatMap, mem_index_range, List.mem_cons, Prod.mk.injEq,
    List.mem_singleton, List.not_mem_nil, or_false]
  constructor
  · rintro ⟨a, ha, ⟨rfl, rfl⟩ | ⟨rfl, rfl⟩⟩
    · exact ⟨by omega, Or.inl rfl⟩
    · exact ⟨by omega, Or.inr rfl⟩
  · rintro ⟨h1, h2 | h2⟩
    · exact ⟨r, by omega, Or.inl ⟨h2, rfl⟩⟩
    · exact ⟨r, by omega, Or.inr ⟨h2, rfl⟩⟩

/-- The board after the start of `pre_game`. -/
theorem pre_game_reset_eq (mf : minefield_t) (n : Int) :
    pre_game_reset mf n
      = { number := n, rows := mf.rows, cols := mf.cols, mines := mf.mines,
          field := fun c r =>
            if (c, r) ∈ border_rows mf ∨ (c, r) ∈ border_cols mf then sentinel_cell
            else MF_CELL_INITIALIZER,
          flags := mf.mines, unmarked := mf.rows * mf.cols, needed := mf.needed } := by
  unfold pre_game_reset
  simp only [mark_unavailable_eq]
  simp only [minefield_t.mk.injEq, true_and, and_true]
  funext c r
  have e1 : ∀ (u : Int) (f : Int → Int → mf_cell_t),
      border_rows { mf with unmarked := u, number := n, field := f } = border_rows mf :=
    fun _ _ => rfl
  have e2 : ∀ (u : Int) (f : Int → Int → mf_cell_t),
      border_cols { mf with unmarked := u, number := n, field := f } = border_cols mf :=
    fun _ _ => rfl
  rw [e1, e2]
  by_cases h1 : (c, r) ∈ border_rows mf <;> by_cases h2 : (c, r) ∈ border_cols mf <;>
    simp [h1, h2, sentinel_cell]

theorem place_mine_step (RAND_MAX : Int) (rand : Nat → Int) (st : minefield_t × Nat)
    (p : Int × Int) :
    ((place_mine RAND_MAX rand st p).1.number = st.1.number ∧
      (place_mine RAND_MAX rand st p).1.rows = st.1.rows ∧
      (place_mine RAND_MAX rand st p).1.cols = st.1.cols ∧
      (place_mine RAND_MAX rand st p).1.mines = st.1.mines ∧
      (place_mine RAND_MAX rand st p).1.unmarked = st.1.unmarked ∧
      (place_mine RAND_MAX rand st p).1.needed = st.1.needed) ∧
    ∀ c r, (place_mine RAND_MAX rand st p).1.field c r
        = { st.1.field c r with
            is_mine := ((place_mine RAND_MAX rand st p).1.field c r).is_mine } ∧
      ((c, r) ≠ p → (place_mine RAND_MAX rand st p).1.field c r = st.1.field c r) := by
  unfold place_mine
  split_ifs
  · refine ⟨⟨rfl, rfl, rfl, rfl, rfl, rfl⟩, fun c r => ?_⟩
    by_cases h : c = p.1 ∧ r = p.2
    · obtain ⟨rfl, rfl⟩ := h
      simp [store_cell, minefield_cell]
    · have : (c, r) ≠ p := fun e => h (by rw [← e]; exact ⟨rfl, rfl⟩)
      simp [store_cell, h]
  · exact ⟨⟨rfl, rfl, rfl, rfl, rfl, rfl⟩, fun c r => ⟨rfl, fun _ => rfl⟩⟩

/-- The placement loop over the cells `l` only sets `is_mine` bits, at cells of `l`, and
changes `flags`. -/
theorem place_mines_fold (RAND_MAX : Int) (rand : Nat → Int) : ∀ (l : List (Int × Int))
    (st : minefield_t × Nat),
    ((l.foldl (place_mine RAND_MAX rand) st).1.number = st.1.number ∧
      (l.foldl (place_mine RAND_MAX rand) st).1.rows = st.1.rows ∧
      (l.foldl (place_mine RAND_MAX rand) st).1.cols = st.1.cols ∧
      (l.foldl (place_mine RAND_MAX rand) st).1.mines = st.1.mines ∧
      (l.foldl (place_mine RAND_MAX rand) st).1.unmarked = st.1.unmarked ∧
      (l.foldl (place_mine RAND_MAX rand) st).1.needed = st.1.needed) ∧
    ∀ c r, (l.foldl (place_mine RAND_MAX rand) st).1.field c r
        = { st.1.field c r with
            is_mine := ((l.foldl (place_mine RAND_MAX rand) st).1.field c r).is_mine } ∧
      ((c, r) ∉ l → (l.foldl (place_mine RAND_MAX rand) st).1.field c r = st.1.field c r) := by
  intro l
  induction l with
  | nil => intro st; exact ⟨⟨rfl, rfl, rfl, rfl, rfl, rfl⟩, fun c r => ⟨rfl, fun _ => rfl⟩⟩
  | cons p t ih =>
    intro st
    rw [List.foldl_cons]
    obtain ⟨⟨a1, a2, a3, a4, a5, a6⟩, a7⟩ := ih (place_mine RAND_MAX rand st p)
    obtain ⟨⟨b1, b2, b3, b4, b5, b6⟩, b7⟩ := place_mine_step RAND_MAX rand st p
    refine ⟨⟨by rw [a1, b1], by rw [a2, b2], by rw [a3, b3], by rw [a4, b4], by rw [a5, b5],
      by rw [a6, b6]⟩, fun c r => ⟨?_, fun hn => ?_⟩⟩
    · have h1 := (a7 c r).1
      have h2 := (b7 c r).1
      rw [h2] at h1
      rw [h1]
    · rw [List.mem_cons, not_or] at hn
      rw [(a7 c r).2 hn.2, (b7 c r).2 hn.1]

theorem mines_around_congr (a b : minefield_t)
    (h : ∀ c r, (b.field c r).is_mine = (a.field c r).is_mine) (c r : Int) :
    mines_around b c r = mines_around a c r := by
  unfold mines_around for_each_neighbour_sum IS_MINE minefield_cell
  simp only [h]

/-- The loop that records `minesaround` over distinct cells `l` only writes `minesaround`, at
the cells of `l`, where it stores the number of mined neighbours modulo 16. -/
theorem record_minesaround_fold : ∀ (l : List (Int × Int)) (m : minefield_t), l.Nodup →
    ((l.foldl record_minesaround m).number = m.number ∧
      (l.foldl record_minesaround m).rows = m.rows ∧
      (l.foldl record_minesaround m).cols = m.cols ∧
      (l.foldl record_minesaround m).mines = m.mines ∧
      (l.foldl record_minesaround m).flags = m.flags ∧
      (l.foldl record_minesaround m).unmarked = m.unmarked ∧
      (l.foldl record_minesaround m).needed = m.needed) ∧
    ∀ c r, (l.foldl record_minesaround m).field c r
        = { m.field c r with
            minesaround := ((l.foldl record_minesaround m).field c r).minesaround } ∧
      ((c, r) ∉ l → (l.foldl record_minesaround m).field c r = m.field c r) ∧
      ((c, r) ∈ l → ((l.foldl record_minesaround m).field c r).minesaround
        = (mines_around m c r % 16).toNat) := by
  intro l
  induction l with
  | nil =>
    intro m _
    exact ⟨⟨rfl, rfl, rfl, rfl, rfl, rfl, rfl⟩,
      fun c r => ⟨rfl, fun _ => rfl, fun h => by cases h⟩⟩
  | cons p t ih =>
    intro m hnd
    rw [List.nodup_cons] at hnd
    rw [List.foldl_cons]
    obtain ⟨⟨a1, a2, a3, a4, a5, a6, a7⟩, a8⟩ := ih (record_minesaround m p) hnd.2
    have hstep : ∀ c r, (record_minesaround m p).field c r
        = { m.field c r with minesaround := ((record_minesaround m p).field c r).minesaround } ∧
        ((c, r) ≠ p → (record_minesaround m p).field c r = m.field c r) ∧
        ((c, r) = p → ((record_minesaround m p).field c r).minesaround
          = (mines_around m c r % 16).toNat) := by
      intro c r
      unfold record_minesaround
      by_cases h : c = p.1 ∧ r = p.2
      · obtain ⟨rfl, rfl⟩ := h
        simp [store_cell, minefield_cell, mines_around]
      · have : (c, r) ≠ p := fun e => h (by rw [← e]; exact ⟨rfl, rfl⟩)
        simp [store_cell, h, this]
    have hmine : ∀ c r, ((record_minesaround m p).field c r).is_mine
        = (m.field c r).is_mine := by
      intro c r
      rw [(hstep c r).1]
    refine ⟨⟨a1, a2, a3, a4, a5, a6, a7⟩, fun c r => ⟨?_, fun hn => ?_, fun hm => ?_⟩⟩
    · have h1 := (a8 c r).1
      have h2 := (hstep c r).1
      rw [h2] at h1
      rw [h1]
    · rw [List.mem_cons, not_or] at hn
      rw [(a8 c r).2.1 hn.2, (hstep c r).2.1 hn.1]
    · by_cases ht : (c, r) ∈ t
      · rw [(a8 c r).2.2 ht, mines_around_congr m _ hmine]
      · have hp : (c, r) = p := by
          rcases List.mem_cons.1 hm with e | e
          · exact e
          · exact absurd e ht
        rw [(a8 c r).2.1 ht]
        exact (hstep c r).2.2 hp

theorem mines_around_bounds (mf : minefield_t) (c r : Int) :
    0 ≤ mines_around mf c r ∧ mines_around mf c r ≤ 8 := by
  unfold mines_around
  rw [for_each_neighbour_sum_eq]
  have h := List.countP_le_length (fun q : Int × Int => IS_MINE mf q.1 q.2)
    (l := neighbours c r)
  have hl : (neighbours c r).length = 8 := rfl
  omega

/-- The board that `pre_game` builds before it looks for an open patch. -/
theorem pre_game_board_spec (RAND_MAX : Int) (rand : Nat → Int) (mf : minefield_t) (n : Int) :
    ((pre_game_board RAND_MAX rand mf n).1.rows = mf.rows ∧
      (pre_game_board RAND_MAX rand mf n).1.cols = mf.cols ∧
      (pre_game_board RAND_MAX rand mf n).1.mines = mf.mines ∧
      (pre_game_board RAND_MAX rand mf n).1.needed = mf.needed ∧
      (pre_game_board RAND_MAX rand mf n).1.number = n ∧
      (pre_game_board RAND_MAX rand mf n).1.unmarked = mf.rows * mf.cols) ∧
    ∀ c r, ((pre_game_board RAND_MAX rand mf n).1.field c r).is_flagged = false ∧
      ((pre_game_board RAND_MAX rand mf n).1.field c r).is_cleared = false ∧
      ((pre_game_board RAND_MAX rand mf n).1.field c r).is_pressed = false ∧
      ((pre_game_board RAND_MAX rand mf n).1.field c r).is_unavailable
        = decide ((c, r) ∈ border_rows mf ∨ (c, r) ∈ border_cols mf) ∧
      ((c, r) ∉ playable_cells mf →
        ((pre_game_board RAND_MAX rand mf n).1.field c r).is_mine = false) ∧
      ((c, r) ∈ playable_cells mf →
        (((pre_game_board RAND_MAX rand mf n).1.field c r).minesaround : Int)
          = mines_around (pre_game_board RAND_MAX rand mf n).1 c r) := by
  unfold pre_game_board place_mines record_all_minesaround
  simp only
  have hreset := pre_game_reset_eq mf n
  obtain ⟨⟨p1, p2, p3, p4, p5, p6⟩, p7⟩ := place_mines_fold RAND_MAX rand
    (playable_cells (pre_game_reset mf n)) (pre_game_reset mf n, 0)
  generalize hP : (List.foldl (place_mine RAND_MAX rand) (pre_game_reset mf n, 0)
    (playable_cells (pre_game_reset mf n))).1 = P at p1 p2 p3 p4 p5 p6 p7 ⊢
  simp only at p1 p2 p3 p4 p5 p6 p7
  have hplay0 : playable_cells (pre_game_reset mf n) = playable_cells mf := by
    rw [hreset]; rfl
  have hplayP : playable_cells P = playable_cells mf := by
    unfold playable_cells; rw [p2, p3, hreset]
  obtain ⟨⟨r1, r2, r3, r4, r5, r6, r7⟩, r8⟩ := record_minesaround_fold (playable_cells P) P
    (nodup_playable_cells P)
  generalize hB : List.foldl record_minesaround P (playable_cells P) = B at r1 r2 r3 r4 r5 r6 r7 r8 ⊢
  rw [hplay0] at p7
  rw [hplayP] at r8
  refine ⟨⟨by rw [r2, p2, hreset], by rw [r3, p3, hreset], by rw [r4, p4, hreset],
    by rw [r7, p6, hreset], by rw [r1, p1, hreset], by rw [r6, p5, hreset]⟩, fun c r => ?_⟩
  have hB1 := (r8 c r).1
  have hP1 := (p7 c r).1
  have hR : (pre_game_reset mf n).field c r
      = if (c, r) ∈ border_rows mf ∨ (c, r) ∈ border_cols mf then sentinel_cell
        else MF_CELL_INITIALIZER := by rw [hreset]
  have hmineBP : ∀ i j, (B.field i j).is_mine = (P.field i j).is_mine := by
    intro i j; rw [(r8 i j).1]
  refine ⟨?_, ?_, ?_, ?_, ?_, ?_⟩
  · rw [hB1, hP1, hR]; split_ifs <;> rfl
  · rw [hB1, hP1, hR]; split_ifs <;> rfl
  · rw [hB1, hP1, hR]; split_ifs <;> rfl
  · rw [hB1, hP1, hR]
    by_cases h : (c, r) ∈ border_rows mf ∨ (c, r) ∈ border_cols mf
    · rw [if_pos h]; simp [h, sentinel_cell]
    · rw [if_neg h]; simp [h, MF_CELL_INITIALIZER]
  · intro hn
    rw [(r8 c r).2.1 hn, (p7 c r).2 hn, hR]
    split_ifs <;> rfl
  · intro hm
    have e := (r8 c r).2.2 hm
    have hb := mines_around_bounds P c r
    have hc := mines_around_congr P B hmineBP c r
    rw [hc, e]
    generalize mines_around P c r = x at hb ⊢
    omega

theorem pre_game_board_correct (RAND_MAX : Int) (rand : Nat → Int) (mf : minefield_t)
    (n : Int) : minesaround_correct (pre_game_board RAND_MAX rand mf n).1 := by
  have hs := pre_game_board_spec RAND_MAX rand mf n
  generalize (pre_game_board RAND_MAX rand mf n).1 = B at hs ⊢
  obtain ⟨⟨h1, h2, _⟩, h⟩ := hs
  intro p hp
  have hp' : (p.1, p.2) ∈ playable_cells mf := by
    unfold playable_cells at hp ⊢
    rw [h1, h2] at hp
    exact hp
  exact (h p.1 p.2).2.2.2.2.2 hp'

theorem pre_game_board_border (RAND_MAX : Int) (rand : Nat → Int) (mf : minefield_t)
    (n : Int) : border_inv (pre_game_board RAND_MAX rand mf n).1 := by
  have hs := pre_game_board_spec RAND_MAX rand mf n
  generalize (pre_game_board RAND_MAX rand mf n).1 = B at hs ⊢
  obtain ⟨⟨h1, h2, _⟩, h⟩ := hs
  constructor
  · rintro ⟨c, r⟩ hp hn
    obtain ⟨e1, e2, _, e4, e5, _⟩ := h c r
    have ha : in_array mf c r := by
      have := (mem_array_positions _ c r).1 hp
      unfold in_array at this ⊢
      rw [h1, h2] at this
      exact this
    have hr : ¬ in_range mf c r := by
      intro hh
      apply hn
      rw [mem_playable_cells]
      unfold in_range at hh ⊢
      rw [h1, h2]
      exact hh
    have hnp : (c, r) ∉ playable_cells mf := fun hh => hr ((mem_playable_cells mf c r).1 hh)
    have hb : (c, r) ∈ border_rows mf ∨ (c, r) ∈ border_cols mf := by
      rw [mem_border_rows, mem_border_cols]
      unfold in_array at ha
      unfold in_range at hr
      omega
    simp only [minefield_cell]
    exact ⟨by rw [e4]; simp [hb], e5 hnp, e1, e2⟩
  · rintro ⟨c, r⟩ hp
    obtain ⟨_, _, _, e4, _, _⟩ := h c r
    have hr : in_range mf c r := by
      have := (mem_playable_cells _ c r).1 hp
      unfold in_range at this ⊢
      rw [h1, h2] at this
      exact this
    have hb : ¬ ((c, r) ∈ border_rows mf ∨ (c, r) ∈ border_cols mf) := by
      rw [mem_border_rows, mem_border_cols]
      unfold in_range at hr
      omega
    simp only [minefield_cell]
    rw [e4]
    simp [hb]

theorem opened_from_refl (a : minefield_t) : opened_from a a :=
  ⟨rfl, rfl, rfl, rfl, rfl, rfl, fun _ _ => Or.inl rfl⟩

theorem opened_from_trans {a b c : minefield_t} (h1 : opened_from a b)
    (h2 : opened_from b c) : opened_from a c := by
  obtain ⟨a1, a2, a3, a4, a5, a6, a7⟩ := h1
  obtain ⟨b1, b2, b3, b4, b5, b6, b7⟩ := h2
  refine ⟨by rw [b1, a1], by rw [b2, a2], by rw [b3, a3], by rw [b4, a4], by rw [b5, a5],
    by rw [b6, a6], fun i j => ?_⟩
  rcases a7 i j with e | ⟨e1, e2, e3⟩
  · rcases b7 i j with f | ⟨f1, f2, f3⟩
    · left; rw [f, e]
    · right
      unfold IS_AVAILABLE minefield_cell at f1 ⊢
      rw [e] at f1 f2 f3
      exact ⟨f1, f2, f3⟩
  · rcases b7 i j with f | ⟨f1, _, _⟩
    · right; rw [f]; exact ⟨e1, e2, e3⟩
    · unfold IS_AVAILABLE minefield_cell at f1
      rw [e3] at f1
      simp at f1

theorem opened_from_kept {a b : minefield_t} (h : opened_from a b) : mines_kept a b := by
  intro c r
  rcases h.2.2.2.2.2.2 c r with e | ⟨_, _, e⟩ <;> rw [e] <;> exact ⟨rfl, rfl, rfl⟩

theorem opened_from_is_flagged {a b : minefield_t} (h : opened_from a b) (c r : Int) :
    (b.field c r).is_flagged = (a.field c r).is_flagged := by
  rcases h.2.2.2.2.2.2 c r with e | ⟨_, _, e⟩ <;> rw [e]

theorem opened_from_unavailable {a b : minefield_t} (h : opened_from a b) (c r : Int)
    (hu : (a.field c r).is_unavailable = true) : b.field c r = a.field c r := by
  rcases h.2.2.2.2.2.2 c r with e | ⟨e1, _, _⟩
  · exact e
  · unfold IS_AVAILABLE minefield_cell at e1
    rw [hu] at e1
    simp at e1

theorem for_each_neighbour_acc_rel
    (f : minefield_t → Int → Int → Option (minefield_t × Int))
    (R : minefield_t → minefield_t → Prop) (htrans : ∀ a b c, R a b → R b c → R a c)
    (hf : ∀ m c r m' n, f m c r = some (m', n) → R m m') (mf : minefield_t) (i j : Int)
    (mf' : minefield_t) (n : Int) (h : for_each_neighbour_acc f mf i j = some (mf', n)) :
    R mf mf' := by
  unfold for_each_neighbour_acc at h
  simp only [Option.bind_eq_some] at h
  obtain ⟨r1, e1, r2, e2, r3, e3, r4, e4, r5, e5, r6, e6, r7, e7, r8, e8, h⟩ := h
  simp only [Option.some.injEq, Prod.mk.injEq] at h
  obtain ⟨rfl, _⟩ := h
  have g1 := hf _ _ _ r1.1 r1.2 e1
  have g2 := hf _ _ _ r2.1 r2.2 e2
  have g3 := hf _ _ _ r3.1 r3.2 e3
  have g4 := hf _ _ _ r4.1 r4.2 e4
  have g5 := hf _ _ _ r5.1 r5.2 e5
  have g6 := hf _ _ _ r6.1 r6.2 e6
  have g7 := hf _ _ _ r7.1 r7.2 e7
  have g8 := hf _ _ _ r8.1 r8.2 e8
  exact htrans _ _ _ (htrans _ _ _ (htrans _ _ _ (htrans _ _ _ (htrans _ _ _
    (htrans _ _ _ (htrans _ _ _ g1 g2) g3) g4) g5) g6) g7) g8

theorem opened_from_step (mf : minefield_t) (col row : Int)
    (hno : ¬ ((!IS_AVAILABLE mf col row || (minefield_cell mf col row).is_flagged) = true)) :
    opened_from mf (store_cell { mf with unmarked := mf.unmarked - 1 } col row
      { minefield_cell { mf with unmarked := mf.unmarked - 1 } col row with
        is_cleared := true }) := by
  simp only [Bool.or_eq_true, Bool.not_eq_true', not_or, Bool.not_eq_false,
    Bool.not_eq_true] at hno
  refine ⟨rfl, rfl, rfl, rfl, rfl, rfl, fun c r => ?_⟩
  by_cases h : c = col ∧ r = row
  · obtain ⟨rfl, rfl⟩ := h
    right
    exact ⟨hno.1, hno.2, by simp [store_cell, minefield_cell]⟩
  · left
    simp [store_cell, h]

/-- Whenever `clear_square` returns, on any board, what it did is within `opened_from`. -/
theorem clear_square_fuel_opened (fuel : Nat) : ∀ (mf : minefield_t) (col row : Int)
    (mf' : minefield_t) (n : Int), clear_square_fuel fuel mf col row = some (mf', n) →
    opened_from mf mf' := by
  induction fuel with
  | zero => intro mf col row mf' n h; simp [clear_square_fuel] at h
  | succ fuel ih =>
    intro mf col row mf' n h
    unfold clear_square_fuel at h
    by_cases hno : (!IS_AVAILABLE mf col row || (minefield_cell mf col row).is_flagged) = true
    · rw [if_pos hno] at h
      simp only [Option.some.injEq, Prod.mk.injEq] at h
      rw [← h.1]
      exact opened_from_refl mf
    · rw [if_neg hno] at h
      have hstep := opened_from_step mf col row hno
      simp only at h
      split_ifs at h with h1 h2
      · simp only [Option.some.injEq, Prod.mk.injEq] at h
        rw [← h.1]; exact hstep
      · simp only [Option.map_eq_some'] at h
        obtain ⟨r, hr, e⟩ := h
        simp only [Prod.mk.injEq] at e
        rw [← e.1]
        exact opened_from_trans hstep
          (for_each_neighbour_acc_rel (clear_square_fuel fuel) opened_from
            (fun _ _ _ => opened_from_trans) ih _ col row r.1 r.2 hr)
      · simp only [Option.some.injEq, Prod.mk.injEq] at h
        rw [← h.1]; exact hstep

theorem clear_square_opened (mf : minefield_t) (col row : Int) (mf' : minefield_t) (n : Int)
    (h : clear_square mf col row = some (mf', n)) : opened_from mf mf' :=
  clear_square_fuel_opened _ mf col row mf' n h

theorem open_patch_loop_opened (rand : Nat → Int) : ∀ (fuel : Nat) (mf : minefield_t)
    (k : Nat) (mf' : minefield_t), open_patch_loop rand fuel mf k = some mf' →
    opened_from mf mf' := by
  intro fuel
  induction fuel with
  | zero => intro mf k mf' h; simp [open_patch_loop] at h
  | succ fuel ih =>
    intro mf k mf' h
    unfold open_patch_loop at h
    simp only at h
    split_ifs at h
    · simp only [Option.map_eq_some'] at h
      obtain ⟨r, hr, rfl⟩ := h
      exact clear_square_opened mf _ _ r.1 r.2 hr
    · exact ih mf (k + 2) mf' h

theorem mines_kept_correct {a b : minefield_t} (h : mines_kept a b) (hr : b.rows = a.rows)
    (hc : b.cols = a.cols) (ha : minesaround_correct a) : minesaround_correct b := by
  intro p hp
  have hp' : p ∈ playable_cells a := by
    unfold playable_cells at hp ⊢
    rw [hr, hc] at hp
    exact hp
  have := ha p hp'
  simp only [minefield_cell] at this ⊢
  rw [(h p.1 p.2).2.1, this]
  exact (mines_around_congr a b (fun c r => (h c r).1) p.1 p.2).symm

theorem opened_from_border_inv {a b : minefield_t} (h : opened_from a b)
    (ha : border_inv a) : border_inv b := by
  have hplay : playable_cells b = playable_cells a := by
    unfold playable_cells; rw [h.2.1, h.2.2.1]
  have harr : array_positions b = array_positions a := by
    unfold array_positions; rw [h.2.1, h.2.2.1]
  constructor
  · intro p hp hn
    rw [harr] at hp
    rw [hplay] at hn
    have := ha.1 p hp hn
    simp only [minefield_cell] at this ⊢
    rw [opened_from_unavailable h p.1 p.2 this.1]
    exact this
  · intro p hp
    rw [hplay] at hp
    have := ha.2 p hp
    simp only [minefield_cell] at this ⊢
    rw [(opened_from_kept h p.1 p.2).2.2]
    exact this

theorem mines_kept_refl (a : minefield_t) : mines_kept a a :=
  fun _ _ => ⟨rfl, rfl, rfl⟩

theorem mines_kept_trans {a b c : minefield_t} (h1 : mines_kept a b) (h2 : mines_kept b c) :
    mines_kept a c := by
  intro i j
  obtain ⟨x1, x2, x3⟩ := h1 i j
  obtain ⟨y1, y2, y3⟩ := h2 i j
  exact ⟨by rw [y1, x1], by rw [y2, x2], by rw [y3, x3]⟩

theorem mines_kept_of_pressed {a b : minefield_t} (h : pressed_from a b) : mines_kept a b := by
  intro c r
  obtain ⟨e1, e2, _, _, e5⟩ := pressed_from_field h c r
  exact ⟨e2, e1, e5⟩

theorem mines_kept_toggle (a : minefield_t) (col row : Int) :
    mines_kept a (toggle_flag a col row) := by
  intro c r
  unfold toggle_flag
  by_cases hc : c = col ∧ r = row
  · obtain ⟨rfl, rfl⟩ := hc
    cases h : (minefield_cell a c r).is_flagged <;> simp [minefield_cell, store_cell]
  · cases h : (minefield_cell a col row).is_flagged <;> simp [minefield_cell, store_cell, hc]

theorem make_move_release_one_kept (g g' : game_t) (col row button : Int)
    (h : make_move_release_one g col row button = some g') :
    mines_kept g.minefield g'.minefield := by
  have hp := mines_kept_of_pressed
    (unpress_square_pressed_from g.minefield g.last_col g.last_row)
  unfold make_move_release_one at h
  simp only at h
  split_ifs at h with h1 h2
  · cases h; exact hp
  · simp only [Option.map_map, Option.map_eq_some'] at h
    obtain ⟨r, hr, rfl⟩ := h
    have := mines_kept_trans hp (opened_from_kept (clear_square_opened _ _ _ r.1 r.2 hr))
    simp only [Function.comp]
    split_ifs <;> exact this
  · cases h
    exact mines_kept_trans hp (mines_kept_toggle _ _ _)

theorem make_move_release_two_kept (g g' : game_t) (col row : Int)
    (h : make_move_release_two g col row = some g') :
    mines_kept g.minefield g'.minefield := by
  have hp := mines_kept_of_pressed
    (for_each_neighbour_do_pressed_from unpress_square unpress_square_pressed_from
      g.minefield g.last_col g.last_row)
  unfold make_move_release_two at h
  simp only at h
  split_ifs at h with h1
  · cases h; exact hp
  · simp only [Option.map_eq_some'] at h
    obtain ⟨r, hr, rfl⟩ := h
    have hop : opened_from (for_each_neighbour_do unpress_square g.minefield g.last_col
        g.last_row) r.1 := by
      unfold clear_around at hr
      split_ifs at hr
      · cases hr; exact opened_from_refl _
      · exact for_each_neighbour_acc_rel clear_square opened_from
          (fun _ _ _ => opened_from_trans) clear_square_opened _ col row r.1 r.2 hr
    have := mines_kept_trans hp (opened_from_kept hop)
    split_ifs <;> exact this

/-- Whenever `make_move` returns, on any board and for any cell, every cell has the
`is_mine`, `minesaround` and `is_unavailable` it had. -/
theorem make_move_kept (g : game_t) (col row button : Int) (action : action_t) (g' : game_t)
    (ret : Bool) (h : make_move g col row button action = some (g', ret)) :
    mines_kept g.minefield g'.minefield := by
  unfold make_move at h
  split_ifs at h
  · cases h; exact mines_kept_refl _
  · cases action with
    | press =>
      simp only [Option.some.injEq, Prod.mk.injEq] at h
      rw [← h.1]
      exact mines_kept_of_pressed (make_move_press_pressed_from g col row button)
    | release =>
      simp only [Option.map_eq_some'] at h
      obtain ⟨g5, h5, e⟩ := h
      simp only [Prod.mk.injEq] at e
      rw [← e.1]
      unfold make_move_release at h5
      simp only [Option.map_eq_some'] at h5
      obtain ⟨g4, h4, rfl⟩ := h5
      rw [make_move_finish_minefield]
      split_ifs at h4
      · exact make_move_release_one_kept
          { g with buttons_down := g.buttons_down - 1 } _ _ _ _ h4
      · exact make_move_release_two_kept
          { g with buttons_down := g.buttons_down - 1 } _ _ _ h4
      · cases h4; exact mines_kept_refl _

/-- What `pre_game` returns: the board built by `pre_game_board`, with an open patch cleared
if the settings ask for one. -/
theorem pre_game_opened (RAND_MAX : Int) (rand : Nat → Int) (s : settings) (fuel : Nat)
    (g : game_t) (n : Int) (g' : game_t) (h : pre_game RAND_MAX rand s fuel g n = some g') :
    opened_from (pre_game_board RAND_MAX rand g.minefield n).1 g'.minefield := by
  unfold pre_game at h
  simp only at h
  split_ifs at h
  · simp only [Option.map_eq_some'] at h
    obtain ⟨mf, hmf, rfl⟩ := h
    exact open_patch_loop_opened rand fuel _ _ mf hmf
  · cases h
    exact opened_from_refl _

theorem pre_game_closed (RAND_MAX : Int) (rand : Nat → Int) (s : settings) (fuel : Nat)
    (g : game_t) (n : Int) (h : s.open_patch = false) :
    (pre_game RAND_MAX rand s fuel g n).isSome = true := by
  unfold pre_game
  simp [h]

theorem moved_from_border_inv {a b : minefield_t} (h : moved_from a b) (ha : border_inv a) :
    border_inv b := by
  have hplay : playable_cells b = playable_cells a := by
    unfold playable_cells; rw [h.2.1, h.2.2.1]
  have harr : array_positions b = array_positions a := by
    unfold array_positions; rw [h.2.1, h.2.2.1]
  constructor
  · intro p hp hn
    rw [harr] at hp
    rw [hplay] at hn
    have := ha.1 p hp hn
    have hr : ¬ in_range a p.1 p.2 := fun hh => hn ((mem_playable_cells a p.1 p.2).2 hh)
    obtain ⟨e1, _, e3, e4⟩ := h.2.2.2.2.2 p.1 p.2
    simp only [minefield_cell] at this ⊢
    rw [e3, e1, (e4 hr).1, (e4 hr).2]
    exact this
  · intro p hp
    rw [hplay] at hp
    have := ha.2 p hp
    simp only [minefield_cell] at this ⊢
    rw [(h.2.2.2.2.2 p.1 p.2).2.2.1]
    exact this

theorem border_inv_sentinel (mf : minefield_t) (h : border_inv mf) : sentinel_border mf :=
  fun p hp hn => (h.1 p hp hn).1

theorem find_possible_mines_unflagged (mf : minefield_t) (h : border_inv mf) :
    ∀ l ∈ (find_possible_mines mf MINE_LISTS_INITIALIZER).first, sites_unflagged mf l.cell := by
  obtain ⟨_, hs, _, _⟩ := find_possible_mines_chain_ok mf
  intro l hl s hsl
  have := hs (s.col, s.row) ((mem_all_sites _ _).2 ⟨l, hl, s, hsl, rfl, rfl⟩)
  obtain ⟨hp, hu⟩ := this
  simp only [IS_UNMARKED, Bool.not_eq_true', Bool.or_eq_false_iff] at hu
  exact ⟨hu.1, h.2 (s.col, s.row) hp⟩

/-- The invariant of the border holds in every reachable state. -/
theorem reachable_border_inv (RAND_MAX : Int) (g : game_t) (h : reachable RAND_MAX g) :
    border_inv g.minefield := by
  induction h with
  | start rand s fuel g0 n g hg =>
    exact opened_from_border_inv (pre_game_opened RAND_MAX rand s fuel g0 n g hg)
      (pre_game_board_border RAND_MAX rand g0.minefield n)
  | move g col row button action g' ret _ hin hm ih =>
    obtain ⟨g2, r2, e, hmv⟩ := make_move_moved g col row button action
      (border_inv_sentinel _ ih) hin
    rw [hm] at e
    simp only [Option.some.injEq, Prod.mk.injEq] at e
    rw [e.1]
    exact moved_from_border_inv hmv ih
  | search g out _ ho ih =>
    have := analyze_possible_mines_mf g.minefield _ (find_possible_mines_unflagged _ ih) out ho
    show border_inv out.mf
    rw [this]
    exact ih
  | lease g needed _ ih => exact ih
  | status g st sts _ ih => exact ih

theorem five_game_started :
    (pre_game 2147483647 (fun _ => 0) SETTINGS_INITIALIZER 0 five_game 7).isSome = true :=
  pre_game_closed 2147483647 (fun _ => 0) SETTINGS_INITIALIZER 0 five_game 7 rfl

/-! ## The claims about `pre_game` -/

set_option maxRecDepth 100000 in
/-- C15 fails on the code: with `RAND_MAX = 2147483647`, on a 5 x 5 board announced with one
mine, if `rand()` returns `RAND_MAX` at every call, `pre_game` places no mine at all and
leaves `flags` at 1; the other fields are as the claim says. -/
theorem pre_game_short_of_mines :
    ∃ g', pre_game 2147483647 (fun _ => 2147483647) SETTINGS_INITIALIZER 0 five_game 0
        = some g' ∧
      g'.minefield.mines = 1 ∧ mine_count g'.minefield = 0 ∧ g'.minefield.flags = 1 ∧
      g'.minefield.unmarked = 25 :=
  ⟨_, rfl, rfl, by decide, by decide, by decide⟩

/-- C17: after `pre_game`, in every playable cell `minesaround` is the number of the eight
neighbours with `is_mine` set, a value of at most 8; `pre_game` returns whenever no open patch
is asked for; and a call of `make_move` that returns, on any board and cell, leaves `is_mine`
and `minesaround` of every cell as they were. -/
theorem pre_game_minesaround (RAND_MAX : Int) (rand : Nat → Int) (s : settings) (fuel : Nat)
    (g : game_t) (n : Int) :
    (∀ g', pre_game RAND_MAX rand s fuel g n = some g' →
      ∀ p ∈ playable_cells g'.minefield,
        (minefield_cell g'.minefield p.1 p.2).minesaround
          = (neighbours p.1 p.2).countP (fun q => IS_MINE g'.minefield q.1 q.2) ∧
        (minefield_cell g'.minefield p.1 p.2).minesaround ≤ 8) ∧
    (s.open_patch = false → ∃ g', pre_game RAND_MAX rand s fuel g n = some g') ∧
    (∀ (h h' : game_t) (col row button : Int) (action : action_t) (ret : Bool),
      make_move h col row button action = some (h', ret) →
      ∀ c r, (minefield_cell h'.minefield c r).is_mine
          = (minefield_cell h.minefield c r).is_mine ∧
        (minefield_cell h'.minefield c r).minesaround
          = (minefield_cell h.minefield c r).minesaround) := by
  refine ⟨fun g' hg p hp => ?_, fun ho => ?_, fun h h' col row button action ret hm c r => ?_⟩
  · have hop := pre_game_opened RAND_MAX rand s fuel g n g' hg
    have hcor := mines_kept_correct (opened_from_kept hop) hop.2.1 hop.2.2.1
      (pre_game_board_correct RAND_MAX rand g.minefield n)
    have h1 := hcor p hp
    unfold mines_around at h1
    rw [for_each_neighbour_sum_eq] at h1
    have h2 : (minefield_cell g'.minefield p.1 p.2).minesaround
        = (neighbours p.1 p.2).countP (fun q => IS_MINE g'.minefield q.1 q.2) := by
      exact_mod_cast h1
    refine ⟨h2, ?_⟩
    rw [h2]
    exact List.countP_le_length _
  · have := pre_game_closed RAND_MAX rand s fuel g n ho
    exact ⟨_, (Option.some_get this).symm⟩
  · have := make_move_kept h col row button action h' ret hm c r
    exact ⟨this.1, this.2.1⟩

/-- C17, at a concrete input: the first game on `five_board`, with `rand()` returning 0. -/
theorem pre_game_minesaround_witness :
    (∀ g', pre_game 2147483647 (fun _ => 0) SETTINGS_INITIALIZER 0 five_game 7 = some g' →
      ∀ p ∈ playable_cells g'.minefield,
        (minefield_cell g'.minefield p.1 p.2).minesaround
          = (neighbours p.1 p.2).countP (fun q => IS_MINE g'.minefield q.1 q.2) ∧
        (minefield_cell g'.minefield p.1 p.2).minesaround ≤ 8) ∧
    (SETTINGS_INITIALIZER.open_patch = false →
      ∃ g', pre_game 2147483647 (fun _ => 0) SETTINGS_INITIALIZER 0 five_game 7 = some g') ∧
    (∀ (h h' : game_t) (col row button : Int) (action : action_t) (ret : Bool),
      make_move h col row button action = some (h', ret) →
      ∀ c r, (minefield_cell h'.minefield c r).is_mine
          = (minefield_cell h.minefield c r).is_mine ∧
        (minefield_cell h'.minefield c r).minesaround
          = (minefield_cell h.minefield c r).minesaround) :=
  pre_game_minesaround 2147483647 (fun _ => 0) SETTINGS_INITIALIZER 0 five_game 7

/-- C18: in every state reachable from `pre_game` through calls of `make_move` on playable
cells and searches of the solver, every cell of the border of the array is unavailable and
neither mined, flagged nor cleared (and no playable cell is unavailable). -/
theorem reachable_border (RAND_MAX : Int) (g : game_t) (h : reachable RAND_MAX g) :
    (∀ c r, in_array g.minefield c r → ¬ in_range g.minefield c r →
      (minefield_cell g.minefield c r).is_unavailable = true ∧
      (minefield_cell g.minefield c r).is_mine = false ∧
      (minefield_cell g.minefield c r).is_flagged = false ∧
      (minefield_cell g.minefield c r).is_cleared = false) ∧
    ∀ c r, in_range g.minefield c r →
      (minefield_cell g.minefield c r).is_unavailable = false := by
  have hinv := reachable_border_inv RAND_MAX g h
  refine ⟨fun c r ha hn => ?_, fun c r hr => ?_⟩
  · exact hinv.1 (c, r) ((mem_array_positions _ c r).2 ha)
      (fun hp => hn ((mem_playable_cells _ c r).1 hp))
  · exact hinv.2 (c, r) ((mem_playable_cells _ c r).2 hr)

/-- C18, at a concrete input: the state after the first `pre_game` on `five_board`. -/
theorem reachable_border_witness :
    reachable 2147483647
      ((pre_game 2147483647 (fun _ => 0) SETTINGS_INITIALIZER 0 five_game 7).get
        five_game_started) ∧
    ((∀ c r, in_array ((pre_game 2147483647 (fun _ => 0) SETTINGS_INITIALIZER 0 five_game 7).get
          five_game_started).minefield c r →
      ¬ in_range ((pre_game 2147483647 (fun _ => 0) SETTINGS_INITIALIZER 0 five_game 7).get
          five_game_started).minefield c r →
      (minefield_cell ((pre_game 2147483647 (fun _ => 0) SETTINGS_INITIALIZER 0 five_game 7).get
          five_game_started).minefield c r).is_unavailable = true ∧
      (minefield_cell ((pre_game 2147483647 (fun _ => 0) SETTINGS_INITIALIZER 0 five_game 7).get
          five_game_started).minefield c r).is_mine = false ∧
      (minefield_cell ((pre_game 2147483647 (fun _ => 0) SETTINGS_INITIALIZER 0 five_game 7).get
          five_game_started).minefield c r).is_flagged = false ∧
      (minefield_cell ((pre_game 2147483647 (fun _ => 0) SETTINGS_INITIALIZER 0 five_game 7).get
          five_game_started).minefield c r).is_cleared = false) ∧
    ∀ c r, in_range ((pre_game 2147483647 (fun _ => 0) SETTINGS_INITIALIZER 0 five_game 7).get
          five_game_started).minefield c r →
      (minefield_cell ((pre_game 2147483647 (fun _ => 0) SETTINGS_INITIALIZER 0 five_game 7).get
          five_game_started).minefield c r).is_unavailable = false) :=
  ⟨reachable.start (fun _ => 0) SETTINGS_INITIALIZER 0 five_game 7 _
      (Option.some_get five_game_started).symm,
    reachable_border 2147483647 _
      (reachable.start (fun _ => 0) SETTINGS_INITIALIZER 0 five_game 7 _
        (Option.some_get five_game_started).symm)⟩

theorem for_each_neighbour_acc_map
    (f : minefield_t → Int → Int → Option (minefield_t × Int)) (w : minefield_t → minefield_t)
    (hf : ∀ m c r, f (w m) c r = (f m c r).map (fun p => (w p.1, p.2))) (m : minefield_t)
    (i j : Int) :
    for_each_neighbour_acc f (w m) i j
      = (for_each_neighbour_acc f m i j).map (fun p => (w p.1, p.2)) := by
  unfold for_each_neighbour_acc
  rw [hf]
  cases f m (i-1) (j-1) with
  | none => rfl
  | some r1 =>
    simp only [Option.map_some', Option.some_bind]
    rw [hf]
    cases f r1.1 (i-1) j with
    | none => rfl
    | some r2 =>
      simp only [Option.map_some', Option.some_bind]
      rw [hf]
      cases f r2.1 (i-1) (j+1) with
      | none => rfl
      | some r3 =>
        simp only [Option.map_some', Option.some_bind]
        rw [hf]
        cases f r3.1 i (j-1) with
        | none => rfl
        | some r4 =>
          simp only [Option.map_some', Option.some_bind]
          rw [hf]
          cases f r4.1 i (j+1) with
          | none => rfl
          | some r5 =>
            simp only [Option.map_some', Option.some_bind]
            rw [hf]
            cases f r5.1 (i+1) (j-1) with
            | none => rfl
            | some r6 =>
              simp only [Option.map_some', Option.some_bind]
              rw [hf]
              cases f r6.1 (i+1) j with
              | none => rfl
              | some r7 =>
                simp only [Option.map_some', Option.some_bind]
                rw [hf]
                cases f r7.1 (i+1) (j+1) with
                | none => rfl
                | some r8 =>
                  simp only [Option.map_some', Option.some_bind]

/-- The field `needed` plays no part in `clear_square`. -/
theorem clear_square_fuel_needed (x : Int) (fuel : Nat) : ∀ (m : minefield_t) (c r : Int),
    clear_square_fuel fuel { m with needed := x } c r
      = (clear_square_fuel fuel m c r).map
          (fun p => (({ p.1 with needed := x } : minefield_t), p.2)) := by
  induction fuel with
  | zero => intro m c r; rfl
  | succ fuel ih =>
    intro m c r
    unfold clear_square_fuel
    have e1 : IS_AVAILABLE { m with needed := x } c r = IS_AVAILABLE m c r := rfl
    have e2 : minefield_cell { m with needed := x } c r = minefield_cell m c r := rfl
    rw [e1, e2]
    by_cases hno : (!IS_AVAILABLE m c r || (minefield_cell m c r).is_flagged) = true
    · rw [if_pos hno, if_pos hno]
      rfl
    · rw [if_neg hno, if_neg hno]
      simp only
      have e3 : (store_cell { ({ m with needed := x } : minefield_t) with
            unmarked := m.unmarked - 1 } c r
          { minefield_cell m c r with is_cleared := true })
          = { (store_cell { m with unmarked := m.unmarked - 1 } c r
              { minefield_cell m c r with is_cleared := true }) with needed := x } := rfl
      have e4 : minefield_cell { ({ m with needed := x } : minefield_t) with
          unmarked := m.unmarked - 1 } c r = minefield_cell m c r := rfl
      have e5 : minefield_cell { m with unmarked := m.unmarked - 1 } c r
          = minefield_cell m c r := rfl
      rw [e4, e5, e3]
      generalize store_cell { m with unmarked := m.unmarked - 1 } c r
        { minefield_cell m c r with is_cleared := true } = m2
      have e6 : minefield_cell { m2 with needed := x } c r = minefield_cell m2 c r := rfl
      rw [e6]
      split_ifs
      · rfl
      · rw [for_each_neighbour_acc_map (clear_square_fuel fuel)
          (fun m => { m with needed := x }) ih m2 c r]
        simp only [Option.map_map]
        rfl
      · rfl

theorem clear_square_needed (x : Int) (m : minefield_t) (c r : Int) :
    clear_square { m with needed := x } c r
      = (clear_square m c r).map (fun p => (({ p.1 with needed := x } : minefield_t), p.2)) :=
  clear_square_fuel_needed x _ m c r

theorem open_patch_loop_needed (x : Int) (rand : Nat → Int) : ∀ (fuel : Nat)
    (m : minefield_t) (k : Nat),
    open_patch_loop rand fuel { m with needed := x } k
      = (open_patch_loop rand fuel m k).map (fun p => ({ p with needed := x } : minefield_t)) := by
  intro fuel
  induction fuel with
  | zero => intro m k; rfl
  | succ fuel ih =>
    intro m k
    unfold open_patch_loop
    simp only
    have e2 : ∀ c r, minefield_cell { m with needed := x } c r = minefield_cell m c r :=
      fun _ _ => rfl
    simp only [e2]
    split_ifs
    · rw [clear_square_needed]
      simp only [Option.map_map]
      rfl
    · exact ih m (k + 2)

theorem place_mine_needed (x : Int) (RAND_MAX : Int) (rand : Nat → Int) (m : minefield_t)
    (k : Nat) (p : Int × Int) :
    place_mine RAND_MAX rand ({ m with needed := x }, k) p
      = (({ (place_mine RAND_MAX rand (m, k) p).1 with needed := x } : minefield_t),
          (place_mine RAND_MAX rand (m, k) p).2) := by
  unfold place_mine
  have e : mine_threshold RAND_MAX { m with needed := x } p.1 p.2
      = mine_threshold RAND_MAX m p.1 p.2 := rfl
  simp only [e]
  split_ifs <;> rfl

theorem place_mines_fold_needed (x : Int) (RAND_MAX : Int) (rand : Nat → Int) :
    ∀ (l : List (Int × Int)) (m : minefield_t) (k : Nat),
    l.foldl (place_mine RAND_MAX rand) ({ m with needed := x }, k)
      = (({ (l.foldl (place_mine RAND_MAX rand) (m, k)).1 with needed := x } : minefield_t),
          (l.foldl (place_mine RAND_MAX rand) (m, k)).2) := by
  intro l
  induction l with
  | nil => intro m k; rfl
  | cons p t ih =>
    intro m k
    rw [List.foldl_cons, List.foldl_cons, place_mine_needed]
    exact ih _ _

theorem record_minesaround_fold_needed (x : Int) : ∀ (l : List (Int × Int))
    (m : minefield_t),
    l.foldl record_minesaround { m with needed := x }
      = { l.foldl record_minesaround m with needed := x } := by
  intro l
  induction l with
  | nil => intro m; rfl
  | cons p t ih =>
    intro m
    rw [List.foldl_cons, List.foldl_cons]
    have e : record_minesaround { m with needed := x } p
        = { record_minesaround m p with needed := x } := rfl
    rw [e]
    exact ih _

/-- The board that `pre_game` builds depends on the board it is given only through `rows`,
`cols`, `mines` and, for the field `needed` alone, `needed`. -/
theorem pre_game_board_needed (RAND_MAX : Int) (rand : Nat → Int) (a b : minefield_t)
    (n : Int) (hr : a.rows = b.rows) (hc : a.cols = b.cols) (hm : a.mines = b.mines) :
    pre_game_board RAND_MAX rand a n
      = (({ (pre_game_board RAND_MAX rand b n).1 with needed := a.needed } : minefield_t),
          (pre_game_board RAND_MAX rand b n).2) := by
  have hreset : pre_game_reset a n = { pre_game_reset b n with needed := a.needed } := by
    rw [pre_game_reset_eq, pre_game_reset_eq]
    have e1 : border_rows a = border_rows b := by unfold border_rows; rw [hr, hc]
    have e2 : border_cols a = border_cols b := by unfold border_cols; rw [hr, hc]
    rw [hr, hc, hm, e1, e2]
  unfold pre_game_board place_mines record_all_minesaround
  simp only
  rw [hreset]
  have hp : ∀ m : minefield_t, playable_cells { m with needed := a.needed }
      = playable_cells m := fun _ => rfl
  rw [hp, place_mines_fold_needed]
  simp only
  rw [hp, record_minesaround_fold_needed]

theorem pre_game_fields (RAND_MAX : Int) (rand : Nat → Int) (s1 s2 : settings) (fuel : Nat)
    (g1 g2 : game_t) (n : Int) (hr : g1.minefield.rows = g2.minefield.rows)
    (hc : g1.minefield.cols = g2.minefield.cols) (hm : g1.minefield.mines = g2.minefield.mines)
    (ho : s1.open_patch = s2.open_patch) :
    (pre_game RAND_MAX rand s1 fuel g1 n).map (fun g => g.minefield.field)
      = (pre_game RAND_MAX rand s2 fuel g2 n).map (fun g => g.minefield.field) := by
  unfold pre_game
  simp only
  rw [pre_game_board_needed RAND_MAX rand g1.minefield g2.minefield n hr hc hm, ho]
  generalize pre_game_board RAND_MAX rand g2.minefield n = B
  cases s2.open_patch
  · rfl
  · simp only [if_true, open_patch_loop_needed, Option.map_map]
    cases open_patch_loop rand fuel B.1 B.2 <;> rfl

/-- C16: two runs of `pre_game` with the same `rows`, `cols` and `mines`, the same setting
`open` and the same game number, hence the same values of `rand()`, whatever the earlier
boards, states and other settings are: either both return or neither does, and the boards
they return have the same `is_mine`, `minesaround` and `is_cleared` in every cell. -/
theorem pre_game_deterministic (RAND_MAX : Int) (rand_of : Int → Nat → Int)
    (s1 s2 : settings) (fuel : Nat) (g1 g2 : game_t) (n : Int)
    (hr : g1.minefield.rows = g2.minefield.rows) (hc : g1.minefield.cols = g2.minefield.cols)
    (hm : g1.minefield.mines = g2.minefield.mines) (ho : s1.open_patch = s2.open_patch) :
    (pre_game RAND_MAX (rand_of n) s1 fuel g1 n).isSome
      = (pre_game RAND_MAX (rand_of n) s2 fuel g2 n).isSome ∧
    ∀ r1 r2, pre_game RAND_MAX (rand_of n) s1 fuel g1 n = some r1 →
      pre_game RAND_MAX (rand_of n) s2 fuel g2 n = some r2 →
      ∀ c r, (minefield_cell r1.minefield c r).is_mine
          = (minefield_cell r2.minefield c r).is_mine ∧
        (minefield_cell r1.minefield c r).minesaround
          = (minefield_cell r2.minefield c r).minesaround ∧
        (minefield_cell r1.minefield c r).is_cleared
          = (minefield_cell r2.minefield c r).is_cleared := by
  have key := pre_game_fields RAND_MAX (rand_of n) s1 s2 fuel g1 g2 n hr hc hm ho
  constructor
  · have := congrArg Option.isSome key
    simpa using this
  · intro r1 r2 e1 e2 c r
    rw [e1, e2] at key
    simp only [Option.map_some', Option.some.injEq] at key
    simp [minefield_cell, key]

/-- C16, at a concrete input: a first game on `five_board` and a game started on the same
board after a lost game with another value of `needed`, with the settings of
`SETTINGS_INITIALIZER` and with `autoplay` set. -/
theorem pre_game_deterministic_witness :
    (pre_game 2147483647 ((fun _ k => 1103515245 * k + 12345 : Int → Nat → Int) 7)
        SETTINGS_INITIALIZER 0 five_game 7).isSome
      = (pre_game 2147483647 ((fun _ k => 1103515245 * k + 12345 : Int → Nat → Int) 7)
        { SETTINGS_INITIALIZER with autoplay := true } 0
        { five_game with minefield := { five_board with needed := 1, flags := 3 },
                         state := { five_game.state with lost := true } } 7).isSome ∧
    ∀ r1 r2, pre_game 2147483647 ((fun _ k => 1103515245 * k + 12345 : Int → Nat → Int) 7)
        SETTINGS_INITIALIZER 0 five_game 7 = some r1 →
      pre_game 2147483647 ((fun _ k => 1103515245 * k + 12345 : Int → Nat → Int) 7)
        { SETTINGS_INITIALIZER with autoplay := true } 0
        { five_game with minefield := { five_board with needed := 1, flags := 3 },
                         state := { five_game.state with lost := true } } 7 = some r2 →
      ∀ c r, (minefield_cell r1.minefield c r).is_mine
          = (minefield_cell r2.minefield c r).is_mine ∧
        (minefield_cell r1.minefield c r).minesaround
          = (minefield_cell r2.minefield c r).minesaround ∧
        (minefield_cell r1.minefield c r).is_cleared
          = (minefield_cell r2.minefield c r).is_cleared :=
  pre_game_deterministic 2147483647 (fun _ k => 1103515245 * k + 12345)
    SETTINGS_INITIALIZER { SETTINGS_INITIALIZER with autoplay := true } 0 five_game
    { five_game with minefield := { five_board with needed := 1, flags := 3 },
                     state := { five_game.state with lost := true } } 7 rfl rfl rfl rfl

/-! ## The claims about the clusters -/

theorem find_possible_mines_fold_sites (mf : minefield_t) :
    ∀ (ps : List (Int × Int)) (ml : mine_lists_t),
    (all_sites (ps.foldl
      (fun ml p => if is_border_site mf p.1 p.2 then add_possible_mine mf p.1 p.2 ml else ml)
      ml).first).Perm
      (ps.filter (fun p => is_border_site mf p.1 p.2) ++ all_sites ml.first) ∧
    (ps.foldl
      (fun ml p => if is_border_site mf p.1 p.2 then add_possible_mine mf p.1 p.2 ml else ml)
      ml).length = ml.length + (ps.filter (fun p => is_border_site mf p.1 p.2)).length := by
  intro ps
  induction ps with
  | nil => intro ml; simp
  | cons p ps ih =>
    intro ml
    rw [List.foldl_cons]
    by_cases hb : is_border_site mf p.1 p.2 = true
    · rw [if_pos hb]
      simp only [List.filter_cons, hb, if_true]
      obtain ⟨h1, h2⟩ := ih (add_possible_mine mf p.1 p.2 ml)
      refine ⟨?_, ?_⟩
      · refine h1.trans ?_
        refine (List.Perm.append_left _ (all_sites_add_possible_mine mf p.1 p.2 ml)).trans ?_
        exact List.perm_middle
      · rw [h2]
        simp only [add_possible_mine, List.length_cons]
        push_cast
        ring
    · rw [if_neg hb]
      simp only [List.filter_cons, hb, Bool.false_eq_true, if_false]
      exact ih ml

theorem find_possible_mines_perm (mf : minefield_t) :
    (all_sites (find_possible_mines mf MINE_LISTS_INITIALIZER).first).Perm
      ((playable_cells mf).filter fun p => is_border_site mf p.1 p.2) := by
  have h := (find_possible_mines_fold_sites mf (playable_cells mf) MINE_LISTS_INITIALIZER).1
  simpa [MINE_LISTS_INITIALIZER, all_sites, find_possible_mines] using h

theorem find_possible_mines_length (mf : minefield_t) :
    (find_possible_mines mf MINE_LISTS_INITIALIZER).length
      = ((all_sites (find_possible_mines mf MINE_LISTS_INITIALIZER).first).length : Int) := by
  have h := (find_possible_mines_fold_sites mf (playable_cells mf) MINE_LISTS_INITIALIZER).2
  rw [(find_possible_mines_perm mf).length_eq]
  simpa [MINE_LISTS_INITIALIZER, find_possible_mines] using h

theorem is_border_site_iff (mf : minefield_t) (c r : Int) :
    is_border_site mf c r = true ↔
      IS_UNMARKED mf c r = true ∧ ∃ n ∈ neighbours c r, IS_CLEARED mf n.1 n.2 = true := by
  unfold is_border_site
  rw [Bool.and_eq_true, for_each_neighbour_or_eq, List.any_eq_true]

theorem all_sites_eq_nil (chain : List mine_list_t) (h : ∀ l ∈ chain, l.cell ≠ []) :
    all_sites chain = [] ↔ chain = [] := by
  constructor
  · intro e
    cases chain with
    | nil => rfl
    | cons l ls =>
      exfalso
      rw [all_sites_cons, List.append_eq_nil] at e
      have := h l (List.mem_cons_self _ _)
      apply this
      have e1 := e.1
      unfold site_positions at e1
      exact List.map_eq_nil_iff.1 e1
  · rintro rfl
    rfl

theorem find_possible_mines_fold_nonempty (mf : minefield_t) :
    ∀ (ps : List (Int × Int)) (ml : mine_lists_t), (∀ l ∈ ml.first, l.cell ≠ []) →
    ∀ l ∈ (ps.foldl
      (fun ml p => if is_border_site mf p.1 p.2 then add_possible_mine mf p.1 p.2 ml else ml)
      ml).first, l.cell ≠ [] := by
  intro ps
  induction ps with
  | nil => intro ml h; exact h
  | cons p ps ih =>
    intro ml h
    rw [List.foldl_cons]
    apply ih
    split
    · intro l hl
      rw [add_possible_mine_first] at hl
      rcases List.mem_cons.1 hl with rfl | hl
      · simp
      · exact h l (List.mem_of_mem_filter hl)
    · exact h

theorem find_possible_mines_nonempty (mf : minefield_t) :
    ∀ l ∈ (find_possible_mines mf MINE_LISTS_INITIALIZER).first, l.cell ≠ [] := by
  unfold find_possible_mines
  apply find_possible_mines_fold_nonempty
  intro l hl
  simp [MINE_LISTS_INITIALIZER] at hl

theorem countP_eq_one_of_nodup {α : Type} [DecidableEq α] (l : List α) (a : α)
    (hnd : l.Nodup) (h : a ∈ l) : l.countP (fun q => decide (q = a)) = 1 := by
  induction l with
  | nil => cases h
  | cons x xs ih =>
    rw [List.nodup_cons] at hnd
    by_cases hx : x = a
    · subst hx
      rw [List.countP_cons_of_pos _ _ (by simp)]
      have : xs.countP (fun q => decide (q = x)) = 0 := by
        rw [List.countP_eq_zero]
        intro q hq
        simp only [decide_eq_true_eq]
        rintro rfl
        exact hnd.1 hq
      omega
    · rw [List.countP_cons_of_neg _ _ (by simpa using hx)]
      rcases List.mem_cons.1 h with rfl | h
      · exact absurd rfl hx
      · exact ih hnd.2 h

/-- C27: after `find_possible_mines` a cell is a site of some cluster exactly when it is a
playable cell that is unmarked and has a cleared neighbour; the sites of one cluster are
distinct cells and two different clusters have no cell in common, so that each such cell is
in exactly one cluster, exactly once; and the function returns TRUE (`first != NULL`) exactly
when such a cell exists. -/
theorem find_possible_mines_sites (mf : minefield_t) :
    (∀ c r, (c, r) ∈ all_sites (find_possible_mines mf MINE_LISTS_INITIALIZER).first ↔
      in_range mf c r ∧ IS_UNMARKED mf c r = true ∧
        ∃ n ∈ neighbours c r, IS_CLEARED mf n.1 n.2 = true) ∧
    (∀ c r, in_range mf c r → IS_UNMARKED mf c r = true →
      (∃ n ∈ neighbours c r, IS_CLEARED mf n.1 n.2 = true) →
      (all_sites (find_possible_mines mf MINE_LISTS_INITIALIZER).first).countP
        (fun q => decide (q = (c, r))) = 1) ∧
    (∀ l ∈ (find_possible_mines mf MINE_LISTS_INITIALIZER).first,
      (site_positions l.cell).Nodup) ∧
    (find_possible_mines mf MINE_LISTS_INITIALIZER).first.Pairwise
      (fun l1 l2 => ∀ p ∈ site_positions l1.cell, p ∉ site_positions l2.cell) ∧
    ((find_possible_mines mf MINE_LISTS_INITIALIZER).first ≠ [] ↔
      ∃ c r, in_range mf c r ∧ IS_UNMARKED mf c r = true ∧
        ∃ n ∈ neighbours c r, IS_CLEARED mf n.1 n.2 = true) := by
  have hperm := find_possible_mines_perm mf
  have hnd : (all_sites (find_possible_mines mf MINE_LISTS_INITIALIZER).first).Nodup :=
    hperm.nodup_iff.2 ((nodup_playable_cells mf).filter _)
  have hmem : ∀ c r, (c, r) ∈ all_sites (find_possible_mines mf MINE_LISTS_INITIALIZER).first ↔
      in_range mf c r ∧ IS_UNMARKED mf c r = true ∧
        ∃ n ∈ neighbours c r, IS_CLEARED mf n.1 n.2 = true := by
    intro c r
    rw [hperm.mem_iff, List.mem_filter, mem_playable_cells, is_border_site_iff]
  refine ⟨hmem, ?_, ?_, ?_, ?_⟩
  · intro c r h1 h2 h3
    exact countP_eq_one_of_nodup _ _ hnd ((hmem c r).2 ⟨h1, h2, h3⟩)
  · intro l hl
    unfold all_sites at hnd
    exact (List.nodup_flatMap.1 hnd).1 l hl
  · unfold all_sites at hnd
    refine (List.nodup_flatMap.1 hnd).2.imp ?_
    intro l1 l2 h p hp1 hp2
    exact h hp1 hp2
  · rw [Ne, ← all_sites_eq_nil _ (find_possible_mines_nonempty mf)]
    constructor
    · intro h
      obtain ⟨⟨c, r⟩, hp⟩ := List.exists_mem_of_ne_nil _ h
      exact ⟨c, r, (hmem c r).1 hp⟩
    · rintro ⟨c, r, h⟩ e
      have := (hmem c r).2 h
      rw [e] at this
      cases this

/-- C28: for two cells that are not cleared (playable or not), `are_dependant` is true
exactly when some cleared cell lies within Chebyshev distance 1 of both; hence it has the
same value with its two cells exchanged, and it is false when the cells are more than
Chebyshev distance 2 apart. -/
theorem are_dependant_shares_cleared (mf : minefield_t) (c1 r1 c2 r2 : Int)
    (h1 : (minefield_cell mf c1 r1).is_cleared = false)
    (h2 : (minefield_cell mf c2 r2).is_cleared = false) :
    (are_dependant mf c1 r1 c2 r2 = true ↔
      ∃ c r, (minefield_cell mf c r).is_cleared = true ∧
        (c - c1).natAbs ≤ 1 ∧ (r - r1).natAbs ≤ 1 ∧ (c - c2).natAbs ≤ 1 ∧ (r - r2).natAbs ≤ 1) ∧
    are_dependant mf c1 r1 c2 r2 = are_dependant mf c2 r2 c1 r1 ∧
    (2 < (c1 - c2).natAbs ∨ 2 < (r1 - r2).natAbs → are_dependant mf c1 r1 c2 r2 = false) := by
  refine ⟨?_, are_dependant_symm mf c1 r1 c2 r2 h1 h2, ?_⟩
  · rw [are_dependant_iff mf c1 r1 c2 r2 h1]
    unfold share_cleared_cell
    constructor
    · rintro ⟨⟨c, r⟩, h⟩
      exact ⟨c, r, h⟩
    · rintro ⟨c, r, h⟩
      exact ⟨(c, r), h⟩
  · intro h
    unfold are_dependant
    rcases h with h | h
    · have : decide ((c1 - c2).natAbs ≤ 2) = false := decide_eq_false (by omega)
      rw [this]
      rfl
    · have : decide ((r1 - r2).natAbs ≤ 2) = false := decide_eq_false (by omega)
      rw [this, Bool.and_false]
      rfl

/-- C28, at a concrete input: the two untouched ends `(1, 1)` and `(5, 1)` of
`two_ends_board`, four columns apart. -/
theorem are_dependant_shares_cleared_witness :
    (are_dependant two_ends_board 1 1 5 1 = true ↔
      ∃ c r, (minefield_cell two_ends_board c r).is_cleared = true ∧
        (c - 1).natAbs ≤ 1 ∧ (r - 1).natAbs ≤ 1 ∧ (c - 5).natAbs ≤ 1 ∧ (r - 1).natAbs ≤ 1) ∧
    are_dependant two_ends_board 1 1 5 1 = are_dependant two_ends_board 5 1 1 1 ∧
    (2 < ((1 : Int) - 5).natAbs ∨ 2 < ((1 : Int) - 1).natAbs →
      are_dependant two_ends_board 1 1 5 1 = false) :=
  are_dependant_shares_cleared two_ends_board 1 1 5 1 (by decide) (by decide)

/-! ## The merge step of `analyze_possible_mines` -/

theorem find_retry_list_ambiguous : ∀ (chain : List mine_list_t) (mn mx : Int)
    (f : List mine_list_t × mine_list_t × List mine_list_t × Int × Int),
    find_retry_list chain mn mx = some f → f.2.1.min_flags ≠ f.2.1.max_flags := by
  intro chain
  induction chain with
  | nil => intro _ _ f h; cases h
  | cons list next ih =>
    intro mn mx f h
    unfold find_retry_list at h
    by_cases hf : list.min_flags = list.max_flags
    · rw [if_pos hf] at h
      simp only [Option.map_eq_some'] at h
      obtain ⟨g, hg, rfl⟩ := h
      exact ih _ _ g hg
    · rw [if_neg hf] at h
      simp only [Option.some.injEq] at h
      subst h
      exact hf

theorem merge_retry_lists_eq : ∀ (after : List mine_list_t) (retry : mine_list_t)
    (mn mx : Int),
    (merge_retry_lists retry after mn mx).1
      = { retry with cell := retry.cell ++
          (after.filter fun l => !decide (l.min_flags = l.max_flags)).flatMap fun l => l.cell } ∧
    (merge_retry_lists retry after mn mx).2.1
      = after.filter (fun l => decide (l.min_flags = l.max_flags)) := by
  intro after
  induction after with
  | nil => intro retry mn mx; simp [merge_retry_lists]
  | cons list next ih =>
    intro retry mn mx
    unfold merge_retry_lists
    by_cases hf : list.min_flags = list.max_flags
    · rw [if_neg (by simpa using hf)]
      obtain ⟨e1, e2⟩ := ih retry (mn + list.min_flags) (mx + list.max_flags)
      have k1 : (list :: next).filter (fun l => !decide (l.min_flags = l.max_flags))
          = next.filter (fun l => !decide (l.min_flags = l.max_flags)) := by
        rw [List.filter_cons]
        simp [hf]
      have k2 : (list :: next).filter (fun l => decide (l.min_flags = l.max_flags))
          = list :: next.filter (fun l => decide (l.min_flags = l.max_flags)) := by
        rw [List.filter_cons]
        simp [hf]
      rw [k1, k2]
      exact ⟨e1, congrArg _ e2⟩
    · rw [if_pos hf]
      obtain ⟨e1, e2⟩ := ih (join_mine_lists retry list) mn mx
      have k1 : (list :: next).filter (fun l => !decide (l.min_flags = l.max_flags))
          = list :: next.filter (fun l => !decide (l.min_flags = l.max_flags)) := by
        rw [List.filter_cons]
        simp [hf]
      have k2 : (list :: next).filter (fun l => decide (l.min_flags = l.max_flags))
          = next.filter (fun l => decide (l.min_flags = l.max_flags)) := by
        rw [List.filter_cons]
        simp [hf]
      rw [k1, k2, e1, e2]
      simp [join_mine_lists]

theorem filter_eq_self_of_all {α : Type} (p : α → Bool) (l : List α) (h : ∀ x ∈ l, p x = true) :
    l.filter p = l :=
  List.filter_eq_self.2 h

theorem filter_eq_nil_of_none {α : Type} (p : α → Bool) (l : List α)
    (h : ∀ x ∈ l, p x = false) : l.filter p = [] := by
  rw [List.filter_eq_nil_iff]
  intro x hx
  rw [h x hx]
  simp

/-- C26: when the first loop of `analyze_possible_mines` has searched every cluster (it was
not aborted), then (1) if `flags` plus the sum of all `max_flags` is at most `mines`, the
function returns 1 and leaves the clusters and their statistics as the loop found them; (2)
otherwise, if some cluster has `min_flags != max_flags`, the chain it leaves is the clusters
with `min_flags == max_flags`, unchanged and in their order, with one cluster `retry` put
among them; `retry` is what the search leaves of a list `merged` whose sites are exactly those
of the clusters with `min_flags != max_flags`, whose `min_flags`, `max_flags`, `sum_flags` and
`flag_placements` have been reset, on the board with `flags` raised by the sum of the
`max_flags` of the clusters with `min_flags == max_flags`; the value returned is the
`arrangements` of `retry`, and `flags` is put back afterwards. -/
theorem analyze_possible_mines_merge (mf : minefield_t) (ml : mine_lists_t)
    (hp : 0 ≤ (analyze_each mf ml.min_flags ml.max_flags ml.first).result) :
    ((analyze_each mf ml.min_flags ml.max_flags ml.first).mf.flags
        + (analyze_each mf ml.min_flags ml.max_flags ml.first).max_flags
        ≤ (analyze_each mf ml.min_flags ml.max_flags ml.first).mf.mines →
      ∃ out, analyze_possible_mines mf ml = some out ∧ out.result = 1 ∧
        out.mf = (analyze_each mf ml.min_flags ml.max_flags ml.first).mf ∧
        out.mine_lists.first = (analyze_each mf ml.min_flags ml.max_flags ml.first).chain) ∧
    (¬ (analyze_each mf ml.min_flags ml.max_flags ml.first).mf.flags
        + (analyze_each mf ml.min_flags ml.max_flags ml.first).max_flags
        ≤ (analyze_each mf ml.min_flags ml.max_flags ml.first).mf.mines →
      (∃ l ∈ (analyze_each mf ml.min_flags ml.max_flags ml.first).chain,
        l.min_flags ≠ l.max_flags) →
      ∃ (out : analysis_t) (pre post : List mine_list_t) (merged retry : mine_list_t)
        (searched : minefield_t),
        analyze_possible_mines mf ml = some out ∧
        out.mine_lists.first = pre ++ retry :: post ∧
        pre ++ post = (analyze_each mf ml.min_flags ml.max_flags ml.first).chain.filter
          (fun l => decide (l.min_flags = l.max_flags)) ∧
        site_positions merged.cell
          = all_sites ((analyze_each mf ml.min_flags ml.max_flags ml.first).chain.filter
              (fun l => decide (l.min_flags ≠ l.max_flags))) ∧
        merged.min_flags = INT_MAX ∧ merged.max_flags = 0 ∧ merged.sum_flags = 0 ∧
        (∀ c ∈ merged.cell, c.flag_placements = 0) ∧
        search_list
          { (analyze_each mf ml.min_flags ml.max_flags ml.first).mf with
            flags := (analyze_each mf ml.min_flags ml.max_flags ml.first).mf.flags
              + sum_max_flags (pre ++ post) } merged
          = { result := retry.arrangements, mf := searched, list := retry } ∧
        (site_positions retry.cell).Perm (site_positions merged.cell) ∧
        out.result = retry.arrangements ∧
        out.mf = { searched with flags := searched.flags - sum_max_flags (pre ++ post) }) := by
  unfold analyze_possible_mines
  simp only
  generalize analyze_each mf ml.min_flags ml.max_flags ml.first = p at hp ⊢
  rw [if_neg (by omega)]
  refine ⟨?_, ?_⟩
  · intro hle
    rw [if_pos hle]
    exact ⟨_, rfl, rfl, rfl, rfl⟩
  · intro hle hamb
    rw [if_neg hle]
    cases hf : find_retry_list p.chain 0 0 with
    | none =>
      exfalso
      obtain ⟨l, hl, hne⟩ := hamb
      exact hne (find_retry_list_none _ _ _ hf l hl)
    | some f =>
      obtain ⟨e1, e2, e3⟩ := find_retry_list_some _ _ _ _ hf
      have e4 := find_retry_list_ambiguous _ _ _ _ hf
      obtain ⟨m1, m2⟩ := merge_retry_lists_eq f.2.2.1 f.2.1 f.2.2.2.1 f.2.2.2.2
      have m3 := (merge_retry_lists_spec f.2.2.1 f.2.1 f.2.2.2.1 f.2.2.2.2).2.2
      simp only [Option.map_some']
      generalize hM : merge_retry_lists f.2.1 f.2.2.1 f.2.2.2.1 f.2.2.2.2 = M at m1 m2 m3
      have hunamb : p.chain.filter (fun l => decide (l.min_flags = l.max_flags))
          = f.1 ++ M.2.1 := by
        rw [e1, List.filter_append, List.filter_cons, m2,
          filter_eq_self_of_all _ _ (fun l hl => by simpa using e2 l hl)]
        simp [e4]
      have hamb2 : p.chain.filter (fun l => decide (l.min_flags ≠ l.max_flags))
          = f.2.1 :: f.2.2.1.filter (fun l => !decide (l.min_flags = l.max_flags)) := by
        rw [e1, List.filter_append, List.filter_cons,
          filter_eq_nil_of_none _ _ (fun l hl => by simpa using e2 l hl)]
        simp [e4]
      have hsum : M.2.2.2 = sum_max_flags (f.1 ++ M.2.1) := by
        rw [m3, e3]
        simp [sum_max_flags, List.sum_append]
      refine ⟨_, f.1, M.2.1, reset_list M.1,
        (search_list { p.mf with flags := p.mf.flags + M.2.2.2 } (reset_list M.1)).list,
        (search_list { p.mf with flags := p.mf.flags + M.2.2.2 } (reset_list M.1)).mf,
        rfl, rfl, hunamb.symm, ?_, rfl, rfl, rfl, ?_, ?_, ?_, rfl, ?_⟩
      · rw [site_positions_reset_list, m1, hamb2, all_sites_cons, site_positions_append,
          site_positions_flatMap]
      · intro c hc
        simp only [reset_list, List.mem_map] at hc
        obtain ⟨d, _, rfl⟩ := hc
        rfl
      · rw [← hsum]
        rfl
      · unfold search_list analyze_list
        simp only
        rw [analyze_list_aux_positions]
        unfold site_positions
        exact (optimize_list_perm _ _).1.map _
      · rw [← hsum]

/-- C26, at a concrete input: on `retry_board` the first loop finds the cluster of `(7, 1)`
and `(9, 1)` with `min_flags = max_flags = 1` and the cluster of `(1, 1)`, `(3, 1)` and
`(5, 1)` with `min_flags = 1` and `max_flags = 2`; with one flag on the board that is
`1 + 1 + 2 > 3 = mines`, and the second cluster is searched again. -/
theorem analyze_possible_mines_merge_witness :
    ∃ (out : analysis_t) (pre post : List mine_list_t) (merged retry : mine_list_t)
      (searched : minefield_t),
      analyze_possible_mines retry_board
        (find_possible_mines retry_board MINE_LISTS_INITIALIZER) = some out ∧
      out.mine_lists.first = pre ++ retry :: post ∧
      pre ++ post = (analyze_each retry_board 0 0
          (find_possible_mines retry_board MINE_LISTS_INITIALIZER).first).chain.filter
        (fun l => decide (l.min_flags = l.max_flags)) ∧
      site_positions merged.cell
        = all_sites ((analyze_each retry_board 0 0
          (find_possible_mines retry_board MINE_LISTS_INITIALIZER).first).chain.filter
            (fun l => decide (l.min_flags ≠ l.max_flags))) ∧
      merged.min_flags = INT_MAX ∧ merged.max_flags = 0 ∧ merged.sum_flags = 0 ∧
      (∀ c ∈ merged.cell, c.flag_placements = 0) ∧
      search_list
        { (analyze_each retry_board 0 0
          (find_possible_mines retry_board MINE_LISTS_INITIALIZER).first).mf with
          flags := (analyze_each retry_board 0 0
          (find_possible_mines retry_board MINE_LISTS_INITIALIZER).first).mf.flags
            + sum_max_flags (pre ++ post) } merged
        = { result := retry.arrangements, mf := searched, list := retry } ∧
      (site_positions retry.cell).Perm (site_positions merged.cell) ∧
      out.result = retry.arrangements ∧
      out.mf = { searched with flags := searched.flags - sum_max_flags (pre ++ post) } :=
  (analyze_possible_mines_merge retry_board
    (find_possible_mines retry_board MINE_LISTS_INITIALIZER) (by decide)).2
    (by decide) (by decide)

/-! ## The scan for the first ambiguous cluster -/

set_option maxRecDepth 100000 in
theorem extra_flag_played_some : extra_flag_played.isSome = true := by
  decide

set_option maxRecDepth 100000 in
/-- C29 fails on the code: on a 5 x 5 board with one mine, after the player has put a flag on
the mine at `(1, 1)` and a second flag on `(5, 5)` and has cleared `(2, 2)`, the game is
neither won nor lost and there are two flags for one mine.  The first loop of
`analyze_possible_mines` runs to the end, `flags` plus the sum of `max_flags` exceeds `mines`,
so the merge step is entered, and every cluster has `min_flags == max_flags`: the scan
`for(retry_list = first; retry_list->min_flags == retry_list->max_flags; ...)` runs past the
end of the chain, and neither `analyze_possible_mines` nor `solve_minefield` returns. -/
theorem analyze_possible_mines_scan_overrun :
    ∃ g, extra_flag_played = some g ∧
      g.state.won = false ∧ g.state.lost = false ∧
      g.minefield.mines = 1 ∧ g.minefield.flags = 2 ∧ mine_count g.minefield = 1 ∧
      (find_possible_mines g.minefield MINE_LISTS_INITIALIZER).first ≠ [] ∧
      (analyze_each g.minefield 0 0
        (find_possible_mines g.minefield MINE_LISTS_INITIALIZER).first).result = 0 ∧
      g.minefield.flags + (analyze_each g.minefield 0 0
        (find_possible_mines g.minefield MINE_LISTS_INITIALIZER).first).max_flags
          > g.minefield.mines ∧
      (∀ l ∈ (analyze_each g.minefield 0 0
        (find_possible_mines g.minefield MINE_LISTS_INITIALIZER).first).chain,
          l.min_flags = l.max_flags) ∧
      analyze_possible_mines g.minefield
        (find_possible_mines g.minefield MINE_LISTS_INITIALIZER) = none ∧
      ∀ (s : settings) (do_full_analysis : Bool),
        solve_minefield s g do_full_analysis = none := by
  have h : (analyze_possible_mines (extra_flag_played.get extra_flag_played_some).minefield
      (find_possible_mines (extra_flag_played.get extra_flag_played_some).minefield
        MINE_LISTS_INITIALIZER)) = none := by
    rw [← Option.not_isSome_iff_eq_none]
    decide
  have hne : (find_possible_mines (extra_flag_played.get extra_flag_played_some).minefield
        MINE_LISTS_INITIALIZER).first.isEmpty = false := by
    decide
  refine ⟨extra_flag_played.get extra_flag_played_some, (Option.some_get _).symm, by decide,
    by decide, by decide, by decide, by decide, by decide, by decide, by decide, by decide, h,
    ?_⟩
  intro s full
  unfold solve_minefield solve_minefield_round
  simp only [hne, Bool.false_eq_true, if_false, h]
  rfl

/-! ## The scenario of the mine in the centre -/

theorem float_quotient_finite (a b : Int) (h : b ≠ 0) :
    float_quotient a b = float_t.finite ((a : ℚ) / (b : ℚ)) := by
  unfold float_quotient
  rw [if_neg h, Rat.divInt_eq_div]

set_option maxRecDepth 100000 in
/-- C30 as stated fails: on `centre_board` the call of `clear_square` at `(1, 1)` returns, and
on the board it leaves the cells `(1, 2)` and `(2, 1)` are not cleared and record 1, not 0;
and the solver round on that board, with automatic play and for either value of
`do_full_analysis`, returns without publishing the probability 1.0 for `(2, 2)`. -/
theorem centre_mine_cascade_refuted :
    (clear_square centre_board 1 1).isSome = true ∧
    IS_CLEARED centre_opened.minefield 1 2 = false ∧
    IS_CLEARED centre_opened.minefield 2 1 = false ∧
    (minefield_cell centre_opened.minefield 1 2).minesaround = 1 ∧
    (minefield_cell centre_opened.minefield 2 1).minesaround = 1 ∧
    ∀ do_full_analysis : Bool,
      (solve_minefield autoplay_settings centre_opened do_full_analysis).map
        (fun r => decide (event_t.probability 2 2 (float_t.finite 1) ∈ r.1.log)) = some false := by
  decide

set_option maxRecDepth 100000 in
/-- C30, amended: on the 3 x 3 board whose single mine is at `(2, 2)` every other cell records
1, so `clear_square` at `(1, 1)` returns 1 and clears `(1, 1)` alone.  On the resulting board
a solver round with automatic play, for either value of `do_full_analysis`, publishes the
probability 1/3 for `(2, 2)`, `(2, 1)` and `(1, 2)`, issues a clear move on each of `(1, 3)`,
`(2, 3)`, `(3, 1)`, `(3, 2)` and `(3, 3)` and returns `noguess`; the round after it reports
`(2, 2)` as mined with probability 1.0 and issues the clear moves on `(2, 1)` and `(1, 2)`,
which leaves the game won with no cell unmarked. -/
theorem centre_mine_scenario :
    (clear_square centre_board 1 1).map (fun r => r.2) = some 1 ∧
    (∀ p ∈ playable_cells centre_board,
      IS_CLEARED centre_opened.minefield p.1 p.2 = decide (p = (1, 1))) ∧
    (∀ p ∈ playable_cells centre_board, p ≠ (2, 2) →
      (minefield_cell centre_opened.minefield p.1 p.2).minesaround = 1) ∧
    float_quotient 1 3 = float_t.finite (1 / 3) ∧
    (∀ do_full_analysis : Bool,
      (solve_minefield autoplay_settings centre_opened do_full_analysis).map
        (fun r => (r.1.log, r.2))
      = some ([event_t.probability 2 2 (float_quotient 1 3),
               event_t.probability 2 1 (float_quotient 1 3),
               event_t.probability 1 2 (float_quotient 1 3),
               event_t.move 1 3 moves_t.clear, event_t.probability 1 3 (float_t.finite 0),
               event_t.move 2 3 moves_t.clear, event_t.probability 2 3 (float_t.finite 0),
               event_t.move 3 1 moves_t.clear, event_t.probability 3 1 (float_t.finite 0),
               event_t.move 3 2 moves_t.clear, event_t.probability 3 2 (float_t.finite 0),
               event_t.move 3 3 moves_t.clear, event_t.probability 3 3 (float_t.finite 0)],
              status_t.noguess)) ∧
    (∀ do_full_analysis : Bool,
      ((solve_minefield autoplay_settings centre_opened do_full_analysis).bind fun r =>
        solve_minefield autoplay_settings r.1.game do_full_analysis).map
        (fun r => (r.1.log, r.2, r.1.game.state.won, r.1.game.minefield.unmarked,
          IS_FLAGGED r.1.game.minefield 2 2))
      = some ([event_t.move 2 2 moves_t.flag, event_t.probability 2 2 (float_t.finite 1),
               event_t.move 2 1 moves_t.clear, event_t.probability 2 1 (float_t.finite 0),
               event_t.move 1 2 moves_t.clear, event_t.probability 1 2 (float_t.finite 0)],
              status_t.noguess, true, 0, true)) := by
  refine ⟨by decide, by decide, by decide, ?_, by decide, by decide⟩
  rw [float_quotient_finite 1 3 (by decide)]
  norm_num

/-! ## The bounds of `flag_placements` -/

theorem wrap_int_of_nonneg (a b : Int) (ha : is_int a) (hb : is_int b) (h0 : 0 ≤ a)
    (h1 : 0 ≤ b) (h : 0 ≤ wrap_int (a + b)) : wrap_int (a + b) = a + b := by
  unfold is_int at ha hb
  unfold wrap_int at h ⊢
  omega

theorem analyze_list_aux_bounds : ∀ (todo : List possible_mine_t) (mf : minefield_t)
    (list : mine_list_t) (idx : Nat) (fu : Int), placements_int list →
    0 ≤ (_analyze_list todo mf list idx fu).result →
    ∀ j, ∃ d : Int, 0 ≤ d ∧ d ≤ (_analyze_list todo mf list idx fu).result ∧
      (j < idx → d = 0) ∧
      (_analyze_list todo mf list idx fu).list.cell[j]?
        = (list.cell[j]?).map (bump_placements d) := by
  intro todo
  induction todo with
  | nil =>
    intro mf list idx fu hint h j
    unfold _analyze_list at h ⊢
    refine ⟨0, le_refl _, ?_, fun _ => rfl, ?_⟩
    · split_ifs <;> simp_all
    · rw [map_bump_zero list hint j]
      simp only
      split_ifs <;> rfl
  | cons cell next ih =>
    intro mf list idx fu hint h j
    rw [_analyze_list] at h ⊢
    simp only at h ⊢
    by_cases hF : can_flag mf cell fu = true
    · simp only [hF, if_true] at h ⊢
      have ih1 := ih (set_flagged mf cell.col cell.row true) list (idx + 1) (fu + 1) hint
      have hi1 := analyze_list_aux_int next (set_flagged mf cell.col cell.row true) list
        (idx + 1) (fu + 1) hint
      generalize _analyze_list next (set_flagged mf cell.col cell.row true) list (idx + 1)
        (fu + 1) = r1 at ih1 hi1 h ⊢
      by_cases hr1 : r1.result < 0
      · simp only [hr1, if_true] at h
        omega
      · simp only [hr1, if_false] at h ⊢
        obtain ⟨d1, a1, a2, a3, a4⟩ := ih1 (by omega) j
        have hint1 := placements_int_add r1.list idx r1.result hi1.2
        by_cases hC : can_clear (set_flagged r1.mf cell.col cell.row false) cell = true
        · simp only [hC, if_true] at h ⊢
          have ih2 := ih (set_unavailable (set_flagged r1.mf cell.col cell.row false)
            cell.col cell.row true) (add_flag_placements r1.list idx r1.result) (idx + 1) fu
            hint1
          have hi2 := analyze_list_aux_int next (set_unavailable
            (set_flagged r1.mf cell.col cell.row false) cell.col cell.row true)
            (add_flag_placements r1.list idx r1.result) (idx + 1) fu hint1
          generalize _analyze_list next (set_unavailable
            (set_flagged r1.mf cell.col cell.row false) cell.col cell.row true)
            (add_flag_placements r1.list idx r1.result) (idx + 1) fu = r2 at ih2 hi2 h ⊢
          by_cases hr2 : r2.result < 0
          · simp only [hr2, if_true] at h
            omega
          · simp only [hr2, if_false] at h ⊢
            rw [wrap_int_of_nonneg _ _ hi1.1 hi2.1 (by omega) (by omega) h]
            obtain ⟨d2, b1, b2, b3, b4⟩ := ih2 (by omega) j
            refine ⟨d1 + (if idx = j then r1.result else 0) + d2, ?_, ?_, ?_, ?_⟩
            · split_ifs <;> omega
            · split_ifs with e
              · rw [a3 (by omega), b3 (by omega)]; omega
              · omega
            · intro hj
              rw [a3 (by omega), b3 (by omega), if_neg (by omega)]
              rfl
            · rw [b4]
              simp only [add_flag_placements, List.getElem?_modify, a4, Option.map_eq_map,
                Option.map_map]
              exact bump_chain d1 r1.result d2 idx j _
        · simp only [hC, Bool.false_eq_true, if_false] at h ⊢
          refine ⟨d1 + (if idx = j then r1.result else 0), ?_, ?_, ?_, ?_⟩
          · split_ifs <;> omega
          · split_ifs with e
            · rw [a3 (by omega)]; omega
            · omega
          · intro hj
            rw [a3 (by omega), if_neg (by omega)]
            rfl
          · simp only [add_flag_placements, List.getElem?_modify, a4, Option.map_eq_map,
              Option.map_map]
            exact bump_pair d1 r1.result idx j _
    · simp only [hF, Bool.false_eq_true, if_false, lt_self_iff_false] at h ⊢
      by_cases hC : can_clear mf cell = true
      · simp only [hC, if_true] at h ⊢
        have ih2 := ih (set_unavailable mf cell.col cell.row true) list (idx + 1) fu hint
        have hi2 := analyze_list_aux_int next (set_unavailable mf cell.col cell.row true) list
          (idx + 1) fu hint
        generalize _analyze_list next (set_unavailable mf cell.col cell.row true) list
          (idx + 1) fu = r2 at ih2 hi2 h ⊢
        by_cases hr2 : r2.result < 0
        · simp only [hr2, if_true] at h
          omega
        · simp only [hr2, if_false] at h ⊢
          have hz : wrap_int (0 + r2.result) = r2.result := by
            rw [zero_add]
            exact wrap_int_of_is_int _ hi2.1
          rw [hz]
          obtain ⟨d2, b1, b2, b3, b4⟩ := ih2 (by omega) j
          exact ⟨d2, b1, by omega, fun hj => b3 (by omega), b4⟩
      · simp only [hC, Bool.false_eq_true, if_false] at h ⊢
        refine ⟨0, le_refl _, le_refl _, fun _ => rfl, ?_⟩
        rw [map_bump_zero list hint j]

/-! ## The moves of the solver -/

theorem marks_kept_refl (col row : Int) (a : minefield_t) : marks_kept col row a a :=
  fun _ _ => ⟨fun h => h, fun _ => rfl⟩

theorem marks_kept_trans {col row : Int} {a b c : minefield_t} (h1 : marks_kept col row a b)
    (h2 : marks_kept col row b c) : marks_kept col row a c := by
  intro i j
  obtain ⟨x1, x2⟩ := h1 i j
  obtain ⟨y1, y2⟩ := h2 i j
  exact ⟨fun h => y1 (x1 h), fun h => by rw [y2 h, x2 h]⟩

theorem marks_kept_of_pressed (col row : Int) {a b : minefield_t} (h : pressed_from a b) :
    marks_kept col row a b := by
  intro c r
  obtain ⟨_, _, e3, e4, _⟩ := pressed_from_field h c r
  exact ⟨fun h => by rw [e4]; exact h, fun _ => e3⟩

theorem marks_kept_of_opened (col row : Int) {a b : minefield_t} (h : opened_from a b) :
    marks_kept col row a b := by
  intro c r
  refine ⟨fun hc => ?_, fun _ => opened_from_is_flagged h c r⟩
  rcases h.2.2.2.2.2.2 c r with e | ⟨_, _, e⟩ <;> rw [e]
  exact hc

theorem marks_kept_toggle (a : minefield_t) (col row : Int) :
    marks_kept col row a (toggle_flag a col row) := by
  intro c r
  unfold toggle_flag
  by_cases hc : c = col ∧ r = row
  · obtain ⟨rfl, rfl⟩ := hc
    cases h : (minefield_cell a c r).is_flagged <;> simp [minefield_cell, store_cell]
  · cases h : (minefield_cell a col row).is_flagged <;> simp [minefield_cell, store_cell, hc]

theorem make_move_release_one_marks (g g' : game_t) (col row button : Int)
    (h : make_move_release_one g col row button = some g') :
    marks_kept col row g.minefield g'.minefield := by
  have hp := marks_kept_of_pressed col row
    (unpress_square_pressed_from g.minefield g.last_col g.last_row)
  unfold make_move_release_one at h
  simp only at h
  split_ifs at h with h1 h2
  · cases h; exact hp
  · simp only [Option.map_map, Option.map_eq_some'] at h
    obtain ⟨r, hr, rfl⟩ := h
    have := marks_kept_trans hp
      (marks_kept_of_opened col row (clear_square_opened _ _ _ r.1 r.2 hr))
    simp only [Function.comp]
    split_ifs <;> exact this
  · cases h
    exact marks_kept_trans hp (marks_kept_toggle _ _ _)

theorem make_move_release_two_marks (g g' : game_t) (col row : Int)
    (h : make_move_release_two g col row = some g') :
    marks_kept col row g.minefield g'.minefield := by
  have hp := marks_kept_of_pressed col row
    (for_each_neighbour_do_pressed_from unpress_square unpress_square_pressed_from
      g.minefield g.last_col g.last_row)
  unfold make_move_release_two at h
  simp only at h
  split_ifs at h with h1
  · cases h; exact hp
  · simp only [Option.map_eq_some'] at h
    obtain ⟨r, hr, rfl⟩ := h
    have hop : opened_from (for_each_neighbour_do unpress_square g.minefield g.last_col
        g.last_row) r.1 := by
      unfold clear_around at hr
      split_ifs at hr
      · cases hr; exact opened_from_refl _
      · exact for_each_neighbour_acc_rel clear_square opened_from
          (fun _ _ _ => opened_from_trans) clear_square_opened _ col row r.1 r.2 hr
    have := marks_kept_trans hp (marks_kept_of_opened col row hop)
    split_ifs <;> exact this

/-- Whenever `make_move` on the cell `(col, row)` returns, every cleared cell is still
cleared and every other cell has the flag or no flag it had. -/
theorem make_move_marks (g : game_t) (col row button : Int) (action : action_t) (g' : game_t)
    (ret : Bool) (h : make_move g col row button action = some (g', ret)) :
    marks_kept col row g.minefield g'.minefield := by
  unfold make_move at h
  split_ifs at h
  · cases h; exact marks_kept_refl _ _ _
  · cases action with
    | press =>
      simp only [Option.some.injEq, Prod.mk.injEq] at h
      rw [← h.1]
      exact marks_kept_of_pressed col row (make_move_press_pressed_from g col row button)
    | release =>
      simp only [Option.map_eq_some'] at h
      obtain ⟨g5, h5, e⟩ := h
      simp only [Prod.mk.injEq] at e
      rw [← e.1]
      unfold make_move_release at h5
      simp only [Option.map_eq_some'] at h5
      obtain ⟨g4, h4, rfl⟩ := h5
      rw [make_move_finish_minefield]
      split_ifs at h4
      · exact make_move_release_one_marks
          { g with buttons_down := g.buttons_down - 1 } _ _ _ _ h4
      · exact make_move_release_two_marks
          { g with buttons_down := g.buttons_down - 1 } _ _ _ h4
      · cases h4; exact marks_kept_refl _ _ _

theorem unmarked_of_marks_kept {col row : Int} {a b : minefield_t}
    (h : marks_kept col row a b) (c r : Int) (hne : ¬ (c = col ∧ r = row))
    (hu : IS_UNMARKED b c r = true) : IS_UNMARKED a c r = true := by
  obtain ⟨h1, h2⟩ := h c r
  simp only [IS_UNMARKED, minefield_cell, Bool.not_eq_true', Bool.or_eq_false_iff] at hu ⊢
  refine ⟨by rw [← h2 hne]; exact hu.1, ?_⟩
  cases hc : (a.field c r).is_cleared
  · rfl
  · rw [h1 hc] at hu
    exact absurd hu.2 (by simp)

/-- A press and a release of one button by the solver on a playable cell of a board with its
sentinel border: both calls return. -/
theorem make_move_twice (g : game_t) (col row button : Int)
    (hb : sentinel_border g.minefield) (hin : in_range g.minefield col row) :
    ∃ g', ((make_move g col row button action_t.press).bind fun r1 =>
        (make_move r1.1 col row button action_t.release).map fun r2 => r2.1) = some g' ∧
      moved_from g.minefield g'.minefield ∧ marks_kept col row g.minefield g'.minefield := by
  obtain ⟨g1, r1, e1, m1⟩ := make_move_moved g col row button action_t.press hb hin
  obtain ⟨g2, r2, e2, m2⟩ := make_move_moved g1 col row button action_t.release
    (moved_from_border m1 hb) ((moved_from_in_range m1 col row).2 hin)
  refine ⟨g2, ?_, moved_from_trans m1 m2,
    marks_kept_trans (make_move_marks _ _ _ _ _ _ _ e1) (make_move_marks _ _ _ _ _ _ _ e2)⟩
  rw [e1]
  simp only [Option.some_bind]
  rw [e2]
  rfl

/-- A clear or a flag move of the solver on a playable cell of a board with its sentinel
border: `computer_move` returns, it adds the call and the probability it publishes to the
log, and without automatic play it leaves the game as it is. -/
theorem computer_move_spec (s : settings) (t : solver_t) (col row : Int) (cmd : moves_t)
    (hcmd : cmd = moves_t.clear ∨ cmd = moves_t.flag)
    (hb : sentinel_border t.game.minefield) (hin : in_range t.game.minefield col row) :
    ∃ t', computer_move s t col row cmd = some t' ∧
      t'.log = t.log ++ move_events col row cmd ∧
      moved_from t.game.minefield t'.game.minefield ∧
      marks_kept col row t.game.minefield t'.game.minefield ∧
      (s.autoplay = false → t'.game = t.game) := by
  unfold computer_move
  rcases hcmd with rfl | rfl
  · simp only
    cases ha : s.autoplay
    · simp only [Bool.false_eq_true, if_false]
      exact ⟨_, rfl, by simp [move_events], moved_from_refl _, marks_kept_refl _ _ _,
        fun _ => rfl⟩
    · simp only [if_true]
      obtain ⟨g', e, m1, m2⟩ := make_move_twice t.game col row 1 hb hin
      refine ⟨{ game := g', log := t.log ++ [event_t.move col row moves_t.clear] ++
        [event_t.probability col row (float_t.finite 0)] }, ?_, by simp [move_events], m1, m2,
        fun h => by cases h⟩
      rw [Option.bind_eq_some] at e
      obtain ⟨r1, e1, e2⟩ := e
      rw [Option.map_eq_some'] at e2
      obtain ⟨r2, e2, rfl⟩ := e2
      simp only [e1, Option.some_bind, e2, Option.map_some']
  · simp only
    cases ha : s.autoplay
    · simp only [Bool.false_eq_true, if_false]
      exact ⟨_, rfl, by simp [move_events], moved_from_refl _, marks_kept_refl _ _ _,
        fun _ => rfl⟩
    · simp only [if_true]
      obtain ⟨g', e, m1, m2⟩ := make_move_twice t.game col row 3 hb hin
      refine ⟨{ game := g', log := t.log ++ [event_t.move col row moves_t.flag] ++
        [event_t.probability col row (float_t.finite 1)] }, ?_, by simp [move_events], m1, m2,
        fun h => by cases h⟩
      rw [Option.bind_eq_some] at e
      obtain ⟨r1, e1, e2⟩ := e
      rw [Option.map_eq_some'] at e2
      obtain ⟨r2, e2, rfl⟩ := e2
      simp only [e1, Option.some_bind, e2, Option.map_some']

/-! ## What the analysis leaves in the lists -/

theorem search_list_sites (mf : minefield_t) (list : mine_list_t) :
    (site_positions (search_list mf list).list.cell).Perm (site_positions list.cell) := by
  unfold search_list analyze_list
  simp only
  rw [analyze_list_aux_positions]
  unfold site_positions
  exact (optimize_list_perm _ _).1.map _

theorem analyze_each_sites : ∀ (chain : List mine_list_t) (mf : minefield_t) (m0 M0 : Int),
    (all_sites (analyze_each mf m0 M0 chain).chain).Perm (all_sites chain) := by
  intro chain
  induction chain with
  | nil => intro mf m0 M0; exact List.Perm.refl _
  | cons l ls ih =>
    intro mf m0 M0
    unfold analyze_each
    simp only
    split_ifs
    · simp only [all_sites_cons]
      exact (search_list_sites mf l).append_right _
    · simp only [all_sites_cons]
      exact (search_list_sites mf l).append (ih _ _ _)

theorem analyze_possible_mines_sites (mf : minefield_t) (ml : mine_lists_t) (out : analysis_t)
    (h : analyze_possible_mines mf ml = some out) :
    (all_sites out.mine_lists.first).Perm (all_sites ml.first) ∧
      out.mine_lists.length = ml.length := by
  unfold analyze_possible_mines at h
  simp only at h
  have hp := analyze_each_sites ml.first mf ml.min_flags ml.max_flags
  generalize analyze_each mf ml.min_flags ml.max_flags ml.first = p at h hp
  split_ifs at h
  · cases h; exact ⟨hp, rfl⟩
  · cases h; exact ⟨hp, rfl⟩
  · simp only [Option.map_eq_some'] at h
    obtain ⟨f, hf, rfl⟩ := h
    refine ⟨?_, rfl⟩
    obtain ⟨e1, _, _⟩ := find_retry_list_some _ _ _ _ hf
    have m := (merge_retry_lists_spec f.2.2.1 f.2.1 f.2.2.2.1 f.2.2.2.2).2.1
    refine List.Perm.trans ?_ hp
    rw [e1]
    simp only [all_sites, List.flatMap_append, List.flatMap_cons]
    refine List.Perm.append_left _ ?_
    refine List.Perm.trans ((search_list_sites _ _).append_right _) ?_
    rw [site_positions_reset_list]
    exact m

theorem search_list_bounded (mf : minefield_t) (list : mine_list_t)
    (h0 : ∀ c ∈ list.cell, c.flag_placements = 0)
    (hr : 0 ≤ (search_list mf list).list.arrangements) :
    placements_bounded (search_list mf list).list := by
  unfold search_list at hr ⊢
  simp only at hr ⊢
  unfold analyze_list at hr ⊢
  have hperm := (optimize_list_perm mf list).1
  have hint : placements_int (optimize_list mf list).1 := by
    intro c hc
    rw [h0 c (hperm.mem_iff.1 hc)]
    unfold is_int
    omega
  have b := analyze_list_aux_bounds (optimize_list mf list).1.cell mf (optimize_list mf list).1
    0 0 hint hr
  have hi := (analyze_list_aux_int (optimize_list mf list).1.cell mf
    (optimize_list mf list).1 0 0 hint).1
  refine ⟨hr, ?_⟩
  intro c hc
  simp only at hc
  obtain ⟨j, hj⟩ := List.mem_iff_getElem?.1 hc
  obtain ⟨d, d1, d2, _, d4⟩ := b j
  rw [hj] at d4
  cases hx : (optimize_list mf list).1.cell[j]? with
  | none => rw [hx] at d4; cases d4
  | some c0 =>
    rw [hx, Option.map_some'] at d4
    simp only [Option.some.injEq] at d4
    have hc0 : c0 ∈ list.cell := hperm.mem_iff.1 (List.mem_iff_getElem?.2 ⟨j, hx⟩)
    rw [d4]
    simp only [bump_placements, h0 c0 hc0, zero_add]
    rw [wrap_int_of_is_int d (by unfold is_int at hi ⊢; omega)]
    exact ⟨d1, d2⟩

theorem analyze_each_bounded : ∀ (chain : List mine_list_t) (mf : minefield_t) (m0 M0 : Int),
    (∀ l ∈ chain, ∀ c ∈ l.cell, c.flag_placements = 0) →
    0 ≤ (analyze_each mf m0 M0 chain).result →
    ∀ l ∈ (analyze_each mf m0 M0 chain).chain, placements_bounded l := by
  intro chain
  induction chain with
  | nil => intro mf m0 M0 _ _ l hl; cases hl
  | cons x xs ih =>
    intro mf m0 M0 h0 hr l hl
    unfold analyze_each at hr hl
    simp only at hr hl
    split_ifs at hr hl with hneg
    · simp only at hr
      omega
    · simp only at hr hl
      rcases List.mem_cons.1 hl with rfl | hl
      · exact search_list_bounded mf x (h0 x (List.mem_cons_self _ _)) (by omega)
      · exact ih _ _ _ (fun y hy => h0 y (List.mem_cons_of_mem _ hy)) hr l hl

/-- After an analysis that was not aborted, in every list the `flag_placements` of every site
lies between 0 and `arrangements`. -/
theorem analyze_possible_mines_bounded (mf : minefield_t) (ml : mine_lists_t)
    (out : analysis_t) (h0 : ∀ l ∈ ml.first, ∀ c ∈ l.cell, c.flag_placements = 0)
    (h : analyze_possible_mines mf ml = some out) (hr : 0 ≤ out.result) :
    ∀ l ∈ out.mine_lists.first, placements_bounded l := by
  unfold analyze_possible_mines at h
  simp only at h
  have hb := analyze_each_bounded ml.first mf ml.min_flags ml.max_flags h0
  generalize analyze_each mf ml.min_flags ml.max_flags ml.first = p at h hb
  split_ifs at h with h1 h2
  · cases h
    simp only at hr
    omega
  · cases h
    exact hb (by omega)
  · simp only [Option.map_eq_some'] at h
    obtain ⟨f, hf, rfl⟩ := h
    simp only at hr ⊢
    obtain ⟨e1, _, _⟩ := find_retry_list_some _ _ _ _ hf
    have m := (merge_retry_lists_spec f.2.2.1 f.2.1 f.2.2.2.1 f.2.2.2.2).1
    intro l hl
    rcases List.mem_append.1 hl with hl | hl
    · exact hb (by omega) l (by rw [e1]; exact List.mem_append_left _ hl)
    · rcases List.mem_cons.1 hl with rfl | hl
      · apply search_list_bounded _ _ _ hr
        intro c hc
        simp only [reset_list, List.mem_map] at hc
        obtain ⟨d, _, rfl⟩ := hc
        rfl
      · exact hb (by omega) l (by
          rw [e1]
          exact List.mem_append_right _ (List.mem_cons_of_mem _ (m l hl).1))

theorem find_possible_mines_placements (mf : minefield_t) :
    ∀ l ∈ (find_possible_mines mf MINE_LISTS_INITIALIZER).first,
      ∀ c ∈ l.cell, c.flag_placements = 0 :=
  fun l hl => ((find_possible_mines_chain_ok mf).2.2.2 l hl).2.2.2.2

/-! ## `play_moves` -/

theorem play_moves_cells_spec (s : settings) (arrangements : Int) :
    ∀ (cells : List possible_mine_t) (st : solver_t × Bool),
    sentinel_border st.1.game.minefield →
    (∀ c ∈ cells, in_range st.1.game.minefield c.col c.row) →
    ∃ st', play_moves_cells s arrangements cells st = some st' ∧
      st'.1.log = st.1.log ++ cells.flatMap (site_events arrangements) ∧
      st'.2 = (st.2 || cells.any fun c =>
        decide (c.flag_placements = 0 ∨ c.flag_placements = arrangements)) ∧
      moved_from st.1.game.minefield st'.1.game.minefield ∧
      (s.autoplay = false → st'.1.game = st.1.game) := by
  intro cells
  induction cells with
  | nil =>
    intro st _ _
    exact ⟨st, rfl, by simp, by simp, moved_from_refl _, fun _ => rfl⟩
  | cons cell next ih =>
    intro st hb hin
    have hc := hin cell (List.mem_cons_self _ _)
    unfold play_moves_cells
    by_cases h0 : cell.flag_placements = 0
    · rw [if_pos h0]
      obtain ⟨t, e, l, m, _, k⟩ := computer_move_spec s st.1 cell.col cell.row moves_t.clear
        (Or.inl rfl) hb hc
      obtain ⟨st', e', l', b', m', k'⟩ := ih (t, true) (moved_from_border m hb)
        (fun c hc => (moved_from_in_range m c.col c.row).2
          (hin c (List.mem_cons_of_mem _ hc)))
      refine ⟨st', by rw [e]; exact e', ?_, ?_, moved_from_trans m m', ?_⟩
      · rw [l', l]
        simp [site_events, h0]
      · rw [b']
        simp [h0]
      · intro ha
        rw [k' ha]
        exact k ha
    · rw [if_neg h0]
      by_cases h1 : cell.flag_placements = arrangements
      · rw [if_pos h1]
        obtain ⟨t, e, l, m, _, k⟩ := computer_move_spec s st.1 cell.col cell.row moves_t.flag
          (Or.inr rfl) hb hc
        obtain ⟨st', e', l', b', m', k'⟩ := ih (t, true) (moved_from_border m hb)
          (fun c hc => (moved_from_in_range m c.col c.row).2
            (hin c (List.mem_cons_of_mem _ hc)))
        refine ⟨st', by rw [e]; exact e', ?_, ?_, moved_from_trans m m', ?_⟩
        · rw [l', l, List.flatMap_cons, List.append_assoc]
          unfold site_events
          rw [if_neg h0, if_pos h1]
        · rw [b']
          simp [h1]
        · intro ha
          rw [k' ha]
          exact k ha
      · rw [if_neg h1]
        obtain ⟨st', e', l', b', m', k'⟩ := ih
          ({ st.1 with log := st.1.log ++ [event_t.probability cell.col cell.row
            (float_quotient cell.flag_placements arrangements)] }, st.2) hb
          (fun c hc => hin c (List.mem_cons_of_mem _ hc))
        refine ⟨st', e', ?_, ?_, m', k'⟩
        · rw [l']
          simp [site_events, h0, h1]
        · rw [b']
          simp [h0, h1]

theorem any_map_fun {α β : Type} (f : α → β) (p : β → Bool) (l : List α) :
    (l.map f).any p = l.any fun x => p (f x) := by
  induction l with
  | nil => rfl
  | cons x xs ih => simp only [List.map_cons, List.any_cons, ih]

theorem chain_sites_cons (l : mine_list_t) (chain : List mine_list_t) :
    chain_sites (l :: chain)
      = l.cell.map (fun c => (l.arrangements, c)) ++ chain_sites chain := by
  simp [chain_sites]

theorem play_moves_lists_spec (s : settings) :
    ∀ (chain : List mine_list_t) (st : solver_t × Bool),
    sentinel_border st.1.game.minefield →
    (∀ l ∈ chain, ∀ c ∈ l.cell, in_range st.1.game.minefield c.col c.row) →
    ∃ st', play_moves_lists s chain st = some st' ∧
      st'.1.log = st.1.log ++ (chain_sites chain).flatMap (fun x => site_events x.1 x.2) ∧
      st'.2 = (st.2 || (chain_sites chain).any fun x =>
        decide (x.2.flag_placements = 0 ∨ x.2.flag_placements = x.1)) ∧
      moved_from st.1.game.minefield st'.1.game.minefield ∧
      (s.autoplay = false → st'.1.game = st.1.game) := by
  intro chain
  induction chain with
  | nil =>
    intro st _ _
    exact ⟨st, rfl, by simp [chain_sites], by simp [chain_sites], moved_from_refl _,
      fun _ => rfl⟩
  | cons l ls ih =>
    intro st hb hin
    unfold play_moves_lists
    obtain ⟨t, e, lg, b, m, k⟩ := play_moves_cells_spec s l.arrangements l.cell st hb
      (hin l (List.mem_cons_self _ _))
    obtain ⟨st', e', lg', b', m', k'⟩ := ih t (moved_from_border m hb)
      (fun x hx c hc => (moved_from_in_range m c.col c.row).2
        (hin x (List.mem_cons_of_mem _ hx) c hc))
    refine ⟨st', by rw [e]; exact e', ?_, ?_, moved_from_trans m m', ?_⟩
    · rw [lg', lg, chain_sites_cons, List.flatMap_append, List.append_assoc]
      congr 2
      simp [List.flatMap_map]
    · rw [b', b, chain_sites_cons, List.any_append, Bool.or_assoc, any_map_fun]
    · intro ha
      rw [k' ha]
      exact k ha

theorem chain_sites_positions (chain : List mine_list_t) :
    (chain_sites chain).map (fun x => (x.2.col, x.2.row)) = all_sites chain := by
  unfold chain_sites all_sites site_positions
  simp only [List.map_flatMap, List.map_map]
  rfl

theorem mem_chain_sites (chain : List mine_list_t) (x : Int × possible_mine_t) :
    x ∈ chain_sites chain ↔ ∃ l ∈ chain, x.1 = l.arrangements ∧ x.2 ∈ l.cell := by
  unfold chain_sites
  simp only [List.mem_flatMap, List.mem_map]
  constructor
  · rintro ⟨l, hl, c, hc, rfl⟩
    exact ⟨l, hl, rfl, hc⟩
  · rintro ⟨l, hl, h1, h2⟩
    exact ⟨l, hl, x.2, h2, by rw [← h1]⟩

theorem mem_site_events_move (a : Int) (c : possible_mine_t) (col row : Int) (cmd : moves_t) :
    event_t.move col row cmd ∈ site_events a c ↔
      c.col = col ∧ c.row = row ∧
        ((c.flag_placements = 0 ∧ cmd = moves_t.clear) ∨
         (c.flag_placements ≠ 0 ∧ c.flag_placements = a ∧ cmd = moves_t.flag)) := by
  unfold site_events move_events
  by_cases h0 : c.flag_placements = 0
  · rw [if_pos h0]
    simp only [List.mem_cons, event_t.move.injEq, List.mem_singleton, List.not_mem_nil,
      or_false, reduceCtorEq]
    constructor
    · rintro ⟨h1, h2, h3⟩
      exact ⟨h1.symm, h2.symm, Or.inl ⟨h0, h3⟩⟩
    · rintro ⟨h1, h2, ⟨_, h3⟩ | ⟨h, _, _⟩⟩
      · exact ⟨h1.symm, h2.symm, h3⟩
      · exact absurd h0 h
  · rw [if_neg h0]
    by_cases h1 : c.flag_placements = a
    · rw [if_pos h1]
      simp only [List.mem_cons, event_t.move.injEq, List.mem_singleton, List.not_mem_nil,
        or_false, reduceCtorEq]
      constructor
      · rintro ⟨e1, e2, e3⟩
        exact ⟨e1.symm, e2.symm, Or.inr ⟨h0, h1, e3⟩⟩
      · rintro ⟨e1, e2, ⟨h, _⟩ | ⟨_, _, e3⟩⟩
        · exact absurd h h0
        · exact ⟨e1.symm, e2.symm, e3⟩
    · rw [if_neg h1]
      simp only [List.mem_singleton, reduceCtorEq, false_iff]
      rintro ⟨_, _, ⟨h, _⟩ | ⟨_, h, _⟩⟩
      · exact h0 h
      · exact h1 h

theorem mem_site_events_probability (a : Int) (c : possible_mine_t) (col row : Int)
    (v : float_t) :
    event_t.probability col row v ∈ site_events a c ↔
      c.col = col ∧ c.row = row ∧
        ((c.flag_placements = 0 ∧ v = float_t.finite 0) ∨
         (c.flag_placements ≠ 0 ∧ c.flag_placements = a ∧ v = float_t.finite 1) ∨
         (c.flag_placements ≠ 0 ∧ c.flag_placements ≠ a ∧
           v = float_quotient c.flag_placements a)) := by
  unfold site_events move_events
  by_cases h0 : c.flag_placements = 0
  · rw [if_pos h0]
    simp only [List.mem_cons, event_t.probability.injEq, List.mem_singleton, List.not_mem_nil,
      or_false, reduceCtorEq, false_or, if_false]
    constructor
    · rintro ⟨h1, h2, h3⟩
      exact ⟨h1.symm, h2.symm, Or.inl ⟨h0, h3⟩⟩
    · rintro ⟨h1, h2, ⟨_, h3⟩ | ⟨h, _, _⟩ | ⟨h, _, _⟩⟩
      · exact ⟨h1.symm, h2.symm, h3⟩
      · exact absurd h0 h
      · exact absurd h0 h
  · rw [if_neg h0]
    by_cases h1 : c.flag_placements = a
    · rw [if_pos h1]
      simp only [List.mem_cons, event_t.probability.injEq, List.mem_singleton,
        List.not_mem_nil, or_false, reduceCtorEq, false_or, if_true]
      constructor
      · rintro ⟨e1, e2, e3⟩
        exact ⟨e1.symm, e2.symm, Or.inr (Or.inl ⟨h0, h1, e3⟩)⟩
      · rintro ⟨e1, e2, ⟨h, _⟩ | ⟨_, _, e3⟩ | ⟨_, h, _⟩⟩
        · exact absurd h h0
        · exact ⟨e1.symm, e2.symm, e3⟩
        · exact absurd h1 h
    · rw [if_neg h1]
      simp only [List.mem_singleton, event_t.probability.injEq]
      constructor
      · rintro ⟨e1, e2, e3⟩
        exact ⟨e1.symm, e2.symm, Or.inr (Or.inr ⟨h0, h1, e3⟩)⟩
      · rintro ⟨e1, e2, ⟨h, _⟩ | ⟨_, h, _⟩ | ⟨_, _, e3⟩⟩
        · exact absurd h h0
        · exact absurd h h1
        · exact ⟨e1.symm, e2.symm, e3⟩

theorem chain_sites_unique (chain : List mine_list_t) (hnd : (all_sites chain).Nodup)
    (x y : Int × possible_mine_t) (hx : x ∈ chain_sites chain) (hy : y ∈ chain_sites chain)
    (hc : x.2.col = y.2.col) (hr : x.2.row = y.2.row) : x = y := by
  rw [← chain_sites_positions] at hnd
  exact List.inj_on_of_nodup_map hnd hx hy (by simp only [hc, hr])

theorem quotient_between (a b : Int) (h0 : 0 < a) (h1 : a < b) :
    0 < (a : ℚ) / (b : ℚ) ∧ (a : ℚ) / (b : ℚ) < 1 := by
  have hb : (0 : ℚ) < (b : ℚ) := by exact_mod_cast (by omega : 0 < b)
  have ha : (0 : ℚ) < (a : ℚ) := by exact_mod_cast h0
  refine ⟨div_pos ha hb, ?_⟩
  rw [div_lt_one hb]
  exact_mod_cast h1

/-- The clusters that an analysis of the clusters of `find_possible_mines` leaves, on a board
in the state between the calls: the board is as before, the sites are distinct playable
cells, and if the analysis was not aborted the `flag_placements` are bounded. -/
theorem analysed_chain (mf : minefield_t) (out : analysis_t) (hb : border_inv mf)
    (ha : analyze_possible_mines mf (find_possible_mines mf MINE_LISTS_INITIALIZER)
      = some out) :
    out.mf = mf ∧ (all_sites out.mine_lists.first).Nodup ∧
    (∀ l ∈ out.mine_lists.first, ∀ c ∈ l.cell,
      in_range mf c.col c.row ∧ IS_UNMARKED mf c.col c.row = true) ∧
    (0 ≤ out.result → ∀ l ∈ out.mine_lists.first, placements_bounded l) := by
  obtain ⟨hnd, hs, _, _⟩ := find_possible_mines_chain_ok mf
  obtain ⟨hperm, _⟩ := analyze_possible_mines_sites mf _ out ha
  refine ⟨analyze_possible_mines_mf mf _ (find_possible_mines_unflagged mf hb) out ha,
    hperm.nodup_iff.2 hnd, ?_,
    fun hr => analyze_possible_mines_bounded mf _ out (find_possible_mines_placements mf) ha hr⟩
  intro l hl c hc
  have := hs (c.col, c.row)
    (hperm.mem_iff.1 ((mem_all_sites _ _).2 ⟨l, hl, c, hc, rfl, rfl⟩))
  exact ⟨(mem_playable_cells mf c.col c.row).1 this.1, this.2⟩

/-! ## The claims about the moves -/

/-- C23: after an analysis of the clusters of `find_possible_mines` that was not aborted, on a
board in the state between the calls, `play_moves` returns, and for every site `c` of every
list `l`: a clear move on the site is issued exactly when `flag_placements == 0`; a flag move
exactly when `flag_placements != 0` and `flag_placements == arrangements`; a probability
strictly between 0 and 1 is published for the site exactly in the remaining case, and it is
the rational `flag_placements / arrangements`.  The value returned is TRUE exactly when the
log holds a move. -/
theorem play_moves_spec (s : settings) (g : game_t) (out : analysis_t)
    (hb : border_inv g.minefield)
    (ha : analyze_possible_mines g.minefield
      (find_possible_mines g.minefield MINE_LISTS_INITIALIZER) = some out)
    (hr : 0 ≤ out.result) :
    ∃ r, play_moves s { game := { g with minefield := out.mf }, log := [] } out.mine_lists
        = some r ∧
      (∀ l ∈ out.mine_lists.first, ∀ c ∈ l.cell,
        (event_t.move c.col c.row moves_t.clear ∈ r.1.log ↔ c.flag_placements = 0) ∧
        (event_t.move c.col c.row moves_t.flag ∈ r.1.log ↔
          c.flag_placements ≠ 0 ∧ c.flag_placements = l.arrangements) ∧
        ((∃ q : ℚ, event_t.probability c.col c.row (float_t.finite q) ∈ r.1.log ∧
            0 < q ∧ q < 1) ↔
          c.flag_placements ≠ 0 ∧ c.flag_placements ≠ l.arrangements) ∧
        (c.flag_placements ≠ 0 → c.flag_placements ≠ l.arrangements →
          event_t.probability c.col c.row
            (float_t.finite ((c.flag_placements : ℚ) / (l.arrangements : ℚ))) ∈ r.1.log ∧
          0 < (c.flag_placements : ℚ) / (l.arrangements : ℚ) ∧
          (c.flag_placements : ℚ) / (l.arrangements : ℚ) < 1)) ∧
      (r.2 = true ↔ ∃ col row cmd, event_t.move col row cmd ∈ r.1.log) := by
  obtain ⟨hmf, hnd, hin, hbd⟩ := analysed_chain g.minefield out hb ha
  have hbd := hbd hr
  have hsb : sentinel_border out.mf := by rw [hmf]; exact border_inv_sentinel _ hb
  obtain ⟨r, e, lg, b, _, _⟩ := play_moves_lists_spec s out.mine_lists.first
    ({ game := { g with minefield := out.mf }, log := [] }, false) hsb
    (fun l hl c hc => by
      have := (hin l hl c hc).1
      simp only
      rw [hmf]
      exact this)
  simp only [List.nil_append, Bool.false_or] at lg b
  have hlog : ∀ ev, ev ∈ r.1.log ↔
      ∃ x ∈ chain_sites out.mine_lists.first, ev ∈ site_events x.1 x.2 := by
    intro ev
    rw [lg, List.mem_flatMap]
  refine ⟨r, e, ?_, ?_⟩
  · intro l hl c hc
    have hx0 : (l.arrangements, c) ∈ chain_sites out.mine_lists.first :=
      (mem_chain_sites _ _).2 ⟨l, hl, rfl, hc⟩
    have huniq : ∀ x ∈ chain_sites out.mine_lists.first, x.2.col = c.col → x.2.row = c.row →
        x = (l.arrangements, c) :=
      fun x hx h1 h2 => chain_sites_unique _ hnd x _ hx hx0 h1 h2
    obtain ⟨_, hbc⟩ := hbd l hl
    have hbc := hbc c hc
    have hq : c.flag_placements ≠ 0 → c.flag_placements ≠ l.arrangements →
        float_quotient c.flag_placements l.arrangements
          = float_t.finite ((c.flag_placements : ℚ) / (l.arrangements : ℚ)) ∧
        0 < (c.flag_placements : ℚ) / (l.arrangements : ℚ) ∧
        (c.flag_placements : ℚ) / (l.arrangements : ℚ) < 1 := by
      intro h0 h1
      exact ⟨float_quotient_finite _ _ (by omega),
        quotient_between _ _ (by omega) (by omega)⟩
    refine ⟨?_, ?_, ?_, ?_⟩
    · rw [hlog]
      constructor
      · rintro ⟨x, hx, hev⟩
        rw [mem_site_events_move] at hev
        obtain ⟨h1, h2, h3⟩ := hev
        have := huniq x hx h1 h2
        subst this
        rcases h3 with ⟨h, _⟩ | ⟨_, _, h⟩
        · exact h
        · cases h
      · intro h
        exact ⟨_, hx0, (mem_site_events_move _ _ _ _ _).2 ⟨rfl, rfl, Or.inl ⟨h, rfl⟩⟩⟩
    · rw [hlog]
      constructor
      · rintro ⟨x, hx, hev⟩
        rw [mem_site_events_move] at hev
        obtain ⟨h1, h2, h3⟩ := hev
        have := huniq x hx h1 h2
        subst this
        rcases h3 with ⟨_, h⟩ | ⟨h1, h2, _⟩
        · cases h
        · exact ⟨h1, h2⟩
      · intro h
        exact ⟨_, hx0, (mem_site_events_move _ _ _ _ _).2 ⟨rfl, rfl, Or.inr ⟨h.1, h.2, rfl⟩⟩⟩
    · constructor
      · rintro ⟨q, hev, q0, q1⟩
        rw [hlog] at hev
        obtain ⟨x, hx, hev⟩ := hev
        rw [mem_site_events_probability] at hev
        obtain ⟨h1, h2, h3⟩ := hev
        have := huniq x hx h1 h2
        subst this
        rcases h3 with ⟨_, h⟩ | ⟨_, _, h⟩ | ⟨h1, h2, _⟩
        · simp only [float_t.finite.injEq] at h
          rw [h] at q0
          exact absurd q0 (lt_irrefl _)
        · simp only [float_t.finite.injEq] at h
          rw [h] at q1
          exact absurd q1 (lt_irrefl _)
        · exact ⟨h1, h2⟩
      · rintro ⟨h0, h1⟩
        obtain ⟨e1, e2, e3⟩ := hq h0 h1
        refine ⟨_, ?_, e2, e3⟩
        rw [hlog]
        exact ⟨_, hx0, (mem_site_events_probability _ _ _ _ _).2
          ⟨rfl, rfl, Or.inr (Or.inr ⟨h0, h1, e1.symm⟩)⟩⟩
    · intro h0 h1
      obtain ⟨e1, e2, e3⟩ := hq h0 h1
      refine ⟨?_, e2, e3⟩
      rw [hlog]
      exact ⟨_, hx0, (mem_site_events_probability _ _ _ _ _).2
        ⟨rfl, rfl, Or.inr (Or.inr ⟨h0, h1, e1.symm⟩)⟩⟩
  · rw [b, List.any_eq_true]
    constructor
    · rintro ⟨x, hx, h⟩
      simp only [decide_eq_true_eq] at h
      by_cases h0 : x.2.flag_placements = 0
      · exact ⟨x.2.col, x.2.row, moves_t.clear, (hlog _).2
          ⟨x, hx, (mem_site_events_move _ _ _ _ _).2 ⟨rfl, rfl, Or.inl ⟨h0, rfl⟩⟩⟩⟩
      · have h1 : x.2.flag_placements = x.1 := h.resolve_left h0
        exact ⟨x.2.col, x.2.row, moves_t.flag, (hlog _).2
          ⟨x, hx, (mem_site_events_move _ _ _ _ _).2 ⟨rfl, rfl, Or.inr ⟨h0, h1, rfl⟩⟩⟩⟩
    · rintro ⟨col, row, cmd, hev⟩
      rw [hlog] at hev
      obtain ⟨x, hx, hev⟩ := hev
      rw [mem_site_events_move] at hev
      refine ⟨x, hx, ?_⟩
      simp only [decide_eq_true_eq]
      rcases hev.2.2 with ⟨h, _⟩ | ⟨_, h, _⟩
      · exact Or.inl h
      · exact Or.inr h


theorem centre_opened_border : border_inv centre_opened.minefield := by
  unfold border_inv
  decide

theorem centre_analysis_eq :
    analyze_possible_mines centre_opened.minefield
      (find_possible_mines centre_opened.minefield MINE_LISTS_INITIALIZER)
      = some centre_analysis := by
  have h : (analyze_possible_mines centre_opened.minefield
      (find_possible_mines centre_opened.minefield MINE_LISTS_INITIALIZER)).isSome = true := by
    decide
  unfold centre_analysis
  cases hx : analyze_possible_mines centre_opened.minefield
      (find_possible_mines centre_opened.minefield MINE_LISTS_INITIALIZER) with
  | none => rw [hx] at h; cases h
  | some x => rfl

/-- C23, at a concrete input: the round on `centre_opened`, whose three sites are each mined
in one arrangement of three. -/
theorem play_moves_spec_witness :
    ∃ r, play_moves autoplay_settings { game := { centre_opened with minefield := centre_analysis.mf }, log := [] } centre_analysis.mine_lists
        = some r ∧
      (∀ l ∈ centre_analysis.mine_lists.first, ∀ c ∈ l.cell,
        (event_t.move c.col c.row moves_t.clear ∈ r.1.log ↔ c.flag_placements = 0) ∧
        (event_t.move c.col c.row moves_t.flag ∈ r.1.log ↔
          c.flag_placements ≠ 0 ∧ c.flag_placements = l.arrangements) ∧
        ((∃ q : ℚ, event_t.probability c.col c.row (float_t.finite q) ∈ r.1.log ∧
            0 < q ∧ q < 1) ↔
          c.flag_placements ≠ 0 ∧ c.flag_placements ≠ l.arrangements) ∧
        (c.flag_placements ≠ 0 → c.flag_placements ≠ l.arrangements →
          event_t.probability c.col c.row
            (float_t.finite ((c.flag_placements : ℚ) / (l.arrangements : ℚ))) ∈ r.1.log ∧
          0 < (c.flag_placements : ℚ) / (l.arrangements : ℚ) ∧
          (c.flag_placements : ℚ) / (l.arrangements : ℚ) < 1)) ∧
      (r.2 = true ↔ ∃ col row cmd, event_t.move col row cmd ∈ r.1.log) :=
  play_moves_spec autoplay_settings centre_opened centre_analysis centre_opened_border
    centre_analysis_eq (by decide)

/-! ## `check_nonborder_sites` -/

theorem is_possible_mine_iff (col row : Int) (ml : mine_lists_t) :
    is_possible_mine col row ml = true ↔ (col, row) ∈ all_sites ml.first := by
  unfold is_possible_mine
  rw [mem_all_sites]
  simp only [List.any_eq_true, decide_eq_true_eq]

theorem is_possible_mine_false_iff (col row : Int) (ml : mine_lists_t) :
    is_possible_mine col row ml = false ↔ (col, row) ∉ all_sites ml.first := by
  rw [← is_possible_mine_iff, Bool.not_eq_true]

theorem check_nonborder_scan_spec (s : settings) (ml : mine_lists_t) (action : moves_t)
    (hcmd : action = moves_t.clear ∨ action = moves_t.flag) :
    ∀ (ps : List (Int × Int)) (st : solver_t × Bool), ps.Nodup →
    sentinel_border st.1.game.minefield →
    (∀ p ∈ ps, in_range st.1.game.minefield p.1 p.2) →
    ∃ (st' : solver_t × Bool) (issued : List (Int × Int)),
      check_nonborder_scan s ml action ps st = some st' ∧
      st'.1.log = st.1.log ++ issued.flatMap (fun p => move_events p.1 p.2 action) ∧
      st'.2 = (st.2 || !issued.isEmpty) ∧
      issued.Sublist ps ∧
      (∀ p ∈ issued, IS_UNMARKED st.1.game.minefield p.1 p.2 = true ∧
        is_possible_mine p.1 p.2 ml = false) ∧
      (∀ p ∈ ps, is_possible_mine p.1 p.2 ml = false →
        IS_UNMARKED st'.1.game.minefield p.1 p.2 = true → p ∈ issued) ∧
      (∀ q : Int × Int, q ∉ ps → IS_UNMARKED st'.1.game.minefield q.1 q.2 = true →
        IS_UNMARKED st.1.game.minefield q.1 q.2 = true) ∧
      moved_from st.1.game.minefield st'.1.game.minefield ∧
      (s.autoplay = false → st'.1.game = st.1.game) := by
  intro ps
  induction ps with
  | nil =>
    intro st _ _ _
    exact ⟨st, [], rfl, by simp, by simp, List.Sublist.slnil,
      fun p hp => absurd hp (List.not_mem_nil p), fun p hp => absurd hp (List.not_mem_nil p),
      fun _ _ h => h, moved_from_refl _, fun _ => rfl⟩
  | cons p rest ih =>
    intro st hnd hb hin
    rw [List.nodup_cons] at hnd
    have hp := hin p (List.mem_cons_self _ _)
    unfold check_nonborder_scan
    by_cases hc : (IS_UNMARKED st.1.game.minefield p.1 p.2 &&
        !is_possible_mine p.1 p.2 ml) = true
    · rw [if_pos hc]
      simp only [Bool.and_eq_true, Bool.not_eq_true'] at hc
      obtain ⟨t, e, l, m, mk, k⟩ := computer_move_spec s st.1 p.1 p.2 action hcmd hb hp
      obtain ⟨st', issued, e', l', b', sub, i1, i2, i3, m', k'⟩ := ih (t, true) hnd.2
        (moved_from_border m hb)
        (fun q hq => (moved_from_in_range m q.1 q.2).2 (hin q (List.mem_cons_of_mem _ hq)))
      have hne : ∀ q : Int × Int, q ≠ p → ¬ (q.1 = p.1 ∧ q.2 = p.2) :=
        fun q hq h => hq (Prod.ext h.1 h.2)
      refine ⟨st', p :: issued, by rw [e]; exact e', ?_, ?_, sub.cons₂ p, ?_, ?_, ?_,
        moved_from_trans m m', ?_⟩
      · rw [l', l]
        simp
      · rw [b']
        simp
      · intro q hq
        rcases List.mem_cons.1 hq with rfl | hq
        · exact hc
        · have hqr : q ∈ rest := sub.subset hq
          have hqp : q ≠ p := fun h => hnd.1 (h ▸ hqr)
          exact ⟨unmarked_of_marks_kept mk q.1 q.2 (hne q hqp) (i1 q hq).1, (i1 q hq).2⟩
      · intro q hq hposs hu
        rcases List.mem_cons.1 hq with rfl | hq
        · exact List.mem_cons_self _ _
        · exact List.mem_cons_of_mem _ (i2 q hq hposs hu)
      · intro q hq hu
        have hqp : q ≠ p := fun h => hq (h ▸ List.mem_cons_self _ _)
        exact unmarked_of_marks_kept mk q.1 q.2 (hne q hqp)
          (i3 q (fun h => hq (List.mem_cons_of_mem _ h)) hu)
      · intro ha
        rw [k' ha]
        exact k ha
    · rw [if_neg hc]
      obtain ⟨st', issued, e', l', b', sub, i1, i2, i3, m', k'⟩ := ih st hnd.2 hb
        (fun q hq => hin q (List.mem_cons_of_mem _ hq))
      refine ⟨st', issued, e', l', b', sub.cons p, i1, ?_, ?_, m', k'⟩
      · intro q hq hposs hu
        rcases List.mem_cons.1 hq with rfl | hq
        · exfalso
          apply hc
          rw [Bool.and_eq_true]
          exact ⟨i3 q hnd.1 hu, by rw [hposs]; rfl⟩
        · exact i2 q hq hposs hu
      · intro q hq hu
        exact i3 q (fun h => hq (List.mem_cons_of_mem _ h)) hu

set_option maxRecDepth 100000 in
/-- C24 as stated fails: on `mineless_game`, a 5 x 5 board without a mine on which nothing is
cleared, there is no cluster and `flags + min_flags == mines`; the cell `(5, 5)` is unmarked
and outside all clusters; with automatic play `check_nonborder_sites` returns TRUE after a
single clear move, on `(1, 1)`, whose flood fill clears the whole board: no move is issued
on `(5, 5)`. -/
theorem check_nonborder_sites_every_refuted :
    (find_possible_mines mineless_board MINE_LISTS_INITIALIZER).first = [] ∧
    mineless_board.flags + (find_possible_mines mineless_board MINE_LISTS_INITIALIZER).min_flags
      = mineless_board.mines ∧
    IS_UNMARKED mineless_board 5 5 = true ∧
    is_possible_mine 5 5 (find_possible_mines mineless_board MINE_LISTS_INITIALIZER) = false ∧
    (check_nonborder_sites autoplay_settings mineless_start
      (find_possible_mines mineless_board MINE_LISTS_INITIALIZER)).map
        (fun r => (r.1.log, r.2, IS_CLEARED r.1.game.minefield 5 5))
      = some ([event_t.move 1 1 moves_t.clear, event_t.probability 1 1 (float_t.finite 0)],
          true, true) := by
  decide

/-- C24, amended: on a board with its sentinel border `check_nonborder_sites` returns.  When
`flags + min_flags == mines` its moves are clear moves; otherwise, when
`mines - flags - max_flags == unmarked - length`, they are flag moves; otherwise it issues no
move, leaves the game as it is and returns FALSE.  The cells `issued` that get a move are taken
in the order of the scan, each once; each of them was unmarked at the call and is outside
all clusters; every playable cell outside all clusters that is unmarked on the board the
function leaves has got a move (a cell that an earlier move of the scan has cleared gets
none); without automatic play the board is not changed, so that every cell that was unmarked
at the call and is outside all clusters gets a move.  The value returned is TRUE exactly when
a move was issued.  And the field `length` of the clusters of `find_possible_mines` is the
total number of their sites, also after `analyze_possible_mines` has merged clusters. -/
theorem check_nonborder_sites_spec (s : settings) (t : solver_t) (ml : mine_lists_t)
    (hb : sentinel_border t.game.minefield) :
    (∃ (r : solver_t × Bool) (issued : List (Int × Int)),
      check_nonborder_sites s t ml = some r ∧
      (r.2 = true ↔ issued ≠ []) ∧
      (t.game.minefield.flags + ml.min_flags = t.game.minefield.mines →
        r.1.log = t.log ++ issued.flatMap (fun p =>
          [event_t.move p.1 p.2 moves_t.clear,
           event_t.probability p.1 p.2 (float_t.finite 0)])) ∧
      (¬ t.game.minefield.flags + ml.min_flags = t.game.minefield.mines →
        t.game.minefield.mines - t.game.minefield.flags - ml.max_flags
          = t.game.minefield.unmarked - ml.length →
        r.1.log = t.log ++ issued.flatMap (fun p =>
          [event_t.move p.1 p.2 moves_t.flag,
           event_t.probability p.1 p.2 (float_t.finite 1)])) ∧
      (¬ t.game.minefield.flags + ml.min_flags = t.game.minefield.mines →
        ¬ t.game.minefield.mines - t.game.minefield.flags - ml.max_flags
          = t.game.minefield.unmarked - ml.length →
        issued = [] ∧ r.1.log = t.log ∧ r.1.game = t.game) ∧
      issued.Sublist (playable_cells t.game.minefield) ∧
      (∀ p ∈ issued, IS_UNMARKED t.game.minefield p.1 p.2 = true ∧ p ∉ all_sites ml.first) ∧
      (t.game.minefield.flags + ml.min_flags = t.game.minefield.mines ∨
        t.game.minefield.mines - t.game.minefield.flags - ml.max_flags
          = t.game.minefield.unmarked - ml.length →
        ∀ p ∈ playable_cells t.game.minefield, p ∉ all_sites ml.first →
          IS_UNMARKED r.1.game.minefield p.1 p.2 = true → p ∈ issued) ∧
      (s.autoplay = false → r.1.game = t.game ∧
        (t.game.minefield.flags + ml.min_flags = t.game.minefield.mines ∨
          t.game.minefield.mines - t.game.minefield.flags - ml.max_flags
            = t.game.minefield.unmarked - ml.length →
          ∀ p ∈ playable_cells t.game.minefield, p ∉ all_sites ml.first →
            IS_UNMARKED t.game.minefield p.1 p.2 = true → p ∈ issued))) ∧
    (∀ mf : minefield_t,
      (find_possible_mines mf MINE_LISTS_INITIALIZER).length
        = ((all_sites (find_possible_mines mf MINE_LISTS_INITIALIZER).first).length : Int) ∧
      ∀ out, analyze_possible_mines mf (find_possible_mines mf MINE_LISTS_INITIALIZER)
          = some out →
        out.mine_lists.length = ((all_sites out.mine_lists.first).length : Int)) := by
  refine ⟨?_, ?_⟩
  · have scan : ∀ action, action = moves_t.clear ∨ action = moves_t.flag →
        ∃ (r : solver_t × Bool) (issued : List (Int × Int)),
          check_nonborder_scan s ml action (playable_cells t.game.minefield) (t, false)
            = some r ∧
          (r.2 = true ↔ issued ≠ []) ∧
          r.1.log = t.log ++ issued.flatMap (fun p => move_events p.1 p.2 action) ∧
          issued.Sublist (playable_cells t.game.minefield) ∧
          (∀ p ∈ issued, IS_UNMARKED t.game.minefield p.1 p.2 = true ∧
            p ∉ all_sites ml.first) ∧
          (∀ p ∈ playable_cells t.game.minefield, p ∉ all_sites ml.first →
            IS_UNMARKED r.1.game.minefield p.1 p.2 = true → p ∈ issued) ∧
          (s.autoplay = false → r.1.game = t.game) := by
      intro action hcmd
      obtain ⟨r, issued, e, l, b, sub, i1, i2, _, _, k⟩ := check_nonborder_scan_spec s ml action
        hcmd (playable_cells t.game.minefield) (t, false) (nodup_playable_cells _) hb
        (fun p hp => (mem_playable_cells _ p.1 p.2).1 hp)
      refine ⟨r, issued, e, ?_, l, sub, ?_, ?_, k⟩
      · rw [b]
        cases issued <;> simp
      · intro p hp
        exact ⟨(i1 p hp).1, (is_possible_mine_false_iff p.1 p.2 ml).1 (i1 p hp).2⟩
      · intro p hp hs hu
        exact i2 p hp ((is_possible_mine_false_iff p.1 p.2 ml).2 hs) hu
    unfold check_nonborder_sites
    simp only
    by_cases c1 : t.game.minefield.flags + ml.min_flags = t.game.minefield.mines
    · rw [if_pos c1]
      obtain ⟨r, issued, e, b, l, sub, i1, i2, k⟩ := scan moves_t.clear (Or.inl rfl)
      refine ⟨r, issued, e, b, fun _ => ?_, fun h => absurd c1 h, fun h => absurd c1 h, sub, i1,
        fun _ => i2, fun ha => ⟨k ha, fun _ p hp hs hu => i2 p hp hs (by rw [k ha]; exact hu)⟩⟩
      rw [l]
      simp [move_events]
    · rw [if_neg c1]
      by_cases c2 : t.game.minefield.mines - t.game.minefield.flags - ml.max_flags
          = t.game.minefield.unmarked - ml.length
      · rw [if_pos c2]
        obtain ⟨r, issued, e, b, l, sub, i1, i2, k⟩ := scan moves_t.flag (Or.inr rfl)
        refine ⟨r, issued, e, b, fun h => absurd h c1, fun _ _ => ?_, fun _ h => absurd c2 h,
          sub, i1, fun _ => i2,
          fun ha => ⟨k ha, fun _ p hp hs hu => i2 p hp hs (by rw [k ha]; exact hu)⟩⟩
        rw [l]
        simp [move_events]
      · rw [if_neg c2]
        refine ⟨(t, false), [], rfl, by simp, fun h => absurd h c1, fun _ h => absurd h c2,
          fun _ _ => ⟨rfl, rfl, rfl⟩, List.nil_sublist _,
          fun p hp => absurd hp (List.not_mem_nil p), fun h => ?_, fun _ => ⟨rfl, fun h => ?_⟩⟩
        · rcases h with h | h
          · exact absurd h c1
          · exact absurd h c2
        · rcases h with h | h
          · exact absurd h c1
          · exact absurd h c2
  · intro mf
    refine ⟨find_possible_mines_length mf, ?_⟩
    intro out ha
    obtain ⟨hperm, hlen⟩ := analyze_possible_mines_sites mf _ out ha
    rw [hlen, hperm.length_eq]
    exact find_possible_mines_length mf

theorem mineless_board_border : sentinel_border mineless_board := by
  unfold sentinel_border
  decide

/-- C24, at a concrete input: `mineless_game` with automatic play and no cluster. -/
theorem check_nonborder_sites_spec_witness :
    (∃ (r : solver_t × Bool) (issued : List (Int × Int)),
      check_nonborder_sites autoplay_settings mineless_start
          MINE_LISTS_INITIALIZER = some r ∧
      (r.2 = true ↔ issued ≠ []) ∧
      (mineless_start.game.minefield.flags + MINE_LISTS_INITIALIZER.min_flags = mineless_start.game.minefield.mines →
        r.1.log = mineless_start.log ++ issued.flatMap (fun p =>
          [event_t.move p.1 p.2 moves_t.clear,
           event_t.probability p.1 p.2 (float_t.finite 0)])) ∧
      (¬ mineless_start.game.minefield.flags + MINE_LISTS_INITIALIZER.min_flags = mineless_start.game.minefield.mines →
        mineless_start.game.minefield.mines - mineless_start.game.minefield.flags - MINE_LISTS_INITIALIZER.max_flags
          = mineless_start.game.minefield.unmarked - MINE_LISTS_INITIALIZER.length →
        r.1.log = mineless_start.log ++ issued.flatMap (fun p =>
          [event_t.move p.1 p.2 moves_t.flag,
           event_t.probability p.1 p.2 (float_t.finite 1)])) ∧
      (¬ mineless_start.game.minefield.flags + MINE_LISTS_INITIALIZER.min_flags = mineless_start.game.minefield.mines →
        ¬ mineless_start.game.minefield.mines - mineless_start.game.minefield.flags - MINE_LISTS_INITIALIZER.max_flags
          = mineless_start.game.minefield.unmarked - MINE_LISTS_INITIALIZER.length →
        issued = [] ∧ r.1.log = mineless_start.log ∧ r.1.game = mineless_start.game) ∧
      issued.Sublist (playable_cells mineless_start.game.minefield) ∧
      (∀ p ∈ issued, IS_UNMARKED mineless_start.game.minefield p.1 p.2 = true ∧ p ∉ all_sites MINE_LISTS_INITIALIZER.first) ∧
      (mineless_start.game.minefield.flags + MINE_LISTS_INITIALIZER.min_flags = mineless_start.game.minefield.mines ∨
        mineless_start.game.minefield.mines - mineless_start.game.minefield.flags - MINE_LISTS_INITIALIZER.max_flags
          = mineless_start.game.minefield.unmarked - MINE_LISTS_INITIALIZER.length →
        ∀ p ∈ playable_cells mineless_start.game.minefield, p ∉ all_sites MINE_LISTS_INITIALIZER.first →
          IS_UNMARKED r.1.game.minefield p.1 p.2 = true → p ∈ issued) ∧
      (autoplay_settings.autoplay = false → r.1.game = mineless_start.game ∧
        (mineless_start.game.minefield.flags + MINE_LISTS_INITIALIZER.min_flags = mineless_start.game.minefield.mines ∨
          mineless_start.game.minefield.mines - mineless_start.game.minefield.flags - MINE_LISTS_INITIALIZER.max_flags
            = mineless_start.game.minefield.unmarked - MINE_LISTS_INITIALIZER.length →
          ∀ p ∈ playable_cells mineless_start.game.minefield, p ∉ all_sites MINE_LISTS_INITIALIZER.first →
            IS_UNMARKED mineless_start.game.minefield p.1 p.2 = true → p ∈ issued))) ∧
    (∀ mf : minefield_t,
      (find_possible_mines mf MINE_LISTS_INITIALIZER).length
        = ((all_sites (find_possible_mines mf MINE_LISTS_INITIALIZER).first).length : Int) ∧
      ∀ out, analyze_possible_mines mf (find_possible_mines mf MINE_LISTS_INITIALIZER)
          = some out →
        out.mine_lists.length = ((all_sites out.mine_lists.first).length : Int)) :=
  check_nonborder_sites_spec autoplay_settings mineless_start MINE_LISTS_INITIALIZER
    mineless_board_border

/-! ## `do_nonborder_probabilities` -/

theorem mean_flags_fold : ∀ (chain : List mine_list_t) (n : Int) (x : ℚ),
    chain.foldl mean_flags_step (n, x)
      = (n + ((all_sites chain).length : Int),
         x - ((chain.filter fun l => decide (l.arrangements > 0)).map
            fun l => (l.sum_flags : ℚ) / (l.arrangements : ℚ)).sum) := by
  intro chain
  induction chain with
  | nil => intro n x; simp [all_sites]
  | cons l ls ih =>
    intro n x
    rw [List.foldl_cons, mean_flags_step, ih, all_sites_cons, List.length_append]
    have hl : ((site_positions l.cell).length : Int) = l.length := by
      simp [site_positions, mine_list_t.length]
    by_cases h : l.arrangements > 0
    · simp only [h, if_true, List.filter_cons, decide_True, List.map_cons, List.sum_cons]
      refine Prod.ext ?_ ?_
      · simp only
        rw [← hl]
        push_cast
        ring
      · simp only
        ring
    · simp only [h, if_false, List.filter_cons, decide_False, Bool.false_eq_true]
      refine Prod.ext ?_ rfl
      simp only
      rw [← hl]
      push_cast
      ring

theorem mean_flags_eq (mf : minefield_t) (ml : mine_lists_t) :
    mean_flags mf ml = (((all_sites ml.first).length : Int), mean_numerator mf ml) := by
  unfold mean_flags mean_numerator
  rw [mean_flags_fold, zero_add]

/-- The value that `do_nonborder_probabilities` publishes, by the cases of its division. -/
theorem nonborder_probability_cases (mf : minefield_t) (ml : mine_lists_t) :
    (mf.unmarked - ((all_sites ml.first).length : Int) ≠ 0 →
      nonborder_probability mf ml = float_t.finite (max 0 (min 1 (mean_numerator mf ml /
        ((mf.unmarked - ((all_sites ml.first).length : Int) : Int) : ℚ))))) ∧
    (mf.unmarked - ((all_sites ml.first).length : Int) = 0 → 0 < mean_numerator mf ml →
      nonborder_probability mf ml = float_t.finite 1) ∧
    (mf.unmarked - ((all_sites ml.first).length : Int) = 0 → mean_numerator mf ml < 0 →
      nonborder_probability mf ml = float_t.finite 0) ∧
    (mf.unmarked - ((all_sites ml.first).length : Int) = 0 → mean_numerator mf ml = 0 →
      nonborder_probability mf ml = float_t.nan) := by
  unfold nonborder_probability
  rw [mean_flags_eq]
  simp only
  generalize mean_numerator mf ml = X
  generalize mf.unmarked - ((all_sites ml.first).length : Int) = Y
  refine ⟨?_, ?_, ?_, ?_⟩
  · intro hY
    unfold float_div
    rw [if_neg hY]
    generalize X / (Y : ℚ) = q
    by_cases h0 : q < 0
    · have e1 : (float_t.finite q).lt_zero = true := by simp [float_t.lt_zero, h0]
      rw [e1]
      simp only [if_true]
      have e2 : (float_t.finite 0).gt_one = false := by simp [float_t.gt_one]
      rw [e2]
      simp only [Bool.false_eq_true, if_false]
      congr 1
      rw [min_eq_right (by linarith), max_eq_left (by linarith)]
    · have e1 : (float_t.finite q).lt_zero = false := by simp [float_t.lt_zero, h0]
      rw [e1]
      simp only [Bool.false_eq_true, if_false]
      by_cases h1 : 1 < q
      · have e2 : (float_t.finite q).gt_one = true := by simp [float_t.gt_one, h1]
        rw [e2]
        simp only [if_true]
        congr 1
        rw [min_eq_left (by linarith), max_eq_right (by linarith)]
      · have e2 : (float_t.finite q).gt_one = false := by simp [float_t.gt_one, h1]
        rw [e2]
        simp only [Bool.false_eq_true, if_false]
        congr 1
        rw [min_eq_right (by linarith), max_eq_right (by linarith)]
  · intro hY hX
    have hne : X ≠ 0 := ne_of_gt hX
    have e0 : decide (X < 0) = false := decide_eq_false (not_lt.2 hX.le)
    simp [float_div, hY, hne, e0, float_t.lt_zero, float_t.gt_one]
  · intro hY hX
    have hne : X ≠ 0 := ne_of_lt hX
    have e0 : decide (X < 0) = true := decide_eq_true hX
    simp [float_div, hY, hne, e0, float_t.lt_zero, float_t.gt_one]
  · intro hY hX
    simp [float_div, hY, hX, float_t.lt_zero, float_t.gt_one]

theorem unmarked_count_eq (mf : minefield_t) :
    unmarked_count mf
      = ((playable_cells mf).filter fun q => IS_UNMARKED mf q.1 q.2).length := by
  unfold unmarked_count count_cells
  rw [List.countP_eq_length_filter]
  rfl

/-- On a board whose counter `unmarked` counts its unmarked cells, if the sites of the
clusters are distinct unmarked playable cells and some unmarked playable cell is outside all
clusters, the divisor `unmarked - border_cells` is positive. -/
theorem nonborder_divisor_pos (mf : minefield_t) (chain : List mine_list_t)
    (hc : mf.unmarked = unmarked_count mf) (hnd : (all_sites chain).Nodup)
    (hs : ∀ p ∈ all_sites chain, p ∈ playable_cells mf ∧ IS_UNMARKED mf p.1 p.2 = true)
    (c r : Int) (hin : in_range mf c r) (hu : IS_UNMARKED mf c r = true)
    (hout : (c, r) ∉ all_sites chain) :
    0 < mf.unmarked - ((all_sites chain).length : Int) := by
  have hnd2 : ((c, r) :: all_sites chain).Nodup := List.nodup_cons.2 ⟨hout, hnd⟩
  have hsub : (c, r) :: all_sites chain ⊆
      (playable_cells mf).filter fun q => IS_UNMARKED mf q.1 q.2 := by
    intro q hq
    rw [List.mem_filter]
    rcases List.mem_cons.1 hq with rfl | hq
    · exact ⟨(mem_playable_cells mf c r).2 hin, hu⟩
    · exact hs q hq
  have hle := (hnd2.subperm hsub).length_le
  rw [List.length_cons, ← unmarked_count_eq] at hle
  rw [hc]
  omega

/-! ## The claims about the mean density -/

set_option maxRecDepth 100000 in
/-- C25 as stated fails: on `miscounted_board`, whose counter `unmarked` is 0 while 25 cells
are unmarked, there is no cluster, `mines - flags` is 0 and `unmarked - border_cells` is 0:
the quotient is a NaN, which neither `prob < 0.0` nor `prob > 1.0` catches, and
`do_nonborder_probabilities` publishes it; so does `solve_minefield` with
`do_full_analysis` set and no automatic play. -/
theorem nonborder_probability_nan_refuted :
    (find_possible_mines miscounted_board MINE_LISTS_INITIALIZER).first = [] ∧
    nonborder_probability miscounted_board
      (find_possible_mines miscounted_board MINE_LISTS_INITIALIZER) = float_t.nan ∧
    event_t.probability 1 1 float_t.nan ∈ (do_nonborder_probabilities miscounted_start
      (find_possible_mines miscounted_board MINE_LISTS_INITIALIZER)).log ∧
    (solve_minefield SETTINGS_INITIALIZER miscounted_game true).map
        (fun r => decide (event_t.probability 1 1 float_t.nan ∈ r.1.log)) = some true := by
  decide

/-- C25, amended: `do_nonborder_probabilities` leaves the game as it is and publishes one and
the same value `p` to every unmarked playable cell outside all clusters, and nothing else.
With `X = mines - flags - (sum over the lists with arrangements > 0 of
sum_flags/arrangements)` as a rational number and `Y = unmarked - (total number of cluster
sites)`: if `Y` is not 0, `p` is `X / Y` clamped to `[0, 1]`; if `Y` is 0, `p` is 1.0 for
`X > 0`, 0.0 for `X < 0` and a NaN for `X = 0`.  Hence `0 <= p <= 1` unless `X` and `Y` are
both 0; and the divisor `Y` is positive whenever something is published on a board whose
counter `unmarked` counts its unmarked cells and whose cluster sites are distinct unmarked
playable cells. -/
theorem do_nonborder_probabilities_spec (t : solver_t) (ml : mine_lists_t) :
    (do_nonborder_probabilities t ml).game = t.game ∧
    ∃ (new : List event_t) (p : float_t),
      (do_nonborder_probabilities t ml).log = t.log ++ new ∧
      (∀ e ∈ new, ∃ c r, e = event_t.probability c r p ∧ in_range t.game.minefield c r ∧
        IS_UNMARKED t.game.minefield c r = true ∧ (c, r) ∉ all_sites ml.first) ∧
      (∀ c r, in_range t.game.minefield c r → IS_UNMARKED t.game.minefield c r = true →
        (c, r) ∉ all_sites ml.first → event_t.probability c r p ∈ new) ∧
      (t.game.minefield.unmarked - ((all_sites ml.first).length : Int) ≠ 0 →
        p = float_t.finite (max 0 (min 1 (mean_numerator t.game.minefield ml /
          ((t.game.minefield.unmarked - ((all_sites ml.first).length : Int) : Int) : ℚ))))) ∧
      (t.game.minefield.unmarked - ((all_sites ml.first).length : Int) = 0 →
        0 < mean_numerator t.game.minefield ml → p = float_t.finite 1) ∧
      (t.game.minefield.unmarked - ((all_sites ml.first).length : Int) = 0 →
        mean_numerator t.game.minefield ml < 0 → p = float_t.finite 0) ∧
      (t.game.minefield.unmarked - ((all_sites ml.first).length : Int) = 0 →
        mean_numerator t.game.minefield ml = 0 → p = float_t.nan) ∧
      (t.game.minefield.unmarked - ((all_sites ml.first).length : Int) ≠ 0 ∨
          mean_numerator t.game.minefield ml ≠ 0 →
        ∃ q : ℚ, p = float_t.finite q ∧ 0 ≤ q ∧ q ≤ 1) ∧
      (t.game.minefield.unmarked = unmarked_count t.game.minefield →
        (all_sites ml.first).Nodup →
        (∀ s ∈ all_sites ml.first, s ∈ playable_cells t.game.minefield ∧
          IS_UNMARKED t.game.minefield s.1 s.2 = true) →
        new ≠ [] → 0 < t.game.minefield.unmarked - ((all_sites ml.first).length : Int)) := by
  obtain ⟨k1, k2, k3, k4⟩ := nonborder_probability_cases t.game.minefield ml
  have hmem : ∀ e, e ∈ ((playable_cells t.game.minefield).filter fun p =>
        IS_UNMARKED t.game.minefield p.1 p.2 && !is_possible_mine p.1 p.2 ml).map
        (fun p => event_t.probability p.1 p.2 (nonborder_probability t.game.minefield ml)) ↔
      ∃ c r, e = event_t.probability c r (nonborder_probability t.game.minefield ml) ∧
        in_range t.game.minefield c r ∧ IS_UNMARKED t.game.minefield c r = true ∧
        (c, r) ∉ all_sites ml.first := by
    intro e
    simp only [List.mem_map, List.mem_filter, Bool.and_eq_true, Bool.not_eq_true']
    constructor
    · rintro ⟨⟨c, r⟩, ⟨h1, h2, h3⟩, rfl⟩
      exact ⟨c, r, rfl, (mem_playable_cells _ c r).1 h1, h2,
        (is_possible_mine_false_iff c r ml).1 h3⟩
    · rintro ⟨c, r, rfl, h1, h2, h3⟩
      exact ⟨(c, r), ⟨(mem_playable_cells _ c r).2 h1, h2,
        (is_possible_mine_false_iff c r ml).2 h3⟩, rfl⟩
  refine ⟨rfl, _, nonborder_probability t.game.minefield ml, rfl, fun e he => (hmem e).1 he,
    fun c r h1 h2 h3 => (hmem _).2 ⟨c, r, rfl, h1, h2, h3⟩, k1, k2, k3, k4, ?_, ?_⟩
  · intro h
    by_cases hY : t.game.minefield.unmarked - ((all_sites ml.first).length : Int) = 0
    · rcases lt_trichotomy (mean_numerator t.game.minefield ml) 0 with hX | hX | hX
      · exact ⟨0, k3 hY hX, le_refl _, zero_le_one⟩
      · rcases h with h | h
        · exact absurd hY h
        · exact absurd hX h
      · exact ⟨1, k2 hY hX, zero_le_one, le_refl _⟩
    · exact ⟨_, k1 hY, le_max_left _ _, max_le zero_le_one (min_le_left _ _)⟩
  · intro hc hnd hs hne
    obtain ⟨e, he⟩ := List.exists_mem_of_ne_nil _ hne
    obtain ⟨c, r, _, h1, h2, h3⟩ := (hmem e).1 he
    exact nonborder_divisor_pos _ _ hc hnd hs c r h1 h2 h3

/-! ## `solve_minefield` -/

theorem do_nonborder_probabilities_moves (t : solver_t) (ml : mine_lists_t) (col row : Int)
    (cmd : moves_t) :
    event_t.move col row cmd ∈ (do_nonborder_probabilities t ml).log ↔
      event_t.move col row cmd ∈ t.log := by
  unfold do_nonborder_probabilities
  simp only [List.mem_append, List.mem_map, reduceCtorEq, and_false, exists_false, or_false]

theorem do_nonborder_probabilities_log (t : solver_t) (ml : mine_lists_t) (e : event_t) :
    e ∈ (do_nonborder_probabilities t ml).log ↔ e ∈ t.log ∨
      ∃ c r, e = event_t.probability c r (nonborder_probability t.game.minefield ml) ∧
        in_range t.game.minefield c r ∧ IS_UNMARKED t.game.minefield c r = true ∧
        (c, r) ∉ all_sites ml.first := by
  unfold do_nonborder_probabilities
  simp only [List.mem_append, List.mem_map, List.mem_filter, Bool.and_eq_true,
    Bool.not_eq_true']
  refine or_congr Iff.rfl ?_
  constructor
  · rintro ⟨⟨c, r⟩, ⟨h1, h2, h3⟩, rfl⟩
    exact ⟨c, r, rfl, (mem_playable_cells _ c r).1 h1, h2,
      (is_possible_mine_false_iff c r ml).1 h3⟩
  · rintro ⟨c, r, rfl, h1, h2, h3⟩
    exact ⟨(c, r), ⟨(mem_playable_cells _ c r).2 h1, h2,
      (is_possible_mine_false_iff c r ml).2 h3⟩, rfl⟩

/-- C21, amended: when the clusters exist and `analyze_possible_mines` returns a negative
value, `solve_minefield` returns `stopped`, leaves the game with the board of the analysis,
issues no move and publishes no probability for a site of a cluster.  With
`do_full_analysis` clear it publishes nothing at all; with `do_full_analysis` set it still
calls `do_nonborder_probabilities`, and the log is the mean density (computed without the
lists that have no `arrangements > 0`) published to every unmarked playable cell outside all
clusters. -/
theorem solve_minefield_aborted (s : settings) (g : game_t) (do_full_analysis : Bool)
    (out : analysis_t)
    (hne : (find_possible_mines g.minefield MINE_LISTS_INITIALIZER).first ≠ [])
    (ha : analyze_possible_mines g.minefield
      (find_possible_mines g.minefield MINE_LISTS_INITIALIZER) = some out)
    (hr : out.result < 0) :
    ∃ r, solve_minefield s g do_full_analysis = some (r, status_t.stopped) ∧
      r.game = { g with minefield := out.mf } ∧
      (∀ col row cmd, event_t.move col row cmd ∉ r.log) ∧
      (∀ col row v, event_t.probability col row v ∈ r.log →
        (col, row) ∉ all_sites out.mine_lists.first) ∧
      (do_full_analysis = false → r.log = []) ∧
      (do_full_analysis = true → ∀ e, e ∈ r.log ↔
        ∃ c r, e = event_t.probability c r (nonborder_probability out.mf out.mine_lists) ∧
          in_range out.mf c r ∧ IS_UNMARKED out.mf c r = true ∧
          (c, r) ∉ all_sites out.mine_lists.first) := by
  have hemp : (find_possible_mines g.minefield MINE_LISTS_INITIALIZER).first.isEmpty = false := by
    cases h : (find_possible_mines g.minefield MINE_LISTS_INITIALIZER).first with
    | nil => exact absurd h hne
    | cons _ _ => rfl
  have hround : solve_minefield_round s g
      = some ({ game := { g with minefield := out.mf }, log := [] }, out.mine_lists,
          status_t.stopped) := by
    unfold solve_minefield_round
    simp only [hemp, Bool.false_eq_true, if_false, ha, Option.some_bind, hr, if_true]
  unfold solve_minefield
  rw [hround]
  cases do_full_analysis with
  | false =>
    refine ⟨_, rfl, rfl, ?_, ?_, fun _ => rfl, fun h => Bool.noConfusion h⟩
    · intro col row cmd h
      cases h
    · intro col row v h
      cases h
  | true =>
    refine ⟨_, rfl, rfl, ?_, ?_, fun h => Bool.noConfusion h, fun _ e => ?_⟩
    · intro col row cmd h
      simp only [Bool.true_eq_false, if_true] at h
      rw [do_nonborder_probabilities_moves] at h
      cases h
    · intro col row v h
      simp only [if_true] at h
      rw [do_nonborder_probabilities_log] at h
      rcases h with h | ⟨c, r, e, _, _, h3⟩
      · cases h
      · simp only [event_t.probability.injEq] at e
        rw [e.1, e.2.1]
        exact h3
    · simp only [if_true]
      rw [do_nonborder_probabilities_log]
      simp only [List.not_mem_nil, false_or]

theorem asked_analysis_eq :
    analyze_possible_mines asked_board
      (find_possible_mines asked_board MINE_LISTS_INITIALIZER) = some asked_analysis := by
  have h : (analyze_possible_mines asked_board
      (find_possible_mines asked_board MINE_LISTS_INITIALIZER)).isSome = true := by
    decide
  unfold asked_analysis
  cases hx : analyze_possible_mines asked_board
      (find_possible_mines asked_board MINE_LISTS_INITIALIZER) with
  | none => rw [hx] at h; cases h
  | some x => rfl

set_option maxRecDepth 100000 in
theorem asked_density :
    nonborder_probability asked_board asked_analysis.mine_lists = float_t.finite (1 / 16) := by
  have hlen : (all_sites asked_analysis.mine_lists.first).length = 8 := by decide
  have hfil : (asked_analysis.mine_lists.first.filter fun l => decide (l.arrangements > 0))
      = [] := by decide
  have hY : asked_board.unmarked - ((all_sites asked_analysis.mine_lists.first).length : Int)
      ≠ 0 := by
    rw [hlen]
    decide
  rw [(nonborder_probability_cases asked_board asked_analysis.mine_lists).1 hY]
  unfold mean_numerator
  rw [hfil, hlen]
  have e1 : asked_board.mines = 1 := rfl
  have e2 : asked_board.flags = 0 := rfl
  have e3 : asked_board.unmarked = 24 := rfl
  rw [e1, e2, e3]
  norm_num

set_option maxRecDepth 100000 in
/-- C21 as stated fails: on `asked_board`, with the board asked for, the clusters exist and
the analysis is aborted with -1; `solve_minefield` with `do_full_analysis` set returns
`stopped` after `do_nonborder_probabilities` has published a probability for each of the 16
unmarked cells outside the cluster, the value 1/16. -/
theorem solve_minefield_aborted_refuted :
    (find_possible_mines asked_board MINE_LISTS_INITIALIZER).first ≠ [] ∧
    analyze_possible_mines asked_board
      (find_possible_mines asked_board MINE_LISTS_INITIALIZER) = some asked_analysis ∧
    asked_analysis.result = -1 ∧
    (solve_minefield SETTINGS_INITIALIZER asked_game true).map
        (fun r => (r.2, r.1.log.map fun e =>
          match e with
          | event_t.probability c r _ => some (c, r)
          | event_t.move _ _ _ => none))
      = some (status_t.stopped,
          [some (1, 4), some (1, 5), some (2, 4), some (2, 5), some (3, 4), some (3, 5),
           some (4, 1), some (4, 2), some (4, 3), some (4, 4), some (4, 5), some (5, 1),
           some (5, 2), some (5, 3), some (5, 4), some (5, 5)]) ∧
    nonborder_probability asked_board asked_analysis.mine_lists = float_t.finite (1 / 16) :=
  ⟨by decide, asked_analysis_eq, by decide, by decide, asked_density⟩

set_option maxRecDepth 100000 in
/-- C21, at a concrete input: the aborted round on `asked_game` with `do_full_analysis`
set. -/
theorem solve_minefield_aborted_witness :
    ∃ r, solve_minefield SETTINGS_INITIALIZER asked_game true = some (r, status_t.stopped) ∧
      r.game = { asked_game with minefield := asked_analysis.mf } ∧
      (∀ col row cmd, event_t.move col row cmd ∉ r.log) ∧
      (∀ col row v, event_t.probability col row v ∈ r.log →
        (col, row) ∉ all_sites asked_analysis.mine_lists.first) ∧
      (true = false → r.log = []) ∧
      (true = true → ∀ e, e ∈ r.log ↔
        ∃ c r, e = event_t.probability c r (nonborder_probability asked_analysis.mf asked_analysis.mine_lists) ∧
          in_range asked_analysis.mf c r ∧ IS_UNMARKED asked_analysis.mf c r = true ∧
          (c, r) ∉ all_sites asked_analysis.mine_lists.first) :=
  solve_minefield_aborted SETTINGS_INITIALIZER asked_game true asked_analysis (by decide)
    asked_analysis_eq (by decide)

theorem move_events_moves (issued : List (Int × Int)) (action : moves_t) :
    ((∃ col row cmd, event_t.move col row cmd ∈
        issued.flatMap (fun p => move_events p.1 p.2 action)) ↔ issued ≠ []) ∧
    ∀ col row cmd, event_t.move col row cmd ∈
        issued.flatMap (fun p => move_events p.1 p.2 action) → cmd = action := by
  constructor
  · constructor
    · rintro ⟨col, row, cmd, h⟩ rfl
      cases h
    · intro h
      obtain ⟨p, hp⟩ := List.exists_mem_of_ne_nil _ h
      exact ⟨p.1, p.2, action, List.mem_flatMap.2 ⟨p, hp, by simp [move_events]⟩⟩
  · intro col row cmd h
    obtain ⟨p, _, hp⟩ := List.mem_flatMap.1 h
    simp only [move_events, List.mem_cons, event_t.move.injEq, reduceCtorEq,
      List.not_mem_nil, or_false] at hp
    exact hp.2.2

theorem site_events_moves (chain : List mine_list_t) :
    ((∃ col row cmd, event_t.move col row cmd ∈
        (chain_sites chain).flatMap (fun x => site_events x.1 x.2)) ↔
      ((chain_sites chain).any fun x =>
        decide (x.2.flag_placements = 0 ∨ x.2.flag_placements = x.1)) = true) ∧
    ∀ col row cmd, event_t.move col row cmd ∈
        (chain_sites chain).flatMap (fun x => site_events x.1 x.2) →
      cmd = moves_t.clear ∨ cmd = moves_t.flag := by
  constructor
  · rw [List.any_eq_true]
    constructor
    · rintro ⟨col, row, cmd, hev⟩
      obtain ⟨x, hx, hev⟩ := List.mem_flatMap.1 hev
      rw [mem_site_events_move] at hev
      refine ⟨x, hx, ?_⟩
      simp only [decide_eq_true_eq]
      rcases hev.2.2 with ⟨h, _⟩ | ⟨_, h, _⟩
      · exact Or.inl h
      · exact Or.inr h
    · rintro ⟨x, hx, h⟩
      simp only [decide_eq_true_eq] at h
      by_cases h0 : x.2.flag_placements = 0
      · exact ⟨x.2.col, x.2.row, moves_t.clear, List.mem_flatMap.2
          ⟨x, hx, (mem_site_events_move _ _ _ _ _).2 ⟨rfl, rfl, Or.inl ⟨h0, rfl⟩⟩⟩⟩
      · have h1 : x.2.flag_placements = x.1 := h.resolve_left h0
        exact ⟨x.2.col, x.2.row, moves_t.flag, List.mem_flatMap.2
          ⟨x, hx, (mem_site_events_move _ _ _ _ _).2 ⟨rfl, rfl, Or.inr ⟨h0, h1, rfl⟩⟩⟩⟩
  · intro col row cmd hev
    obtain ⟨x, _, hev⟩ := List.mem_flatMap.1 hev
    rw [mem_site_events_move] at hev
    rcases hev.2.2 with ⟨_, h⟩ | ⟨_, _, h⟩
    · exact Or.inl h
    · exact Or.inr h

/-- On a board with its sentinel border `check_nonborder_sites` returns; what it adds to the
log holds a move exactly when it returns TRUE, and its moves are clear or flag moves. -/
theorem check_nonborder_sites_moves (s : settings) (t : solver_t) (ml : mine_lists_t)
    (hb : sentinel_border t.game.minefield) :
    ∃ (r : solver_t × Bool) (new : List event_t), check_nonborder_sites s t ml = some r ∧
      r.1.log = t.log ++ new ∧
      (r.2 = true ↔ ∃ col row cmd, event_t.move col row cmd ∈ new) ∧
      ∀ col row cmd, event_t.move col row cmd ∈ new →
        cmd = moves_t.clear ∨ cmd = moves_t.flag := by
  have scan : ∀ action, action = moves_t.clear ∨ action = moves_t.flag →
      ∃ (r : solver_t × Bool) (new : List event_t),
        check_nonborder_scan s ml action (playable_cells t.game.minefield) (t, false)
          = some r ∧
        r.1.log = t.log ++ new ∧
        (r.2 = true ↔ ∃ col row cmd, event_t.move col row cmd ∈ new) ∧
        ∀ col row cmd, event_t.move col row cmd ∈ new →
          cmd = moves_t.clear ∨ cmd = moves_t.flag := by
    intro action hcmd
    obtain ⟨r, issued, e, l, b, _⟩ := check_nonborder_scan_spec s ml action
      hcmd (playable_cells t.game.minefield) (t, false) (nodup_playable_cells _) hb
      (fun p hp => (mem_playable_cells _ p.1 p.2).1 hp)
    obtain ⟨m1, m2⟩ := move_events_moves issued action
    refine ⟨r, _, e, l, ?_, ?_⟩
    · rw [m1, b]
      cases issued <;> simp
    · intro col row cmd h
      rw [m2 col row cmd h]
      exact hcmd
  unfold check_nonborder_sites
  simp only
  split_ifs
  · exact scan moves_t.clear (Or.inl rfl)
  · exact scan moves_t.flag (Or.inr rfl)
  · refine ⟨(t, false), [], rfl, by simp, ?_, ?_⟩
    · constructor
      · intro h
        cases h
      · rintro ⟨_, _, _, h⟩
        cases h
    · intro _ _ _ h
      cases h

/-- On a board with its sentinel border, for clusters whose sites are playable cells,
`play_moves` returns; what it adds to the log holds a move exactly when it returns TRUE, and
its moves are clear or flag moves. -/
theorem play_moves_moves (s : settings) (t : solver_t) (ml : mine_lists_t)
    (hb : sentinel_border t.game.minefield)
    (hin : ∀ l ∈ ml.first, ∀ c ∈ l.cell, in_range t.game.minefield c.col c.row) :
    ∃ (r : solver_t × Bool) (new : List event_t), play_moves s t ml = some r ∧
      r.1.log = t.log ++ new ∧
      (r.2 = true ↔ ∃ col row cmd, event_t.move col row cmd ∈ new) ∧
      (∀ col row cmd, event_t.move col row cmd ∈ new →
        cmd = moves_t.clear ∨ cmd = moves_t.flag) ∧
      moved_from t.game.minefield r.1.game.minefield := by
  obtain ⟨r, e, l, b, m, _⟩ := play_moves_lists_spec s ml.first (t, false) hb hin
  obtain ⟨m1, m2⟩ := site_events_moves ml.first
  refine ⟨r, _, e, l, ?_, m2, m⟩
  rw [m1, b, Bool.false_or]

theorem solve_minefield_round_spec (s : settings) (g : game_t)
    (hb : border_inv g.minefield)
    (hA : (find_possible_mines g.minefield MINE_LISTS_INITIALIZER).first = [] ∨
      (analyze_possible_mines g.minefield
        (find_possible_mines g.minefield MINE_LISTS_INITIALIZER)).isSome = true) :
    ∃ rr, solve_minefield_round s g = some rr ∧
      (rr.2.2 = status_t.stopped ↔
        (find_possible_mines g.minefield MINE_LISTS_INITIALIZER).first ≠ [] ∧
        ∃ out, analyze_possible_mines g.minefield
          (find_possible_mines g.minefield MINE_LISTS_INITIALIZER) = some out ∧
          out.result < 0) ∧
      (rr.2.2 = status_t.stopped → rr.1.log = []) ∧
      (rr.2.2 ≠ status_t.stopped →
        (rr.2.2 = status_t.noguess ↔ ∃ col row cmd, event_t.move col row cmd ∈ rr.1.log) ∧
        (rr.2.2 = status_t.guess ↔ ¬ ∃ col row cmd, event_t.move col row cmd ∈ rr.1.log)) ∧
      ∀ col row cmd, event_t.move col row cmd ∈ rr.1.log →
        cmd = moves_t.clear ∨ cmd = moves_t.flag := by
  have hsb := border_inv_sentinel _ hb
  unfold solve_minefield_round
  simp only
  by_cases hemp : (find_possible_mines g.minefield MINE_LISTS_INITIALIZER).first = []
  · have he : (find_possible_mines g.minefield MINE_LISTS_INITIALIZER).first.isEmpty = true := by
      rw [hemp]; rfl
    rw [if_pos he]
    obtain ⟨r, new, e, l, b, m⟩ := check_nonborder_sites_moves s { game := g, log := [] }
      (find_possible_mines g.minefield MINE_LISTS_INITIALIZER) hsb
    rw [e]
    simp only [List.nil_append] at l
    refine ⟨_, rfl, ?_, ?_, ?_, ?_⟩
    · simp only [Option.map_some']
      constructor
      · intro h
        split_ifs at h
      · rintro ⟨h, _⟩
        exact absurd hemp h
    · intro h
      simp only at h
      split_ifs at h
    · intro _
      simp only
      rw [l, ← b]
      cases r.2 <;> simp
    · simp only
      rw [l]
      exact m
  · have he : (find_possible_mines g.minefield MINE_LISTS_INITIALIZER).first.isEmpty = false := by
      cases h : (find_possible_mines g.minefield MINE_LISTS_INITIALIZER).first with
      | nil => exact absurd h hemp
      | cons _ _ => rfl
    rw [if_neg (by rw [he]; exact Bool.false_ne_true)]
    have hs := hA.resolve_left hemp
    cases ha : analyze_possible_mines g.minefield
        (find_possible_mines g.minefield MINE_LISTS_INITIALIZER) with
    | none => rw [ha] at hs; cases hs
    | some out =>
      obtain ⟨hmf, _, hin, _⟩ := analysed_chain g.minefield out hb ha
      simp only [Option.some_bind]
      by_cases hr : out.result < 0
      · rw [if_pos hr]
        refine ⟨_, rfl, ?_, fun _ => rfl, fun h => absurd rfl h, ?_⟩
        · constructor
          · intro _
            exact ⟨hemp, out, rfl, hr⟩
          · intro _
            rfl
        · intro _ _ _ h
          cases h
      · rw [if_neg hr]
        have hsb1 : sentinel_border out.mf := by rw [hmf]; exact hsb
        obtain ⟨r1, new1, e1, l1, b1, m1, mv1⟩ := play_moves_moves s
          { game := { g with minefield := out.mf }, log := [] } out.mine_lists hsb1
          (fun l hl c hc => by
            simp only
            rw [hmf]
            exact (hin l hl c hc).1)
        rw [e1]
        simp only [Option.some_bind, List.nil_append] at l1 ⊢
        have hnot : ¬ ((find_possible_mines g.minefield MINE_LISTS_INITIALIZER).first ≠ [] ∧
            ∃ out', some out = some out' ∧ out'.result < 0) := by
          rintro ⟨_, out', h1, h2⟩
          cases h1
          exact hr h2
        cases hb1 : r1.2 with
        | true =>
          simp only [if_true]
          refine ⟨_, rfl, ?_, fun h => status_t.noConfusion h, fun _ => ?_, ?_⟩
          · constructor
            · intro h
              cases h
            · intro h
              exact absurd h hnot
          · have hm : ∃ col row cmd, event_t.move col row cmd ∈ r1.1.log := by
              rw [l1]
              exact b1.1 hb1
            simp only
            exact ⟨⟨fun _ => hm, fun _ => trivial⟩,
              ⟨fun h => status_t.noConfusion h, fun h => absurd hm h⟩⟩
          · simp only
            rw [l1]
            exact m1
        | false =>
          simp only [Bool.false_eq_true, if_false]
          obtain ⟨c, new2, e2, l2, b2, m2⟩ := check_nonborder_sites_moves s r1.1
            out.mine_lists (moved_from_border mv1 hsb1)
          rw [e2]
          have hno1 : ¬ ∃ col row cmd, event_t.move col row cmd ∈ new1 := by
            intro h
            have := b1.2 h
            rw [hb1] at this
            cases this
          have hmov : ∀ col row cmd, event_t.move col row cmd ∈ c.1.log ↔
              event_t.move col row cmd ∈ new2 := by
            intro col row cmd
            rw [l2, l1, List.mem_append]
            constructor
            · rintro (h | h)
              · exact absurd ⟨col, row, cmd, h⟩ hno1
              · exact h
            · exact Or.inr
          refine ⟨_, rfl, ?_, ?_, fun _ => ?_, ?_⟩
          · simp only [Option.map_some']
            constructor
            · intro h
              split_ifs at h
            · intro h
              exact absurd h hnot
          · intro h
            simp only at h
            split_ifs at h
          · simp only
            have hiff : (∃ col row cmd, event_t.move col row cmd ∈ c.1.log) ↔ c.2 = true := by
              rw [b2]
              constructor
              · rintro ⟨col, row, cmd, h⟩
                exact ⟨col, row, cmd, (hmov _ _ _).1 h⟩
              · rintro ⟨col, row, cmd, h⟩
                exact ⟨col, row, cmd, (hmov _ _ _).2 h⟩
            rw [hiff]
            cases c.2 <;> simp
          · simp only
            intro col row cmd h
            exact m2 col row cmd ((hmov _ _ _).1 h)

theorem solve_minefield_round_some (s : settings) (g : game_t)
    (rr : solver_t × mine_lists_t × status_t) (h : solve_minefield_round s g = some rr) :
    (find_possible_mines g.minefield MINE_LISTS_INITIALIZER).first = [] ∨
      (analyze_possible_mines g.minefield
        (find_possible_mines g.minefield MINE_LISTS_INITIALIZER)).isSome = true := by
  by_cases hemp : (find_possible_mines g.minefield MINE_LISTS_INITIALIZER).first = []
  · exact Or.inl hemp
  · right
    have he : (find_possible_mines g.minefield MINE_LISTS_INITIALIZER).first.isEmpty = false := by
      cases h : (find_possible_mines g.minefield MINE_LISTS_INITIALIZER).first with
      | nil => exact absurd h hemp
      | cons _ _ => rfl
    unfold solve_minefield_round at h
    simp only at h
    rw [if_neg (by rw [he]; exact Bool.false_ne_true)] at h
    cases ha : analyze_possible_mines g.minefield
        (find_possible_mines g.minefield MINE_LISTS_INITIALIZER) with
    | none => rw [ha] at h; cases h
    | some out => rfl

/-! ## The claims about the result of a round -/

/-- C22: on a board in the state between the calls, `solve_minefield` returns whenever there
is no cluster or `analyze_possible_mines` returns; and whenever it returns, the value is
`stopped` exactly when clusters exist and `analyze_possible_mines` returned a negative value,
and then no move is in the log; otherwise the value is `noguess` exactly when the log holds
a move (issued by `play_moves` or by `check_nonborder_sites`) and `guess` exactly when it
holds none.  Every move in the log is a clear or a flag move. -/
theorem solve_minefield_status (s : settings) (g : game_t) (do_full_analysis : Bool)
    (hb : border_inv g.minefield) :
    ((find_possible_mines g.minefield MINE_LISTS_INITIALIZER).first = [] ∨
        (analyze_possible_mines g.minefield
          (find_possible_mines g.minefield MINE_LISTS_INITIALIZER)).isSome = true →
      ∃ r, solve_minefield s g do_full_analysis = some r) ∧
    ∀ r, solve_minefield s g do_full_analysis = some r →
      (r.2 = status_t.stopped ↔
        (find_possible_mines g.minefield MINE_LISTS_INITIALIZER).first ≠ [] ∧
        ∃ out, analyze_possible_mines g.minefield
          (find_possible_mines g.minefield MINE_LISTS_INITIALIZER) = some out ∧
          out.result < 0) ∧
      (r.2 = status_t.stopped → ∀ col row cmd, event_t.move col row cmd ∉ r.1.log) ∧
      (r.2 ≠ status_t.stopped →
        (r.2 = status_t.noguess ↔ ∃ col row cmd, event_t.move col row cmd ∈ r.1.log) ∧
        (r.2 = status_t.guess ↔ ¬ ∃ col row cmd, event_t.move col row cmd ∈ r.1.log)) ∧
      ∀ col row cmd, event_t.move col row cmd ∈ r.1.log →
        cmd = moves_t.clear ∨ cmd = moves_t.flag := by
  have hmoves : ∀ (rr : solver_t × mine_lists_t × status_t) (col row : Int) (cmd : moves_t),
      event_t.move col row cmd ∈
        (if do_full_analysis = true then do_nonborder_probabilities rr.1 rr.2.1
          else rr.1).log ↔ event_t.move col row cmd ∈ rr.1.log := by
    intro rr col row cmd
    cases do_full_analysis
    · simp only [Bool.false_eq_true, if_false]
    · simp only [if_true]
      exact do_nonborder_probabilities_moves _ _ _ _ _
  refine ⟨?_, ?_⟩
  · intro hA
    obtain ⟨rr, e, _⟩ := solve_minefield_round_spec s g hb hA
    unfold solve_minefield
    rw [e]
    exact ⟨_, rfl⟩
  · intro r hr
    unfold solve_minefield at hr
    rw [Option.map_eq_some'] at hr
    obtain ⟨rr, e, rfl⟩ := hr
    obtain ⟨rr', e', p1, p2, p3, p4⟩ := solve_minefield_round_spec s g hb
      (solve_minefield_round_some s g rr e)
    rw [e] at e'
    cases e'
    refine ⟨p1, ?_, ?_, ?_⟩
    · intro h col row cmd hm
      rw [hmoves] at hm
      rw [p2 h] at hm
      cases hm
    · intro h
      obtain ⟨q1, q2⟩ := p3 h
      constructor
      · rw [q1]
        exact ⟨fun ⟨c, r, cmd, hm⟩ => ⟨c, r, cmd, (hmoves _ _ _ _).2 hm⟩,
          fun ⟨c, r, cmd, hm⟩ => ⟨c, r, cmd, (hmoves _ _ _ _).1 hm⟩⟩
      · rw [q2]
        exact not_congr ⟨fun ⟨c, r, cmd, hm⟩ => ⟨c, r, cmd, (hmoves _ _ _ _).2 hm⟩,
          fun ⟨c, r, cmd, hm⟩ => ⟨c, r, cmd, (hmoves _ _ _ _).1 hm⟩⟩
    · intro col row cmd hm
      exact p4 col row cmd ((hmoves _ _ _ _).1 hm)

/-- C22, at a concrete input: the round on `centre_opened` with automatic play. -/
theorem solve_minefield_status_witness :
    ((find_possible_mines centre_opened.minefield MINE_LISTS_INITIALIZER).first = [] ∨
        (analyze_possible_mines centre_opened.minefield
          (find_possible_mines centre_opened.minefield MINE_LISTS_INITIALIZER)).isSome = true →
      ∃ r, solve_minefield autoplay_settings centre_opened false = some r) ∧
    ∀ r, solve_minefield autoplay_settings centre_opened false = some r →
      (r.2 = status_t.stopped ↔
        (find_possible_mines centre_opened.minefield MINE_LISTS_INITIALIZER).first ≠ [] ∧
        ∃ out, analyze_possible_mines centre_opened.minefield
          (find_possible_mines centre_opened.minefield MINE_LISTS_INITIALIZER) = some out ∧
          out.result < 0) ∧
      (r.2 = status_t.stopped → ∀ col row cmd, event_t.move col row cmd ∉ r.1.log) ∧
      (r.2 ≠ status_t.stopped →
        (r.2 = status_t.noguess ↔ ∃ col row cmd, event_t.move col row cmd ∈ r.1.log) ∧
        (r.2 = status_t.guess ↔ ¬ ∃ col row cmd, event_t.move col row cmd ∈ r.1.log)) ∧
      ∀ col row cmd, event_t.move col row cmd ∈ r.1.log →
        cmd = moves_t.clear ∨ cmd = moves_t.flag :=
  solve_minefield_status autoplay_settings centre_opened false centre_opened_border

/-! ## Mines cleared and the sign of the value returned -/

theorem countP_lt_of_imp {α : Type} (l : List α) (p q : α → Bool)
    (h : ∀ x ∈ l, p x = true → q x = true) (x : α) (hx : x ∈ l) (hp : p x = false)
    (hq : q x = true) : l.countP p < l.countP q := by
  induction l with
  | nil => cases hx
  | cons a t ih =>
    rw [List.countP_cons, List.countP_cons]
    have hle : t.countP p ≤ t.countP q :=
      List.countP_mono_left (fun y hy => h y (List.mem_cons_of_mem a hy))
    rcases List.mem_cons.1 hx with e | hx'
    · subst e
      simp only [hp, hq, Bool.false_eq_true, if_false, if_true]
      omega
    · have := ih (fun y hy => h y (List.mem_cons_of_mem a hy)) hx'
      have ha := h a (List.mem_cons_self a t)
      cases hpa : p a <;> cases hqa : q a <;> simp [hpa, hqa] at ha ⊢ <;> omega

theorem cleared_safe_le {a b : minefield_t} (h : cleared_from a b) :
    cleared_safe a ≤ cleared_safe b := by
  apply count_cells_le b a _ _ h.2.1.symm h.2.2.1.symm
  intro c r _
  have h1 := cleared_from_is_mine h c r
  rw [h1]
  intro hh
  simp only [Bool.and_eq_true] at hh ⊢
  exact ⟨cleared_from_is_cleared h c r hh.1, hh.2⟩

theorem cleared_mines_le {a b : minefield_t} (h : cleared_from a b) :
    cleared_mines a ≤ cleared_mines b := by
  apply count_cells_le b a _ _ h.2.1.symm h.2.2.1.symm
  intro c r _
  have h1 := cleared_from_is_mine h c r
  rw [h1]
  intro hh
  simp only [Bool.and_eq_true] at hh ⊢
  exact ⟨cleared_from_is_cleared h c r hh.1, hh.2⟩

/-- A mine that the call cleared makes the number of cleared mines grow. -/
theorem cleared_mines_lt {a b : minefield_t} (h : cleared_from a b) (c r : Int)
    (h0 : (a.field c r).is_cleared = false) (h1 : (b.field c r).is_cleared = true)
    (hm : (a.field c r).is_mine = true) : cleared_mines a < cleared_mines b := by
  have hin : in_range a c r := by
    rcases h.2.2.2.2.2.2 c r with e | ⟨hr, _⟩
    · rw [e, h0] at h1
      cases h1
    · exact hr
  unfold cleared_mines count_cells
  rw [cleared_from_playable h]
  refine countP_lt_of_imp _ _ _ ?_ (c, r) ((mem_playable_cells a c r).2 hin) ?_ ?_
  · rintro ⟨x, y⟩ _ hh
    simp only [minefield_cell, Bool.and_eq_true] at hh ⊢
    exact ⟨cleared_from_is_cleared h x y hh.1, by rw [cleared_from_is_mine h]; exact hh.2⟩
  · simp [minefield_cell, h0]
  · simp only [minefield_cell, Bool.and_eq_true]
    exact ⟨h1, by rw [cleared_from_is_mine h]; exact hm⟩

theorem cleared_count_le_cells (mf : minefield_t) (c r : Int) (hin : in_range mf c r) :
    (cleared_count mf : Int) ≤ mf.rows * mf.cols := by
  have h1 : cleared_count mf ≤ (playable_cells mf).length := List.countP_le_length _
  rw [length_playable_cells] at h1
  unfold in_range at hin
  have e1 : ((mf.cols.toNat * mf.rows.toNat : Nat) : Int) = mf.cols * mf.rows := by
    push_cast
    rw [Int.toNat_of_nonneg (by omega), Int.toNat_of_nonneg (by omega)]
  have h2 : (cleared_count mf : Int) ≤ ((mf.cols.toNat * mf.rows.toNat : Nat) : Int) := by
    exact_mod_cast h1
  rw [e1] at h2
  rw [mul_comm]
  exact h2

/-- The account of `clear_effect` is negative exactly when a mine was cleared: the cells
cleared are distinct playable cells, so the ones without a mine are fewer than `rows*cols`. -/
theorem clear_effect_negative_iff (mf mf' : minefield_t) (n : Int)
    (h : clear_effect mf mf' n) :
    n < 0 ↔ ∃ c r, (mf.field c r).is_mine = true ∧ (mf.field c r).is_cleared = false ∧
      (mf'.field c r).is_cleared = true := by
  obtain ⟨hf, hn, _⟩ := h
  have hs := cleared_safe_le hf
  have hm := cleared_mines_le hf
  constructor
  · intro hneg
    by_contra hno
    have hnm : no_mine_cleared mf mf' := by
      intro c r hc hmine
      by_contra hc0
      apply hno
      refine ⟨c, r, ?_, ?_, hc⟩
      · rw [← cleared_from_is_mine hf]; exact hmine
      · cases hh : (mf.field c r).is_cleared
        · rfl
        · exact absurd hh hc0
    have := cleared_mines_eq mf mf' hf hnm
    rw [this] at hn
    have hs' : (cleared_safe mf : Int) ≤ cleared_safe mf' := by exact_mod_cast hs
    simp only [sub_self, mul_zero, sub_zero] at hn
    omega
  · rintro ⟨c, r, hmine, h0, h1⟩
    have hlt := cleared_mines_lt hf c r h0 h1 hmine
    have hin : in_range mf' c r := by
      rcases hf.2.2.2.2.2.2 c r with e | ⟨hr, _⟩
      · rw [e, h0] at h1
        cases h1
      · exact (cleared_from_in_range hf c r).2 hr
    have hcells := cleared_count_le_cells mf' c r hin
    rw [cleared_count_split mf', hf.2.1, hf.2.2.1] at hcells
    push_cast at hcells
    have hR : 1 ≤ mf.rows * mf.cols := by
      have := (cleared_from_in_range hf c r).1 hin
      unfold in_range at this
      nlinarith
    have hs' : (cleared_safe mf : Int) ≤ cleared_safe mf' := by exact_mod_cast hs
    have hlt' : (cleared_mines mf : Int) + 1 ≤ cleared_mines mf' := by exact_mod_cast hlt
    have h0s : (0 : Int) ≤ cleared_safe mf := Int.natCast_nonneg _
    have h0m : (0 : Int) ≤ cleared_mines mf := Int.natCast_nonneg _
    rw [hn]
    nlinarith

/-- C38: on a board with its sentinel border and correct `minesaround`, `clear_square` called
on a cell of the array that holds no mine returns, the value it returns is not negative, no
cell it cleared holds a mine, and a mined cell is cleared after the call only if it was
before. -/
theorem clear_square_reaches_no_mine (mf : minefield_t) (col row : Int)
    (hb : sentinel_border mf) (hma : minesaround_correct mf) (ha : in_array mf col row)
    (hnm : (minefield_cell mf col row).is_mine = false) :
    ∃ mf' n, clear_square mf col row = some (mf', n) ∧ 0 ≤ n ∧
      n = (newly_cleared mf mf' : Int) ∧
      (∀ c r, (minefield_cell mf c r).is_cleared = false →
        (minefield_cell mf' c r).is_cleared = true →
        (minefield_cell mf' c r).is_mine = false) ∧
      (∀ c r, (minefield_cell mf' c r).is_mine = true →
        (minefield_cell mf' c r).is_cleared = (minefield_cell mf c r).is_cleared) ∧
      cleared_mines mf' = cleared_mines mf := by
  obtain ⟨mf', n, e, eff, nm, _⟩ := clear_square_effect mf col row hb ha
  have hnone := nm (zero_means_safe_of_correct mf hma) hnm
  have hm := cleared_mines_eq mf mf' eff.1 hnone
  have hnew := newly_cleared_add mf mf' eff.1
  have s1 := cleared_count_split mf
  have s2 := cleared_count_split mf'
  have hn : n = (newly_cleared mf mf' : Int) := by
    rw [eff.2.1, hm]; omega
  refine ⟨mf', n, e, by omega, hn, ?_, ?_, hm⟩
  · intro c r h0 h1
    cases hmine : (minefield_cell mf' c r).is_mine
    · rfl
    · have := hnone c r h1 hmine
      simp only [minefield_cell] at h0
      rw [h0] at this
      cases this
  · intro c r hmine
    cases h1 : (minefield_cell mf' c r).is_cleared
    · cases h0 : (minefield_cell mf c r).is_cleared
      · rfl
      · have := cleared_from_is_cleared eff.1 c r h0
        simp only [minefield_cell] at h1
        rw [h1] at this
        cases this
    · exact (hnone c r h1 hmine).symm

/-- C38, at a concrete input: the cell `(1, 1)` of `corner_board`. -/
theorem clear_square_reaches_no_mine_witness :
    ∃ mf' n, clear_square corner_board 1 1 = some (mf', n) ∧ 0 ≤ n ∧
      n = (newly_cleared corner_board mf' : Int) ∧
      (∀ c r, (minefield_cell corner_board c r).is_cleared = false →
        (minefield_cell mf' c r).is_cleared = true →
        (minefield_cell mf' c r).is_mine = false) ∧
      (∀ c r, (minefield_cell mf' c r).is_mine = true →
        (minefield_cell mf' c r).is_cleared = (minefield_cell corner_board c r).is_cleared) ∧
      cleared_mines mf' = cleared_mines corner_board :=
  clear_square_reaches_no_mine corner_board 1 1 corner_board_border corner_board_correct
    (by unfold in_array; decide) (by decide)

/-- The release that ends a chord sets `state.lost` exactly when `clear_around` cleared a
mine. -/
theorem make_move_release_two_lost (g : game_t) (col row : Int)
    (hb : sentinel_border g.minefield) (hin : in_range g.minefield col row)
    (hl : g.state.lost = false) :
    ∃ g', make_move_release_two g col row = some g' ∧
      (g'.state.lost = true ↔ ∃ c r, (minefield_cell g.minefield c r).is_mine = true ∧
        (minefield_cell g.minefield c r).is_cleared = false ∧
        (minefield_cell g'.minefield c r).is_cleared = true) := by
  have hp : pressed_from g.minefield
      (for_each_neighbour_do unpress_square g.minefield g.last_col g.last_row) :=
    for_each_neighbour_do_pressed_from unpress_square unpress_square_pressed_from _ _ _
  have hfield := pressed_from_field hp
  unfold make_move_release_two
  by_cases hsame : col ≠ g.last_col ∨ row ≠ g.last_row
  · simp only [hsame, if_true, Option.some.injEq, exists_eq_left', hl, Bool.false_eq_true,
      false_iff, not_exists, not_and, minefield_cell]
    intro c r _ h0 h1
    rw [(hfield c r).2.2.2.1, h0] at h1
    cases h1
  · obtain ⟨mf', n, e, eff⟩ := clear_around_effect
      (for_each_neighbour_do unpress_square g.minefield g.last_col g.last_row) col row
      (pressed_from_border hp hb) ((pressed_from_in_range hp col row).2 hin)
    have hiff := clear_effect_negative_iff _ _ _ eff
    have hiff' : n < 0 ↔ ∃ c r, (minefield_cell g.minefield c r).is_mine = true ∧
        (minefield_cell g.minefield c r).is_cleared = false ∧
        (minefield_cell mf' c r).is_cleared = true := by
      rw [hiff]
      simp only [minefield_cell]
      constructor
      · rintro ⟨c, r, a1, a2, a3⟩
        exact ⟨c, r, by rw [← (hfield c r).2.1]; exact a1,
          by rw [← (hfield c r).2.2.2.1]; exact a2, a3⟩
      · rintro ⟨c, r, a1, a2, a3⟩
        exact ⟨c, r, by rw [(hfield c r).2.1]; exact a1,
          by rw [(hfield c r).2.2.2.1]; exact a2, a3⟩
    simp only [hsame, if_false, e, Option.map_some', Option.some.injEq, exists_eq_left']
    by_cases hneg : n < 0
    · simp only [hneg, if_true, true_iff]
      exact hiff'.1 hneg
    · simp only [hneg, if_false, hl, Bool.false_eq_true, false_iff]
      exact fun h => hneg (hiff'.2 h)

/-- C37: on a board with its sentinel border (no other hypothesis is needed) `clear_around`
on a playable cell returns, and the value it returns is negative if and only if the call
cleared a mined cell; and the release that ends a chord (two buttons down, won and lost
clear) leaves `state.lost` set if and only if the move cleared a mined cell. -/
theorem clear_around_negative_iff (g : game_t) (col row button : Int)
    (hb : sentinel_border g.minefield) (hin : in_range g.minefield col row) :
    (∃ mf' n, clear_around g.minefield col row = some (mf', n) ∧
      (n < 0 ↔ ∃ c r, (minefield_cell g.minefield c r).is_mine = true ∧
        (minefield_cell g.minefield c r).is_cleared = false ∧
        (minefield_cell mf' c r).is_cleared = true)) ∧
    (g.state.won = false → g.state.lost = false → g.buttons_down = 2 →
      ∃ g' ret, make_move g col row button action_t.release = some (g', ret) ∧
        (g'.state.lost = true ↔ ∃ c r, (minefield_cell g.minefield c r).is_mine = true ∧
          (minefield_cell g.minefield c r).is_cleared = false ∧
          (minefield_cell g'.minefield c r).is_cleared = true)) := by
  constructor
  · obtain ⟨mf', n, e, eff⟩ := clear_around_effect g.minefield col row hb hin
    exact ⟨mf', n, e, clear_effect_negative_iff _ _ _ eff⟩
  · intro hw hl h2
    obtain ⟨g3, e3, h3⟩ := make_move_release_two_lost
      { g with buttons_down := g.buttons_down - 1 } col row hb hin hl
    refine ⟨make_move_finish g3, make_move_result (make_move_finish g3), ?_, ?_⟩
    · unfold make_move make_move_release
      simp only [hw, hl, Bool.or_self, Bool.false_eq_true, if_false, h2,
        show ¬ ((2 : Int) = 1) by decide, if_true]
      rw [h2] at e3
      rw [e3]
      rfl
    · rw [make_move_finish_lost, make_move_finish_minefield]
      exact h3

theorem chord_board_border : sentinel_border chord_board := by
  unfold sentinel_border
  decide

/-- C37, at a concrete input: the chord on the cell `(2, 2)` of `chord_board`, where the
flag stands on `(1, 1)` and the mine lies at `(3, 3)`. -/
theorem clear_around_negative_iff_witness :
    (∃ mf' n, clear_around chord_game.minefield 2 2 = some (mf', n) ∧
      (n < 0 ↔ ∃ c r, (minefield_cell chord_game.minefield c r).is_mine = true ∧
        (minefield_cell chord_game.minefield c r).is_cleared = false ∧
        (minefield_cell mf' c r).is_cleared = true)) ∧
    (chord_game.state.won = false → chord_game.state.lost = false →
      chord_game.buttons_down = 2 →
      ∃ g' ret, make_move chord_game 2 2 1 action_t.release = some (g', ret) ∧
        (g'.state.lost = true ↔
          ∃ c r, (minefield_cell chord_game.minefield c r).is_mine = true ∧
            (minefield_cell chord_game.minefield c r).is_cleared = false ∧
            (minefield_cell g'.minefield c r).is_cleared = true)) :=
  clear_around_negative_iff chord_game 2 2 1 chord_board_border
    (by unfold in_range; decide)

/-! ## The flood fill is closed under the cells that show 0 -/

theorem for_each_neighbour_acc_cells (f : minefield_t → Int → Int → Option (minefield_t × Int))
    (I : minefield_t → Prop) (R : minefield_t → minefield_t → Prop)
    (P : minefield_t → Int → Int → Prop) (i j : Int)
    (hf : ∀ mf c r, I mf → (c - i).natAbs ≤ 1 → (r - j).natAbs ≤ 1 →
      ∃ mf' n, f mf c r = some (mf', n) ∧ I mf' ∧ R mf mf' ∧ P mf' c r)
    (htrans : ∀ a b c, R a b → R b c → R a c)
    (hP : ∀ a b c r, R a b → P a c r → P b c r)
    (mf : minefield_t) (hI : I mf) :
    ∃ mf' n, for_each_neighbour_acc f mf i j = some (mf', n) ∧ I mf' ∧ R mf mf' ∧
      ∀ p ∈ neighbours i j, P mf' p.1 p.2 := by
  obtain ⟨m1, n1, e1, i1, r1, p1⟩ := hf mf (i-1) (j-1) hI (by omega) (by omega)
  obtain ⟨m2, n2, e2, i2, r2, p2⟩ := hf m1 (i-1) j i1 (by omega) (by omega)
  obtain ⟨m3, n3, e3, i3, r3, p3⟩ := hf m2 (i-1) (j+1) i2 (by omega) (by omega)
  obtain ⟨m4, n4, e4, i4, r4, p4⟩ := hf m3 i (j-1) i3 (by omega) (by omega)
  obtain ⟨m5, n5, e5, i5, r5, p5⟩ := hf m4 i (j+1) i4 (by omega) (by omega)
  obtain ⟨m6, n6, e6, i6, r6, p6⟩ := hf m5 (i+1) (j-1) i5 (by omega) (by omega)
  obtain ⟨m7, n7, e7, i7, r7, p7⟩ := hf m6 (i+1) j i6 (by omega) (by omega)
  obtain ⟨m8, n8, e8, i8, r8, p8⟩ := hf m7 (i+1) (j+1) i7 (by omega) (by omega)
  have t78 := r8
  have t68 := htrans _ _ _ r7 t78
  have t58 := htrans _ _ _ r6 t68
  have t48 := htrans _ _ _ r5 t58
  have t38 := htrans _ _ _ r4 t48
  have t28 := htrans _ _ _ r3 t38
  have t18 := htrans _ _ _ r2 t28
  refine ⟨m8, n1 + n2 + n3 + n4 + n5 + n6 + n7 + n8, ?_, i8, htrans _ _ _ r1 t18, ?_⟩
  · simp [for_each_neighbour_acc, e1, e2, e3, e4, e5, e6, e7, e8]
  · intro p hp
    simp only [neighbours, List.mem_cons, List.mem_singleton, List.not_mem_nil, or_false] at hp
    rcases hp with rfl | rfl | rfl | rfl | rfl | rfl | rfl | rfl
    · exact hP _ _ _ _ t18 p1
    · exact hP _ _ _ _ t28 p2
    · exact hP _ _ _ _ t38 p3
    · exact hP _ _ _ _ t48 p4
    · exact hP _ _ _ _ t58 p5
    · exact hP _ _ _ _ t68 p6
    · exact hP _ _ _ _ t78 p7
    · exact p8

theorem flood_closed_refl (a : minefield_t) : flood_closed a a := by
  intro c r h0 h1
  rw [h0] at h1
  cases h1

theorem flood_closed_trans {a b c : minefield_t} (hab : cleared_from a b)
    (hbc : cleared_from b c) (h1 : flood_closed a b) (h2 : flood_closed b c) :
    flood_closed a c := by
  intro x y h0 hc hm hz p hp hu hf
  cases hb : (b.field x y).is_cleared
  · apply h2 x y hb hc
    · rw [cleared_from_is_mine hab]; exact hm
    · rw [cleared_from_minesaround hab]; exact hz
    · exact hp
    · rw [cleared_from_is_unavailable hab]; exact hu
    · rw [cleared_from_is_flagged hab]; exact hf
  · exact cleared_from_is_cleared hbc _ _ (h1 x y h0 hb hm hz p hp hu hf)

theorem square_settled_mono {a b : minefield_t} (h : cleared_from a b) (c r : Int)
    (hs : square_settled a c r) : square_settled b c r := by
  rcases hs with h1 | h1 | h1
  · exact Or.inl (cleared_from_is_cleared h c r h1)
  · exact Or.inr (Or.inl (by rw [cleared_from_is_flagged h]; exact h1))
  · exact Or.inr (Or.inr (by rw [cleared_from_is_unavailable h]; exact h1))

theorem clear_square_fuel_closed (fuel : Nat) : ∀ (mf : minefield_t) (col row : Int),
    sentinel_border mf → in_array mf col row → available_count mf < fuel →
    ∃ mf' n, clear_square_fuel fuel mf col row = some (mf', n) ∧ cleared_from mf mf' ∧
      flood_closed mf mf' ∧ square_settled mf' col row := by
  induction fuel with
  | zero => intro mf col row _ _ h; omega
  | succ fuel ih =>
    intro mf col row hb ha hfuel
    unfold clear_square_fuel
    by_cases hno : (!IS_AVAILABLE mf col row || (minefield_cell mf col row).is_flagged) = true
    · rw [if_pos hno]
      refine ⟨mf, 0, rfl, cleared_from_refl mf, flood_closed_refl mf, ?_⟩
      unfold square_settled
      simp only [IS_AVAILABLE, minefield_cell, Bool.or_eq_true, Bool.not_eq_true',
        Bool.not_eq_false'] at hno
      tauto
    · rw [if_neg hno]
      have hav : IS_AVAILABLE mf col row = true := by
        cases h : IS_AVAILABLE mf col row <;> simp [h] at hno ⊢
      have hfl : (mf.field col row).is_flagged = false := by
        cases h : (mf.field col row).is_flagged <;> simp [h, minefield_cell] at hno ⊢
      have hcl : (mf.field col row).is_cleared = false := by
        simp [IS_AVAILABLE, minefield_cell] at hav; exact hav.1
      have hin : in_range mf col row := in_range_of_available mf hb col row ha hav
      have hstep := (clear_effect_step mf col row hin hav hfl).1
      have hmine2 : (minefield_cell (store_cell { mf with unmarked := mf.unmarked - 1 } col row
          { minefield_cell { mf with unmarked := mf.unmarked - 1 } col row with
            is_cleared := true }) col row).is_mine = (mf.field col row).is_mine := by
        simp [minefield_cell, store_cell]
      have hma2 : (minefield_cell (store_cell { mf with unmarked := mf.unmarked - 1 } col row
          { minefield_cell { mf with unmarked := mf.unmarked - 1 } col row with
            is_cleared := true }) col row).minesaround = (mf.field col row).minesaround := by
        simp [minefield_cell, store_cell]
      simp only [hmine2, hma2]
      have hone : ∀ c r, (mf.field c r).is_cleared = false →
          ((store_cell { mf with unmarked := mf.unmarked - 1 } col row
            { mf.field col row with is_cleared := true }).field c r).is_cleared = true →
          c = col ∧ r = row := by
        intro c r h0 h1
        by_contra hne
        simp [store_cell, hne, h0] at h1
      have hset : square_settled (store_cell { mf with unmarked := mf.unmarked - 1 } col row
          { mf.field col row with is_cleared := true }) col row :=
        Or.inl (by simp [store_cell])
      cases hmine : (mf.field col row).is_mine
      · simp only [Bool.false_eq_true, if_false]
        by_cases hzero : (mf.field col row).minesaround = 0
        · rw [if_pos hzero]
          have havc : available_count (store_cell { mf with unmarked := mf.unmarked - 1 } col row
              { mf.field col row with is_cleared := true }) < fuel := by
            have h1 : available_count (store_cell { mf with unmarked := mf.unmarked - 1 } col row
              { mf.field col row with is_cleared := true }) + 1 = available_count mf :=
              available_count_step mf col row hin hav
            omega
          obtain ⟨m8, n8, e8, i8, r8, p8⟩ := for_each_neighbour_acc_cells
            (clear_square_fuel fuel)
            (fun m => cleared_from (store_cell { mf with unmarked := mf.unmarked - 1 } col row
              { mf.field col row with is_cleared := true }) m)
            (fun a b => cleared_from a b ∧ flood_closed a b)
            square_settled col row
            (by
              intro m c r hI hc hr
              have hfrom := cleared_from_trans hstep hI
              have hbm : sentinel_border m := cleared_from_border hfrom hb
              have ham : in_array m c r :=
                (cleared_from_in_array hfrom c r).2 (in_array_of_near mf col row c r hin hc hr)
              have hfm : available_count m < fuel :=
                lt_of_le_of_lt (cleared_from_available_le hI) havc
              obtain ⟨m', n, e, eff, fc, ss⟩ := ih m c r hbm ham hfm
              exact ⟨m', n, e, cleared_from_trans hI eff, ⟨eff, fc⟩, ss⟩)
            (by
              intro a b c h1 h2
              exact ⟨cleared_from_trans h1.1 h2.1, flood_closed_trans h1.1 h2.1 h1.2 h2.2⟩)
            (by
              intro a b c r h1 h2
              exact square_settled_mono h1.1 c r h2)
            _ (cleared_from_refl _)
          have hall := cleared_from_trans hstep i8
          refine ⟨m8, 1 + n8, ?_, hall, ?_, square_settled_mono i8 col row hset⟩
          · show Option.map _ (for_each_neighbour_acc (clear_square_fuel fuel) _ col row) = _
            have e8' : for_each_neighbour_acc (clear_square_fuel fuel)
              (store_cell { mf with unmarked := mf.unmarked - 1 } col row
                { minefield_cell { mf with unmarked := mf.unmarked - 1 } col row with
                  is_cleared := true }) col row = some (m8, n8) := e8
            rw [e8']
            rfl
          · intro c r h0 h1 hm hz p hp hu hf
            by_cases hcen : c = col ∧ r = row
            · obtain ⟨rfl, rfl⟩ := hcen
              rcases p8 p hp with q | q | q
              · exact q
              · rw [cleared_from_is_flagged hall, hf] at q
                cases q
              · rw [cleared_from_is_unavailable hall, hu] at q
                cases q
            · have h0' : ((store_cell { mf with unmarked := mf.unmarked - 1 } col row
                  { mf.field col row with is_cleared := true }).field c r).is_cleared
                  = false := by
                cases hh : ((store_cell { mf with unmarked := mf.unmarked - 1 } col row
                  { mf.field col row with is_cleared := true }).field c r).is_cleared
                · rfl
                · exact absurd (hone c r h0 hh) hcen
              apply r8.2 c r h0' h1
              · rw [cleared_from_is_mine hstep]; exact hm
              · rw [cleared_from_minesaround hstep]; exact hz
              · exact hp
              · rw [cleared_from_is_unavailable hstep]; exact hu
              · rw [cleared_from_is_flagged hstep]; exact hf
        · rw [if_neg hzero]
          refine ⟨_, 1, rfl, hstep, ?_, hset⟩
          intro c r h0 h1 _ hz
          obtain ⟨rfl, rfl⟩ := hone c r h0 h1
          exact absurd hz hzero
      · simp only [if_true]
        refine ⟨_, _, rfl, hstep, ?_, hset⟩
        intro c r h0 h1 hm
        obtain ⟨rfl, rfl⟩ := hone c r h0 h1
        rw [hmine] at hm
        cases hm

/-! ## The claims about the flood fill -/

/-- C34 as stated fails: on `corner_board` the cell `(3, 3)` is available and unflagged, holds
the only mine and has `minesaround == 0`.  `clear_square` clears it and returns `-9` without
going on to its neighbours: the cell is newly cleared with `minesaround == 0`, and its
playable, unflagged neighbour `(2, 2)` is not cleared. -/
theorem clear_square_closed_refuted :
    IS_AVAILABLE corner_board 3 3 = true ∧
    (minefield_cell corner_board 3 3).is_flagged = false ∧
    ∃ mf' n, clear_square corner_board 3 3 = some (mf', n) ∧ n = -9 ∧
      (minefield_cell corner_board 3 3).is_cleared = false ∧
      (minefield_cell mf' 3 3).is_cleared = true ∧
      (minefield_cell mf' 3 3).minesaround = 0 ∧
      ((2, 2) : Int × Int) ∈ neighbours 3 3 ∧ in_range corner_board 2 2 ∧
      (minefield_cell mf' 2 2).is_unavailable = false ∧
      (minefield_cell mf' 2 2).is_flagged = false ∧
      (minefield_cell mf' 2 2).is_cleared = false := by
  refine ⟨by decide, by decide, _, _,
    clear_square_mine corner_board 3 3 (by decide) (by decide) (by decide), by decide,
    by decide, by decide, by decide, by decide, ?_, by decide, by decide, by decide⟩
  unfold in_range
  decide

/-- C34, amended: on a board with its sentinel border `clear_square` on a cell of the array
returns, and around every cell WITHOUT A MINE and with `minesaround == 0` that the call has
newly cleared, every cell that is not in the unavailable state and carries no flag is cleared
(on a board whose playable cells are not unavailable: every playable, unflagged neighbour);
a flagged cell keeps its record, so none is cleared, and the flags are those before the call;
an available, unflagged cell the call is made on is cleared. -/
theorem clear_square_flood_closed (mf : minefield_t) (col row : Int)
    (hb : sentinel_border mf) (ha : in_array mf col row) :
    ∃ mf' n, clear_square mf col row = some (mf', n) ∧
      (∀ c r, (minefield_cell mf c r).is_cleared = false →
        (minefield_cell mf' c r).is_cleared = true →
        (minefield_cell mf c r).is_mine = false → (minefield_cell mf c r).minesaround = 0 →
        ∀ p ∈ neighbours c r, (minefield_cell mf p.1 p.2).is_unavailable = false →
          (minefield_cell mf p.1 p.2).is_flagged = false →
          (minefield_cell mf' p.1 p.2).is_cleared = true) ∧
      ((∀ p ∈ playable_cells mf, (minefield_cell mf p.1 p.2).is_unavailable = false) →
        ∀ c r, (minefield_cell mf c r).is_cleared = false →
          (minefield_cell mf' c r).is_cleared = true →
          (minefield_cell mf c r).is_mine = false → (minefield_cell mf c r).minesaround = 0 →
          ∀ p ∈ neighbours c r, in_range mf p.1 p.2 →
            (minefield_cell mf p.1 p.2).is_flagged = false →
            (minefield_cell mf' p.1 p.2).is_cleared = true) ∧
      (∀ c r, (minefield_cell mf c r).is_flagged = true →
        minefield_cell mf' c r = minefield_cell mf c r) ∧
      (∀ c r, (minefield_cell mf' c r).is_flagged = (minefield_cell mf c r).is_flagged) ∧
      (IS_AVAILABLE mf col row = true → (minefield_cell mf col row).is_flagged = false →
        (minefield_cell mf' col row).is_cleared = true) := by
  obtain ⟨mf', n, e, hfrom, hclosed, hset⟩ :=
    clear_square_fuel_closed _ mf col row hb ha (available_count_lt_fuel mf)
  refine ⟨mf', n, e, hclosed, ?_, ?_, fun c r => cleared_from_is_flagged hfrom c r, ?_⟩
  · intro hu c r h0 h1 hm hz p hp hin hf
    exact hclosed c r h0 h1 hm hz p hp
      (hu p ((mem_playable_cells mf p.1 p.2).2 hin)) hf
  · intro c r hf
    rcases hfrom.2.2.2.2.2.2 c r with e1 | ⟨_, _, hf', _⟩
    · exact e1
    · simp only [minefield_cell] at hf
      rw [hf] at hf'
      cases hf'
  · intro hav hfl
    rcases hset with q | q | q
    · exact q
    · simp only [minefield_cell] at hfl
      rw [cleared_from_is_flagged hfrom, hfl] at q
      cases q
    · rw [cleared_from_is_unavailable hfrom] at q
      simp [IS_AVAILABLE, minefield_cell, q] at hav

/-- C34, amended, at a concrete input: the cell `(1, 1)` of `corner_board`. -/
theorem clear_square_flood_closed_witness :
    ∃ mf' n, clear_square corner_board 1 1 = some (mf', n) ∧
      (∀ c r, (minefield_cell corner_board c r).is_cleared = false →
        (minefield_cell mf' c r).is_cleared = true →
        (minefield_cell corner_board c r).is_mine = false →
        (minefield_cell corner_board c r).minesaround = 0 →
        ∀ p ∈ neighbours c r, (minefield_cell corner_board p.1 p.2).is_unavailable = false →
          (minefield_cell corner_board p.1 p.2).is_flagged = false →
          (minefield_cell mf' p.1 p.2).is_cleared = true) ∧
      ((∀ p ∈ playable_cells corner_board,
          (minefield_cell corner_board p.1 p.2).is_unavailable = false) →
        ∀ c r, (minefield_cell corner_board c r).is_cleared = false →
          (minefield_cell mf' c r).is_cleared = true →
          (minefield_cell corner_board c r).is_mine = false →
          (minefield_cell corner_board c r).minesaround = 0 →
          ∀ p ∈ neighbours c r, in_range corner_board p.1 p.2 →
            (minefield_cell corner_board p.1 p.2).is_flagged = false →
            (minefield_cell mf' p.1 p.2).is_cleared = true) ∧
      (∀ c r, (minefield_cell corner_board c r).is_flagged = true →
        minefield_cell mf' c r = minefield_cell corner_board c r) ∧
      (∀ c r, (minefield_cell mf' c r).is_flagged
        = (minefield_cell corner_board c r).is_flagged) ∧
      (IS_AVAILABLE corner_board 1 1 = true →
        (minefield_cell corner_board 1 1).is_flagged = false →
        (minefield_cell mf' 1 1).is_cleared = true) :=
  clear_square_flood_closed corner_board 1 1 corner_board_border (by unfold in_array; decide)

/-! ## `optimize_list` is a stable partition -/

theorem length_filter_add_not {α : Type} (p : α → Bool) (l : List α) :
    (l.filter p).length + (l.filter fun x => !p x).length = l.length := by
  induction l with
  | nil => rfl
  | cons a t ih =>
    cases h : p a <;> simp [List.filter_cons, h] <;> omega

theorem optimize_fold_partition (mf : minefield_t) : ∀ (pre post : List possible_mine_t),
    (List.range pre.length).foldl (optimize_step mf) (pre ++ post, 0, false)
      = (pre.filter (optimize_test mf) ++ pre.filter (fun c => !optimize_test mf c) ++ post,
          (pre.filter (optimize_test mf)).length, pre.any (optimize_test mf)) := by
  intro pre
  induction pre using List.reverseRecOn with
  | nil => intro post; rfl
  | append_singleton pre x ih =>
    intro post
    rw [List.length_append, List.length_singleton, List.range_succ, List.foldl_append,
      List.foldl_cons, List.foldl_nil, List.append_assoc, List.singleton_append, ih (x :: post)]
    have hlen := length_filter_add_not (optimize_test mf) pre
    have hget : (pre.filter (optimize_test mf) ++ pre.filter (fun c => !optimize_test mf c)
        ++ x :: post).get? pre.length = some x := by
      rw [List.get?_eq_getElem?, List.getElem?_append_right (by simp; omega)]
      simp [hlen]
    unfold optimize_step
    simp only [hget]
    cases ht : optimize_test mf x
    · simp [List.filter_append, ht]
    · simp only [if_true, List.filter_append, List.filter_cons, ht, List.filter_nil,
        List.any_append, List.any_cons, List.any_nil, Bool.or_false, Bool.or_true,
        Bool.not_true, Bool.false_eq_true, if_false, List.append_nil, List.length_append,
        List.length_singleton, Prod.mk.injEq, and_true]
      have e1 : (pre.filter (optimize_test mf) ++ pre.filter (fun c => !optimize_test mf c)
          ++ x :: post).take (pre.filter (optimize_test mf)).length
          = pre.filter (optimize_test mf) := by
        rw [List.append_assoc, List.take_left']
        rfl
      have e2 : (pre.filter (optimize_test mf) ++ pre.filter (fun c => !optimize_test mf c)
          ++ x :: post).drop (pre.filter (optimize_test mf)).length
          = pre.filter (fun c => !optimize_test mf c) ++ x :: post := by
        rw [List.append_assoc, List.drop_left']
        rfl
      have e3 : (pre.filter (fun c => !optimize_test mf c) ++ x :: post).take
          (pre.length - (pre.filter (optimize_test mf)).length)
          = pre.filter (fun c => !optimize_test mf c) := by
        rw [List.take_left']
        omega
      have e4 : (pre.filter (optimize_test mf) ++ pre.filter (fun c => !optimize_test mf c)
          ++ x :: post).drop (pre.length + 1) = post := by
        have : pre.length + 1 = (pre.filter (optimize_test mf)
            ++ pre.filter (fun c => !optimize_test mf c) ++ [x]).length := by
          simp; omega
        rw [this]
        have e5 : pre.filter (optimize_test mf) ++ pre.filter (fun c => !optimize_test mf c)
            ++ x :: post = (pre.filter (optimize_test mf)
              ++ pre.filter (fun c => !optimize_test mf c) ++ [x]) ++ post := by
          simp
        rw [e5, List.drop_left]
      rw [e1, e2, e3, e4]
      simp

/-- The test of `optimize_list` in words: the site has a cleared neighbour whose number of
flagged neighbours, or of available neighbours, equals its `minesaround`. -/
theorem optimize_test_iff (mf : minefield_t) (c : possible_mine_t) :
    optimize_test mf c = true ↔
      ∃ n ∈ neighbours c.col c.row, (minefield_cell mf n.1 n.2).is_cleared = true ∧
        (FLAGSAROUND mf n.1 n.2 = ((minefield_cell mf n.1 n.2).minesaround : Int) ∨
         AVAILAROUND mf n.1 n.2 = ((minefield_cell mf n.1 n.2).minesaround : Int)) := by
  unfold optimize_test
  rw [for_each_neighbour_or_eq, for_each_neighbour_or_eq]
  simp only [Bool.or_eq_true, List.any_eq_true, unmarked_neighbours_must_be_cleared,
    unmarked_neighbours_must_be_flagged, Bool.and_eq_true, decide_eq_true_eq]
  constructor
  · rintro (⟨n, hn, h1, h2⟩ | ⟨n, hn, h1, h2⟩)
    · exact ⟨n, hn, h1, Or.inl h2⟩
    · exact ⟨n, hn, h1, Or.inr h2⟩
  · rintro ⟨n, hn, h1, h2 | h2⟩
    · exact Or.inl ⟨n, hn, h1, h2⟩
    · exact Or.inr ⟨n, hn, h1, h2⟩

/-- C33: `optimize_list` leaves in `list->cell` the sites that pass its test, in their
original order, followed by the sites that do not, in their original order; this is a
permutation of the original array, of the same length; the other fields of the list are
untouched; the value returned is nonzero exactly if some site passes the test; and a site
passes the test exactly if it has a cleared neighbour with `flags_around == minesaround` or
`available_around == minesaround`. -/
theorem optimize_list_stable_partition (mf : minefield_t) (list : mine_list_t) :
    (optimize_list mf list).1.cell
      = list.cell.filter (optimize_test mf) ++ list.cell.filter (fun c => !optimize_test mf c) ∧
    (optimize_list mf list).1.cell.Perm list.cell ∧
    (optimize_list mf list).1.cell.length = list.cell.length ∧
    ((optimize_list mf list).1.cell.Nodup ↔ list.cell.Nodup) ∧
    ((optimize_list mf list).2 = true ↔ ∃ c ∈ list.cell, optimize_test mf c = true) ∧
    ((optimize_list mf list).1.arrangements = list.arrangements ∧
      (optimize_list mf list).1.min_flags = list.min_flags ∧
      (optimize_list mf list).1.max_flags = list.max_flags ∧
      (optimize_list mf list).1.sum_flags = list.sum_flags) ∧
    ∀ c : possible_mine_t, optimize_test mf c = true ↔
      ∃ n ∈ neighbours c.col c.row, (minefield_cell mf n.1 n.2).is_cleared = true ∧
        (FLAGSAROUND mf n.1 n.2 = ((minefield_cell mf n.1 n.2).minesaround : Int) ∨
         AVAILAROUND mf n.1 n.2 = ((minefield_cell mf n.1 n.2).minesaround : Int)) := by
  have key := optimize_fold_partition mf list.cell []
  rw [List.append_nil, List.append_nil] at key
  have hperm := (optimize_fold_perm mf list.cell list.cell.length).1
  refine ⟨?_, hperm, hperm.length_eq, hperm.nodup_iff, ?_, ⟨rfl, rfl, rfl, rfl⟩,
    optimize_test_iff mf⟩
  · show ((List.range list.cell.length).foldl (optimize_step mf) (list.cell, 0, false)).1 = _
    rw [key]
  · show ((List.range list.cell.length).foldl (optimize_step mf) (list.cell, 0, false)).2.2
      = true ↔ _
    rw [key]
    simp only [List.any_eq_true]

/-! ## The clusters are connected -/

theorem linked_mono (mf : minefield_t) (A C : List possible_mine_t)
    (h : ∀ x ∈ A, x ∈ C) (a b : possible_mine_t) (hl : linked mf A a b) : linked mf C a b :=
  Relation.ReflTransGen.mono (fun _ _ hxy => ⟨h _ hxy.1, h _ hxy.2.1, hxy.2.2⟩) hl

theorem linked_trans (mf : minefield_t) (C : List possible_mine_t) (a b c : possible_mine_t)
    (h1 : linked mf C a b) (h2 : linked mf C b c) : linked mf C a c :=
  Relation.ReflTransGen.trans h1 h2

theorem add_possible_mine_connected (mf : minefield_t) (col row : Int) (ml : mine_lists_t)
    (hok : chain_ok mf ml.first) (hu : IS_UNMARKED mf col row = true)
    (hcon : ∀ l ∈ ml.first, cluster_connected mf l) :
    ∀ l ∈ (add_possible_mine mf col row ml).first, cluster_connected mf l := by
  obtain ⟨_, hmem, _, _⟩ := hok
  have hcl : ∀ l ∈ ml.first, ∀ y ∈ l.cell, (minefield_cell mf y.col y.row).is_cleared = false := by
    intro l hl y hy
    have := (hmem (y.col, y.row) ((mem_all_sites _ _).2 ⟨l, hl, y, hy, rfl, rfl⟩)).2
    simp only [IS_UNMARKED, Bool.not_eq_true', Bool.or_eq_false_iff] at this
    exact this.2
  have hxcl : (minefield_cell mf col row).is_cleared = false := by
    simp only [IS_UNMARKED, Bool.not_eq_true', Bool.or_eq_false_iff] at hu
    exact hu.2
  intro l hl
  rw [add_possible_mine_first] at hl
  rcases List.mem_cons.1 hl with rfl | hl
  · -- the new list
    have key : ∀ y ∈ ({ col := col, row := row, flag_placements := 0 } ::
        (ml.first.filter (fun l => l.cell.any fun cell =>
          are_dependant mf col row cell.col cell.row)).flatMap fun l => l.cell :
          List possible_mine_t),
        linked mf ({ col := col, row := row, flag_placements := 0 } ::
          (ml.first.filter (fun l => l.cell.any fun cell =>
            are_dependant mf col row cell.col cell.row)).flatMap fun l => l.cell)
          { col := col, row := row, flag_placements := 0 } y ∧
        linked mf ({ col := col, row := row, flag_placements := 0 } ::
          (ml.first.filter (fun l => l.cell.any fun cell =>
            are_dependant mf col row cell.col cell.row)).flatMap fun l => l.cell)
          y { col := col, row := row, flag_placements := 0 } := by
      intro y hy
      rcases List.mem_cons.1 hy with rfl | hy'
      · exact ⟨Relation.ReflTransGen.refl, Relation.ReflTransGen.refl⟩
      · simp only [List.mem_flatMap, List.mem_filter] at hy'
        obtain ⟨A, ⟨hA1, hA2⟩, hyA⟩ := hy'
        rw [List.any_eq_true] at hA2
        obtain ⟨z, hz, hdz⟩ := hA2
        have hsub : ∀ x ∈ A.cell, x ∈ ({ col := col, row := row, flag_placements := 0 } ::
            (ml.first.filter (fun l => l.cell.any fun cell =>
              are_dependant mf col row cell.col cell.row)).flatMap fun l => l.cell :
              List possible_mine_t) := by
          intro x hx
          refine List.mem_cons_of_mem _ ?_
          simp only [List.mem_flatMap, List.mem_filter]
          exact ⟨A, ⟨hA1, List.any_eq_true.2 ⟨z, hz, hdz⟩⟩, hx⟩
        have hzy := linked_mono mf A.cell _ hsub z y (hcon A hA1 z hz y hyA)
        have hyz := linked_mono mf A.cell _ hsub y z (hcon A hA1 y hyA z hz)
        have hdz' : are_dependant mf z.col z.row col row = true := by
          rw [are_dependant_symm mf z.col z.row col row (hcl A hA1 z hz) hxcl]
          exact hdz
        constructor
        · exact Relation.ReflTransGen.head ⟨List.mem_cons_self _ _, hsub z hz, hdz⟩ hzy
        · exact Relation.ReflTransGen.tail hyz ⟨hsub z hz, List.mem_cons_self _ _, hdz'⟩
    intro a ha b hb
    exact linked_trans mf _ a _ b (key a ha).2 (key b hb).1
  · exact hcon l (List.mem_of_mem_filter hl)

theorem find_possible_mines_fold_connected (mf : minefield_t) :
    ∀ (ps : List (Int × Int)) (ml : mine_lists_t), ps.Nodup →
    (∀ p ∈ ps, p ∈ playable_cells mf) → chain_ok mf ml.first →
    (∀ p ∈ ps, p ∉ all_sites ml.first) →
    (∀ l ∈ ml.first, cluster_connected mf l) →
    ∀ l ∈ (ps.foldl
      (fun ml p => if is_border_site mf p.1 p.2 then add_possible_mine mf p.1 p.2 ml else ml)
      ml).first, cluster_connected mf l := by
  intro ps
  induction ps with
  | nil => intro ml _ _ _ _ h; exact h
  | cons p ps ih =>
    intro ml hnd hpl hok hdis hcon
    rw [List.foldl_cons]
    rw [List.nodup_cons] at hnd
    have hstep := find_possible_mines_fold_ok mf [p] ml (List.nodup_singleton p)
      (fun q hq => hpl q (by rw [List.mem_singleton.1 hq]; exact List.mem_cons_self _ _)) hok
      (fun q hq => hdis q (by rw [List.mem_singleton.1 hq]; exact List.mem_cons_self _ _))
    rw [List.foldl_cons, List.foldl_nil] at hstep
    apply ih _ hnd.2 (fun q hq => hpl q (List.mem_cons_of_mem _ hq)) hstep
    · intro q hq
      split
      · intro hmem
        rcases List.mem_cons.1 ((all_sites_add_possible_mine mf p.1 p.2 ml).mem_iff.1 hmem)
          with h | h
        · have hqp : q = p := h
          rw [hqp] at hq
          exact hnd.1 hq
        · exact hdis q (List.mem_cons_of_mem _ hq) h
      · exact hdis q (List.mem_cons_of_mem _ hq)
    · split
      · next hb =>
        simp only [is_border_site, Bool.and_eq_true] at hb
        exact add_possible_mine_connected mf p.1 p.2 ml hok hb.1 hcon
      · exact hcon

theorem find_possible_mines_connected (mf : minefield_t) :
    ∀ l ∈ (find_possible_mines mf MINE_LISTS_INITIALIZER).first, cluster_connected mf l := by
  unfold find_possible_mines
  apply find_possible_mines_fold_connected mf _ _ (nodup_playable_cells mf) (fun p hp => hp)
  · refine ⟨?_, ?_, ?_, ?_⟩ <;> simp [MINE_LISTS_INITIALIZER, all_sites]
  · intro p _
    simp [MINE_LISTS_INITIALIZER, all_sites]
  · intro l hl
    simp [MINE_LISTS_INITIALIZER] at hl

/-- C35: after `find_possible_mines` (started, as in `solve_minefield`, from
`MINE_LISTS_INITIALIZER`) every cluster is connected: any two of its sites are joined by a
chain of sites of that same cluster in which `are_dependant` is true of each site and the
next; and the clusters are not under-merged either: two different sites of which
`are_dependant` is true lie in one cluster.  So the clusters are the connected components
of the dependency relation on the sites. -/
theorem find_possible_mines_clusters_connected (mf : minefield_t) :
    (∀ l ∈ (find_possible_mines mf MINE_LISTS_INITIALIZER).first,
      ∀ a ∈ l.cell, ∀ b ∈ l.cell, linked mf l.cell a b) ∧
    (∀ l1 ∈ (find_possible_mines mf MINE_LISTS_INITIALIZER).first,
      ∀ l2 ∈ (find_possible_mines mf MINE_LISTS_INITIALIZER).first,
      ∀ a ∈ l1.cell, ∀ b ∈ l2.cell,
        are_dependant mf a.col a.row b.col b.row = true → l1 = l2) ∧
    (∀ l ∈ (find_possible_mines mf MINE_LISTS_INITIALIZER).first,
      ∀ a ∈ l.cell, ∀ b : possible_mine_t,
        linked mf ((find_possible_mines mf MINE_LISTS_INITIALIZER).first.flatMap
          fun l' => l'.cell) a b → b ∈ l.cell) := by
  have hsame : ∀ l1 ∈ (find_possible_mines mf MINE_LISTS_INITIALIZER).first,
      ∀ l2 ∈ (find_possible_mines mf MINE_LISTS_INITIALIZER).first,
      ∀ a ∈ l1.cell, ∀ b ∈ l2.cell,
        are_dependant mf a.col a.row b.col b.row = true → l1 = l2 := by
    intro l1 h1 l2 h2 a ha b hb hdep
    by_contra hne
    have hpw := (find_possible_mines_chain_ok mf).2.2.1
    have := hpw.forall (independent_lists_symm mf) h1 h2 hne a ha b hb
    rw [this.1] at hdep
    cases hdep
  refine ⟨find_possible_mines_connected mf, hsame, ?_⟩
  intro l hl a ha b hlink
  induction hlink with
  | refl => exact ha
  | tail _ hstep ih =>
    obtain ⟨_, hy, hdep⟩ := hstep
    obtain ⟨l2, hl2, hy2⟩ := List.mem_flatMap.1 hy
    have := hsame l hl l2 hl2 _ ih _ hy2 hdep
    rw [this]
    exact hy2

/-! ## The budget of the placement loop -/

/-- The placement loop over distinct cells `l` that hold no mine yet: with `rand()` never
negative and `flags` not negative at the start, `flags` stays non-negative, and the number of
mines among any distinct cells `cells` that include `l` grows by what `flags` drops. -/
theorem place_mines_fold_budget (RAND_MAX : Int) (rand : Nat → Int) (hrand : ∀ k, 0 ≤ rand k)
    (cells : List (Int × Int)) (hcells : cells.Nodup) :
    ∀ (l : List (Int × Int)) (st : minefield_t × Nat), l.Nodup → (∀ p ∈ l, p ∈ cells) →
    (∀ p ∈ l, (st.1.field p.1 p.2).is_mine = false) → 0 ≤ st.1.flags →
    0 ≤ (l.foldl (place_mine RAND_MAX rand) st).1.flags ∧
    (cells.countP (fun q => ((l.foldl (place_mine RAND_MAX rand) st).1.field q.1 q.2).is_mine)
        : Int)
      = cells.countP (fun q => (st.1.field q.1 q.2).is_mine)
        + (st.1.flags - (l.foldl (place_mine RAND_MAX rand) st).1.flags) := by
  intro l
  induction l with
  | nil =>
    intro st _ _ _ h0
    exact ⟨h0, by simp⟩
  | cons p t ih =>
    intro st hnd hsub hfree h0
    rw [List.foldl_cons]
    rw [List.nodup_cons] at hnd
    have hp := hfree p (List.mem_cons_self _ _)
    by_cases hlt : rand st.2 < mine_threshold RAND_MAX st.1 p.1 p.2
    · have hflags : 1 ≤ st.1.flags := by
        by_contra hno
        have hz : st.1.flags = 0 := by omega
        unfold mine_threshold at hlt
        rw [hz, mul_zero, wrap_int_zero] at hlt
        have := hrand st.2
        omega
      have hstep : place_mine RAND_MAX rand st p
          = ({ store_cell st.1 p.1 p.2 { minefield_cell st.1 p.1 p.2 with is_mine := true } with
                flags := st.1.flags - 1 }, st.2 + 1) := by
        unfold place_mine
        rw [if_pos hlt]
        rfl
      have hcount := countP_change_at cells hcells p (hsub p (List.mem_cons_self _ _))
        (fun q => (st.1.field q.1 q.2).is_mine)
        (fun q => ((place_mine RAND_MAX rand st p).1.field q.1 q.2).is_mine)
        (by
          rintro ⟨x, y⟩ hxy
          have : ¬ (x = p.1 ∧ y = p.2) := fun hh => hxy (Prod.ext hh.1 hh.2)
          rw [hstep]
          simp [store_cell, this])
      have hnow : ((place_mine RAND_MAX rand st p).1.field p.1 p.2).is_mine = true := by
        rw [hstep]
        simp [store_cell, minefield_cell]
      simp only [hp, hnow, b2i, Bool.false_eq_true, if_false, if_true, add_zero] at hcount
      have hfl : (place_mine RAND_MAX rand st p).1.flags = st.1.flags - 1 := by
        rw [hstep]
      obtain ⟨i1, i2⟩ := ih (place_mine RAND_MAX rand st p) hnd.2
        (fun q hq => hsub q (List.mem_cons_of_mem _ hq))
        (by
          intro q hq
          have hne : q ≠ p := fun e => hnd.1 (e ▸ hq)
          have : ¬ (q.1 = p.1 ∧ q.2 = p.2) := fun hh => hne (Prod.ext hh.1 hh.2)
          rw [hstep]
          simp only [store_cell, this, if_false]
          exact hfree q (List.mem_cons_of_mem _ hq))
        (by rw [hfl]; omega)
      refine ⟨i1, ?_⟩
      rw [i2, hfl]
      omega
    · have hstep : place_mine RAND_MAX rand st p = (st.1, st.2 + 1) := by
        unfold place_mine
        rw [if_neg hlt]
      rw [hstep]
      exact ih (st.1, st.2 + 1) hnd.2 (fun q hq => hsub q (List.mem_cons_of_mem _ hq))
        (fun q hq => hfree q (List.mem_cons_of_mem _ hq)) h0

theorem pre_game_reset_no_mine (mf : minefield_t) (n : Int) (c r : Int) :
    ((pre_game_reset mf n).field c r).is_mine = false := by
  rw [pre_game_reset_eq]
  simp only
  split_ifs <;> rfl

/-- The board `pre_game` builds holds `mines - flags` mines, and `flags` is not negative. -/
theorem pre_game_board_budget (RAND_MAX : Int) (rand : Nat → Int) (mf : minefield_t) (n : Int)
    (hrand : ∀ k, 0 ≤ rand k) (hm : 0 ≤ mf.mines) :
    0 ≤ (pre_game_board RAND_MAX rand mf n).1.flags ∧
    (mine_count (pre_game_board RAND_MAX rand mf n).1 : Int)
      = mf.mines - (pre_game_board RAND_MAX rand mf n).1.flags := by
  unfold pre_game_board place_mines record_all_minesaround
  simp only
  have hreset := pre_game_reset_eq mf n
  have hplay0 : playable_cells (pre_game_reset mf n) = playable_cells mf := by
    rw [hreset]; rfl
  have hflags0 : (pre_game_reset mf n).flags = mf.mines := by rw [hreset]
  obtain ⟨b1, b2⟩ := place_mines_fold_budget RAND_MAX rand hrand (playable_cells mf)
    (nodup_playable_cells mf) (playable_cells mf) (pre_game_reset mf n, 0)
    (nodup_playable_cells mf) (fun p hp => hp)
    (fun p _ => pre_game_reset_no_mine mf n p.1 p.2) (by simp only; rw [hflags0]; exact hm)
  obtain ⟨⟨_, p2, p3, _, _, _⟩, _⟩ := place_mines_fold RAND_MAX rand
    (playable_cells (pre_game_reset mf n)) (pre_game_reset mf n, 0)
  rw [hplay0] at p2 p3 ⊢
  generalize hP : (List.foldl (place_mine RAND_MAX rand) (pre_game_reset mf n, 0)
    (playable_cells mf)).1 = P at b1 b2 p2 p3 ⊢
  simp only at b1 b2 p2 p3
  have hplayP : playable_cells P = playable_cells mf := by
    unfold playable_cells; rw [p2, p3, hreset]
  obtain ⟨⟨_, r2, r3, _, r5, _, _⟩, r8⟩ := record_minesaround_fold (playable_cells P) P
    (nodup_playable_cells P)
  generalize hB : List.foldl record_minesaround P (playable_cells P) = B at r2 r3 r5 r8 ⊢
  have hplayB : playable_cells B = playable_cells mf := by
    unfold playable_cells at hplayP ⊢; rw [r2, r3]; exact hplayP
  have hzero : (playable_cells mf).countP
      (fun q => ((pre_game_reset mf n).field q.1 q.2).is_mine) = 0 := by
    rw [List.countP_eq_zero]
    intro q _
    rw [pre_game_reset_no_mine]
    simp
  rw [hzero, hflags0] at b2
  refine ⟨by rw [r5]; exact b1, ?_⟩
  unfold mine_count count_cells
  rw [hplayB, r5]
  have : (playable_cells mf).countP (fun q => (minefield_cell B q.1 q.2).is_mine)
      = (playable_cells mf).countP (fun q => (P.field q.1 q.2).is_mine) := by
    apply List.countP_congr
    intro q _
    simp only [minefield_cell]
    rw [(r8 q.1 q.2).1]
  rw [this, b2]
  simp

/-- C39: for every `RAND_MAX` and every sequence of values of `rand()`, none of them negative
(the C library returns values between 0 and `RAND_MAX`), and every board size and number of
mines `mines >= 0` (the program accepts no other), the board after the placement loop of
`pre_game`, and the board `pre_game` hands over, hold exactly `mines - flags` mines, with
`flags >= 0`: never more than `mines`.  The product of the placement test is the `int` the
code computes: it wraps around when `flags` exceeds the number of cells left. -/
theorem pre_game_mine_budget (RAND_MAX : Int) (rand : Nat → Int) (s : settings) (fuel : Nat)
    (g : game_t) (n : Int) (hrand : ∀ k, 0 ≤ rand k) (hm : 0 ≤ g.minefield.mines) :
    (0 ≤ (pre_game_board RAND_MAX rand g.minefield n).1.flags ∧
      (mine_count (pre_game_board RAND_MAX rand g.minefield n).1 : Int)
        = g.minefield.mines - (pre_game_board RAND_MAX rand g.minefield n).1.flags ∧
      (mine_count (pre_game_board RAND_MAX rand g.minefield n).1 : Int) ≤ g.minefield.mines) ∧
    (∀ g', pre_game RAND_MAX rand s fuel g n = some g' →
      g'.minefield.mines = g.minefield.mines ∧ 0 ≤ g'.minefield.flags ∧
      (mine_count g'.minefield : Int) = g'.minefield.mines - g'.minefield.flags ∧
      (mine_count g'.minefield : Int) ≤ g'.minefield.mines) ∧
    (s.open_patch = false → ∃ g', pre_game RAND_MAX rand s fuel g n = some g') := by
  obtain ⟨h1, h2⟩ := pre_game_board_budget RAND_MAX rand g.minefield n hrand hm
  refine ⟨⟨h1, h2, by omega⟩, ?_, ?_⟩
  · intro g' hg
    have hop := pre_game_opened RAND_MAX rand s fuel g n g' hg
    have hspec := (pre_game_board_spec RAND_MAX rand g.minefield n).1
    have hk := opened_from_kept hop
    generalize (pre_game_board RAND_MAX rand g.minefield n).1 = B at h1 h2 hop hspec hk
    have hcount : mine_count g'.minefield = mine_count B := by
      apply count_cells_congr B g'.minefield _ _ hop.2.1 hop.2.2.1
      intro c r _
      rw [(hk c r).1]
    have hmines : g'.minefield.mines = g.minefield.mines := by
      rw [hop.2.2.2.1, hspec.2.2.1]
    rw [hcount, hop.2.2.2.2.1, hmines]
    exact ⟨rfl, h1, h2, by omega⟩
  · intro ho
    have := pre_game_closed RAND_MAX rand s fuel g n ho
    exact Option.isSome_iff_exists.1 this

set_option maxRecDepth 100000 in
/-- C39, at a concrete input: a 5 x 5 board with `mines = 2` and `rand()` returning
`RAND_MAX = 2147483647` every time.  No cell is mined before the last one, where
`RAND_MAX / 1 * 2` leaves the range of an `int` and the test fails: the loop places no mine
and leaves `flags == 2`. -/
theorem pre_game_mine_budget_witness :
    ((pre_game_board 2147483647 (fun _ => 2147483647)
        ({ five_game with minefield := { five_board with mines := 2 } } : game_t).minefield
        7).1.flags = 2 ∧
      mine_count (pre_game_board 2147483647 (fun _ => 2147483647)
        ({ five_game with minefield := { five_board with mines := 2 } } : game_t).minefield
        7).1 = 0) ∧
    ((0 ≤ (pre_game_board 2147483647 (fun _ => 2147483647)
        ({ five_game with minefield := { five_board with mines := 2 } } : game_t).minefield
        7).1.flags ∧
      (mine_count (pre_game_board 2147483647 (fun _ => 2147483647)
        ({ five_game with minefield := { five_board with mines := 2 } } : game_t).minefield
        7).1 : Int)
        = ({ five_game with minefield := { five_board with mines := 2 } } : game_t).minefield.mines
          - (pre_game_board 2147483647 (fun _ => 2147483647)
            ({ five_game with minefield := { five_board with mines := 2 } }
              : game_t).minefield 7).1.flags ∧
      (mine_count (pre_game_board 2147483647 (fun _ => 2147483647)
        ({ five_game with minefield := { five_board with mines := 2 } } : game_t).minefield
        7).1 : Int)
        ≤ ({ five_game with minefield := { five_board with mines := 2 } }
          : game_t).minefield.mines) ∧
    (∀ g', pre_game 2147483647 (fun _ => 2147483647) SETTINGS_INITIALIZER 0
        { five_game with minefield := { five_board with mines := 2 } } 7 = some g' →
      g'.minefield.mines
        = ({ five_game with minefield := { five_board with mines := 2 } }
          : game_t).minefield.mines ∧
      0 ≤ g'.minefield.flags ∧
      (mine_count g'.minefield : Int) = g'.minefield.mines - g'.minefield.flags ∧
      (mine_count g'.minefield : Int) ≤ g'.minefield.mines) ∧
    (SETTINGS_INITIALIZER.open_patch = false →
      ∃ g', pre_game 2147483647 (fun _ => 2147483647) SETTINGS_INITIALIZER 0
        { five_game with minefield := { five_board with mines := 2 } } 7 = some g')) :=
  ⟨by decide,
    pre_game_mine_budget 2147483647 (fun _ => 2147483647) SETTINGS_INITIALIZER 0
      { five_game with minefield := { five_board with mines := 2 } } 7
      (fun _ => show (0 : Int) ≤ 2147483647 from by decide) (by decide)⟩

/-! ## The claim about a game both won and lost -/

set_option maxRecDepth 100000 in
theorem wrong_flag_played_some : wrong_flag_played.isSome = true := by
  decide

set_option maxRecDepth 100000 in
theorem won_and_lost_played_some : won_and_lost_played.isSome = true := by
  decide

set_option maxRecDepth 100000 in
/-- C40 fails on the code: on a 5 x 5 board with one mine at `(1, 1)` the player puts a flag on
`(5, 5)`, which holds no mine, and clears `(3, 3)`; the game is in progress (neither won nor
lost) with `flags == mines` and one unmarked cell, the mine.  The player then clears `(1, 1)`:
`clear_square` returns `-25` and `make_move` sets `state.lost`; the same call then finds
`unmarked == 0 && flags == mines` and sets `state.won` too, and adds one to `stats.won` and
one to `stats.lost` for this one game. -/
theorem make_move_won_and_lost :
    ∃ g0 g, wrong_flag_played = some g0 ∧ won_and_lost_played = some g ∧
      g0.state.won = false ∧ g0.state.lost = false ∧ g0.buttons_down = 0 ∧
      g0.minefield.flags = g0.minefield.mines ∧ g0.minefield.unmarked = 1 ∧
      IS_MINE g0.minefield 1 1 = true ∧ IS_UNMARKED g0.minefield 1 1 = true ∧
      IS_MINE g0.minefield 5 5 = false ∧ IS_FLAGGED g0.minefield 5 5 = true ∧
      click (some g0) 1 1 1 = some g ∧
      g.state.won = true ∧ g.state.lost = true ∧
      (minefield_cell g.minefield 1 1).is_cleared = true ∧
      (minefield_cell g.minefield 1 1).is_mine = true ∧
      g.minefield.unmarked = 0 ∧ g.minefield.flags = g.minefield.mines ∧
      g.stats.played = g0.stats.played ∧
      g.stats.won = g0.stats.won + 1 ∧ g.stats.lost = g0.stats.lost + 1 := by
  refine ⟨wrong_flag_played.get wrong_flag_played_some,
    won_and_lost_played.get won_and_lost_played_some, (Option.some_get _).symm,
    (Option.some_get _).symm, by decide, by decide, by decide, by decide, by decide, by decide,
    by decide, by decide, by decide, ?_, by decide, by decide, by decide, by decide, by decide,
    by decide, by decide, by decide, by decide⟩
  rw [Option.some_get, Option.some_get]
  rfl

/-! ## A site next to a cleared cell with all its flags is never mined by the search -/

theorem can_flag_allowed (mf : minefield_t) (cell : possible_mine_t) (fu : Int)
    (h : can_flag mf cell fu = true) : flag_allowed mf cell.col cell.row :=
  ((can_flag_iff mf cell fu).1 h).2

theorem flag_allowed_of_flagged (mf : minefield_t) (c r x y : Int)
    (hc : (minefield_cell mf c r).is_flagged = false)
    (h : flag_allowed (set_flagged mf c r true) x y) : flag_allowed mf x y := by
  intro n hn hcl
  have := h n hn (by rw [set_flagged_is_cleared]; exact hcl)
  rw [set_flagged_minesaround, set_flagged_flagsaround mf c r n.1 n.2 hc] at this
  split_ifs at this <;> omega

theorem flag_allowed_of_unavailable (mf : minefield_t) (c r x y : Int)
    (h : flag_allowed (set_unavailable mf c r true) x y) : flag_allowed mf x y := by
  intro n hn hcl
  have := h n hn (by rw [set_unavailable_is_cleared]; exact hcl)
  rw [set_unavailable_minesaround, set_unavailable_flagsaround] at this
  exact this

theorem not_flag_allowed_of_full (mf : minefield_t) (col row : Int)
    (h : has_full_neighbour mf col row) : ¬ flag_allowed mf col row := by
  obtain ⟨n, hn, hfull⟩ := h
  simp only [unmarked_neighbours_must_be_cleared, Bool.and_eq_true, decide_eq_true_eq] at hfull
  intro ha
  have := ha n hn hfull.1
  omega

theorem bump_bump (x y : Int) (o : Option possible_mine_t) :
    Option.map (bump_placements y) (Option.map (bump_placements x) o)
      = Option.map (bump_placements (x + y)) o := by
  cases o with
  | none => rfl
  | some c => simp [bump_placements, wrap_int_add_wrap, add_assoc]

theorem getElem?_add_flag_placements (list : mine_list_t) (idx j : Nat) (r : Int) :
    (add_flag_placements list idx r).cell[j]?
      = if idx = j then (list.cell[j]?).map (bump_placements r) else list.cell[j]? := by
  simp only [add_flag_placements, List.getElem?_modify]
  by_cases h : idx = j
  · simp [h]
  · simp only [h, if_false]
    cases list.cell[j]? <;> rfl

/-- The search changes the `flag_placements` of the cell at an index only if that index is
the place of a site still to be decided at which the mined branch was allowed on the board
as the search found it. -/
theorem analyze_list_aux_blocked : ∀ (todo : List possible_mine_t) (mf : minefield_t)
    (list : mine_list_t) (idx : Nat) (fu : Int), sites_fresh mf todo →
    ∀ j, (_analyze_list todo mf list idx fu).list.cell[j]? = list.cell[j]? ∨
      ((∃ d : Int, (_analyze_list todo mf list idx fu).list.cell[j]?
          = (list.cell[j]?).map (bump_placements d)) ∧
        idx ≤ j ∧ ∃ cell, todo[j - idx]? = some cell ∧
          flag_allowed mf cell.col cell.row) := by
  intro todo
  induction todo with
  | nil =>
    intro mf list idx fu _ j
    left
    unfold _analyze_list
    simp only
    split_ifs <;> rfl
  | cons cell next ih =>
    intro mf list idx fu hfresh j
    have hcf := hfresh.2 cell (List.mem_cons_self _ _)
    have hf1 := sites_fresh_next_flagged mf cell next hfresh
    have hf2 := sites_fresh_next_unavailable mf cell next hfresh
    have m1 := analyze_list_aux_mf next (set_flagged mf cell.col cell.row true) list
      (idx + 1) (fu + 1) hf1.2
    have ih1 := ih (set_flagged mf cell.col cell.row true) list (idx + 1) (fu + 1) hf1 j
    have ih2 := fun l => ih (set_unavailable mf cell.col cell.row true) l (idx + 1) fu hf2 j
    have hnext : ∀ (b : minefield_t),
        (∀ x y, flag_allowed b x y → flag_allowed mf x y) →
        (idx + 1 ≤ j ∧ ∃ c, next[j - (idx + 1)]? = some c ∧ flag_allowed b c.col c.row) →
        (idx ≤ j ∧ ∃ c, (cell :: next)[j - idx]? = some c ∧ flag_allowed mf c.col c.row) := by
      intro b hb h
      obtain ⟨h1, c, h2, h3⟩ := h
      refine ⟨by omega, c, ?_, hb _ _ h3⟩
      have : j - idx = (j - (idx + 1)) + 1 := by omega
      rw [this, List.getElem?_cons_succ]
      exact h2
    rw [_analyze_list]
    simp only
    generalize ha : (if can_flag mf cell fu = true then _ else _ : search_t) = a
    have hA : a.mf = mf ∧ (a.list.cell[j]? = list.cell[j]? ∨
        ((∃ d : Int, a.list.cell[j]? = (list.cell[j]?).map (bump_placements d)) ∧
          idx ≤ j ∧ ∃ c, (cell :: next)[j - idx]? = some c ∧
            flag_allowed mf c.col c.row)) := by
      rw [← ha]
      by_cases hF : can_flag mf cell fu = true
      · simp only [hF, if_true]
        have c1 : (_analyze_list next (set_flagged mf cell.col cell.row true) list (idx + 1)
              (fu + 1)).list.cell[j]? = list.cell[j]? ∨
            ((∃ d : Int, (_analyze_list next (set_flagged mf cell.col cell.row true) list
              (idx + 1) (fu + 1)).list.cell[j]? = (list.cell[j]?).map (bump_placements d)) ∧
              idx ≤ j ∧ ∃ c, (cell :: next)[j - idx]? = some c ∧
                flag_allowed mf c.col c.row) := by
          rcases ih1 with e | ⟨e, h⟩
          · exact Or.inl e
          · exact Or.inr ⟨e, hnext _ (fun x y => flag_allowed_of_flagged mf _ _ x y hcf.1) h⟩
        split_ifs
        · exact ⟨by rw [m1]; exact set_flagged_undo mf _ _ hcf.1, c1⟩
        · refine ⟨by rw [m1]; exact set_flagged_undo mf _ _ hcf.1, ?_⟩
          simp only [getElem?_add_flag_placements]
          by_cases hij : idx = j
          · rw [if_pos hij]
            right
            refine ⟨?_, by omega, cell, ?_, can_flag_allowed mf cell fu hF⟩
            · rcases c1 with e | ⟨⟨d, e⟩, _⟩
              · exact ⟨_, by rw [e]⟩
              · exact ⟨_, by rw [e]; exact bump_bump _ _ _⟩
            · rw [hij, Nat.sub_self, List.getElem?_cons_zero]
          · rw [if_neg hij]
            exact c1
      · simp only [hF, Bool.false_eq_true, if_false]
        exact ⟨trivial, Or.inl trivial⟩
    obtain ⟨hmf, cA⟩ := hA
    rw [hmf]
    have hB : (_analyze_list next (set_unavailable mf cell.col cell.row true) a.list (idx + 1)
          fu).list.cell[j]? = list.cell[j]? ∨
        ((∃ d : Int, (_analyze_list next (set_unavailable mf cell.col cell.row true) a.list
          (idx + 1) fu).list.cell[j]? = (list.cell[j]?).map (bump_placements d)) ∧
          idx ≤ j ∧ ∃ c, (cell :: next)[j - idx]? = some c ∧
            flag_allowed mf c.col c.row) := by
      rcases ih2 a.list with e2 | ⟨⟨d2, e2⟩, h2⟩
      · rw [e2]
        exact cA
      · have h2' := hnext _ (fun x y => flag_allowed_of_unavailable mf _ _ x y) h2
        right
        refine ⟨?_, h2'⟩
        rcases cA with e | ⟨⟨d, e⟩, _⟩
        · exact ⟨d2, by rw [e2, e]⟩
        · exact ⟨d + d2, by rw [e2, e]; exact bump_bump _ _ _⟩
    split_ifs
    · exact cA
    · exact hB
    · exact hB
    · exact cA

theorem flag_allowed_flags (mf : minefield_t) (k : Int) (c r : Int) :
    flag_allowed { mf with flags := k } c r ↔ flag_allowed mf c r :=
  Iff.rfl

theorem analyze_list_blocked (mf : minefield_t) (list : mine_list_t)
    (hf : sites_fresh mf list.cell) (h0 : ∀ c ∈ list.cell, c.flag_placements = 0) :
    ∀ c ∈ (analyze_list mf list).list.cell, ¬ flag_allowed mf c.col c.row →
      c.flag_placements = 0 := by
  have b := analyze_list_aux_blocked list.cell mf list 0 0 hf
  intro c hc hna
  unfold analyze_list at hc
  obtain ⟨j, hj⟩ := List.mem_iff_getElem?.1 hc
  rcases b j with e | ⟨⟨d, d1⟩, _, cell, e, hal⟩
  · rw [hj] at e
    exact h0 c (List.mem_iff_getElem?.2 ⟨j, e.symm⟩)
  · exfalso
    rw [hj] at d1
    rw [Nat.sub_zero] at e
    rw [e, Option.map_some'] at d1
    simp only [Option.some.injEq] at d1
    apply hna
    rw [d1]
    exact hal

theorem search_list_blocked (mf : minefield_t) (list : mine_list_t)
    (hf : sites_fresh mf list.cell) (h0 : ∀ c ∈ list.cell, c.flag_placements = 0) :
    ∀ c ∈ (search_list mf list).list.cell, ¬ flag_allowed mf c.col c.row →
      c.flag_placements = 0 := by
  have hperm := (optimize_list_perm mf list).1
  have hf' : sites_fresh mf (optimize_list mf list).1.cell := by
    refine ⟨?_, fun s h => hf.2 s (hperm.mem_iff.1 h)⟩
    have : (site_positions (optimize_list mf list).1.cell).Perm (site_positions list.cell) := by
      unfold site_positions
      exact hperm.map _
    exact this.nodup_iff.2 hf.1
  exact analyze_list_blocked mf (optimize_list mf list).1 hf'
    (fun c hc => h0 c (hperm.mem_iff.1 hc))

theorem nodup_of_all_sites_cons (l : mine_list_t) (chain : List mine_list_t)
    (h : (all_sites (l :: chain)).Nodup) :
    (site_positions l.cell).Nodup ∧ (all_sites chain).Nodup := by
  rw [all_sites_cons] at h
  exact ⟨h.of_append_left, h.of_append_right⟩

theorem analyze_each_blocked : ∀ (chain : List mine_list_t) (mf : minefield_t) (m0 M0 : Int),
    (all_sites chain).Nodup → (∀ l ∈ chain, sites_unflagged mf l.cell) →
    (∀ l ∈ chain, ∀ c ∈ l.cell, c.flag_placements = 0) →
    ∀ l ∈ (analyze_each mf m0 M0 chain).chain, ∀ c ∈ l.cell,
      ¬ flag_allowed mf c.col c.row → c.flag_placements = 0 := by
  intro chain
  induction chain with
  | nil => intro mf m0 M0 _ _ _ l hl; cases hl
  | cons x xs ih =>
    intro mf m0 M0 hnd hs h0 l hl
    obtain ⟨n1, n2⟩ := nodup_of_all_sites_cons x xs hnd
    have hx := search_list_blocked mf x ⟨n1, hs x (List.mem_cons_self _ _)⟩
      (h0 x (List.mem_cons_self _ _))
    have e1 := (search_list_restores mf x (hs x (List.mem_cons_self _ _))).1
    unfold analyze_each at hl
    simp only at hl
    split_ifs at hl with hneg
    · simp only at hl
      rcases List.mem_cons.1 hl with rfl | hl
      · exact hx
      · exact fun c hc _ => h0 l (List.mem_cons_of_mem _ hl) c hc
    · simp only at hl
      rcases List.mem_cons.1 hl with rfl | hl
      · exact hx
      · rw [e1] at hl
        exact ih mf _ _ n2 (fun y hy => hs y (List.mem_cons_of_mem _ hy))
          (fun y hy => h0 y (List.mem_cons_of_mem _ hy)) l hl

/-- After `analyze_possible_mines`, whether it completed or not, a site at which the mined
branch is not allowed on the board has `flag_placements == 0`. -/
theorem analyze_possible_mines_blocked (mf : minefield_t) (ml : mine_lists_t)
    (out : analysis_t) (hnd : (all_sites ml.first).Nodup)
    (hs : ∀ l ∈ ml.first, sites_unflagged mf l.cell)
    (h0 : ∀ l ∈ ml.first, ∀ c ∈ l.cell, c.flag_placements = 0)
    (h : analyze_possible_mines mf ml = some out) :
    ∀ l ∈ out.mine_lists.first, ∀ c ∈ l.cell,
      ¬ flag_allowed mf c.col c.row → c.flag_placements = 0 := by
  have hb := analyze_each_blocked ml.first mf ml.min_flags ml.max_flags hnd hs h0
  obtain ⟨i1, i2⟩ := analyze_each_restores ml.first mf ml.min_flags ml.max_flags hs
  have hperm := analyze_each_sites ml.first mf ml.min_flags ml.max_flags
  unfold analyze_possible_mines at h
  simp only at h
  generalize analyze_each mf ml.min_flags ml.max_flags ml.first = p at h hb i1 i2 hperm
  split_ifs at h with h1 h2
  · cases h
    exact hb
  · cases h
    exact hb
  · simp only [Option.map_eq_some'] at h
    obtain ⟨f, hfind, rfl⟩ := h
    simp only
    obtain ⟨e1, _, _⟩ := find_retry_list_some _ _ _ f hfind
    obtain ⟨m1, m2, _⟩ := merge_retry_lists_spec f.2.2.1 f.2.1 f.2.2.2.1 f.2.2.2.2
    generalize merge_retry_lists f.2.1 f.2.2.1 f.2.2.2.1 f.2.2.2.2 = m at m1 m2 ⊢
    have hsplit : all_sites (f.1 ++ f.2.1 :: f.2.2.1)
        = all_sites f.1 ++ (site_positions f.2.1.cell ++ all_sites f.2.2.1) := by
      simp [all_sites]
    have hndp : (all_sites p.chain).Nodup := hperm.nodup_iff.2 hnd
    have hndm : (site_positions m.1.cell).Nodup := by
      rw [e1, hsplit] at hndp
      exact (m2.nodup_iff.2 hndp.of_append_right).of_append_left
    have hsites : sites_unflagged mf (reset_list m.1).cell := by
      intro s hsm
      have hq : (s.col, s.row) ∈ site_positions m.1.cell := by
        rw [← site_positions_reset_list]
        exact (mem_site_positions _ (s.col, s.row)).2 ⟨s, hsm, rfl, rfl⟩
      have hq2 := m2.mem_iff.1 (List.mem_append_left _ hq)
      have hq3 : (s.col, s.row) ∈ all_sites p.chain := by
        rw [e1, hsplit]
        exact List.mem_append_right _ hq2
      obtain ⟨l, hl, x, hx, ex1, ex2⟩ := (mem_all_sites _ _).1 hq3
      simp only at ex1 ex2
      rw [← ex1, ← ex2]
      exact i2 l hl x hx
    have hfresh : sites_fresh { p.mf with flags := p.mf.flags + m.2.2.2 }
        (reset_list m.1).cell := by
      refine ⟨by rw [site_positions_reset_list]; exact hndm, ?_⟩
      rw [i1]
      exact hsites
    have hr := search_list_blocked { p.mf with flags := p.mf.flags + m.2.2.2 }
      (reset_list m.1) hfresh (reset_list_placements m.1)
    intro l hl
    rcases List.mem_append.1 hl with hl | hl
    · exact hb l (by rw [e1]; exact List.mem_append_left _ hl)
    · rcases List.mem_cons.1 hl with rfl | hl
      · intro c hc hna
        apply hr c hc
        rw [flag_allowed_flags, i1]
        exact hna
      · exact hb l (by
          rw [e1]
          exact List.mem_append_right _ (List.mem_cons_of_mem _ (m1 l hl).1))

/-- C32: on a board in the state between the calls, a site of a cluster that has a cleared
neighbour whose number of flagged neighbours equals its `minesaround` when the search starts
has `flag_placements == 0` when `analyze_possible_mines` returns (the mined branch of
`_analyze_list` is never taken for it), and after an analysis that was not aborted
`play_moves` returns and issues a clear move for it.  The same holds of `analyze_list` alone
on any list of distinct sites, neither flagged nor unavailable, with `flag_placements`
initialised to 0.  The sites of the clusters after the analysis are those found by
`find_possible_mines`. -/
theorem full_neighbour_site_cleared (s : settings) (g : game_t) (out : analysis_t)
    (hb : border_inv g.minefield)
    (ha : analyze_possible_mines g.minefield
      (find_possible_mines g.minefield MINE_LISTS_INITIALIZER) = some out) :
    (all_sites out.mine_lists.first).Perm
      (all_sites (find_possible_mines g.minefield MINE_LISTS_INITIALIZER).first) ∧
    (∀ l ∈ out.mine_lists.first, ∀ c ∈ l.cell,
      has_full_neighbour g.minefield c.col c.row → c.flag_placements = 0) ∧
    (0 ≤ out.result →
      ∃ r, play_moves s { game := { g with minefield := out.mf }, log := [] } out.mine_lists
          = some r ∧
        ∀ l ∈ out.mine_lists.first, ∀ c ∈ l.cell,
          has_full_neighbour g.minefield c.col c.row →
            event_t.move c.col c.row moves_t.clear ∈ r.1.log) ∧
    (∀ list : mine_list_t, sites_fresh g.minefield list.cell →
      (∀ c ∈ list.cell, c.flag_placements = 0) →
      ∀ c ∈ (analyze_list g.minefield list).list.cell,
        has_full_neighbour g.minefield c.col c.row → c.flag_placements = 0) := by
  obtain ⟨hnd, _, _, _⟩ := find_possible_mines_chain_ok g.minefield
  obtain ⟨hmf, _, hin, _⟩ := analysed_chain g.minefield out hb ha
  have hzero := analyze_possible_mines_blocked g.minefield _ out hnd
    (find_possible_mines_unflagged g.minefield hb)
    (find_possible_mines_placements g.minefield) ha
  have hz : ∀ l ∈ out.mine_lists.first, ∀ c ∈ l.cell,
      has_full_neighbour g.minefield c.col c.row → c.flag_placements = 0 :=
    fun l hl c hc hfull => hzero l hl c hc (not_flag_allowed_of_full _ _ _ hfull)
  refine ⟨(analyze_possible_mines_sites g.minefield _ out ha).1, hz, ?_, ?_⟩
  · intro _
    have hsb : sentinel_border out.mf := by rw [hmf]; exact border_inv_sentinel _ hb
    obtain ⟨r, e, lg, _⟩ := play_moves_lists_spec s out.mine_lists.first
      ({ game := { g with minefield := out.mf }, log := [] }, false) hsb
      (fun l hl c hc => by
        have := (hin l hl c hc).1
        simp only
        rw [hmf]
        exact this)
    simp only [List.nil_append] at lg
    refine ⟨r, e, fun l hl c hc hfull => ?_⟩
    rw [lg, List.mem_flatMap]
    exact ⟨(l.arrangements, c), (mem_chain_sites _ _).2 ⟨l, hl, rfl, hc⟩,
      (mem_site_events_move _ _ _ _ _).2 ⟨rfl, rfl, Or.inl ⟨hz l hl c hc hfull, rfl⟩⟩⟩
  · intro list hf h0 c hc hfull
    exact analyze_list_blocked g.minefield list hf h0 c hc
      (not_flag_allowed_of_full _ _ _ hfull)

theorem flagged_end_board_border : border_inv flagged_end_game.minefield := by
  unfold border_inv
  decide

theorem flagged_end_analysis_eq :
    analyze_possible_mines flagged_end_game.minefield
      (find_possible_mines flagged_end_game.minefield MINE_LISTS_INITIALIZER)
      = some flagged_end_analysis := by
  have h : (analyze_possible_mines flagged_end_board
      (find_possible_mines flagged_end_board MINE_LISTS_INITIALIZER)).isSome = true := by
    decide
  show analyze_possible_mines flagged_end_board
      (find_possible_mines flagged_end_board MINE_LISTS_INITIALIZER) = _
  unfold flagged_end_analysis
  cases hx : analyze_possible_mines flagged_end_board
      (find_possible_mines flagged_end_board MINE_LISTS_INITIALIZER) with
  | none => rw [hx] at h; cases h
  | some x => rfl

/-- C32, at a concrete input: on `flagged_end_board` the site `(3, 1)` lies next to the
cleared cell `(2, 1)`, which shows 1 and has the flag of `(1, 1)` next to it. -/
theorem full_neighbour_site_cleared_witness :
    (all_sites flagged_end_analysis.mine_lists.first).Perm
      (all_sites (find_possible_mines flagged_end_game.minefield
        MINE_LISTS_INITIALIZER).first) ∧
    (∀ l ∈ flagged_end_analysis.mine_lists.first, ∀ c ∈ l.cell,
      has_full_neighbour flagged_end_game.minefield c.col c.row → c.flag_placements = 0) ∧
    (0 ≤ flagged_end_analysis.result →
      ∃ r, play_moves autoplay_settings
          { game := { flagged_end_game with minefield := flagged_end_analysis.mf }, log := [] }
          flagged_end_analysis.mine_lists = some r ∧
        ∀ l ∈ flagged_end_analysis.mine_lists.first, ∀ c ∈ l.cell,
          has_full_neighbour flagged_end_game.minefield c.col c.row →
            event_t.move c.col c.row moves_t.clear ∈ r.1.log) ∧
    (∀ list : mine_list_t, sites_fresh flagged_end_game.minefield list.cell →
      (∀ c ∈ list.cell, c.flag_placements = 0) →
      ∀ c ∈ (analyze_list flagged_end_game.minefield list).list.cell,
        has_full_neighbour flagged_end_game.minefield c.col c.row → c.flag_placements = 0) :=
  full_neighbour_site_cleared autoplay_settings flagged_end_game flagged_end_analysis
    flagged_end_board_border flagged_end_analysis_eq

/-! ## The sum of `min_flags` and the mines of a layout -/

theorem sum_min_flags_cons (l : mine_list_t) (chain : List mine_list_t) :
    sum_min_flags (l :: chain) = l.min_flags + sum_min_flags chain := by
  simp [sum_min_flags]

theorem sum_min_flags_append (a b : List mine_list_t) :
    sum_min_flags (a ++ b) = sum_min_flags a + sum_min_flags b := by
  simp [sum_min_flags]

theorem analyze_each_min_flags : ∀ (chain : List mine_list_t) (mf : minefield_t) (m0 M0 : Int),
    0 ≤ (analyze_each mf m0 M0 chain).result →
    (analyze_each mf m0 M0 chain).min_flags
      = m0 + sum_min_flags (analyze_each mf m0 M0 chain).chain := by
  intro chain
  induction chain with
  | nil => intro mf m0 M0 _; simp [analyze_each, sum_min_flags]
  | cons x xs ih =>
    intro mf m0 M0 hr
    unfold analyze_each at hr ⊢
    simp only at hr ⊢
    split_ifs at hr ⊢ with hneg
    · simp only at hr
      omega
    · simp only at hr ⊢
      rw [ih _ _ _ hr, sum_min_flags_cons]
      ring

theorem find_retry_list_min : ∀ (chain : List mine_list_t) (mn mx : Int)
    (f : List mine_list_t × mine_list_t × List mine_list_t × Int × Int),
    find_retry_list chain mn mx = some f → f.2.2.2.1 = mn + sum_min_flags f.1 := by
  intro chain
  induction chain with
  | nil => intro _ _ f h; cases h
  | cons list next ih =>
    intro mn mx f h
    unfold find_retry_list at h
    by_cases hf : list.min_flags = list.max_flags
    · rw [if_pos hf] at h
      simp only [Option.map_eq_some'] at h
      obtain ⟨g, hg, rfl⟩ := h
      have e3 := ih _ _ g hg
      simp only [sum_min_flags_cons]
      rw [e3]
      ring
    · rw [if_neg hf] at h
      simp only [Option.some.injEq] at h
      subst h
      simp [sum_min_flags]

theorem merge_retry_lists_min : ∀ (after : List mine_list_t) (retry : mine_list_t)
    (mn mx : Int),
    (merge_retry_lists retry after mn mx).2.2.1
      = mn + sum_min_flags (merge_retry_lists retry after mn mx).2.1 := by
  intro after
  induction after with
  | nil =>
    intro retry mn mx
    simp [merge_retry_lists, sum_min_flags]
  | cons list next ih =>
    intro retry mn mx
    unfold merge_retry_lists
    by_cases hf : list.min_flags = list.max_flags
    · rw [if_neg (by simpa using hf)]
      have e3 := ih retry (mn + list.min_flags) (mx + list.max_flags)
      simp only [sum_min_flags_cons]
      rw [e3]
      ring
    · rw [if_pos hf]
      exact ih (join_mine_lists retry list) mn mx

theorem chain_sound_min (L : Int → Int → Bool) : ∀ (chain : List mine_list_t),
    chain_sound L chain →
    sum_min_flags chain ≤ ((all_sites chain).countP (fun q => L q.1 q.2) : Nat) := by
  intro chain
  induction chain with
  | nil => intro _; simp [sum_min_flags, all_sites]
  | cons l t ih =>
    intro hs
    rw [sum_min_flags_cons, countP_all_sites_cons]
    have h1 := (hs l (List.mem_cons_self _ _)).2.1
    have h2 := ih (fun x hx => hs x (List.mem_cons_of_mem _ hx))
    omega

theorem find_possible_mines_fold_min_flags (mf : minefield_t) :
    ∀ (cells : List (Int × Int)) (ml : mine_lists_t),
    (cells.foldl (fun ml p =>
      if is_border_site mf p.1 p.2 then add_possible_mine mf p.1 p.2 ml else ml) ml).min_flags
      = ml.min_flags := by
  intro cells
  induction cells with
  | nil => intro ml; rfl
  | cons p t ih =>
    intro ml
    rw [List.foldl_cons, ih]
    split_ifs <;> rfl

theorem find_possible_mines_min_flags (mf : minefield_t) :
    (find_possible_mines mf MINE_LISTS_INITIALIZER).min_flags = 0 :=
  find_possible_mines_fold_min_flags mf _ _

/-- The analysis of a chain of unsearched clusters on a board with a consistent layout `L`:
`analyze_possible_mines` returns and, if the value it returns is not negative, that value is
positive; in every list it leaves, the number of mines of `L` on the sites lies between
`min_flags` and `max_flags`; the sites are those of the chain; and `mine_lists->min_flags` is
the sum of the `min_flags` of the lists. -/
theorem analyze_possible_mines_chain_sound (mf : minefield_t) (L : Int → Int → Bool)
    (ml : mine_lists_t) (hwf : board_wf mf) (hc : solver_counters mf) (hn : mf.needed = 0)
    (hL : layout_consistent mf L) (hch : chain_ok mf ml.first) (hM : ml.max_flags = 0)
    (hm0 : ml.min_flags = 0) :
    ∃ out, analyze_possible_mines mf ml = some out ∧
      (0 ≤ out.result → 0 < out.result ∧
        chain_sound L out.mine_lists.first ∧
        (all_sites out.mine_lists.first).Perm (all_sites ml.first) ∧
        out.mine_lists.min_flags = sum_min_flags out.mine_lists.first) := by
  obtain ⟨hnd, hs, _, hun⟩ := hch
  obtain ⟨i2, ix⟩ := analyze_each_sound mf L hwf hc hn hL ml.first ml.min_flags
    ml.max_flags hnd hs (fun l hl => (hun l hl).2.2.2.2)
  have i6' := analyze_each_min_flags ml.first mf ml.min_flags ml.max_flags
  unfold analyze_possible_mines
  simp only
  generalize analyze_each mf ml.min_flags ml.max_flags ml.first = p at i2 ix i6'
  by_cases hab : p.result < 0
  · rw [if_pos hab]
    exact ⟨_, rfl, fun h => absurd h (by simp only; omega)⟩
  rw [if_neg hab]
  obtain ⟨i1, i3, i4, i5⟩ := ix (by omega)
  have i6 := i6' (by omega)
  rw [hm0, zero_add] at i6
  by_cases hle : p.mf.flags + p.max_flags ≤ p.mf.mines
  · rw [if_pos hle]
    exact ⟨_, rfl, fun _ => ⟨Int.one_pos, i4, i3, i6⟩⟩
  rw [if_neg hle]
  rw [i2, i5, hM, zero_add] at hle
  have hnd' : (all_sites p.chain).Nodup := i3.nodup_iff.2 hnd
  have hs' : ∀ q ∈ all_sites p.chain,
      q ∈ playable_cells mf ∧ IS_UNMARKED mf q.1 q.2 = true :=
    fun q hq => hs q (i3.mem_iff.1 hq)
  cases hfind : find_retry_list p.chain 0 0 with
  | none =>
    exfalso
    have hfix := find_retry_list_none _ _ _ hfind
    have hsum := sum_max_flags_fixed L p.chain (fun l hl => (i4 l hl).2) hfix
    have hb := layout_budget mf L (all_sites p.chain) hL hc hnd' hs'
    rw [← hsum] at hb
    exact hle hb
  | some f =>
    obtain ⟨e1, e2, e3⟩ := find_retry_list_some _ _ _ f hfind
    have e4 := find_retry_list_min _ _ _ f hfind
    obtain ⟨m1, m2, m3⟩ := merge_retry_lists_spec f.2.2.1 f.2.1 f.2.2.2.1 f.2.2.2.2
    have m4 := merge_retry_lists_min f.2.2.1 f.2.1 f.2.2.2.1 f.2.2.2.2
    simp only [Option.map_some']
    generalize hm : merge_retry_lists f.2.1 f.2.2.1 f.2.2.2.1 f.2.2.2.2 = m at m1 m2 m3 m4
    have hbefore : ∀ l ∈ f.1, l ∈ p.chain := by
      intro l hl; rw [e1]; exact List.mem_append_left _ hl
    have hkept : ∀ l ∈ m.2.1, l ∈ p.chain := by
      intro l hl; rw [e1]
      exact List.mem_append_right _ (List.mem_cons_of_mem _ (m1 l hl).1)
    have hF1 := sum_max_flags_fixed L f.1 (fun l hl => (i4 l (hbefore l hl)).2) e2
    have hF2 := sum_max_flags_fixed L m.2.1 (fun l hl => (i4 l (hkept l hl)).2)
      (fun l hl => (m1 l hl).2)
    have hA : (all_sites f.1 ++ (site_positions m.1.cell ++ all_sites m.2.1)).Perm
        (all_sites p.chain) := by
      rw [e1]
      have : all_sites (f.1 ++ f.2.1 :: f.2.2.1)
          = all_sites f.1 ++ (site_positions f.2.1.cell ++ all_sites f.2.2.1) := by
        simp [all_sites]
      rw [this]
      exact m2.append_left _
    have hndA := hA.nodup_iff.2 hnd'
    have hsA : ∀ q ∈ all_sites f.1 ++ (site_positions m.1.cell ++ all_sites m.2.1),
        q ∈ playable_cells mf ∧ IS_UNMARKED mf q.1 q.2 = true :=
      fun q hq => hs' q (hA.mem_iff.1 hq)
    have hb := layout_budget mf L _ hL hc hndA hsA
    have hr := layout_room mf L _ hL hc hndA hsA
    simp only [List.countP_append, List.length_append] at hb hr
    push_cast at hb hr
    have hndM : (site_positions m.1.cell).Nodup :=
      (List.nodup_append.1 (List.nodup_append.1 hndA).2.1).1
    have hsM : ∀ q ∈ site_positions m.1.cell,
        q ∈ playable_cells mf ∧ IS_UNMARKED mf q.1 q.2 = true :=
      fun q hq => hsA q (List.mem_append_right _ (List.mem_append_left _ hq))
    rw [← site_positions_reset_list] at hndM hsM
    obtain ⟨ho, hi⟩ := cluster_ready mf L (reset_list m.1).cell hwf hL hndM hsM
    have hK : assigned (layout_on L (reset_list m.1).cell)
        = ((site_positions m.1.cell).countP (fun q => L q.1 q.2) : Nat) := by
      rw [assigned_layout_on, site_positions_reset_list]
    have hlen : (reset_list m.1).cell.length = (site_positions m.1.cell).length := by
      rw [← site_positions_reset_list, length_site_positions]
    have hsound := search_list_sound { p.mf with flags := p.mf.flags + m.2.2.2 } L
      (reset_list m.1) (by rw [← hn, ← i2]) (by rw [i2]; exact ho) (by rw [i2]; exact hi)
      (reset_list_placements m.1)
      (by
        show p.mf.flags + m.2.2.2 + _ ≤ p.mf.mines
        rw [i2, hK, m3, e3, hF1, hF2]
        omega)
      (by
        show p.mf.mines - (p.mf.flags + m.2.2.2) - _ ≤ p.mf.unmarked - _
        rw [i2, hK, hlen, m3, e3, hF1, hF2]
        omega)
    refine ⟨_, rfl, fun hres => ?_⟩
    obtain ⟨_, g3, g4, g5⟩ := hsound.2 hres
    have hpermR := search_list_sites { p.mf with flags := p.mf.flags + m.2.2.2 }
      (reset_list m.1)
    have hKR : assigned (layout_on L
        (search_list { p.mf with flags := p.mf.flags + m.2.2.2 } (reset_list m.1)).list.cell)
        = assigned (layout_on L (reset_list m.1).cell) := by
      rw [assigned_layout_on, assigned_layout_on, hpermR.countP_eq]
    refine ⟨g3.1, ?_, ?_, ?_⟩
    · intro l hl
      simp only [List.mem_append, List.mem_cons] at hl
      rcases hl with hl | rfl | hl
      · exact i4 l (hbefore l hl)
      · exact ⟨g3, by rw [hKR]; exact g4, by rw [hKR]; exact g5⟩
      · exact i4 l (hkept l hl)
    · refine List.Perm.trans ?_ (hA.trans i3)
      have : all_sites (f.1 ++ (search_list { p.mf with flags := p.mf.flags + m.2.2.2 }
          (reset_list m.1)).list :: m.2.1)
          = all_sites f.1 ++ (site_positions (search_list
              { p.mf with flags := p.mf.flags + m.2.2.2 } (reset_list m.1)).list.cell
            ++ all_sites m.2.1) := by
        simp [all_sites]
      simp only
      rw [this]
      refine List.Perm.append_left _ (List.Perm.append_right _ ?_)
      rw [site_positions_reset_list] at hpermR
      exact hpermR
    · simp only
      rw [sum_min_flags_append, sum_min_flags_cons, m4, e4]
      ring

/-! ## A clear move of the solver on a cell without a mine -/

theorem zero_means_safe_moved {a b : minefield_t} (h : moved_from a b)
    (hz : zero_means_safe a) : zero_means_safe b := by
  intro c r hr h0 i j hi hj hne
  rw [(h.2.2.2.2.2 i j).1]
  rw [(h.2.2.2.2.2 c r).2.1] at h0
  exact hz c r ((moved_from_in_range h c r).1 hr) h0 i j hi hj hne

theorem no_mine_cleared_of_pressed {a b : minefield_t} (h : pressed_from a b) :
    no_mine_cleared a b := by
  intro c r hc _
  rw [← (pressed_from_field h c r).2.2.2.1]
  exact hc

theorem no_mine_cleared_chain {a b c : minefield_t}
    (hm : ∀ i j, (c.field i j).is_mine = (b.field i j).is_mine)
    (h1 : no_mine_cleared a b) (h2 : no_mine_cleared b c) : no_mine_cleared a c := by
  intro i j hc hmine
  exact h1 i j (h2 i j hc hmine) (by rw [← hm]; exact hmine)

/-- The release of button 1 over a cell without a mine, on a board where a cell showing 0 has
no mined neighbour: `state.lost` stays clear and no mine is cleared. -/
theorem make_move_release_one_safe (g : game_t) (col row : Int)
    (hb : sentinel_border g.minefield) (hz : zero_means_safe g.minefield)
    (ha : in_array g.minefield col row) (hl : g.state.lost = false)
    (hm : (minefield_cell g.minefield col row).is_mine = false) :
    ∃ g', make_move_release_one g col row 1 = some g' ∧ g'.state.lost = false ∧
      no_mine_cleared g.minefield g'.minefield ∧ g'.buttons_down = g.buttons_down := by
  have hp := unpress_square_pressed_from g.minefield g.last_col g.last_row
  have hnp := no_mine_cleared_of_pressed hp
  unfold make_move_release_one
  simp only
  by_cases hcond : (minefield_cell (unpress_square g.minefield g.last_col g.last_row)
      g.last_col g.last_row).is_cleared = true ∨ col ≠ g.last_col ∨ row ≠ g.last_row
  · rw [if_pos hcond]
    exact ⟨_, rfl, hl, hnp, rfl⟩
  · rw [if_neg hcond]
    obtain ⟨mf', n, e, eff, nm, _⟩ := clear_square_effect
      (unpress_square g.minefield g.last_col g.last_row) col row (pressed_from_border hp hb)
      ((pressed_from_in_array hp col row).2 ha)
    have hnm := nm (zero_means_safe_moved (moved_from_of_pressed hp) hz)
      (by rw [(pressed_from_field hp col row).2.1]; exact hm)
    have hneg : ¬ n < 0 := by
      rw [clear_effect_negative_iff _ _ _ eff]
      rintro ⟨c, r, h1, h2, h3⟩
      have := hnm c r h3 (by rw [cleared_from_is_mine eff.1]; exact h1)
      rw [h2] at this
      cases this
    simp only [if_true, e, Option.map_some', hneg, if_false]
    refine ⟨_, rfl, hl, ?_, rfl⟩
    exact no_mine_cleared_chain (fun i j => cleared_from_is_mine eff.1 i j) hnp hnm

/-- A click of button 1 by the solver on a playable cell without a mine, with no button down
and the game not lost, on a board with its sentinel border where a cell showing 0 has no
mined neighbour: both calls of `make_move` return, the game is not lost, no button is down
and no mine is cleared. -/
theorem clear_click_safe (g : game_t) (col row : Int)
    (hb : sentinel_border g.minefield) (hz : zero_means_safe g.minefield)
    (hin : in_range g.minefield col row) (hl : g.state.lost = false)
    (h0 : g.buttons_down = 0)
    (hm : (minefield_cell g.minefield col row).is_mine = false) :
    ∃ g', ((make_move g col row 1 action_t.press).bind fun r1 =>
        (make_move r1.1 col row 1 action_t.release).map fun r2 => r2.1) = some g' ∧
      g'.state.lost = false ∧ g'.buttons_down = 0 ∧
      no_mine_cleared g.minefield g'.minefield := by
  cases hw : g.state.won
  · obtain ⟨e1, b1, b2, b3, _, b5⟩ := make_move_press_first g col row 1 h0 hw hl
    have hp := make_move_press_pressed_from g col row 1
    obtain ⟨g3, e3, l3, n3, d3⟩ := make_move_release_one_safe
      { make_move_press g col row 1 with
        buttons_down := (make_move_press g col row 1).buttons_down - 1 } col row
      (pressed_from_border hp hb)
      (zero_means_safe_moved (moved_from_of_pressed hp) hz)
      ((pressed_from_in_array hp col row).2 (in_array_of_in_range _ _ _ hin))
      (by rw [b5]; exact hl)
      (by
        show ((make_move_press g col row 1).minefield.field col row).is_mine = false
        rw [(pressed_from_field hp col row).2.1]; exact hm)
    refine ⟨make_move_finish g3, ?_, ?_, ?_, ?_⟩
    · have e3' := e3
      rw [e1]
      simp only [Option.some_bind]
      unfold make_move make_move_release
      simp only [b5, hw, hl, Bool.or_self, Bool.false_eq_true, if_false, b1, if_true]
        at e3' ⊢
      rw [e3']
      rfl
    · rw [make_move_finish_lost]; exact l3
    · rw [(make_move_finish_statics g3).1, d3]
      simp only [b1]
      rfl
    · rw [make_move_finish_minefield]
      exact no_mine_cleared_chain
        (fun i j => by
          have := n3
          exact (make_move_release_one_kept _ _ _ _ _ e3 i j).1)
        (no_mine_cleared_of_pressed hp) n3
  · refine ⟨{ g with buttons_down := 0 }, ?_, hl, rfl, no_mine_cleared_refl _⟩
    unfold make_move
    simp only [hw, hl, Bool.or_true, Bool.true_or, if_true, Option.some_bind,
      Option.map_some']

/-- A clear move of the solver on a playable cell without a mine. -/
theorem computer_move_clear_safe (s : settings) (t : solver_t) (col row : Int)
    (hb : sentinel_border t.game.minefield) (hz : zero_means_safe t.game.minefield)
    (hin : in_range t.game.minefield col row) (hl : t.game.state.lost = false)
    (h0 : t.game.buttons_down = 0)
    (hm : (minefield_cell t.game.minefield col row).is_mine = false) :
    ∃ t', computer_move s t col row moves_t.clear = some t' ∧
      t'.game.state.lost = false ∧ t'.game.buttons_down = 0 ∧
      no_mine_cleared t.game.minefield t'.game.minefield ∧
      moved_from t.game.minefield t'.game.minefield ∧
      marks_kept col row t.game.minefield t'.game.minefield := by
  obtain ⟨t', e, _, m1, m2, _⟩ := computer_move_spec s t col row moves_t.clear (Or.inl rfl)
    hb hin
  refine ⟨t', e, ?_, ?_, ?_, m1, m2⟩ <;>
  · unfold computer_move at e
    simp only at e
    cases ha : s.autoplay
    · simp only [ha, Bool.false_eq_true, if_false, Option.some.injEq] at e
      rw [← e]
      first | exact hl | exact h0 | exact no_mine_cleared_refl _
    · simp only [ha, if_true] at e
      obtain ⟨g', eg, l', d', n'⟩ := clear_click_safe t.game col row hb hz hin hl h0 hm
      rw [Option.bind_eq_some] at eg e
      obtain ⟨r1, e1, e2⟩ := eg
      obtain ⟨q1, f1, f2⟩ := e
      rw [e1] at f1
      simp only [Option.some.injEq] at f1
      subst f1
      rw [Option.map_eq_some'] at e2 f2
      obtain ⟨r2, e2, rfl⟩ := e2
      obtain ⟨q2, f2, rfl⟩ := f2
      rw [e2] at f2
      simp only [Option.some.injEq] at f2
      subst f2
      first | exact l' | exact d' | exact n'

/-! ## The clear action of `check_nonborder_sites` -/

/-- With a layout `L` consistent with the board, a sound chain of clusters and
`flags + min_flags == mines`, no unmarked playable cell outside the clusters is mined in
`L`. -/
theorem nonborder_not_mined (mf : minefield_t) (L : Int → Int → Bool)
    (chain : List mine_list_t) (min_flags : Int) (hL : layout_consistent mf L)
    (hc : solver_counters mf) (hsound : chain_sound L chain) (hnd : (all_sites chain).Nodup)
    (hs : ∀ q ∈ all_sites chain, q ∈ playable_cells mf ∧ IS_UNMARKED mf q.1 q.2 = true)
    (hmin : min_flags = sum_min_flags chain) (heq : mf.flags + min_flags = mf.mines) :
    ∀ p ∈ playable_cells mf, IS_UNMARKED mf p.1 p.2 = true → p ∉ all_sites chain →
      L p.1 p.2 = false := by
  intro p hp hu hnot
  by_contra hmine
  have hmine' : L p.1 p.2 = true := by
    cases h : L p.1 p.2
    · exact absurd h hmine
    · rfl
  have hb := layout_budget mf L (p :: all_sites chain) hL hc (List.nodup_cons.2 ⟨hnot, hnd⟩)
    (by
      intro q hq
      rcases List.mem_cons.1 hq with rfl | hq
      · exact ⟨hp, hu⟩
      · exact hs q hq)
  rw [List.countP_cons] at hb
  simp only [hmine', if_true] at hb
  have := chain_sound_min L chain hsound
  push_cast at hb
  omega

/-- The loop of `check_nonborder_sites` with the clear action, when every cell it can issue
a move on holds no mine: the game is not lost and no mine is cleared. -/
theorem check_nonborder_scan_safe (s : settings) (ml : mine_lists_t) :
    ∀ (ps : List (Int × Int)) (st : solver_t × Bool), ps.Nodup →
    sentinel_border st.1.game.minefield → zero_means_safe st.1.game.minefield →
    st.1.game.state.lost = false → st.1.game.buttons_down = 0 →
    (∀ p ∈ ps, in_range st.1.game.minefield p.1 p.2) →
    (∀ p ∈ ps, IS_UNMARKED st.1.game.minefield p.1 p.2 = true →
      is_possible_mine p.1 p.2 ml = false →
      (minefield_cell st.1.game.minefield p.1 p.2).is_mine = false) →
    ∃ st', check_nonborder_scan s ml moves_t.clear ps st = some st' ∧
      st'.1.game.state.lost = false ∧ st'.1.game.buttons_down = 0 ∧
      no_mine_cleared st.1.game.minefield st'.1.game.minefield ∧
      moved_from st.1.game.minefield st'.1.game.minefield := by
  intro ps
  induction ps with
  | nil =>
    intro st _ _ _ hl h0 _ _
    exact ⟨st, rfl, hl, h0, no_mine_cleared_refl _, moved_from_refl _⟩
  | cons p rest ih =>
    intro st hnd hb hz hl h0 hin hsafe
    rw [List.nodup_cons] at hnd
    have hp := hin p (List.mem_cons_self _ _)
    unfold check_nonborder_scan
    by_cases hc : (IS_UNMARKED st.1.game.minefield p.1 p.2 &&
        !is_possible_mine p.1 p.2 ml) = true
    · rw [if_pos hc]
      simp only [Bool.and_eq_true, Bool.not_eq_true'] at hc
      obtain ⟨t, e, l, d, n, m, mk⟩ := computer_move_clear_safe s st.1 p.1 p.2 hb hz hp hl h0
        (hsafe p (List.mem_cons_self _ _) hc.1 hc.2)
      have hne : ∀ q : Int × Int, q ≠ p → ¬ (q.1 = p.1 ∧ q.2 = p.2) :=
        fun q hq h => hq (Prod.ext h.1 h.2)
      obtain ⟨st', e', l', d', n', m'⟩ := ih (t, true) hnd.2 (moved_from_border m hb)
        (zero_means_safe_moved m hz) l d
        (fun q hq => (moved_from_in_range m q.1 q.2).2 (hin q (List.mem_cons_of_mem _ hq)))
        (by
          intro q hq hu hposs
          have hqp : q ≠ p := fun h => hnd.1 (h ▸ hq)
          have hu0 := unmarked_of_marks_kept mk q.1 q.2 (hne q hqp) hu
          have := hsafe q (List.mem_cons_of_mem _ hq) hu0 hposs
          simp only [minefield_cell] at this ⊢
          rw [(m.2.2.2.2.2 q.1 q.2).1]
          exact this)
      refine ⟨st', by rw [e]; exact e', l', d', ?_, moved_from_trans m m'⟩
      exact no_mine_cleared_chain (fun i j => (m'.2.2.2.2.2 i j).1) n n'
    · rw [if_neg hc]
      exact ih st hnd.2 hb hz hl h0 (fun q hq => hin q (List.mem_cons_of_mem _ hq))
        (fun q hq => hsafe q (List.mem_cons_of_mem _ hq))

theorem sentinel_border_of_wf (mf : minefield_t) (h : board_wf mf) : sentinel_border mf := by
  intro p hp hn
  have := h p hp
  rw [if_neg hn] at this
  exact this.1

theorem assigned_layout_le (L : Int → Int → Bool) (cells : List possible_mine_t) :
    assigned (layout_on L cells) ≤ (cells.length : Nat) := by
  unfold assigned
  have h := List.count_le_length true (layout_on L cells)
  rw [length_layout_on] at h
  exact_mod_cast h

/-- C36: on a board in the state between the calls, with `flags` and `unmarked` counting the
flagged and the unmarked cells, `needed` clear, correct `minesaround`, exactly `mines` mines,
no cleared mine and every flag on a mine, the analysis of the clusters of
`find_possible_mines` returns and gives the board back; if the search has completed (the
value returned is not negative: no count has left the range of an `int`), that value is
positive, every cluster has an arrangement and a `min_flags` of at most its number of sites,
and if then `flags + min_flags == mines`, no unmarked playable cell outside the clusters holds
a mine, and `check_nonborder_sites`, called in a game that is not lost with no button down,
returns with the game not lost and no mine cleared, every move it has added to the log being
a clear move on a playable cell without a mine. -/
theorem check_nonborder_sites_clear_safe (s : settings) (g : game_t) (log : List event_t)
    (hwf : board_wf g.minefield) (hc : solver_counters g.minefield)
    (hn : g.minefield.needed = 0) (ht : board_truthful g.minefield)
    (hm : (mine_count g.minefield : Int) = g.minefield.mines)
    (hl : g.state.lost = false) (h0 : g.buttons_down = 0) :
    ∃ out, analyze_possible_mines g.minefield
        (find_possible_mines g.minefield MINE_LISTS_INITIALIZER) = some out ∧
      out.mf = g.minefield ∧
      (0 ≤ out.result →
        0 < out.result ∧
        (∀ l ∈ out.mine_lists.first, 0 < l.arrangements ∧
          l.min_flags ≤ (l.cell.length : Nat)) ∧
        (g.minefield.flags + out.mine_lists.min_flags = g.minefield.mines →
          (∀ p ∈ playable_cells g.minefield, IS_UNMARKED g.minefield p.1 p.2 = true →
            is_possible_mine p.1 p.2 out.mine_lists = false →
            IS_MINE g.minefield p.1 p.2 = false) ∧
          ∃ r, check_nonborder_sites s { game := g, log := log } out.mine_lists = some r ∧
            r.1.game.state.lost = false ∧
            (∀ p ∈ playable_cells g.minefield, IS_MINE r.1.game.minefield p.1 p.2 = true →
              IS_CLEARED r.1.game.minefield p.1 p.2 = false) ∧
            (∀ c r', IS_MINE r.1.game.minefield c r' = IS_MINE g.minefield c r') ∧
            ∀ col row cmd, event_t.move col row cmd ∈ r.1.log →
              event_t.move col row cmd ∈ log ∨
              (cmd = moves_t.clear ∧ in_range g.minefield col row ∧
                IS_UNMARKED g.minefield col row = true ∧
                IS_MINE g.minefield col row = false))) := by
  have hL := layout_consistent_of_truthful g.minefield ht hm
  have hch := find_possible_mines_chain_ok g.minefield
  obtain ⟨out, e, hx⟩ := analyze_possible_mines_chain_sound g.minefield
    (IS_MINE g.minefield) _ hwf hc hn hL hch (find_possible_mines_max_flags g.minefield)
    (find_possible_mines_min_flags g.minefield)
  have hsb := sentinel_border_of_wf g.minefield hwf
  have hunfl : ∀ l ∈ (find_possible_mines g.minefield MINE_LISTS_INITIALIZER).first,
      sites_unflagged g.minefield l.cell := by
    intro l hl' x hx
    have hp := (hch.2.1 (x.col, x.row) ((mem_all_sites _ _).2 ⟨l, hl', x, hx, rfl, rfl⟩))
    have hw := hwf (x.col, x.row) ((mem_array_positions _ _ _).2
      (in_array_of_in_range _ _ _ ((mem_playable_cells _ _ _).1 hp.1)))
    rw [if_pos hp.1] at hw
    have hu := hp.2
    simp only [IS_UNMARKED, Bool.not_eq_true', Bool.or_eq_false_iff] at hu
    exact ⟨hu.1, hw.1⟩
  have hmf := analyze_possible_mines_mf g.minefield _ hunfl out e
  refine ⟨out, e, hmf, fun hres => ?_⟩
  obtain ⟨hpos, hsound, hperm, hmin⟩ := hx hres
  refine ⟨hpos, fun l hl' => ⟨(hsound l hl').1.1,
    le_trans (hsound l hl').2.1 (assigned_layout_le _ _)⟩, fun heq => ?_⟩
  have hsafe : ∀ p ∈ playable_cells g.minefield, IS_UNMARKED g.minefield p.1 p.2 = true →
      is_possible_mine p.1 p.2 out.mine_lists = false →
      IS_MINE g.minefield p.1 p.2 = false := by
    intro p hp hu hposs
    exact nonborder_not_mined g.minefield (IS_MINE g.minefield) out.mine_lists.first
      out.mine_lists.min_flags hL hc hsound (hperm.nodup_iff.2 hch.1)
      (fun q hq => hch.2.1 q (hperm.mem_iff.1 hq)) hmin heq p hp hu
      ((is_possible_mine_false_iff _ _ _).1 hposs)
  refine ⟨hsafe, ?_⟩
  have hin : ∀ p ∈ playable_cells g.minefield, in_range g.minefield p.1 p.2 :=
    fun p hp => (mem_playable_cells _ _ _).1 hp
  obtain ⟨st', e1, l1, _, n1, m1⟩ := check_nonborder_scan_safe s out.mine_lists
    (playable_cells g.minefield) ({ game := g, log := log }, false)
    (nodup_playable_cells _) hsb (zero_means_safe_of_correct _ ht.1) hl h0 hin
    (fun p hp hu hposs => hsafe p hp hu hposs)
  obtain ⟨st2, issued, e2, lg, _, sub, i1, _⟩ := check_nonborder_scan_spec s out.mine_lists
    moves_t.clear (Or.inl rfl) (playable_cells g.minefield) ({ game := g, log := log }, false)
    (nodup_playable_cells _) hsb hin
  rw [e1] at e2
  simp only [Option.some.injEq] at e2
  subst e2
  refine ⟨st', ?_, l1, ?_, ?_, ?_⟩
  · unfold check_nonborder_sites
    simp only [heq, if_true]
    exact e1
  · intro p hp hmine
    cases hcl : IS_CLEARED st'.1.game.minefield p.1 p.2
    · rfl
    · exfalso
      have h1 := n1 p.1 p.2 hcl hmine
      have h2 := ht.2.1 p hp h1
      simp only [IS_MINE, minefield_cell] at hmine h2
      rw [(m1.2.2.2.2.2 p.1 p.2).1, h2] at hmine
      cases hmine
  · intro c r'
    simp only [IS_MINE, minefield_cell]
    exact (m1.2.2.2.2.2 c r').1
  · intro col row cmd hev
    rw [lg] at hev
    rcases List.mem_append.1 hev with h | h
    · exact Or.inl h
    · right
      obtain ⟨p, hp, hpe⟩ := List.mem_flatMap.1 h
      simp only [move_events, List.mem_cons, event_t.move.injEq, reduceCtorEq,
        List.not_mem_nil, or_false] at hpe
      obtain ⟨rfl, rfl, rfl⟩ := hpe
      have hpl := sub.subset hp
      exact ⟨rfl, hin p hpl, (i1 p hp).1, hsafe p hpl (i1 p hp).1 (i1 p hp).2⟩

theorem nonborder_board_wf : board_wf nonborder_board := by
  unfold board_wf
  decide

theorem nonborder_board_counters : solver_counters nonborder_board := by
  unfold solver_counters
  decide

theorem nonborder_board_truthful : board_truthful nonborder_board := by
  unfold board_truthful minesaround_correct
  decide

/-- C36, at a concrete input: on `nonborder_board` the flag stands on the only mine, the
cluster is the cell `(3, 1)`, and the cells `(4, 1)` and `(5, 1)` lie outside it; the analysis
completes with the value 1 and `flags + min_flags == mines`. -/
theorem check_nonborder_sites_clear_safe_witness :
    (analyze_possible_mines nonborder_game.minefield
        (find_possible_mines nonborder_game.minefield MINE_LISTS_INITIALIZER)).map
      (fun out => (out.result, nonborder_game.minefield.flags + out.mine_lists.min_flags,
        nonborder_game.minefield.mines)) = some (1, 1, 1) ∧
    ∃ out, analyze_possible_mines nonborder_game.minefield
        (find_possible_mines nonborder_game.minefield MINE_LISTS_INITIALIZER) = some out ∧
      out.mf = nonborder_game.minefield ∧
      (0 ≤ out.result →
        0 < out.result ∧
        (∀ l ∈ out.mine_lists.first, 0 < l.arrangements ∧
          l.min_flags ≤ (l.cell.length : Nat)) ∧
        (nonborder_game.minefield.flags + out.mine_lists.min_flags
            = nonborder_game.minefield.mines →
          (∀ p ∈ playable_cells nonborder_game.minefield,
            IS_UNMARKED nonborder_game.minefield p.1 p.2 = true →
            is_possible_mine p.1 p.2 out.mine_lists = false →
            IS_MINE nonborder_game.minefield p.1 p.2 = false) ∧
          ∃ r, check_nonborder_sites autoplay_settings { game := nonborder_game, log := [] }
              out.mine_lists = some r ∧
            r.1.game.state.lost = false ∧
            (∀ p ∈ playable_cells nonborder_game.minefield,
              IS_MINE r.1.game.minefield p.1 p.2 = true →
              IS_CLEARED r.1.game.minefield p.1 p.2 = false) ∧
            (∀ c r', IS_MINE r.1.game.minefield c r'
              = IS_MINE nonborder_game.minefield c r') ∧
            ∀ col row cmd, event_t.move col row cmd ∈ r.1.log →
              event_t.move col row cmd ∈ ([] : List event_t) ∨
              (cmd = moves_t.clear ∧ in_range nonborder_game.minefield col row ∧
                IS_UNMARKED nonborder_game.minefield col row = true ∧
                IS_MINE nonborder_game.minefield col row = false))) :=
  ⟨by decide,
    check_nonborder_sites_clear_safe autoplay_settings nonborder_game [] nonborder_board_wf
      nonborder_board_counters rfl nonborder_board_truthful (by decide) rfl rfl⟩

/-! ## A round of the solver while the board is asked for -/

/-- With `needed` nonzero the search leaves `max_flags` as it is: no branch records an
arrangement. -/
theorem analyze_list_aux_needed_max : ∀ (todo : List possible_mine_t) (mf : minefield_t)
    (list : mine_list_t) (idx : Nat) (fu : Int), mf.needed ≠ 0 →
    (_analyze_list todo mf list idx fu).list.max_flags = list.max_flags := by
  intro todo
  induction todo with
  | nil =>
    intro mf list idx fu hn
    unfold _analyze_list
    rw [if_pos hn]
  | cons cell next ih =>
    intro mf list idx fu hn
    have hrest := analyze_list_aux_restored next (set_flagged mf cell.col cell.row true) list
      (idx + 1) (fu + 1)
    have ih1 := ih (set_flagged mf cell.col cell.row true) list (idx + 1) (fu + 1) hn
    rw [_analyze_list]
    simp only
    generalize ha : (if can_flag mf cell fu = true then _ else _ : search_t) = a
    have hA : a.list.max_flags = list.max_flags ∧ a.mf.needed ≠ 0 := by
      rw [← ha]
      split_ifs
      · exact ⟨ih1, fun h => hn (hrest.2.2.2.2.2.2.1.symm.trans h)⟩
      · exact ⟨ih1, fun h => hn (hrest.2.2.2.2.2.2.1.symm.trans h)⟩
      · exact ⟨rfl, hn⟩
    obtain ⟨hm, hneed⟩ := hA
    have ih2 := ih (set_unavailable a.mf cell.col cell.row true) a.list (idx + 1) fu hneed
    split_ifs
    · exact hm
    · exact ih2.trans hm
    · exact ih2.trans hm
    · exact hm

/-- One list searched while `needed` is nonzero: `arrangements` is left -1 if a branch reaches
the end of the list and 0 if none does; the board is given back and `max_flags` is kept. -/
theorem search_list_needed (mf : minefield_t) (list : mine_list_t) (hn : mf.needed ≠ 0)
    (hf : sites_fresh mf list.cell) :
    ((search_list mf list).list.arrangements = -1 ∨
      (search_list mf list).list.arrangements = 0) ∧
    ((search_list mf list).list.arrangements = -1 ↔ branch_reaches_end mf list) ∧
    (search_list mf list).mf = mf ∧
    (search_list mf list).list.max_flags = list.max_flags := by
  have hperm := (optimize_list_perm mf list).1
  have hf' : sites_fresh mf (optimize_list mf list).1.cell := by
    refine ⟨?_, fun s h => hf.2 s (hperm.mem_iff.1 h)⟩
    have : (site_positions (optimize_list mf list).1.cell).Perm (site_positions list.cell) := by
      unfold site_positions
      exact hperm.map _
    exact this.nodup_iff.2 hf.1
  have h1 := analyze_list_aux_needed (optimize_list mf list).1.cell mf
    (optimize_list mf list).1 0 0 hn
  have h2 := analyze_list_aux_aborts (optimize_list mf list).1.cell mf
    (optimize_list mf list).1 0 0 hn hf'
  have h3 := analyze_list_aux_mf (optimize_list mf list).1.cell mf
    (optimize_list mf list).1 0 0 hf'.2
  have h4 := analyze_list_aux_needed_max (optimize_list mf list).1.cell mf
    (optimize_list mf list).1 0 0 hn
  rw [hperm.length_eq] at h2
  unfold branch_reaches_end search_list analyze_list
  simp only
  exact ⟨h1, h2, h3, h4.trans (optimize_list_perm mf list).2.2.2.1⟩

/-- The first loop of `analyze_possible_mines` while `needed` is nonzero: it returns -1 from
the first list of which a branch reaches the end, and runs to the end of the chain if there
is no such list. -/
theorem analyze_each_needed : ∀ (chain : List mine_list_t) (mf : minefield_t) (m0 M0 : Int),
    mf.needed ≠ 0 → (∀ l ∈ chain, sites_fresh mf l.cell) →
    ((analyze_each mf m0 M0 chain).result = -1 ∨ (analyze_each mf m0 M0 chain).result = 0) ∧
    ((analyze_each mf m0 M0 chain).result = -1 ↔ ∃ l ∈ chain, branch_reaches_end mf l) ∧
    (analyze_each mf m0 M0 chain).mf = mf ∧
    ((analyze_each mf m0 M0 chain).result = 0 →
      (analyze_each mf m0 M0 chain).max_flags = M0 + sum_max_flags chain) := by
  intro chain
  induction chain with
  | nil =>
    intro mf m0 M0 _ _
    simp [analyze_each, sum_max_flags]
  | cons list next ih =>
    intro mf m0 M0 hn hs
    obtain ⟨g1, g2, g3, g4⟩ := search_list_needed mf list hn (hs list (List.mem_cons_self _ _))
    obtain ⟨i1, i2, i3, i4⟩ := ih mf (m0 + (search_list mf list).list.min_flags)
      (M0 + (search_list mf list).list.max_flags) hn
      (fun l hl => hs l (List.mem_cons_of_mem _ hl))
    unfold analyze_each
    simp only
    by_cases hneg : (search_list mf list).list.arrangements < 0
    · have e : (search_list mf list).list.arrangements = -1 := by omega
      simp only [hneg, if_true]
      refine ⟨Or.inl e, ⟨fun _ => ⟨list, List.mem_cons_self _ _, g2.1 e⟩, fun _ => e⟩, g3,
        fun h => ?_⟩
      omega
    · have e : (search_list mf list).list.arrangements = 0 := by omega
      have hno : ¬ branch_reaches_end mf list := fun h => by
        have := g2.2 h
        omega
      simp only [hneg, if_false, g3]
      refine ⟨i1, ?_, i3, fun h => ?_⟩
      · rw [i2]
        constructor
        · rintro ⟨l, hl, h⟩
          exact ⟨l, List.mem_cons_of_mem _ hl, h⟩
        · rintro ⟨l, hl, h⟩
          rcases List.mem_cons.1 hl with rfl | hl
          · exact absurd h hno
          · exact ⟨l, hl, h⟩
      · rw [i4 h, g4, sum_max_flags_cons]
        ring

theorem sum_max_flags_unsearched : ∀ (chain : List mine_list_t),
    (∀ l ∈ chain, list_unsearched l) → sum_max_flags chain = 0 := by
  intro chain
  induction chain with
  | nil => intro _; rfl
  | cons l t ih =>
    intro h
    rw [sum_max_flags_cons, ih (fun x hx => h x (List.mem_cons_of_mem _ hx)),
      (h l (List.mem_cons_self _ _)).2.2.1]
    rfl

theorem find_possible_mines_fresh (mf : minefield_t) (hb : border_inv mf) :
    ∀ l ∈ (find_possible_mines mf MINE_LISTS_INITIALIZER).first, sites_fresh mf l.cell := by
  intro l hl
  refine ⟨?_, find_possible_mines_unflagged mf hb l hl⟩
  have hnd := (find_possible_mines_chain_ok mf).1
  have hsub : (site_positions l.cell).Sublist
      (all_sites (find_possible_mines mf MINE_LISTS_INITIALIZER).first) := by
    unfold all_sites
    exact List.sublist_flatten_of_mem (List.mem_map.2 ⟨l, hl, rfl⟩)
  exact hsub.nodup hnd

/-- What `analyze_possible_mines` returns on the clusters of `find_possible_mines` while
`needed` is nonzero: -1 if a branch of some cluster reaches its end, and 1 if none does and
the board carries no more flags than mines. -/
theorem analyze_possible_mines_needed (mf : minefield_t) (hb : border_inv mf)
    (hn : mf.needed ≠ 0) :
    ((∃ l ∈ (find_possible_mines mf MINE_LISTS_INITIALIZER).first, branch_reaches_end mf l) →
      ∃ out, analyze_possible_mines mf (find_possible_mines mf MINE_LISTS_INITIALIZER)
        = some out ∧ out.result = -1 ∧ out.mf = mf) ∧
    ((¬ ∃ l ∈ (find_possible_mines mf MINE_LISTS_INITIALIZER).first,
        branch_reaches_end mf l) → mf.flags ≤ mf.mines →
      ∃ out, analyze_possible_mines mf (find_possible_mines mf MINE_LISTS_INITIALIZER)
        = some out ∧ out.result = 1 ∧ out.mf = mf) := by
  obtain ⟨i1, i2, i3, i4⟩ := analyze_each_needed
    (find_possible_mines mf MINE_LISTS_INITIALIZER).first mf
    (find_possible_mines mf MINE_LISTS_INITIALIZER).min_flags
    (find_possible_mines mf MINE_LISTS_INITIALIZER).max_flags hn
    (find_possible_mines_fresh mf hb)
  have hsum := sum_max_flags_unsearched _ (find_possible_mines_chain_ok mf).2.2.2
  have hz : (find_possible_mines mf MINE_LISTS_INITIALIZER).max_flags
      + sum_max_flags (find_possible_mines mf MINE_LISTS_INITIALIZER).first = 0 := by
    rw [hsum, find_possible_mines_max_flags]
    rfl
  rw [hz] at i4
  unfold analyze_possible_mines
  simp only
  generalize analyze_each mf (find_possible_mines mf MINE_LISTS_INITIALIZER).min_flags
    (find_possible_mines mf MINE_LISTS_INITIALIZER).max_flags
    (find_possible_mines mf MINE_LISTS_INITIALIZER).first = p at i1 i2 i3 i4
  refine ⟨fun h => ?_, fun h hle => ?_⟩
  · have e := i2.2 h
    rw [if_pos (by omega)]
    exact ⟨_, rfl, e, i3⟩
  · have e : p.result = 0 := by
      rcases i1 with e | e
      · exact absurd (i2.1 e) h
      · exact e
    rw [if_neg (by omega), if_pos (by rw [i3, i4 e, add_zero]; exact hle)]
    exact ⟨_, rfl, rfl, i3⟩

set_option maxRecDepth 100000 in
/-- C31 as stated fails: in the game on `wrong_flag_board` the board is asked for (`needed` is
1) during the whole of the round, yet `solve_minefield` does not return the aborted status:
no branch of the search of the cluster `(1, 1)` reaches the end of the list, where alone
`needed` is tested, the search returns 0, and the round goes on to `play_moves`, which clears
`(1, 1)`, the mine; the round returns `noguess` and the game is lost. -/
theorem solve_minefield_needed_refuted :
    wrong_flag_game.minefield.needed = 1 ∧
    (solve_minefield autoplay_settings wrong_flag_game false).map
        (fun r => (r.2, r.1.game.state.lost, r.1.log.filterMap fun e =>
          match e with
          | event_t.move c r cmd => some (c, r, cmd)
          | event_t.probability _ _ _ => none))
      = some (status_t.noguess, true, [(1, 1, moves_t.clear)]) := by
  decide

/-- C31, amended: while `needed` is nonzero, a call of `_analyze_list` from any point of a
search (any sites still to decide on the board the search has built, any index, any number of
flags used) returns -1 or 0 and gives the board back; it returns -1 exactly if some branch
below that point passes every guard up to the end of the list, where `needed` is tested, and
every call above passes the -1 on.  So in a game whose board, in the state between the calls,
has clusters: if a branch of some cluster reaches its end, `solve_minefield` returns
`stopped`, with the game as it was and no move issued; if no branch of any cluster does and
the board carries no more flags than mines, `solve_minefield` returns, and not with
`stopped`. -/
theorem solve_minefield_needed (s : settings) (g : game_t) (do_full_analysis : Bool)
    (hb : border_inv g.minefield) (hn : g.minefield.needed ≠ 0)
    (hne : (find_possible_mines g.minefield MINE_LISTS_INITIALIZER).first ≠ []) :
    (∀ (mf : minefield_t) (todo : List possible_mine_t) (list : mine_list_t) (idx : Nat)
      (fu : Int), mf.needed ≠ 0 → sites_fresh mf todo →
      ((_analyze_list todo mf list idx fu).result = -1 ∨
        (_analyze_list todo mf list idx fu).result = 0) ∧
      ((_analyze_list todo mf list idx fu).result = -1 ↔
        (assignments todo.length).any (reaches mf todo fu) = true) ∧
      (_analyze_list todo mf list idx fu).mf = mf) ∧
    ((∃ l ∈ (find_possible_mines g.minefield MINE_LISTS_INITIALIZER).first,
        branch_reaches_end g.minefield l) →
      ∃ r, solve_minefield s g do_full_analysis = some (r, status_t.stopped) ∧
        r.game = g ∧ ∀ col row cmd, event_t.move col row cmd ∉ r.log) ∧
    ((¬ ∃ l ∈ (find_possible_mines g.minefield MINE_LISTS_INITIALIZER).first,
        branch_reaches_end g.minefield l) → g.minefield.flags ≤ g.minefield.mines →
      ∃ r st, solve_minefield s g do_full_analysis = some (r, st) ∧
        st ≠ status_t.stopped) := by
  obtain ⟨hA, hB⟩ := analyze_possible_mines_needed g.minefield hb hn
  refine ⟨fun mf todo list idx fu hn' hf =>
    ⟨analyze_list_aux_needed todo mf list idx fu hn',
      analyze_list_aux_aborts todo mf list idx fu hn' hf,
      analyze_list_aux_mf todo mf list idx fu hf.2⟩, fun h => ?_, fun h hle => ?_⟩
  · obtain ⟨out, ha, hr, hmf⟩ := hA h
    have hemp : (find_possible_mines g.minefield MINE_LISTS_INITIALIZER).first.isEmpty
        = false := by
      cases h' : (find_possible_mines g.minefield MINE_LISTS_INITIALIZER).first with
      | nil => exact absurd h' hne
      | cons _ _ => rfl
    have hround : solve_minefield_round s g
        = some ({ game := g, log := [] }, out.mine_lists, status_t.stopped) := by
      unfold solve_minefield_round
      simp only [hemp, Bool.false_eq_true, if_false, ha, Option.some_bind, hr, hmf,
        show ((-1 : Int) < 0) from by decide, if_true]
    unfold solve_minefield
    rw [hround]
    cases do_full_analysis with
    | false =>
      refine ⟨_, rfl, rfl, ?_⟩
      intro col row cmd h'
      cases h'
    | true =>
      refine ⟨_, rfl, rfl, ?_⟩
      intro col row cmd h'
      simp only [if_true] at h'
      rw [do_nonborder_probabilities_moves] at h'
      cases h'
  · obtain ⟨out, ha, hr, _⟩ := hB h hle
    obtain ⟨rr, e, hst, _⟩ := solve_minefield_round_spec s g hb
      (Or.inr (by rw [ha]; rfl))
    unfold solve_minefield
    rw [e]
    refine ⟨_, _, rfl, fun hstop => ?_⟩
    obtain ⟨_, out', ha', hr'⟩ := hst.1 hstop
    rw [ha] at ha'
    simp only [Option.some.injEq] at ha'
    subst ha'
    omega

theorem asked_board_border_inv : border_inv asked_board := by
  unfold border_inv
  decide

set_option maxRecDepth 100000 in
/-- C31, amended, at a concrete input: the game on `asked_board`, where `needed` is 1 and the
cluster of `(2, 2)` has a branch that reaches its end. -/
theorem solve_minefield_needed_witness :
    (∃ l ∈ (find_possible_mines asked_game.minefield MINE_LISTS_INITIALIZER).first,
        branch_reaches_end asked_game.minefield l) ∧
    ∃ r, solve_minefield autoplay_settings asked_game false = some (r, status_t.stopped) ∧
      r.game = asked_game ∧ ∀ col row cmd, event_t.move col row cmd ∉ r.log :=
  ⟨by unfold branch_reaches_end; decide,
    (solve_minefield_needed autoplay_settings asked_game false asked_board_border_inv
      (by decide) (by decide)).2.1 (by unfold branch_reaches_end; decide)⟩

end Mindsweeper
